import Mathlib

/-!
# BFCompiler: lexer, parser, optimizer, interpreter, back ends and command lines

A shallow embedding of `src/common/src/{lexer,parser,optimizer}.cpp`, of the
interpreter loop of `src/interpreter/src/main.cpp`, of the PE back end
`src/compiler/src/{pe_defs.h,pe_codegen.h,pe_writer.cpp}`, of the C emitter of
`src/transpiler/src/main.cpp`, of the MASM generator
`src/compiler/src/codegen_masm.cpp` and of the three `main` functions.

Conventions of the embedding:
* `int` values (`operand`, `jump_target`, `ptr`, `ip`, `depth`) are `Int`; signed
  overflow is undefined behaviour in C++ and needs more than 2^31 instructions, so
  it is outside the model.
* `std::vector<IRInst>` is `List IRInst`; indices held in `std::stack<int>` are `Nat`.
* `uint8_t` is `Fin 256`.
* code whose behaviour is undefined in C++ (reading the top of an empty stack,
  indexing the tape outside `[0, 30000)`, indexing `inst_offsets` outside its
  bounds) returns `none` / `Outcome.fault`.
* in the PE back end a byte is a `Nat` below 256, `uint32_t` arithmetic is taken
  modulo 2^32 and `size_t` arithmetic modulo 2^64.
* a string stream is a `String`; a file system is a function from names to
  contents; an exception that leaves `main` is a result of its own.
-/

namespace bf

/-! ## ir.h -/

inductive IRType where
  | MovePtr
  | AddVal
  | Output
  | Input
  | LoopBegin
  | LoopEnd
  | SetZero
  deriving DecidableEq, Repr

structure IRInst where
  type : IRType
  operand : Int := 0
  jump_target : Int := -1
  deriving DecidableEq, Repr

/-! ## lexer.cpp -/

/-- The test `c == '>' || ... || c == ']'` of the lexer loop. -/
def isSignificant (c : Char) : Bool :=
  c == '>' || c == '<' || c == '+' || c == '-' ||
  c == '.' || c == ',' || c == '[' || c == ']'

/-- The loop of `lex`: `tokens.push_back(c)` for every significant `c`. -/
def lex (source : List Char) : List Char :=
  source.foldl (fun tokens c => if isSignificant c then tokens ++ [c] else tokens) []

/-! ## parser.cpp -/

/-- The assignment `program[i].jump_target = t`. -/
def setJump : List IRInst → Nat → Int → List IRInst
  | [], _, _ => []
  | x :: xs, 0, t => { x with jump_target := t } :: xs
  | x :: xs, i + 1, t => x :: setJump xs i t

def UnmatchedClose : String := "Unmatched ']' found"

def UnmatchedOpen : String := "Unmatched '[' found"

/-- The body of `parse`: the `for` loop over the tokens, carrying `program` and
`loop_stack` (top first), followed by the final check of the stack. -/
def parseLoop : List Char → List IRInst → List Nat → Except String (List IRInst)
  | [], program, loop_stack =>
    if loop_stack.isEmpty then .ok program else .error UnmatchedOpen
  | c :: cs, program, loop_stack =>
    if c = '>' then parseLoop cs (program ++ [⟨.MovePtr, 1, -1⟩]) loop_stack
    else if c = '<' then parseLoop cs (program ++ [⟨.MovePtr, -1, -1⟩]) loop_stack
    else if c = '+' then parseLoop cs (program ++ [⟨.AddVal, 1, -1⟩]) loop_stack
    else if c = '-' then parseLoop cs (program ++ [⟨.AddVal, -1, -1⟩]) loop_stack
    else if c = '.' then parseLoop cs (program ++ [⟨.Output, 0, -1⟩]) loop_stack
    else if c = ',' then parseLoop cs (program ++ [⟨.Input, 0, -1⟩]) loop_stack
    else if c = '[' then
      parseLoop cs (program ++ [⟨.LoopBegin, 0, -1⟩]) (program.length :: loop_stack)
    else if c = ']' then
      match loop_stack with
      | [] => .error UnmatchedClose
      | opn :: rest =>
        let program1 := program ++ [⟨.LoopEnd, 0, (opn : Int)⟩]
        parseLoop cs (setJump program1 opn ((program1.length : Int) - 1)) rest
    else parseLoop cs program loop_stack

def parse (tokens : List Char) : Except String (List IRInst) :=
  parseLoop tokens [] []

/-! ## optimizer.cpp -/

/-- One iteration of the loop of `merge_consecutive`; `result` is kept back first. -/
def mergeStep (result : List IRInst) (inst : IRInst) : List IRInst :=
  match result with
  | [] => [inst]
  | back :: before =>
    if back.type = inst.type ∧ (inst.type = .MovePtr ∨ inst.type = .AddVal) then
      if back.operand + inst.operand = 0 then before
      else { back with operand := back.operand + inst.operand } :: before
    else inst :: back :: before

def merge_consecutive (program : List IRInst) : List IRInst :=
  (program.foldl mergeStep []).reverse

/-- The scan of `detect_set_zero`: `i + 2 < program.size()` holds exactly when at
least three instructions remain. -/
def detect_set_zero : List IRInst → List IRInst
  | a :: b :: c :: rest =>
    if a.type = .LoopBegin ∧ b.type = .AddVal ∧ (b.operand = 1 ∨ b.operand = -1) ∧
        c.type = .LoopEnd then
      (⟨.SetZero, 0, -1⟩ : IRInst) :: detect_set_zero rest
    else a :: detect_set_zero (b :: c :: rest)
  | [a, b] => [a, b]
  | [a] => [a]
  | [] => []

/-- The nested `while` loops of `eliminate_dead_code` over the instructions from
index `i` on. `depth > 0` is the inner loop; `depth = 0` is the test of the outer
loop, which either opens a new inner loop with `depth = 1` or ends the skipping,
after which the remaining instructions are copied. -/
def skipDead : Int → List IRInst → List IRInst
  | _, [] => []
  | depth, x :: xs =>
    if depth > 0 then
      let d1 := if x.type = .LoopBegin then depth + 1 else depth
      let d2 := if x.type = .LoopEnd then d1 - 1 else d1
      skipDead d2 xs
    else if x.type = .LoopBegin then skipDead 1 xs
    else x :: xs

def eliminate_dead_code (program : List IRInst) : List IRInst :=
  skipDead 0 program

/-- The loop of `recompute_jumps`: `n` iterations remain, `i` is the loop index.
Reading the top of an empty stack is undefined behaviour: `none`. -/
def recomputeLoop : Nat → Nat → List IRInst → List Nat → Option (List IRInst)
  | 0, _, program, _ => some program
  | n + 1, i, program, loop_stack =>
    match program[i]? with
    | none => some program
    | some inst =>
      if inst.type = .LoopBegin then recomputeLoop n (i + 1) program (i :: loop_stack)
      else if inst.type = .LoopEnd then
        match loop_stack with
        | [] => none
        | opn :: rest =>
          recomputeLoop n (i + 1) (setJump (setJump program i (opn : Int)) opn (i : Int)) rest
      else recomputeLoop n (i + 1) program loop_stack

def recompute_jumps (program : List IRInst) : Option (List IRInst) :=
  recomputeLoop program.length 0 program []

def optimize (program : List IRInst) : Option (List IRInst) :=
  recompute_jumps (eliminate_dead_code (detect_set_zero (merge_consecutive program)))

/-! ## interpreter/main.cpp -/

abbrev Byte := Fin 256

def TAPE_SIZE : Int := 30000

/-- The tape, the data pointer and the two byte streams. -/
structure Machine where
  tape : Int → Byte
  ptr : Int
  input : List Byte
  output : List Byte

def inTape (p : Int) : Prop := 0 ≤ p ∧ p < TAPE_SIZE

instance (p : Int) : Decidable (inTape p) := by unfold inTape; infer_instance

/-- The store `tape[ptr] = v`. -/
def Machine.write (m : Machine) (v : Byte) : Machine :=
  { m with tape := fun k => if k = m.ptr then v else m.tape k }

/-- The value of `tape[ptr] + static_cast<uint8_t>(n)` truncated to `uint8_t`. -/
def addByte (v : Byte) (n : Int) : Byte :=
  ⟨(v.val + (n % 256).toNat) % 256, Nat.mod_lt _ (by decide)⟩

/-- The value of `static_cast<uint8_t>(std::getchar())`, `EOF` being `-1`. -/
def readByte : List Byte → Byte × List Byte
  | [] => (255, [])
  | b :: rest => (b, rest)

inductive Outcome where
  | running (m : Machine) (ip : Int)
  | halted (m : Machine)
  | fault

/-- The body of the interpreter loop: the `switch` on `inst.type`, then `++ip`. -/
def execInst (inst : IRInst) (m : Machine) (ip : Int) : Outcome :=
  match inst.type with
  | .MovePtr => .running { m with ptr := m.ptr + inst.operand } (ip + 1)
  | .AddVal =>
    if inTape m.ptr then .running (m.write (addByte (m.tape m.ptr) inst.operand)) (ip + 1)
    else .fault
  | .Output =>
    if inTape m.ptr then .running { m with output := m.output ++ [m.tape m.ptr] } (ip + 1)
    else .fault
  | .Input =>
    if inTape m.ptr then
      .running { m.write (readByte m.input).1 with input := (readByte m.input).2 } (ip + 1)
    else .fault
  | .LoopBegin =>
    if inTape m.ptr then
      if m.tape m.ptr = 0 then .running m (inst.jump_target + 1) else .running m (ip + 1)
    else .fault
  | .LoopEnd =>
    if inTape m.ptr then
      if m.tape m.ptr ≠ 0 then .running m (inst.jump_target + 1) else .running m (ip + 1)
    else .fault
  | .SetZero =>
    if inTape m.ptr then .running (m.write 0) (ip + 1) else .fault

/-- One iteration of `while (ip < size)`: the test of the loop, the fetch of
`program[ip]` and the body. -/
def interpStep (program : List IRInst) (m : Machine) (ip : Int) : Outcome :=
  if ip < (program.length : Int) then
    if ip < 0 then .fault
    else
      match program[ip.toNat]? with
      | none => .fault
      | some inst => execInst inst m ip
  else .halted m

/-- At most `n` iterations of the interpreter loop. -/
def interpLoop : Nat → List IRInst → Machine → Int → Outcome
  | 0, _, m, ip => .running m ip
  | n + 1, program, m, ip =>
    match interpStep program m ip with
    | .running m1 ip1 => interpLoop n program m1 ip1
    | r => r

def initMachine (stdin : List Byte) : Machine :=
  { tape := fun _ => 0, ptr := 0, input := stdin, output := [] }

/-- The interpreter run for at most `n` steps on a fresh tape. -/
def interpret (n : Nat) (program : List IRInst) (stdin : List Byte) : Outcome :=
  interpLoop n program (initMachine stdin) 0


/-! ## Bracket counting -/

inductive Verdict where
  | balanced
  | unmatchedClose
  | unmatchedOpen
  deriving DecidableEq, Repr

/-- Scan of a character sequence with `d` brackets currently open. -/
def bracketScan : Nat → List Char → Verdict
  | d, [] => if d = 0 then .balanced else .unmatchedOpen
  | d, c :: cs =>
    if c = '[' then bracketScan (d + 1) cs
    else if c = ']' then
      match d with
      | 0 => .unmatchedClose
      | k + 1 => bracketScan k cs
    else bracketScan d cs

/-- Some prefix of `ts` has more `]` than `[`, `d` brackets being open already. -/
def ExcessClose (d : Nat) (ts : List Char) : Prop :=
  ∃ k, k ≤ ts.length ∧ (ts.take k).count '[' + d < (ts.take k).count ']'


/-! ## Structured view of a program

The proofs read a bracket-balanced instruction sequence as a tree: a block is a
sequence of plain instructions and of loops, each loop made of its two bracket
instructions and of the block between them. -/

inductive Code where
  | nil : Code
  | op (i : IRInst) (rest : Code) : Code
  | loop (b e : IRInst) (body rest : Code) : Code

namespace Code

def flatten : Code → List IRInst
  | nil => []
  | op i rest => i :: rest.flatten
  | loop b e body rest => b :: (body.flatten ++ e :: rest.flatten)

def size (c : Code) : Nat := c.flatten.length

def append : Code → Code → Code
  | nil, d => d
  | op i rest, d => op i (rest.append d)
  | loop b e body rest, d => loop b e body (rest.append d)

/-- Plain instructions are not brackets and the brackets of a loop are a
`LoopBegin` and a `LoopEnd`. -/
def WF : Code → Prop
  | nil => True
  | op i rest => i.type ≠ .LoopBegin ∧ i.type ≠ .LoopEnd ∧ rest.WF
  | loop b e body rest =>
    b.type = .LoopBegin ∧ e.type = .LoopEnd ∧ body.WF ∧ rest.WF

/-- Every bracket of the block, placed at index `o` of a program, holds the index
of its partner. -/
def Linked : Nat → Code → Prop
  | _, nil => True
  | o, op _ rest => Linked (o + 1) rest
  | o, loop b e body rest =>
    b.jump_target = ((o + 1 + body.size : Nat) : Int) ∧ e.jump_target = (o : Int) ∧
      Linked (o + 1) body ∧ Linked (o + 2 + body.size) rest

/-- The block with every bracket holding the index of its partner. -/
def relink : Nat → Code → Code
  | _, nil => nil
  | o, op i rest => op i (relink (o + 1) rest)
  | o, loop b e body rest =>
    loop { b with jump_target := ((o + 1 + body.size : Nat) : Int) }
      { e with jump_target := (o : Int) }
      (relink (o + 1) body) (relink (o + 2 + body.size) rest)

end Code

/-- The open loops of a partly read program, innermost first: the block read
before each open bracket, and that bracket. -/
abbrev Frames := List (Code × IRInst)

def prefixFlat : Frames → List IRInst
  | [] => []
  | (c, b) :: fs => prefixFlat fs ++ c.flatten ++ [b]

def stackOf : Frames → List Nat
  | [] => []
  | (c, _) :: fs => ((prefixFlat fs).length + c.size) :: stackOf fs

def FramesOK : Frames → Prop
  | [] => True
  | (c, b) :: fs =>
    c.WF ∧ c.Linked (prefixFlat fs).length ∧ b.type = .LoopBegin ∧ FramesOK fs

/-- Depth scan of an instruction sequence with `d` loops open. -/
def balancedFrom : Nat → List IRInst → Bool
  | d, [] => d == 0
  | d, x :: xs =>
    if x.type = .LoopBegin then balancedFrom (d + 1) xs
    else if x.type = .LoopEnd then
      match d with
      | 0 => false
      | k + 1 => balancedFrom k xs
    else balancedFrom d xs

/-- The sequence is bracket-balanced. -/
def Balanced (l : List IRInst) : Prop := balancedFrom 0 l = true

/-- The jump invariant of a sequence placed at index `o` of a program: the two
brackets of a loop hold each other's index and enclose a balanced sequence. -/
def LinkInv (o : Nat) (l : List IRInst) : Prop :=
  (∀ i x, l[i]? = some x → x.type = .LoopBegin →
    ∃ j y, x.jump_target = ((o + j : Nat) : Int) ∧ i < j ∧ l[j]? = some y ∧
      y.type = .LoopEnd ∧ y.jump_target = ((o + i : Nat) : Int) ∧
      Balanced ((l.take j).drop (i + 1))) ∧
  (∀ j y, l[j]? = some y → y.type = .LoopEnd →
    ∃ i x, y.jump_target = ((o + i : Nat) : Int) ∧ i < j ∧ l[i]? = some x ∧
      x.type = .LoopBegin ∧ x.jump_target = ((o + j : Nat) : Int))

/-- The state of the parser loop is a partly read block. -/
def ParseInv (program : List IRInst) (st : List Nat) : Prop :=
  ∃ (fs : Frames) (cur : Code), program = prefixFlat fs ++ cur.flatten ∧ st = stackOf fs ∧
    FramesOK fs ∧ cur.WF ∧ cur.Linked (prefixFlat fs).length

/-- The jump invariant of a whole program: every `LoopBegin` at `i` holds the index
`j > i` of a `LoopEnd` that holds `i`, the instructions strictly between the two
are bracket-balanced, every `LoopEnd` at `j` holds the index `i < j` of a
`LoopBegin` that holds `j`, and the program is bracket-balanced. -/
def JumpInvariant (p : List IRInst) : Prop :=
  (∀ (i : Nat) (x : IRInst), p[i]? = some x → x.type = .LoopBegin →
    ∃ (j : Nat) (y : IRInst), x.jump_target = (j : Int) ∧ i < j ∧ j < p.length ∧ p[j]? = some y ∧
      y.type = .LoopEnd ∧ y.jump_target = (i : Int) ∧
      Balanced ((p.take j).drop (i + 1))) ∧
  (∀ (j : Nat) (y : IRInst), p[j]? = some y → y.type = .LoopEnd →
    ∃ (i : Nat) (x : IRInst), y.jump_target = (i : Int) ∧ i < j ∧ p[i]? = some x ∧
      x.type = .LoopBegin ∧ x.jump_target = (j : Int)) ∧
  Balanced p

/-! ## The optimizer passes on blocks -/

namespace Code

def ofList : List IRInst → Code
  | [] => nil
  | x :: xs => op x (ofList xs)

/-- Pass A on a block; `t` is the merged run that ends where the block starts,
back first. -/
def mergeRun : List IRInst → Code → Code
  | t, nil => ofList t.reverse
  | t, op x rest =>
    if x.type = .MovePtr ∨ x.type = .AddVal then mergeRun (mergeStep t x) rest
    else (ofList t.reverse).append (op x (mergeRun [] rest))
  | t, loop b e body rest =>
    (ofList t.reverse).append (loop b e (mergeRun [] body) (mergeRun [] rest))

/-- The block is a single `AddVal` of `+1` or `-1`. -/
def isUnit : Code → Bool
  | op a nil => decide (a.type = .AddVal ∧ (a.operand = 1 ∨ a.operand = -1))
  | _ => false

/-- Pass B on a block. -/
def zeroLoops : Code → Code
  | nil => nil
  | op x rest => op x (zeroLoops rest)
  | loop b e body rest =>
    if isUnit body then op ⟨.SetZero, 0, -1⟩ (zeroLoops rest)
    else loop b e (zeroLoops body) (zeroLoops rest)

/-- Pass C on a block. -/
def dropDead : Code → Code
  | loop _ _ _ rest => dropDead rest
  | c => c

/-- The four passes on a block. -/
def optimized (c : Code) : Code :=
  relink 0 (dropDead (zeroLoops (mergeRun [] c)))

end Code

/-- The first three instructions are `LoopBegin, AddVal(+1 or -1), LoopEnd`. -/
def zeroLoopAt : List IRInst → Prop
  | a :: b :: c :: _ =>
    a.type = .LoopBegin ∧ b.type = .AddVal ∧ (b.operand = 1 ∨ b.operand = -1) ∧
      c.type = .LoopEnd
  | _ => False

/-- Type and operand of an instruction. -/
def IRInst.key (x : IRInst) : IRType × Int := (x.type, x.operand)

/-- The two instructions are both `MovePtr` or both `AddVal`. -/
def sameKind (a b : IRInst) : Prop :=
  a.type = b.type ∧ (b.type = .MovePtr ∨ b.type = .AddVal)

/-- No position of the sequence starts a `LoopBegin, AddVal(+1 or -1), LoopEnd`. -/
def NoZeroLoop (l : List IRInst) : Prop := ∀ k, ¬ zeroLoopAt (l.drop k)

/-- No two neighbours are both `MovePtr` or both `AddVal`. -/
def NoAdjacent (l : List IRInst) : Prop := List.Chain' (fun a b => ¬ sameKind a b) l

/-! ## Structured semantics

The effect of a block on the machine, told without instruction indices; the
result is the final machine, or `none` when the tape is indexed outside
`[0, 30000)`. A block that loops forever has no result. -/

/-- The effect of an instruction that is not a bracket. -/
def execOp (x : IRInst) (m : Machine) : Option Machine :=
  match x.type with
  | .MovePtr => some { m with ptr := m.ptr + x.operand }
  | .AddVal =>
    if inTape m.ptr then some (m.write (addByte (m.tape m.ptr) x.operand)) else none
  | .Output =>
    if inTape m.ptr then some { m with output := m.output ++ [m.tape m.ptr] } else none
  | .Input =>
    if inTape m.ptr then
      some { m.write (readByte m.input).1 with input := (readByte m.input).2 }
    else none
  | .SetZero => if inTape m.ptr then some (m.write 0) else none
  | .LoopBegin => some m
  | .LoopEnd => some m

inductive Big : Code → Machine → Option Machine → Prop where
  | nil (m : Machine) : Big .nil m (some m)
  | op_ok {x : IRInst} {rest : Code} {m m1 : Machine} {r : Option Machine} :
    execOp x m = some m1 → Big rest m1 r → Big (.op x rest) m r
  | op_fault {x : IRInst} {rest : Code} {m : Machine} :
    execOp x m = none → Big (.op x rest) m none
  | loop_fault {b e : IRInst} {body rest : Code} {m : Machine} :
    ¬ inTape m.ptr → Big (.loop b e body rest) m none
  | loop_skip {b e : IRInst} {body rest : Code} {m : Machine} {r : Option Machine} :
    inTape m.ptr → m.tape m.ptr = 0 → Big rest m r → Big (.loop b e body rest) m r
  | loop_body_fault {b e : IRInst} {body rest : Code} {m : Machine} :
    inTape m.ptr → m.tape m.ptr ≠ 0 → Big body m none → Big (.loop b e body rest) m none
  | loop_iter {b e : IRInst} {body rest : Code} {m m1 : Machine} {r : Option Machine} :
    inTape m.ptr → m.tape m.ptr ≠ 0 → Big body m (some m1) →
      Big (.loop b e body rest) m1 r → Big (.loop b e body rest) m r

/-- Block `d` behaves as block `c` wherever `c` stays inside the tape: a result of
`c` is a result of `d`, and a result of `d` is a result of `c` unless `c` leaves
the tape. -/
def Ref (c d : Code) : Prop :=
  (∀ m m1, Big c m (some m1) → Big d m (some m1)) ∧
  (∀ m r, Big d m r → Big c m r ∨ Big c m none)

/-- Every result of `c` is a result of `d`. -/
def Same (c d : Code) : Prop := ∀ m r, Big c m r → Big d m r

/-- Block `c` occupies the indices from `o` on in `program`, with linked brackets. -/
def Located (program : List IRInst) (o : Nat) (c : Code) : Prop :=
  c.WF ∧ c.Linked o ∧ ∃ pre post, program = pre ++ (c.flatten ++ post) ∧ pre.length = o

/-- The effect of a sequence of instructions that are not brackets. -/
def runOps : List IRInst → Machine → Option Machine
  | [], m => some m
  | x :: xs, m =>
    match execOp x m with
    | none => none
    | some m1 => runOps xs m1

/-! ## Token table of the parser -/

/-- Type and operand of the instruction that the `switch` of `parse` builds for a
significant character. -/
def tokenKey (c : Char) : IRType × Int :=
  if c = '>' then (.MovePtr, 1)
  else if c = '<' then (.MovePtr, -1)
  else if c = '+' then (.AddVal, 1)
  else if c = '-' then (.AddVal, -1)
  else if c = '.' then (.Output, 0)
  else if c = ',' then (.Input, 0)
  else if c = '[' then (.LoopBegin, 0)
  else (.LoopEnd, 0)

/-- Instructions that are not brackets hold no jump target, and every index on the
bracket stack is the index of a `LoopBegin`. -/
def PlainInv (program : List IRInst) (st : List Nat) : Prop :=
  (∀ x ∈ program, x.type ≠ .LoopBegin → x.type ≠ .LoopEnd → x.jump_target = -1) ∧
  (∀ o ∈ st, ∃ x, program[o]? = some x ∧ x.type = .LoopBegin)

/-- The outcome with the unread stdin bytes replaced. -/
def Outcome.withInput (i : List Byte) : Outcome → Outcome
  | .running m ip => .running { m with input := i } ip
  | .halted m => .halted { m with input := i }
  | .fault => .fault

/-! ## compiler/pe_defs.h and compiler/pe_codegen.h

Bytes are natural numbers below 256. `uint32_t` arithmetic is arithmetic modulo
2^32 and `size_t` arithmetic is arithmetic modulo 2^64. The two `int32_t`
differences `rel` of `gen_code` are converted to `uint32_t` at once, so they are
taken modulo 2^32 as well; they do not overflow while the code has fewer than 2^31
bytes. The negation `-inst.operand` is taken in the integers before the conversion
to `uint32_t` or `uint8_t`; in C++ it overflows for the smallest `int` only. -/

/-- The conversion of an integer to `uint32_t`. -/
def wrap32 (x : Int) : Nat := (x % 4294967296).toNat

/-- The conversion of a `uint32_t` to `int32_t`: the number that four bytes hold when
they are read in two's complement, as the `rel32` of a jump is. -/
def int32 (v : Nat) : Int := if v < 2147483648 then (v : Int) else (v : Int) - 4294967296

/-- The conversion of an integer to `uint8_t`. -/
def wrap8 (x : Int) : Nat := (x % 256).toNat

/-- The conversion of an `int` to `size_t`. -/
def wrap64 (x : Int) : Nat := (x % 18446744073709551616).toNat

namespace pe

/-- The value of `(v + a - 1) & ~(a - 1)` on `uint32_t`. -/
def align_up (v a : Nat) : Nat :=
  Nat.land (wrap32 ((v : Int) + (a : Int) - 1)) (4294967295 - wrap32 ((a : Int) - 1))

structure CodeBuf where
  data : List Nat

namespace CodeBuf

def u8 (c : CodeBuf) (v : Nat) : CodeBuf := ⟨c.data ++ [v % 256]⟩

def u32 (c : CodeBuf) (v : Nat) : CodeBuf :=
  c |>.u8 (v % 256) |>.u8 (v / 256 % 256) |>.u8 (v / 65536 % 256) |>.u8 (v / 16777216 % 256)

def patch32 (c : CodeBuf) (off v : Nat) : CodeBuf :=
  ⟨(((c.data.set off (v % 256)).set (off + 1) (v / 256 % 256)).set (off + 2)
    (v / 65536 % 256)).set (off + 3) (v / 16777216 % 256)⟩

def size (c : CodeBuf) : Nat := c.data.length

end CodeBuf

structure FwdPatch where
  patch_off : Nat
  target_inst : Nat

/-- The lambda `rip_rel` of `gen_code`: the displacement of `target` from the end
of the four bytes it is written to. -/
def rip_rel (text_rva : Nat) (c : CodeBuf) (target : Nat) : CodeBuf :=
  let next_ip_rva := wrap32 ((text_rva : Int) + ((c.size % 4294967296 : Nat) : Int) + 4)
  c.u32 (wrap32 ((target : Int) - (next_ip_rva : Int)))

/-- The prologue of `gen_code`, on the empty buffer. -/
def gen_prologue (text_rva iat_rva data_rva : Nat) (c : CodeBuf) : CodeBuf :=
  let iat_GetStdHandle := iat_rva
  let d_tape := data_rva
  let c := c |>.u8 0x53
  let c := c |>.u8 0x41 |>.u8 0x54
  let c := c |>.u8 0x41 |>.u8 0x55
  let c := c |>.u8 0x48 |>.u8 0x83 |>.u8 0xEC |>.u8 0x30
  let c := rip_rel text_rva (c |>.u8 0x48 |>.u8 0x8D |>.u8 0x1D) d_tape
  let c := c |>.u8 0xB9 |>.u32 0xFFFFFFF5
  let c := rip_rel text_rva (c |>.u8 0xFF |>.u8 0x15) iat_GetStdHandle
  let c := c |>.u8 0x49 |>.u8 0x89 |>.u8 0xC4
  let c := c |>.u8 0xB9 |>.u32 0xFFFFFFF6
  let c := rip_rel text_rva (c |>.u8 0xFF |>.u8 0x15) iat_GetStdHandle
  c |>.u8 0x49 |>.u8 0x89 |>.u8 0xC5

/-- The state of the emission loop of `gen_code`. -/
structure GenState where
  c : CodeBuf
  inst_offsets : List Nat
  fwd_patches : List FwdPatch

/-- One iteration of the emission loop of `gen_code`, for the instruction at
index `i`. Indexing `inst_offsets` outside its bounds is undefined behaviour:
`none`. -/
def gen_step (text_rva iat_rva data_rva : Nat) (i : Nat) (inst : IRInst) (s : GenState) :
    Option GenState :=
  let iat_WriteFile := wrap32 ((iat_rva : Int) + 8)
  let iat_ReadFile := wrap32 ((iat_rva : Int) + 16)
  let d_written := wrap32 ((data_rva : Int) + 30000)
  let d_readcnt := wrap32 ((data_rva : Int) + 30008)
  let inst_offsets := s.inst_offsets.set i s.c.size
  let c := s.c
  match inst.type with
  | .MovePtr =>
    if inst.operand = 1 then
      some ⟨c |>.u8 0x48 |>.u8 0xFF |>.u8 0xC3, inst_offsets, s.fwd_patches⟩
    else if inst.operand = -1 then
      some ⟨c |>.u8 0x48 |>.u8 0xFF |>.u8 0xCB, inst_offsets, s.fwd_patches⟩
    else if inst.operand > 0 then
      some ⟨c |>.u8 0x48 |>.u8 0x81 |>.u8 0xC3 |>.u32 (wrap32 inst.operand), inst_offsets,
        s.fwd_patches⟩
    else
      some ⟨c |>.u8 0x48 |>.u8 0x81 |>.u8 0xEB |>.u32 (wrap32 (-inst.operand)), inst_offsets,
        s.fwd_patches⟩
  | .AddVal =>
    if inst.operand = 1 then
      some ⟨c |>.u8 0xFE |>.u8 0x03, inst_offsets, s.fwd_patches⟩
    else if inst.operand = -1 then
      some ⟨c |>.u8 0xFE |>.u8 0x0B, inst_offsets, s.fwd_patches⟩
    else if inst.operand > 0 then
      some ⟨c |>.u8 0x80 |>.u8 0x03 |>.u8 (wrap8 inst.operand), inst_offsets, s.fwd_patches⟩
    else
      some ⟨c |>.u8 0x80 |>.u8 0x2B |>.u8 (wrap8 (-inst.operand)), inst_offsets,
        s.fwd_patches⟩
  | .SetZero =>
    some ⟨c |>.u8 0xC6 |>.u8 0x03 |>.u8 0x00, inst_offsets, s.fwd_patches⟩
  | .Output =>
    let c := c |>.u8 0x4C |>.u8 0x89 |>.u8 0xE1
    let c := c |>.u8 0x48 |>.u8 0x89 |>.u8 0xDA
    let c := c |>.u8 0x41 |>.u8 0xB8 |>.u32 1
    let c := rip_rel text_rva (c |>.u8 0x4C |>.u8 0x8D |>.u8 0x0D) d_written
    let c := c |>.u8 0x48 |>.u8 0xC7 |>.u8 0x44 |>.u8 0x24 |>.u8 0x20
    let c := c |>.u32 0
    some ⟨rip_rel text_rva (c |>.u8 0xFF |>.u8 0x15) iat_WriteFile, inst_offsets, s.fwd_patches⟩
  | .Input =>
    let c := c |>.u8 0x4C |>.u8 0x89 |>.u8 0xE9
    let c := c |>.u8 0x48 |>.u8 0x89 |>.u8 0xDA
    let c := c |>.u8 0x41 |>.u8 0xB8 |>.u32 1
    let c := rip_rel text_rva (c |>.u8 0x4C |>.u8 0x8D |>.u8 0x0D) d_readcnt
    let c := c |>.u8 0x48 |>.u8 0xC7 |>.u8 0x44 |>.u8 0x24 |>.u8 0x20
    let c := c |>.u32 0
    some ⟨rip_rel text_rva (c |>.u8 0xFF |>.u8 0x15) iat_ReadFile, inst_offsets, s.fwd_patches⟩
  | .LoopBegin =>
    let c := c |>.u8 0x80 |>.u8 0x3B |>.u8 0x00
    let c := c |>.u8 0x0F |>.u8 0x84
    some ⟨c.u32 0, inst_offsets, s.fwd_patches ++ [⟨c.size, wrap64 inst.jump_target⟩]⟩
  | .LoopEnd =>
    let c := c |>.u8 0x80 |>.u8 0x3B |>.u8 0x00
    let c := c |>.u8 0x0F |>.u8 0x85
    if inst.jump_target < 0 then none
    else
      match inst_offsets[inst.jump_target.toNat]? with
      | none => none
      | some target_off =>
        some ⟨c.u32 (wrap32 ((target_off : Int) - ((c.size + 4 : Nat) : Int))), inst_offsets,
          s.fwd_patches⟩

/-- The emission loop of `gen_code` from index `i` on. -/
def gen_loop (text_rva iat_rva data_rva : Nat) : List IRInst → Nat → GenState → Option GenState
  | [], _, s => some s
  | inst :: rest, i, s =>
    match gen_step text_rva iat_rva data_rva i inst s with
    | none => none
    | some s1 => gen_loop text_rva iat_rva data_rva rest (i + 1) s1

/-- The epilogue of `gen_code`. -/
def gen_epilogue (text_rva iat_rva : Nat) (c : CodeBuf) : CodeBuf :=
  let iat_ExitProcess := wrap32 ((iat_rva : Int) + 24)
  let c := c |>.u8 0x33 |>.u8 0xC9
  rip_rel text_rva (c |>.u8 0xFF |>.u8 0x15) iat_ExitProcess

/-- One iteration of the patch loop of `gen_code`. -/
def apply_patch (inst_offsets : List Nat) (epilogue_off : Nat) (c : CodeBuf) (p : FwdPatch) :
    CodeBuf :=
  let target_inst := p.target_inst
  let target_code :=
    if (target_inst + 1) % 18446744073709551616 < inst_offsets.length then
      inst_offsets.getD ((target_inst + 1) % 18446744073709551616) 0
    else epilogue_off
  c.patch32 p.patch_off (wrap32 ((target_code : Int) - ((p.patch_off + 4 : Nat) : Int)))

/-- The buffer, the instruction offsets and the pending patches of `gen_code` when
the epilogue has been emitted. -/
def gen_emit (prog : List IRInst) (text_rva iat_rva data_rva : Nat) : Option GenState :=
  match gen_loop text_rva iat_rva data_rva prog 0
      ⟨gen_prologue text_rva iat_rva data_rva ⟨[]⟩, List.replicate prog.length 0, []⟩ with
  | none => none
  | some s => some { s with c := gen_epilogue text_rva iat_rva s.c }

/-- The function `gen_code` on an empty buffer. -/
def gen_code (prog : List IRInst) (text_rva iat_rva data_rva : Nat) : Option CodeBuf :=
  match gen_emit prog text_rva iat_rva data_rva with
  | none => none
  | some s =>
    let epilogue_off := s.c.size
    some (s.fwd_patches.foldl (apply_patch s.inst_offsets epilogue_off) s.c)

/-- The little-endian 32-bit value stored at offsets `off .. off + 3`. -/
def read32 (l : List Nat) (off : Nat) : Nat :=
  l.getD off 0 + 256 * l.getD (off + 1) 0 + 65536 * l.getD (off + 2) 0 +
    16777216 * l.getD (off + 3) 0

end pe

/-! ## Layout of the generated code -/

namespace pe

/-- Number of bytes that `gen_code` emits for one instruction. -/
def instLen (inst : IRInst) : Nat :=
  match inst.type with
  | .MovePtr => if inst.operand = 1 ∨ inst.operand = -1 then 3 else 7
  | .AddVal => if inst.operand = 1 ∨ inst.operand = -1 then 2 else 3
  | .SetZero => 3
  | .Output => 34
  | .Input => 34
  | .LoopBegin => 9
  | .LoopEnd => 9

/-- Number of bytes that `gen_code` emits for a sequence of instructions. -/
def codeLen (l : List IRInst) : Nat := (l.map instLen).sum

/-- The forward patches recorded for a sequence of instructions emitted from
offset `b` on. -/
def patchesFrom : Nat → List IRInst → List FwdPatch
  | _, [] => []
  | b, x :: xs =>
    (if x.type = .LoopBegin then [(⟨b + 5, wrap64 x.jump_target⟩ : FwdPatch)] else []) ++
      patchesFrom (b + instLen x) xs

/-- The bytes emitted for a `LoopBegin`: `cmp byte [rbx], 0` and `jz rel32` with a
zero displacement. -/
def loopBeginBytes : List Nat := [0x80, 0x3B, 0x00, 0x0F, 0x84, 0, 0, 0, 0]

end pe

/-! ## compiler/pe_defs.h (packed structures) and compiler/pe_writer.cpp

A field of a structure holds the value of the unsigned integer stored in it. The
structures are packed, and the host is little-endian, so the object representation
that `out.write` copies is the concatenation of the little-endian encodings of the
fields. -/

namespace pe

/-- Addition on `uint32_t`. -/
def add32 (a b : Nat) : Nat := (a + b) % 4294967296

def le16 (v : Nat) : List Nat := [v % 256, v / 256 % 256]

def le32 (v : Nat) : List Nat := [v % 256, v / 256 % 256, v / 65536 % 256, v / 16777216 % 256]

def le64 (v : Nat) : List Nat :=
  [v % 256, v / 256 % 256, v / 65536 % 256, v / 16777216 % 256, v / 4294967296 % 256,
    v / 1099511627776 % 256, v / 281474976710656 % 256, v / 72057594037927936 % 256]

/-- The little-endian 64-bit value stored at offsets `off .. off + 7`. -/
def read64 (l : List Nat) (off : Nat) : Nat :=
  read32 l off + 4294967296 * read32 l (off + 4)

structure DOS_HEADER where
  e_magic : Nat := 0
  e_cblp : Nat := 0
  e_cp : Nat := 0
  e_crlc : Nat := 0
  e_cparhdr : Nat := 0
  e_minalloc : Nat := 0
  e_maxalloc : Nat := 0
  e_ss : Nat := 0
  e_sp : Nat := 0
  e_csum : Nat := 0
  e_ip : Nat := 0
  e_cs : Nat := 0
  e_lfarlc : Nat := 0
  e_ovno : Nat := 0
  e_res : List Nat := [0, 0, 0, 0]
  e_oemid : Nat := 0
  e_oeminfo : Nat := 0
  e_res2 : List Nat := [0, 0, 0, 0, 0, 0, 0, 0, 0, 0]
  e_lfanew : Nat := 0

structure FILE_HEADER where
  Machine : Nat := 0
  NumberOfSections : Nat := 0
  TimeDateStamp : Nat := 0
  PointerToSymbolTable : Nat := 0
  NumberOfSymbols : Nat := 0
  SizeOfOptionalHeader : Nat := 0
  Characteristics : Nat := 0

structure DATA_DIRECTORY where
  VirtualAddress : Nat := 0
  Size : Nat := 0
deriving DecidableEq

structure OPTIONAL_HEADER64 where
  Magic : Nat := 0
  MajorLinkerVersion : Nat := 0
  MinorLinkerVersion : Nat := 0
  SizeOfCode : Nat := 0
  SizeOfInitializedData : Nat := 0
  SizeOfUninitializedData : Nat := 0
  AddressOfEntryPoint : Nat := 0
  BaseOfCode : Nat := 0
  ImageBase : Nat := 0
  SectionAlignment : Nat := 0
  FileAlignment : Nat := 0
  MajorOSVersion : Nat := 0
  MinorOSVersion : Nat := 0
  MajorImageVersion : Nat := 0
  MinorImageVersion : Nat := 0
  MajorSubsystemVersion : Nat := 0
  MinorSubsystemVersion : Nat := 0
  Win32VersionValue : Nat := 0
  SizeOfImage : Nat := 0
  SizeOfHeaders : Nat := 0
  CheckSum : Nat := 0
  Subsystem : Nat := 0
  DllCharacteristics : Nat := 0
  SizeOfStackReserve : Nat := 0
  SizeOfStackCommit : Nat := 0
  SizeOfHeapReserve : Nat := 0
  SizeOfHeapCommit : Nat := 0
  LoaderFlags : Nat := 0
  NumberOfRvaAndSizes : Nat := 0
  DataDirectory : List DATA_DIRECTORY := List.replicate 16 {}

structure NT_HEADERS64 where
  Signature : Nat := 0
  FileHeader : FILE_HEADER := {}
  OptionalHeader : OPTIONAL_HEADER64 := {}

structure SECTION_HEADER where
  Name : List Nat := [0, 0, 0, 0, 0, 0, 0, 0]
  VirtualSize : Nat := 0
  VirtualAddress : Nat := 0
  SizeOfRawData : Nat := 0
  PointerToRawData : Nat := 0
  PointerToRelocations : Nat := 0
  PointerToLinenumbers : Nat := 0
  NumberOfRelocations : Nat := 0
  NumberOfLinenumbers : Nat := 0
  Characteristics : Nat := 0

/-- Value of `sizeof(DOS_HEADER)`: thirty 16-bit fields and one 32-bit field. -/
def sizeof_DOS_HEADER : Nat := 64

/-- Value of `sizeof(OPTIONAL_HEADER64)`. -/
def sizeof_OPTIONAL_HEADER64 : Nat := 240

/-- Value of `sizeof(NT_HEADERS64)`: the signature, the 20-byte file header and the
optional header. -/
def sizeof_NT_HEADERS64 : Nat := 4 + 20 + sizeof_OPTIONAL_HEADER64

/-- Value of `sizeof(SECTION_HEADER)`. -/
def sizeof_SECTION_HEADER : Nat := 40

/-- The object representation of a `DOS_HEADER`. -/
def DOS_HEADER.bytes (h : DOS_HEADER) : List Nat :=
  le16 h.e_magic ++ le16 h.e_cblp ++ le16 h.e_cp ++ le16 h.e_crlc ++ le16 h.e_cparhdr ++
  le16 h.e_minalloc ++ le16 h.e_maxalloc ++ le16 h.e_ss ++ le16 h.e_sp ++ le16 h.e_csum ++
  le16 h.e_ip ++ le16 h.e_cs ++ le16 h.e_lfarlc ++ le16 h.e_ovno ++
  le16 (h.e_res.getD 0 0) ++ le16 (h.e_res.getD 1 0) ++ le16 (h.e_res.getD 2 0) ++
  le16 (h.e_res.getD 3 0) ++ le16 h.e_oemid ++ le16 h.e_oeminfo ++
  le16 (h.e_res2.getD 0 0) ++ le16 (h.e_res2.getD 1 0) ++ le16 (h.e_res2.getD 2 0) ++
  le16 (h.e_res2.getD 3 0) ++ le16 (h.e_res2.getD 4 0) ++ le16 (h.e_res2.getD 5 0) ++
  le16 (h.e_res2.getD 6 0) ++ le16 (h.e_res2.getD 7 0) ++ le16 (h.e_res2.getD 8 0) ++
  le16 (h.e_res2.getD 9 0) ++ le32 h.e_lfanew

/-- The object representation of a `FILE_HEADER`. -/
def FILE_HEADER.bytes (h : FILE_HEADER) : List Nat :=
  le16 h.Machine ++ le16 h.NumberOfSections ++ le32 h.TimeDateStamp ++
  le32 h.PointerToSymbolTable ++ le32 h.NumberOfSymbols ++ le16 h.SizeOfOptionalHeader ++
  le16 h.Characteristics

/-- The object representation of a `DATA_DIRECTORY`. -/
def DATA_DIRECTORY.bytes (d : DATA_DIRECTORY) : List Nat :=
  le32 d.VirtualAddress ++ le32 d.Size

/-- The object representation of the array `DataDirectory[16]`. -/
def dataDirectoryBytes (dd : List DATA_DIRECTORY) : List Nat :=
  (dd.getD 0 {}).bytes ++ (dd.getD 1 {}).bytes ++ (dd.getD 2 {}).bytes ++
  (dd.getD 3 {}).bytes ++ (dd.getD 4 {}).bytes ++ (dd.getD 5 {}).bytes ++
  (dd.getD 6 {}).bytes ++ (dd.getD 7 {}).bytes ++ (dd.getD 8 {}).bytes ++
  (dd.getD 9 {}).bytes ++ (dd.getD 10 {}).bytes ++ (dd.getD 11 {}).bytes ++
  (dd.getD 12 {}).bytes ++ (dd.getD 13 {}).bytes ++ (dd.getD 14 {}).bytes ++
  (dd.getD 15 {}).bytes

/-- The object representation of an `OPTIONAL_HEADER64`. -/
def OPTIONAL_HEADER64.bytes (h : OPTIONAL_HEADER64) : List Nat :=
  le16 h.Magic ++ [h.MajorLinkerVersion % 256, h.MinorLinkerVersion % 256] ++
  le32 h.SizeOfCode ++ le32 h.SizeOfInitializedData ++ le32 h.SizeOfUninitializedData ++
  le32 h.AddressOfEntryPoint ++ le32 h.BaseOfCode ++ le64 h.ImageBase ++
  le32 h.SectionAlignment ++ le32 h.FileAlignment ++
  le16 h.MajorOSVersion ++ le16 h.MinorOSVersion ++
  le16 h.MajorImageVersion ++ le16 h.MinorImageVersion ++
  le16 h.MajorSubsystemVersion ++ le16 h.MinorSubsystemVersion ++
  le32 h.Win32VersionValue ++ le32 h.SizeOfImage ++ le32 h.SizeOfHeaders ++ le32 h.CheckSum ++
  le16 h.Subsystem ++ le16 h.DllCharacteristics ++
  le64 h.SizeOfStackReserve ++ le64 h.SizeOfStackCommit ++
  le64 h.SizeOfHeapReserve ++ le64 h.SizeOfHeapCommit ++
  le32 h.LoaderFlags ++ le32 h.NumberOfRvaAndSizes ++ dataDirectoryBytes h.DataDirectory

/-- The object representation of an `NT_HEADERS64`. -/
def NT_HEADERS64.bytes (h : NT_HEADERS64) : List Nat :=
  le32 h.Signature ++ h.FileHeader.bytes ++ h.OptionalHeader.bytes

/-- The object representation of a `SECTION_HEADER`. -/
def SECTION_HEADER.bytes (h : SECTION_HEADER) : List Nat :=
  [h.Name.getD 0 0 % 256, h.Name.getD 1 0 % 256, h.Name.getD 2 0 % 256, h.Name.getD 3 0 % 256,
    h.Name.getD 4 0 % 256, h.Name.getD 5 0 % 256, h.Name.getD 6 0 % 256,
    h.Name.getD 7 0 % 256] ++
  le32 h.VirtualSize ++ le32 h.VirtualAddress ++ le32 h.SizeOfRawData ++
  le32 h.PointerToRawData ++ le32 h.PointerToRelocations ++ le32 h.PointerToLinenumbers ++
  le16 h.NumberOfRelocations ++ le16 h.NumberOfLinenumbers ++ le32 h.Characteristics

/-- The characters of a C string literal, without the terminating NUL. -/
def cstr (s : String) : List Nat := s.toList.map Char.toNat

def func_names : List (List Nat) :=
  [cstr "GetStdHandle", cstr "WriteFile", cstr "ReadFile", cstr "ExitProcess"]

def dll_name : List Nat := cstr "kernel32.dll"

/-- One iteration of the hint/name loop of `write_pe` on the pair of `idata` and
the hint positions recorded so far. -/
def push_hint (st : List Nat × List Nat) (n : List Nat) : List Nat × List Nat :=
  let idata := st.1
  let hint_positions := st.2 ++ [idata.length % 4294967296]
  let hint := 0
  let idata := idata ++ [hint % 256, hint / 256]
  let idata := idata ++ n ++ [0]
  let idata := if idata.length % 2 ≠ 0 then idata ++ [0] else idata
  (idata, hint_positions)

/-- The lambda `w32` of `write_pe`. -/
def w32 (idata : List Nat) (off v : Nat) : List Nat :=
  (((idata.set off (v % 256)).set (off + 1) (v / 256 % 256)).set (off + 2)
    (v / 65536 % 256)).set (off + 3) (v / 16777216 % 256)

/-- The lambda `w64` of `write_pe`: byte `i` is `(v >> (i*8)) & 0xFF`. -/
def w64 (idata : List Nat) (off v : Nat) : List Nat :=
  (List.range 8).foldl (fun idata i => idata.set (off + i) (v / 2 ^ (i * 8) % 256)) idata

/-- What `write_pe` computes and writes. -/
structure PEFile where
  headers_size : Nat
  code_size : Nat
  text_raw : Nat
  idata_rva : Nat
  iat_rva_real : Nat
  idata_raw : Nat
  data_rva : Nat
  data_raw : Nat
  hint_positions : List Nat
  dll_name_off : Nat
  code : CodeBuf
  idata : List Nat
  dos : DOS_HEADER
  nt : NT_HEADERS64
  sects : List SECTION_HEADER
  out : List Nat

/-- The `.idata` blob of `write_pe` before the RVAs are filled in, with the hint
positions and the offset of the DLL name. -/
def build_idata (hints_off : Nat) : List Nat × List Nat × Nat :=
  let idata := List.replicate hints_off 0
  let st := func_names.foldl push_hint (idata, [])
  let idata := st.1
  let hint_positions := st.2
  let dll_name_off := idata.length % 4294967296
  let idata := idata ++ dll_name ++ [0]
  let idata := if idata.length % 2 ≠ 0 then idata ++ [0] else idata
  (idata, hint_positions, dll_name_off)

/-- The loop of `write_pe` that fills the ILT and the IAT, and the five `w32`
calls that fill the import directory entry. -/
def fill_idata (idata_rva ilt_off iat_off dll_name_off : Nat) (hint_positions : List Nat)
    (idata : List Nat) : List Nat :=
  let idata := (List.range 4).foldl (fun idata i =>
    let rva := add32 idata_rva (hint_positions.getD i 0)
    w64 (w64 idata (ilt_off + i * 8) rva) (iat_off + i * 8) rva) idata
  let idata := w32 idata 0 (add32 idata_rva ilt_off)
  let idata := w32 idata 4 0
  let idata := w32 idata 8 0
  let idata := w32 idata 12 (add32 idata_rva dll_name_off)
  w32 idata 16 (add32 idata_rva iat_off)

/-- The function `write_pe`, with the bytes written to the output file as the field
`out` of the result; the output stream is taken to open. The result is `none` when
`gen_code` has undefined behaviour. -/
def write_pe (program : List IRInst) : Option PEFile :=
  let FILE_ALIGN := 0x200
  let SECT_ALIGN := 0x1000
  let IMAGE_BASE := 0x0000000140000000
  let NUM_SECTIONS := 3
  let headers_raw :=
    (sizeof_DOS_HEADER + sizeof_NT_HEADERS64 + NUM_SECTIONS * sizeof_SECTION_HEADER) %
      4294967296
  let headers_size := align_up headers_raw FILE_ALIGN
  let text_rva := SECT_ALIGN
  let ilt_off := 40
  let iat_off := 80
  let hints_off := 120
  let built := build_idata hints_off
  let idata := built.1
  let hint_positions := built.2.1
  let dll_name_off := built.2.2
  let est_idata_rva := add32 text_rva (SECT_ALIGN * 4 % 4294967296)
  let est_data_rva := add32 est_idata_rva SECT_ALIGN
  let est_iat_rva := add32 est_idata_rva iat_off
  match gen_code program text_rva est_iat_rva est_data_rva with
  | none => none
  | some dummy =>
    let code_size := dummy.size % 4294967296
    let text_vsize := code_size
    let text_raw := align_up code_size FILE_ALIGN
    let idata_rva := add32 text_rva (align_up text_vsize SECT_ALIGN)
    let iat_rva_real := add32 idata_rva iat_off
    let idata_vsize := idata.length % 4294967296
    let idata_raw := align_up idata_vsize FILE_ALIGN
    let data_rva := add32 idata_rva (align_up idata_vsize SECT_ALIGN)
    let data_vsize := 30016
    let data_raw := align_up data_vsize FILE_ALIGN
    match gen_code program text_rva iat_rva_real data_rva with
    | none => none
    | some code =>
      let idata := fill_idata idata_rva ilt_off iat_off dll_name_off hint_positions idata
      let dos : DOS_HEADER := { e_magic := 0x5A4D, e_lfanew := sizeof_DOS_HEADER }
      let image_end := add32 data_rva (align_up data_vsize SECT_ALIGN)
      let opt : OPTIONAL_HEADER64 :=
        { Magic := 0x020B
          MajorLinkerVersion := 1
          SizeOfCode := text_raw
          SizeOfInitializedData := add32 idata_raw data_raw
          AddressOfEntryPoint := text_rva
          BaseOfCode := text_rva
          ImageBase := IMAGE_BASE
          SectionAlignment := SECT_ALIGN
          FileAlignment := FILE_ALIGN
          MajorOSVersion := 6
          MinorOSVersion := 0
          MajorSubsystemVersion := 6
          MinorSubsystemVersion := 0
          SizeOfImage := image_end
          SizeOfHeaders := headers_size
          Subsystem := 3
          DllCharacteristics := 0x8160
          SizeOfStackReserve := 0x100000
          SizeOfStackCommit := 0x1000
          SizeOfHeapReserve := 0x100000
          SizeOfHeapCommit := 0x1000
          NumberOfRvaAndSizes := 16
          DataDirectory :=
            ((List.replicate 16 ({} : DATA_DIRECTORY)).set 1 ⟨idata_rva, 40⟩).set 12
              ⟨add32 idata_rva iat_off, 40⟩ }
      let nt : NT_HEADERS64 :=
        { Signature := 0x00004550
          FileHeader :=
            { Machine := 0x8664
              NumberOfSections := NUM_SECTIONS
              SizeOfOptionalHeader := sizeof_OPTIONAL_HEADER64
              Characteristics := 0x0022 }
          OptionalHeader := opt }
      let sects : List SECTION_HEADER :=
        [ { Name := cstr ".text" ++ [0, 0, 0]
            VirtualSize := text_vsize
            VirtualAddress := text_rva
            SizeOfRawData := text_raw
            PointerToRawData := headers_size
            Characteristics := 0x60000020 },
          { Name := cstr ".idata" ++ [0, 0]
            VirtualSize := idata_vsize
            VirtualAddress := idata_rva
            SizeOfRawData := idata_raw
            PointerToRawData := add32 headers_size text_raw
            Characteristics := 0xC0000040 },
          { Name := cstr ".data" ++ [0, 0, 0]
            VirtualSize := data_vsize
            VirtualAddress := data_rva
            SizeOfRawData := data_raw
            PointerToRawData := add32 (add32 headers_size text_raw) idata_raw
            Characteristics := 0xC0000040 } ]
      let hdr_written :=
        (sizeof_DOS_HEADER + sizeof_NT_HEADERS64 + 3 * sizeof_SECTION_HEADER) % 4294967296
      let pad := List.replicate (wrap32 ((headers_size : Int) - (hdr_written : Int))) 0
      let tp := if text_raw > code.data.length then
        List.replicate (text_raw - code.data.length) 0 else []
      let ip := if idata_raw > idata.length then
        List.replicate (idata_raw - idata.length) 0 else []
      let data_sect := List.replicate data_raw 0
      let out := dos.bytes ++ nt.bytes ++ (sects.map SECTION_HEADER.bytes).flatten ++ pad ++
        code.data ++ tp ++ idata ++ ip ++ data_sect
      some
        { headers_size := headers_size
          code_size := code_size
          text_raw := text_raw
          idata_rva := idata_rva
          iat_rva_real := iat_rva_real
          idata_raw := idata_raw
          data_rva := data_rva
          data_raw := data_raw
          hint_positions := hint_positions
          dll_name_off := dll_name_off
          code := code
          idata := idata
          dos := dos
          nt := nt
          sects := sects
          out := out }

end pe

/-! ## Call sites of the generated code -/

namespace pe

/-- The six bytes of `code` at offset `off` are `FF 15 disp32`, a
`call [rip + disp32]`, and the address it reads, the RVA of the next instruction
plus `disp32` modulo 2^32, is the RVA `slot`. -/
def CallsSlot (code : List Nat) (text_rva off slot : Nat) : Prop :=
  code[off]? = some 0xFF ∧ code[off + 1]? = some 0x15 ∧ off + 6 ≤ code.length ∧
    (text_rva + (off + 6) + read32 code (off + 2)) % 4294967296 = slot % 4294967296

end pe

namespace pe

/-- The four bytes of `code` at offset `o` are a RIP-relative displacement that
reaches the RVA `target`: with `d` their little-endian value, the RVA of the byte
after the field plus `d` is `target` modulo 2^32. -/
def RipField (code : List Nat) (text_rva o target : Nat) : Prop :=
  o + 4 ≤ code.length ∧
    (text_rva + (o + 4) + read32 code o) % 4294967296 = target % 4294967296

end pe

/-- The optimized form of `+[.-]`, used as an example program. -/
def sample_loop : List IRInst :=
  [⟨.AddVal, 1, -1⟩, ⟨.LoopBegin, 0, 4⟩, ⟨.Output, 0, -1⟩, ⟨.AddVal, -1, -1⟩, ⟨.LoopEnd, 0, 1⟩]


namespace Code

/-- The block with the jump target of every bracket reset to -1. -/
def strip : Code → Code
  | nil => nil
  | op i rest => op i (strip rest)
  | loop b e body rest =>
    loop { b with jump_target := -1 } { e with jump_target := -1 } (strip body) (strip rest)

end Code


/-! ## transpiler/main.cpp

`transpile_to_c` writes to a string stream; the stream is a `String` here and
`indent` an integer. An `int` operand is written in decimal, as `toString` does.
The negation `-inst.operand` is taken in the integers (in the source it is
undefined for the smallest `int`). -/

/-- The text written before the instructions. -/
def c_prologue : String :=
  "#include <stdio.h>\n" ++
  "#include <string.h>\n\n" ++
  "int main(void) \x7b\n" ++
  "    unsigned char tape[30000];\n" ++
  "    memset(tape, 0, sizeof(tape));\n" ++
  "    unsigned char *ptr = tape;\n\n"

/-- The text written after the instructions. -/
def c_epilogue : String :=
  "\n    return 0;\n" ++
  "\x7d\n"

/-- The lambda `emit_indent`: the loop `for (int i = 0; i < indent; ++i)` writes four
blanks per iteration. -/
def emit_indent (out : String) (indent : Int) : String :=
  Nat.repeat (fun o => o ++ "    ") indent.toNat out

/-- What a case of the `switch` writes after the indentation. -/
def inst_text (inst : IRInst) : String :=
  match inst.type with
  | .MovePtr =>
    if inst.operand > 0 then "ptr += " ++ toString inst.operand ++ ";\n"
    else "ptr -= " ++ toString (-inst.operand) ++ ";\n"
  | .AddVal =>
    if inst.operand > 0 then "*ptr += " ++ toString inst.operand ++ ";\n"
    else "*ptr -= " ++ toString (-inst.operand) ++ ";\n"
  | .Output => "putchar(*ptr);\n"
  | .Input => "*ptr = (unsigned char)getchar();\n"
  | .LoopBegin => "while (*ptr) \x7b\n"
  | .LoopEnd => "\x7d\n"
  | .SetZero => "*ptr = 0;\n"

/-- One iteration of the loop over the program, on the stream and `indent`:
`LoopBegin` increments `indent` after its line, `LoopEnd` decrements it before. -/
def transpile_step (st : String × Int) (inst : IRInst) : String × Int :=
  match inst.type with
  | .LoopBegin => (emit_indent st.1 st.2 ++ inst_text inst, st.2 + 1)
  | .LoopEnd => (emit_indent st.1 (st.2 - 1) ++ inst_text inst, st.2 - 1)
  | _ => (emit_indent st.1 st.2 ++ inst_text inst, st.2)

def transpile_to_c (program : List IRInst) : String :=
  (program.foldl transpile_step (c_prologue, 1)).1 ++ c_epilogue

/-- A line of C: `4 * (1 + d)` blanks and the text of the instruction. -/
def c_line (d : Nat) (x : IRInst) : String :=
  String.mk (List.replicate (4 * (1 + d)) ' ') ++ inst_text x

/-- The lines of the instructions of a sequence read with `d` loops open. -/
def c_lines : Nat → List IRInst → List String
  | _, [] => []
  | d, x :: xs =>
    if x.type = .LoopBegin then c_line d x :: c_lines (d + 1) xs
    else if x.type = .LoopEnd then c_line (d - 1) x :: c_lines (d - 1) xs
    else c_line d x :: c_lines d xs


/-! ## compiler/codegen_masm.cpp

`MasmCodeGen::generate` writes to a string stream, a `String` here; `label_id` is an
integer, written in decimal. -/

/-- The text written before the instructions. -/
def MasmCodeGen.header : String :=
  "; BF Compiler output - MASM x86-64 for Windows\n" ++
  "extrn GetStdHandle : proc\n" ++
  "extrn WriteFile : proc\n" ++
  "extrn ReadFile : proc\n" ++
  "extrn ExitProcess : proc\n\n" ++
  ".data\n" ++
  "tape    db 30000 dup(0)\n" ++
  "written dq 0\n" ++
  "readcnt dq 0\n\n" ++
  ".code\n" ++
  "main proc\n" ++
  "    push rbx\n" ++
  "    sub rsp, 48\n" ++
  "    lea rbx, tape\n\n" ++
  "    mov ecx, -11\n" ++
  "    call GetStdHandle\n" ++
  "    mov r12, rax\n" ++
  "    mov ecx, -10\n" ++
  "    call GetStdHandle\n" ++
  "    mov r13, rax\n\n"

/-- The text written after the instructions. -/
def MasmCodeGen.footer : String :=
  "\n    xor ecx, ecx\n" ++
  "    call ExitProcess\n" ++
  "main endp\n" ++
  "end\n"

/-- One iteration of the loop of `generate`, on the stream `o` and `label_id`:
`LoopBegin` writes its two labels with the current `label_id` and increments it,
`LoopEnd` decrements `label_id` and writes its two labels with the new value. -/
def MasmCodeGen.step (st : String × Int) (inst : IRInst) : String × Int :=
  match inst.type with
  | .MovePtr =>
    (if inst.operand > 0 then st.1 ++ "    add rbx, " ++ toString inst.operand ++ "\n"
      else st.1 ++ "    sub rbx, " ++ toString (-inst.operand) ++ "\n", st.2)
  | .AddVal =>
    (if inst.operand > 0 then st.1 ++ "    add byte ptr [rbx], " ++ toString inst.operand ++ "\n"
      else st.1 ++ "    sub byte ptr [rbx], " ++ toString (-inst.operand) ++ "\n", st.2)
  | .SetZero => (st.1 ++ "    mov byte ptr [rbx], 0\n", st.2)
  | .Output =>
    (st.1 ++ "    ; Output\n" ++ "    mov rcx, r12\n" ++ "    mov rdx, rbx\n" ++
      "    mov r8, 1\n" ++ "    lea r9, written\n" ++ "    push 0\n" ++ "    sub rsp, 32\n" ++
      "    call WriteFile\n" ++ "    add rsp, 40\n", st.2)
  | .Input =>
    (st.1 ++ "    ; Input\n" ++ "    mov rcx, r13\n" ++ "    mov rdx, rbx\n" ++
      "    mov r8, 1\n" ++ "    lea r9, readcnt\n" ++ "    push 0\n" ++ "    sub rsp, 32\n" ++
      "    call ReadFile\n" ++ "    add rsp, 40\n", st.2)
  | .LoopBegin =>
    (st.1 ++ "loop_start_" ++ toString st.2 ++ ":\n" ++ "    cmp byte ptr [rbx], 0\n" ++
      "    je loop_end_" ++ toString st.2 ++ "\n", st.2 + 1)
  | .LoopEnd =>
    (st.1 ++ "    cmp byte ptr [rbx], 0\n" ++ "    jne loop_start_" ++ toString (st.2 - 1) ++
      "\n" ++ "loop_end_" ++ toString (st.2 - 1) ++ ":\n", st.2 - 1)

def MasmCodeGen.generate (program : List IRInst) : String :=
  (program.foldl MasmCodeGen.step (MasmCodeGen.header, 0)).1 ++ MasmCodeGen.footer

/-- The lines of a text: the pieces between its newline characters. -/
def textLines (s : String) : List String :=
  (s.data.splitOn '\n').map String.mk

/-- The optimized form of `+[.-]+[.-]`: two loops one after the other. -/
def sample_siblings : List IRInst :=
  [⟨.AddVal, 1, -1⟩, ⟨.LoopBegin, 0, 4⟩, ⟨.Output, 0, -1⟩, ⟨.AddVal, -1, -1⟩, ⟨.LoopEnd, 0, 1⟩,
    ⟨.AddVal, 1, -1⟩, ⟨.LoopBegin, 0, 9⟩, ⟨.Output, 0, -1⟩, ⟨.AddVal, -1, -1⟩, ⟨.LoopEnd, 0, 6⟩]

/-! ## Command lines

The three `main` functions. `argv` is the list of arguments, `argc` its length;
`readFile` gives the contents of the files that can be opened for reading and
`canWrite` tells which files can be opened for writing. -/

/-- How a call of `main` ends. -/
inductive MainResult where
  /-- The statement `return code;` is reached. -/
  | returned (code : Int)
  /-- An exception with message `what` leaves `main`; no `return` is reached. -/
  | uncaught (what : String)
  /-- The interpreter loop has not ended within the given number of steps. -/
  | unfinished
  /-- Undefined behaviour. -/
  | undefined
  deriving DecidableEq, Repr

/-- The call `s.rfind(c)`: the last index of `c` in `s`, `none` for `npos`. -/
def rfind : List Char → Char → Option Nat
  | [], _ => none
  | x :: xs, c =>
    match rfind xs c with
    | some k => some (k + 1)
    | none => if x = c then some 0 else none

/-- The default output name of `transpiler/main.cpp` and `compiler/main.cpp`:
`input_file.substr(0, dot) + ext` when `rfind('.')` finds a dot, else
`input_file + ext`. -/
def default_output (input_file ext : String) : String :=
  match rfind input_file.data '.' with
  | some dot => String.mk (input_file.data.take dot) ++ ext
  | none => input_file ++ ext

/-- The loop over `argv[2..]` of the transpiler: `-o` followed by an argument sets
`output_file` and skips that argument. -/
def transpiler_scan : List String → String → String
  | [], output_file => output_file
  | arg :: rest, output_file =>
    if arg = "-o" then
      match rest with
      | [] => output_file
      | o :: rest1 => transpiler_scan rest1 o
    else transpiler_scan rest output_file

/-- The value of `output_file` when the transpiler opens it. -/
def transpiler_output_file (input_file : String) (rest : List String) : String :=
  if transpiler_scan rest "" = "" then default_output input_file ".c"
  else transpiler_scan rest ""

/-- The function `main` of the interpreter, run for at most `fuel` steps. -/
def interpreter_main (argv : List String) (readFile : String → Option String)
    (stdin : List Byte) (fuel : Nat) : MainResult :=
  match argv with
  | [] => .returned 1
  | [_] => .returned 1
  | _ :: input_file :: _ =>
    match readFile input_file with
    | none => .returned 1
    | some source =>
      match parse (lex source.data) with
      | .error what => .uncaught what
      | .ok program =>
        match optimize program with
        | none => .undefined
        | some program =>
          match interpret fuel program stdin with
          | .halted _ => .returned 0
          | .running _ _ => .unfinished
          | .fault => .undefined

/-- The function `main` of the transpiler. -/
def transpiler_main (argv : List String) (readFile : String → Option String)
    (canWrite : String → Bool) : MainResult :=
  match argv with
  | [] => .returned 1
  | [_] => .returned 1
  | _ :: input_file :: rest =>
    match readFile input_file with
    | none => .returned 1
    | some source =>
      match parse (lex source.data) with
      | .error what => .uncaught what
      | .ok program =>
        match optimize program with
        | none => .undefined
        | some _ =>
          if canWrite (transpiler_output_file input_file rest) then .returned 0 else .returned 1

inductive AsmFormat where
  | MASM
  | NASM
  | ATT
  deriving DecidableEq, Repr

/-- The variables set by the argument loop of the compiler. -/
structure CompilerArgs where
  input_file : String := ""
  output_file : String := ""
  asm_mode : Bool := false
  fmt : AsmFormat := .NASM
  deriving DecidableEq, Repr

/-- The argument loop of the compiler over `argv[1..]`; `none` is the `return 1` of
an unknown format. The test `arg[0] != '-'` reads the terminating zero of an empty
argument. -/
def compiler_scan : List String → CompilerArgs → Option CompilerArgs
  | [], a => some a
  | arg :: rest, a =>
    if arg = "--asm" then compiler_scan rest { a with asm_mode := true }
    else if "--format=".data.isPrefixOf arg.data then
      let f := String.mk (arg.data.drop 9)
      if f = "masm" then compiler_scan rest { a with fmt := .MASM }
      else if f = "nasm" then compiler_scan rest { a with fmt := .NASM }
      else if f = "att" ∨ f = "gas" then compiler_scan rest { a with fmt := .ATT }
      else none
    else if arg = "-o" then
      match rest with
      | [] => if arg.data.head? ≠ some '-' then some { a with input_file := arg } else some a
      | o :: rest1 => compiler_scan rest1 { a with output_file := o }
    else if arg.data.head? ≠ some '-' then compiler_scan rest { a with input_file := arg }
    else compiler_scan rest a

/-- The method `file_extension` of the three generators. -/
def file_extension : AsmFormat → String
  | .MASM => ".asm"
  | .NASM => ".asm"
  | .ATT => ".s"

/-- The value of `output_file` when the compiler opens it. -/
def compiler_output_file (a : CompilerArgs) : String :=
  if a.output_file = "" then
    default_output a.input_file (if a.asm_mode then file_extension a.fmt else ".exe")
  else a.output_file

/-- The function `main` of the compiler. The text of the assembly and the bytes of
the executable do not bear on the result and are left out. -/
def compiler_main (argv : List String) (readFile : String → Option String)
    (canWrite : String → Bool) : MainResult :=
  match argv with
  | [] => .returned 1
  | [_] => .returned 1
  | _ :: args =>
    match compiler_scan args {} with
    | none => .returned 1
    | some a =>
      if a.input_file = "" then .returned 1
      else
        match readFile a.input_file with
        | none => .returned 1
        | some source =>
          match parse (lex source.data) with
          | .error what => .uncaught what
          | .ok program =>
            match optimize program with
            | none => .undefined
            | some program =>
              if a.asm_mode then
                if canWrite (compiler_output_file a) then .returned 0 else .returned 1
              else
                match pe.write_pe program with
                | none => .undefined
                | some _ =>
                  if canWrite (compiler_output_file a) then .returned 0 else .returned 1

/-- A file system with the one file `a.bf`, whose contents are `]`. -/
def sample_files (f : String) : Option String :=
  if f = "a.bf" then some "]" else none


/-- The program `MovePtr(300), AddVal(-3)`, used as an example. -/
def sample_moves : List IRInst :=
  [⟨.MovePtr, 300, -1⟩, ⟨.AddVal, -3, -1⟩]


/-! ## compiler/codegen_nasm.cpp and compiler/codegen_att.cpp

The two `generate` functions write to a string stream, a `String` here. `label_id`
only grows from 0, so it and the entries of `label_stack` are natural numbers,
written in decimal. Taking the top of an empty `label_stack` is undefined
behaviour: `none`. -/

/-- The state of the loop of `generate`: the stream `o`, `label_id` and
`label_stack`, top first. -/
structure AsmState where
  o : String
  label_id : Nat
  label_stack : List Nat

/-- The text that `NasmCodeGen::generate` writes before the instructions. -/
def NasmCodeGen.header : String :=
  "; BF Compiler output - NASM x86-64 for Windows\n" ++
  "default rel\n" ++
  "bits 64\n\n" ++
  "extern GetStdHandle\n" ++
  "extern WriteFile\n" ++
  "extern ReadFile\n" ++
  "extern ExitProcess\n\n" ++
  "section .bss\n" ++
  "tape:    resb 30000\n" ++
  "written: resq 1\n" ++
  "readcnt: resq 1\n\n" ++
  "section .text\n" ++
  "global main\n" ++
  "main:\n" ++
  "    push rbx\n" ++
  "    sub rsp, 48\n" ++
  "    lea rbx, [tape]\n\n" ++
  "    mov ecx, -11\n" ++
  "    call GetStdHandle\n" ++
  "    mov r12, rax\n" ++
  "    mov ecx, -10\n" ++
  "    call GetStdHandle\n" ++
  "    mov r13, rax\n\n"

/-- The text that `NasmCodeGen::generate` writes after the instructions. -/
def NasmCodeGen.footer : String :=
  "\n    xor ecx, ecx\n" ++
  "    call ExitProcess\n"

/-- One iteration of the loop of `NasmCodeGen::generate`. -/
def NasmCodeGen.step (s : AsmState) (inst : IRInst) : Option AsmState :=
  match inst.type with
  | .MovePtr =>
    some { s with o :=
      if inst.operand > 0 then s.o ++ "    add rbx, " ++ toString inst.operand ++ "\n"
      else s.o ++ "    sub rbx, " ++ toString (-inst.operand) ++ "\n" }
  | .AddVal =>
    some { s with o :=
      if inst.operand > 0 then s.o ++ "    add byte [rbx], " ++ toString inst.operand ++ "\n"
      else s.o ++ "    sub byte [rbx], " ++ toString (-inst.operand) ++ "\n" }
  | .SetZero => some { s with o := s.o ++ "    mov byte [rbx], 0\n" }
  | .Output =>
    some { s with o := s.o ++ "    ; Output\n" ++ "    mov rcx, r12\n" ++ "    mov rdx, rbx\n" ++
      "    mov r8, 1\n" ++ "    lea r9, [written]\n" ++ "    push 0\n" ++ "    sub rsp, 32\n" ++
      "    call WriteFile\n" ++ "    add rsp, 40\n" }
  | .Input =>
    some { s with o := s.o ++ "    ; Input\n" ++ "    mov rcx, r13\n" ++ "    mov rdx, rbx\n" ++
      "    mov r8, 1\n" ++ "    lea r9, [readcnt]\n" ++ "    push 0\n" ++ "    sub rsp, 32\n" ++
      "    call ReadFile\n" ++ "    add rsp, 40\n" }
  | .LoopBegin =>
    let id := s.label_id
    some ⟨s.o ++ ".loop_start_" ++ toString id ++ ":\n" ++ "    cmp byte [rbx], 0\n" ++
      "    je .loop_end_" ++ toString id ++ "\n", s.label_id + 1, id :: s.label_stack⟩
  | .LoopEnd =>
    match s.label_stack with
    | [] => none
    | id :: rest =>
      some ⟨s.o ++ "    cmp byte [rbx], 0\n" ++ "    jne .loop_start_" ++ toString id ++ "\n" ++
        ".loop_end_" ++ toString id ++ ":\n", s.label_id, rest⟩

/-- The loop of `NasmCodeGen::generate` over the program. -/
def NasmCodeGen.loop : List IRInst → AsmState → Option AsmState
  | [], s => some s
  | inst :: rest, s =>
    match NasmCodeGen.step s inst with
    | none => none
    | some s1 => NasmCodeGen.loop rest s1

def NasmCodeGen.generate (program : List IRInst) : Option String :=
  match NasmCodeGen.loop program ⟨NasmCodeGen.header, 0, []⟩ with
  | none => none
  | some s => some (s.o ++ NasmCodeGen.footer)

/-- The text that `AttCodeGen::generate` writes before the instructions. -/
def AttCodeGen.header : String :=
  "# BF Compiler output - AT&T syntax x86-64 for Windows\n" ++
  ".global main\n\n" ++
  ".extern GetStdHandle\n" ++
  ".extern WriteFile\n" ++
  ".extern ReadFile\n" ++
  ".extern ExitProcess\n\n" ++
  ".bss\n" ++
  "tape:    .space 30000\n" ++
  "written: .space 8\n" ++
  "readcnt: .space 8\n\n" ++
  ".text\n" ++
  "main:\n" ++
  "    pushq %rbx\n" ++
  "    subq $48, %rsp\n" ++
  "    leaq tape(%rip), %rbx\n\n" ++
  "    movl $-11, %ecx\n" ++
  "    call GetStdHandle\n" ++
  "    movq %rax, %r12\n" ++
  "    movl $-10, %ecx\n" ++
  "    call GetStdHandle\n" ++
  "    movq %rax, %r13\n\n"

/-- The text that `AttCodeGen::generate` writes after the instructions. -/
def AttCodeGen.footer : String :=
  "\n    xorl %ecx, %ecx\n" ++
  "    call ExitProcess\n"

/-- One iteration of the loop of `AttCodeGen::generate`. -/
def AttCodeGen.step (s : AsmState) (inst : IRInst) : Option AsmState :=
  match inst.type with
  | .MovePtr =>
    some { s with o :=
      if inst.operand > 0 then s.o ++ "    addq $" ++ toString inst.operand ++ ", %rbx\n"
      else s.o ++ "    subq $" ++ toString (-inst.operand) ++ ", %rbx\n" }
  | .AddVal =>
    some { s with o :=
      if inst.operand > 0 then s.o ++ "    addb $" ++ toString inst.operand ++ ", (%rbx)\n"
      else s.o ++ "    subb $" ++ toString (-inst.operand) ++ ", (%rbx)\n" }
  | .SetZero => some { s with o := s.o ++ "    movb $0, (%rbx)\n" }
  | .Output =>
    some { s with o := s.o ++ "    # Output\n" ++ "    movq %r12, %rcx\n" ++
      "    movq %rbx, %rdx\n" ++ "    movq $1, %r8\n" ++ "    leaq written(%rip), %r9\n" ++
      "    pushq $0\n" ++ "    subq $32, %rsp\n" ++ "    call WriteFile\n" ++
      "    addq $40, %rsp\n" }
  | .Input =>
    some { s with o := s.o ++ "    # Input\n" ++ "    movq %r13, %rcx\n" ++
      "    movq %rbx, %rdx\n" ++ "    movq $1, %r8\n" ++ "    leaq readcnt(%rip), %r9\n" ++
      "    pushq $0\n" ++ "    subq $32, %rsp\n" ++ "    call ReadFile\n" ++
      "    addq $40, %rsp\n" }
  | .LoopBegin =>
    let id := s.label_id
    some ⟨s.o ++ ".loop_start_" ++ toString id ++ ":\n" ++ "    cmpb $0, (%rbx)\n" ++
      "    je .loop_end_" ++ toString id ++ "\n", s.label_id + 1, id :: s.label_stack⟩
  | .LoopEnd =>
    match s.label_stack with
    | [] => none
    | id :: rest =>
      some ⟨s.o ++ "    cmpb $0, (%rbx)\n" ++ "    jne .loop_start_" ++ toString id ++ "\n" ++
        ".loop_end_" ++ toString id ++ ":\n", s.label_id, rest⟩

/-- The loop of `AttCodeGen::generate` over the program. -/
def AttCodeGen.loop : List IRInst → AsmState → Option AsmState
  | [], s => some s
  | inst :: rest, s =>
    match AttCodeGen.step s inst with
    | none => none
    | some s1 => AttCodeGen.loop rest s1

def AttCodeGen.generate (program : List IRInst) : Option String :=
  match AttCodeGen.loop program ⟨AttCodeGen.header, 0, []⟩ with
  | none => none
  | some s => some (s.o ++ AttCodeGen.footer)

/-! ## Assembly text as lines -/

/-- The text made of the given lines, each followed by a newline. -/
def unlines (l : List String) : String :=
  String.join (l.map (fun s => s ++ "\n"))

/-- The lines that `NasmCodeGen::generate` writes for an instruction that is not a
bracket. -/
def NasmCodeGen.plain (inst : IRInst) : List String :=
  match inst.type with
  | .MovePtr =>
    [if inst.operand > 0 then "    add rbx, " ++ toString inst.operand
      else "    sub rbx, " ++ toString (-inst.operand)]
  | .AddVal =>
    [if inst.operand > 0 then "    add byte [rbx], " ++ toString inst.operand
      else "    sub byte [rbx], " ++ toString (-inst.operand)]
  | .SetZero => ["    mov byte [rbx], 0"]
  | .Output =>
    ["    ; Output", "    mov rcx, r12", "    mov rdx, rbx", "    mov r8, 1",
      "    lea r9, [written]", "    push 0", "    sub rsp, 32", "    call WriteFile",
      "    add rsp, 40"]
  | .Input =>
    ["    ; Input", "    mov rcx, r13", "    mov rdx, rbx", "    mov r8, 1",
      "    lea r9, [readcnt]", "    push 0", "    sub rsp, 32", "    call ReadFile",
      "    add rsp, 40"]
  | _ => []

/-- The lines that `AttCodeGen::generate` writes for an instruction that is not a
bracket. -/
def AttCodeGen.plain (inst : IRInst) : List String :=
  match inst.type with
  | .MovePtr =>
    [if inst.operand > 0 then "    addq $" ++ toString inst.operand ++ ", %rbx"
      else "    subq $" ++ toString (-inst.operand) ++ ", %rbx"]
  | .AddVal =>
    [if inst.operand > 0 then "    addb $" ++ toString inst.operand ++ ", (%rbx)"
      else "    subb $" ++ toString (-inst.operand) ++ ", (%rbx)"]
  | .SetZero => ["    movb $0, (%rbx)"]
  | .Output =>
    ["    # Output", "    movq %r12, %rcx", "    movq %rbx, %rdx", "    movq $1, %r8",
      "    leaq written(%rip), %r9", "    pushq $0", "    subq $32, %rsp", "    call WriteFile",
      "    addq $40, %rsp"]
  | .Input =>
    ["    # Input", "    movq %r13, %rcx", "    movq %rbx, %rdx", "    movq $1, %r8",
      "    leaq readcnt(%rip), %r9", "    pushq $0", "    subq $32, %rsp", "    call ReadFile",
      "    addq $40, %rsp"]
  | _ => []

/-- The lines of one instruction in either dialect: `cmp` is the compare line,
`plain` gives the lines of the instructions that are not brackets, and `id` is the
number in the labels of a bracket. -/
def asmChunk (cmp : String) (plain : IRInst → List String) (x : IRInst) (id : Nat) :
    List String :=
  if x.type = .LoopBegin then
    [".loop_start_" ++ toString id ++ ":", cmp, "    je .loop_end_" ++ toString id]
  else if x.type = .LoopEnd then
    [cmp, "    jne .loop_start_" ++ toString id, ".loop_end_" ++ toString id ++ ":"]
  else plain x

/-- The lines of the instructions of a program, instruction by instruction, with
the label numbers taken as `generate` takes them from `label_id = n` and
`label_stack = st`. -/
def asmChunks (cmp : String) (plain : IRInst → List String) :
    List IRInst → Nat → List Nat → Option (List (List String))
  | [], _, _ => some []
  | x :: xs, n, st =>
    if x.type = .LoopBegin then
      (asmChunks cmp plain xs (n + 1) (n :: st)).map (fun cs => asmChunk cmp plain x n :: cs)
    else if x.type = .LoopEnd then
      match st with
      | [] => none
      | id :: rest =>
        (asmChunks cmp plain xs n rest).map (fun cs => asmChunk cmp plain x id :: cs)
    else (asmChunks cmp plain xs n st).map (fun cs => asmChunk cmp plain x 0 :: cs)

/-- The value of a string of decimal digits. -/
def decimalValue (l : List Char) : Nat :=
  l.foldl (fun a c => 10 * a + (c.toNat - 48)) 0

/-- The line is neither a `.loop_start_` nor a `.loop_end_` label: it does not start
with `.loop_s` or `.loop_e`. -/
def NoLoopLabel (l : String) : Prop :=
  l.data.take 7 ≠ ['.', 'l', 'o', 'o', 'p', '_', 's'] ∧
    l.data.take 7 ≠ ['.', 'l', 'o', 'o', 'p', '_', 'e']

/-! ## Programs with one loop, for the jump displacements -/

theorem parseLoop_scan (ts : List Char) :
    ∀ (program : List IRInst) (st : List Nat),
      (bracketScan st.length ts = .unmatchedClose →
        parseLoop ts program st = .error UnmatchedClose) ∧
      (bracketScan st.length ts = .unmatchedOpen →
        parseLoop ts program st = .error UnmatchedOpen) ∧
      (bracketScan st.length ts = .balanced → ∃ p, parseLoop ts program st = .ok p) := by
  induction ts with
  | nil =>
    intro program st
    cases st <;> simp [bracketScan, parseLoop]
  | cons c cs ih =>
    intro program st
    by_cases h1 : c = '['
    · subst h1
      have := ih (program ++ [⟨.LoopBegin, 0, -1⟩]) (program.length :: st)
      simpa [bracketScan, parseLoop] using this
    · by_cases h2 : c = ']'
      · subst h2
        cases st with
        | nil => simp [bracketScan, parseLoop]
        | cons opn rest =>
          have := ih (setJump (program ++ [⟨.LoopEnd, 0, (opn : Int)⟩]) opn
            (((program ++ [(⟨.LoopEnd, 0, (opn : Int)⟩ : IRInst)]).length : Int) - 1)) rest
          simpa [bracketScan, parseLoop] using this
      · simp only [bracketScan, parseLoop, h1, h2, if_false]
        split_ifs
        all_goals exact ih _ _

theorem unmatched_ne : UnmatchedClose ≠ UnmatchedOpen := by decide

theorem scan_close_iff (ts : List Char) :
    ∀ d, bracketScan d ts = .unmatchedClose ↔ ExcessClose d ts := by
  induction ts with
  | nil =>
    intro d
    simp only [bracketScan, ExcessClose]
    constructor
    · intro h; split_ifs at h
    · rintro ⟨k, _, hk⟩; simp at hk
  | cons c cs ih =>
    intro d
    have key : ExcessClose d (c :: cs) ↔
        ∃ k, k ≤ cs.length ∧
          (cs.take k).count '[' + (if c = '[' then 1 else 0) + d <
            (cs.take k).count ']' + (if c = ']' then 1 else 0) := by
      constructor
      · rintro ⟨k, hk, h⟩
        cases k with
        | zero => simp at h
        | succ k =>
          refine ⟨k, by simpa using hk, ?_⟩
          simp only [List.take_succ_cons, List.count_cons, beq_iff_eq] at h
          omega
      · rintro ⟨k, hk, h⟩
        refine ⟨k + 1, by simpa using hk, ?_⟩
        simp only [List.take_succ_cons, List.count_cons, beq_iff_eq]
        omega
    rw [key]
    by_cases h1 : c = '['
    · subst h1
      simp only [bracketScan, if_true, ih, ExcessClose]
      have : ¬ ('[' = ']') := by decide
      simp only [this, if_false]
      constructor <;> rintro ⟨k, hk, h⟩ <;> exact ⟨k, hk, by omega⟩
    · by_cases h2 : c = ']'
      · subst h2
        cases d with
        | zero =>
          simp only [bracketScan, h1, if_false, if_true, true_iff]
          exact ⟨0, by simp, by simp⟩
        | succ d =>
          simp only [bracketScan, h1, if_false, if_true, ih, ExcessClose]
          constructor <;> rintro ⟨k, hk, h⟩ <;> exact ⟨k, hk, by omega⟩
      · simp only [bracketScan, h1, h2, if_false, ih, ExcessClose]
        constructor <;> rintro ⟨k, hk, h⟩ <;> exact ⟨k, hk, by omega⟩

theorem scan_not_close (ts : List Char) :
    ∀ d, ¬ ExcessClose d ts →
      (bracketScan d ts = .unmatchedOpen ↔ ts.count ']' < ts.count '[' + d) ∧
      (bracketScan d ts = .balanced ↔ ts.count ']' = ts.count '[' + d) := by
  induction ts with
  | nil =>
    intro d _
    simp only [bracketScan, List.count_nil]
    constructor <;> constructor <;> intro h <;> split_ifs at * <;> first | omega | rfl
  | cons c cs ih =>
    intro d hne
    have hne2 := hne
    rw [← scan_close_iff] at hne
    by_cases h1 : c = '['
    · subst h1
      simp only [bracketScan, if_true] at hne ⊢
      rw [scan_close_iff] at hne
      have := ih (d + 1) hne
      have e : ¬ ('[' = ']') := by decide
      simp only [List.count_cons, beq_iff_eq, e, if_false, if_true]
      constructor
      · rw [this.1]; omega
      · rw [this.2]; omega
    · by_cases h2 : c = ']'
      · subst h2
        cases d with
        | zero => simp [bracketScan] at hne
        | succ d =>
          simp only [bracketScan, h1, if_false, if_true] at hne ⊢
          rw [scan_close_iff] at hne
          have := ih d hne
          have e : ¬ (']' = '[') := by decide
          simp only [List.count_cons, beq_iff_eq, e, if_false, if_true]
          constructor
          · rw [this.1]; omega
          · rw [this.2]; omega
      · simp only [bracketScan, h1, h2, if_false] at hne ⊢
        rw [scan_close_iff] at hne
        have := ih d hne
        have e1 : ¬ (c = '[') := h1
        simp only [List.count_cons, beq_iff_eq, h1, h2, if_false]
        exact this

theorem parse_verdict (ts : List Char) :
    (parse ts = .error UnmatchedClose ↔ bracketScan 0 ts = .unmatchedClose) ∧
    (parse ts = .error UnmatchedOpen ↔ bracketScan 0 ts = .unmatchedOpen) ∧
    ((∃ p, parse ts = .ok p) ↔ bracketScan 0 ts = .balanced) := by
  obtain ⟨h1, h2, h3⟩ := parseLoop_scan ts [] []
  simp only [List.length_nil] at h1 h2 h3
  unfold parse
  have hne := unmatched_ne
  cases hv : bracketScan 0 ts
  · obtain ⟨p, hp⟩ := h3 hv
    simp [hp]
  · simp [h1 hv, hne]
  · simp [h2 hv, hne.symm]

theorem excessClose_zero (ts : List Char) :
    ExcessClose 0 ts ↔
      ∃ k, k ≤ ts.length ∧ (ts.take k).count '[' < (ts.take k).count ']' := by
  simp [ExcessClose]

theorem first_excess_pos (ts : List Char) (k : Nat)
    (hk : (ts.take (k + 1)).count '[' < (ts.take (k + 1)).count ']')
    (hmin : ∀ j, j ≤ k → (ts.take j).count ']' ≤ (ts.take j).count '[') :
    k < ts.length ∧ ts[k]? = some ']' := by
  have hlt : k < ts.length := by
    by_contra hge
    have h1 : ts.take (k + 1) = ts.take k := by
      rw [List.take_of_length_le (by omega), List.take_of_length_le (by omega)]
    rw [h1] at hk
    have := hmin k le_rfl
    omega
  refine ⟨hlt, ?_⟩
  have h2 : ts.take (k + 1) = ts.take k ++ [ts[k]] := by
    rw [List.take_succ, List.getElem?_eq_getElem hlt]; rfl
  rw [h2] at hk
  have := hmin k le_rfl
  simp only [List.count_append, List.count_singleton, beq_iff_eq] at hk
  rw [List.getElem?_eq_getElem hlt]
  by_cases h : ts[k] = ']'
  · rw [h]
  · exfalso
    simp only [h, if_false] at hk
    omega

/-- C3. `parse` fails with `Unmatched ']' found` exactly when some prefix of the
input holds more `]` than `[`. At the first such prefix, of length `k + 1`, the
character at position `k` is a `]`, the error is raised whatever follows it, and
it is not raised on the `k` characters before it; an error is not a program. -/
theorem parse_unmatched_close (ts : List Char) :
    (parse ts = .error UnmatchedClose ↔
      ∃ k, k ≤ ts.length ∧ (ts.take k).count '[' < (ts.take k).count ']') ∧
    (∀ k, (ts.take (k + 1)).count '[' < (ts.take (k + 1)).count ']' →
      (∀ j, j ≤ k → (ts.take j).count ']' ≤ (ts.take j).count '[') →
        ts[k]? = some ']' ∧
        (∀ rest, parse (ts.take (k + 1) ++ rest) = .error UnmatchedClose) ∧
        parse (ts.take k) ≠ .error UnmatchedClose) ∧
    (parse ts = .error UnmatchedClose → ∀ p, parse ts ≠ .ok p) := by
  refine ⟨?_, ?_, ?_⟩
  · rw [(parse_verdict ts).1, scan_close_iff, excessClose_zero]
  · intro k hk hmin
    obtain ⟨hlt, hget⟩ := first_excess_pos ts k hk hmin
    refine ⟨hget, ?_, ?_⟩
    · intro rest
      rw [(parse_verdict _).1, scan_close_iff, excessClose_zero]
      have hlen : (ts.take (k + 1)).length = k + 1 := by
        rw [List.length_take]; omega
      refine ⟨k + 1, by simp; omega, ?_⟩
      rw [List.take_append_of_le_length (by omega), List.take_take]
      simpa using hk
    · rw [Ne, (parse_verdict _).1, scan_close_iff, excessClose_zero]
      rintro ⟨j, hj, h⟩
      rw [List.length_take] at hj
      have hjk : j ≤ k := by omega
      rw [List.take_take, min_eq_left hjk] at h
      have := hmin j hjk
      omega
  · intro h p hp
    rw [h] at hp
    cases hp

/-- C4. `parse` fails with `Unmatched '[' found` exactly when no prefix of the
input holds more `]` than `[` and the whole input holds more `[` than `]`; it
returns a program exactly when the brackets are balanced; `+[` fails with
`Unmatched '[' found`. -/
theorem parse_unmatched_open (ts : List Char) :
    (parse ts = .error UnmatchedOpen ↔
      (¬ ∃ k, k ≤ ts.length ∧ (ts.take k).count '[' < (ts.take k).count ']') ∧
        ts.count ']' < ts.count '[') ∧
    ((∃ p, parse ts = .ok p) ↔
      (¬ ∃ k, k ≤ ts.length ∧ (ts.take k).count '[' < (ts.take k).count ']') ∧
        ts.count ']' = ts.count '[') ∧
    parse ['+', '['] = .error UnmatchedOpen := by
  have hv := parse_verdict ts
  have hc := scan_close_iff ts 0
  rw [excessClose_zero] at hc
  refine ⟨?_, ?_, rfl⟩
  · rw [hv.2.1]
    constructor
    · intro h
      have hn : ¬ ExcessClose 0 ts := by
        rw [← scan_close_iff, h]; decide
      have := (scan_not_close ts 0 hn).1.1 h
      rw [excessClose_zero] at hn
      exact ⟨hn, by simpa using this⟩
    · rintro ⟨hn, h⟩
      rw [← excessClose_zero] at hn
      exact (scan_not_close ts 0 hn).1.2 (by simpa using h)
  · rw [hv.2.2]
    constructor
    · intro h
      have hn : ¬ ExcessClose 0 ts := by
        rw [← scan_close_iff, h]; decide
      have := (scan_not_close ts 0 hn).2.1 h
      rw [excessClose_zero] at hn
      exact ⟨hn, by simpa using this⟩
    · rintro ⟨hn, h⟩
      rw [← excessClose_zero] at hn
      exact (scan_not_close ts 0 hn).2.2 (by simpa using h)

/-! ## Blocks -/

namespace Code

@[simp] theorem flatten_nil : (nil : Code).flatten = [] := rfl

@[simp] theorem flatten_op (i : IRInst) (rest : Code) :
    (op i rest).flatten = i :: rest.flatten := rfl

@[simp] theorem flatten_loop (b e : IRInst) (body rest : Code) :
    (loop b e body rest).flatten = b :: (body.flatten ++ e :: rest.flatten) := rfl

@[simp] theorem size_nil : (nil : Code).size = 0 := rfl

@[simp] theorem size_op (i : IRInst) (rest : Code) : (op i rest).size = rest.size + 1 := by
  simp [size]

@[simp] theorem size_loop (b e : IRInst) (body rest : Code) :
    (loop b e body rest).size = body.size + rest.size + 2 := by
  simp [size]; omega

@[simp] theorem flatten_append (c d : Code) : (c.append d).flatten = c.flatten ++ d.flatten := by
  induction c with
  | nil => rfl
  | op i rest ih => simp [append, ih]
  | loop b e body rest _ ih => simp [append, ih]

@[simp] theorem size_append (c d : Code) : (c.append d).size = c.size + d.size := by
  simp [size]

theorem WF_append (c d : Code) : (c.append d).WF ↔ c.WF ∧ d.WF := by
  induction c with
  | nil => simp [append, WF]
  | op i rest ih => simp [append, WF, ih, and_assoc]
  | loop b e body rest _ ih => simp [append, WF, ih, and_assoc]

theorem Linked_append (c d : Code) :
    ∀ o, (c.append d).Linked o ↔ c.Linked o ∧ d.Linked (o + c.size) := by
  induction c with
  | nil => intro o; simp [append, Linked]
  | op i rest ih =>
    intro o
    simp only [append, Linked, ih, size_op]
    have : o + 1 + rest.size = o + (rest.size + 1) := by omega
    rw [this]
  | loop b e body rest _ ih =>
    intro o
    simp only [append, Linked, ih, size_loop]
    have : o + 2 + body.size + rest.size = o + (body.size + rest.size + 2) := by omega
    rw [this]
    tauto

@[simp] theorem size_relink (c : Code) : ∀ o, (relink o c).size = c.size := by
  induction c with
  | nil => intro o; rfl
  | op i rest ih => intro o; simp [relink, ih]
  | loop b e body rest ihb ihr => intro o; simp [relink, ihb, ihr]

theorem WF_relink (c : Code) : ∀ o, c.WF → (relink o c).WF := by
  induction c with
  | nil => intro o h; trivial
  | op i rest ih => intro o h; exact ⟨h.1, h.2.1, ih _ h.2.2⟩
  | loop b e body rest ihb ihr =>
    intro o h
    exact ⟨h.1, h.2.1, ihb _ h.2.2.1, ihr _ h.2.2.2⟩

theorem Linked_relink (c : Code) : ∀ o, (relink o c).Linked o := by
  induction c with
  | nil => intro o; trivial
  | op i rest ih => intro o; exact ih _
  | loop b e body rest ihb ihr =>
    intro o
    refine ⟨by simp, rfl, ihb _, ?_⟩
    simpa using ihr _

theorem relink_of_Linked (c : Code) : ∀ o, c.Linked o → relink o c = c := by
  induction c with
  | nil => intro o _; rfl
  | op i rest ih => intro o h; simp [relink, ih _ h]
  | loop b e body rest ihb ihr =>
    intro o h
    obtain ⟨h1, h2, h3, h4⟩ := h
    simp only [relink, ihb _ h3, ihr _ h4]
    congr
    · rw [← h1]
    · rw [← h2]

end Code

/-! ## `setJump` -/

@[simp] theorem setJump_length (l : List IRInst) : ∀ (i : Nat) (t : Int),
    (setJump l i t).length = l.length := by
  induction l with
  | nil => intro i t; rfl
  | cons x xs ih =>
    intro i t
    cases i with
    | zero => rfl
    | succ i => simp [setJump, ih]

theorem setJump_append_left (a b : List IRInst) : ∀ (i : Nat) (t : Int), i < a.length →
    setJump (a ++ b) i t = setJump a i t ++ b := by
  induction a with
  | nil => intro i t h; simp at h
  | cons x xs ih =>
    intro i t h
    cases i with
    | zero => rfl
    | succ i =>
      simp only [List.cons_append, setJump, List.cons.injEq, true_and]
      exact ih i t (by simpa using h)

theorem setJump_append_right (a b : List IRInst) : ∀ (i : Nat) (t : Int),
    setJump (a ++ b) (a.length + i) t = a ++ setJump b i t := by
  induction a with
  | nil => intro i t; simp
  | cons x xs ih =>
    intro i t
    have : (x :: xs).length + i = (xs.length + i) + 1 := by simp; omega
    rw [this]
    simp only [List.cons_append, setJump, List.cons.injEq, true_and]
    exact ih i t

/-! ## The parser builds a linked block -/

theorem stackOf_length (fs : Frames) : (stackOf fs).length = fs.length := by
  induction fs with
  | nil => rfl
  | cons f fs ih => obtain ⟨c, b⟩ := f; simp [stackOf, ih]


theorem ParseInv_init : ParseInv [] [] :=
  ⟨[], .nil, rfl, rfl, trivial, trivial, trivial⟩

theorem ParseInv_simple (program : List IRInst) (st : List Nat) (x : IRInst)
    (h1 : x.type ≠ .LoopBegin) (h2 : x.type ≠ .LoopEnd) (h : ParseInv program st) :
    ParseInv (program ++ [x]) st := by
  obtain ⟨fs, cur, hp, hs, hf, hw, hl⟩ := h
  refine ⟨fs, cur.append (.op x .nil), ?_, hs, hf, ?_, ?_⟩
  · simp [hp]
  · rw [Code.WF_append]; exact ⟨hw, h1, h2, trivial⟩
  · rw [Code.Linked_append]; exact ⟨hl, trivial⟩

theorem ParseInv_open (program : List IRInst) (st : List Nat) (b : IRInst)
    (hb : b.type = .LoopBegin) (h : ParseInv program st) :
    ParseInv (program ++ [b]) (program.length :: st) := by
  obtain ⟨fs, cur, hp, hs, hf, hw, hl⟩ := h
  refine ⟨(cur, b) :: fs, .nil, ?_, ?_, ⟨hw, hl, hb, hf⟩, trivial, trivial⟩
  · simp [hp, prefixFlat]
  · simp [stackOf, hp, hs, Code.size]

theorem ParseInv_close (program : List IRInst) (opn : Nat) (rest : List Nat)
    (h : ParseInv program (opn :: rest)) :
    ParseInv (setJump (program ++ [⟨.LoopEnd, 0, (opn : Int)⟩]) opn
      (((program ++ [(⟨.LoopEnd, 0, (opn : Int)⟩ : IRInst)]).length : Int) - 1)) rest := by
  obtain ⟨fs, cur, hp, hs, hf, hw, hl⟩ := h
  cases fs with
  | nil => simp [stackOf] at hs
  | cons f fs =>
    obtain ⟨c0, b⟩ := f
    obtain ⟨hw0, hl0, hb, hf0⟩ := hf
    simp only [stackOf, List.cons.injEq] at hs
    obtain ⟨hopn, hrest⟩ := hs
    have hlen : (prefixFlat fs ++ c0.flatten).length = opn := by
      rw [hopn]; simp [Code.size]
    refine ⟨fs, c0.append (.loop { b with jump_target := (program.length : Int) }
      ⟨.LoopEnd, 0, (opn : Int)⟩ cur .nil), ?_, hrest, hf0, ?_, ?_⟩
    · have e1 : program ++ [(⟨.LoopEnd, 0, (opn : Int)⟩ : IRInst)] =
          (prefixFlat fs ++ c0.flatten) ++
            (b :: (cur.flatten ++ [(⟨.LoopEnd, 0, (opn : Int)⟩ : IRInst)])) := by
        simp [hp, prefixFlat]
      have e2 : ((program ++ [(⟨.LoopEnd, 0, (opn : Int)⟩ : IRInst)]).length : Int) - 1 =
          (program.length : Int) := by simp
      rw [e2, e1]
      have := setJump_append_right (prefixFlat fs ++ c0.flatten)
        (b :: (cur.flatten ++ [(⟨.LoopEnd, 0, (opn : Int)⟩ : IRInst)])) 0 (program.length : Int)
      rw [hlen] at this
      simp only [add_zero] at this
      rw [this]
      simp [setJump]
    · rw [Code.WF_append]
      exact ⟨hw0, hb, rfl, hw, trivial⟩
    · rw [Code.Linked_append]
      refine ⟨hl0, ?_, ?_, ?_, trivial⟩
      · simp only [hp, prefixFlat, Code.size, List.length_append, List.length_singleton]
      · simp [hopn]
      · have : (prefixFlat ((c0, b) :: fs)).length = (prefixFlat fs).length + c0.size + 1 := by
          simp [prefixFlat, Code.size]; omega
        rw [this] at hl
        exact hl

theorem parseLoop_tree (ts : List Char) : ∀ (program : List IRInst) (st : List Nat)
    (p : List IRInst), ParseInv program st → parseLoop ts program st = .ok p →
      ∃ c : Code, p = c.flatten ∧ c.WF ∧ c.Linked 0 := by
  induction ts with
  | nil =>
    intro program st p hinv h
    obtain ⟨fs, cur, hp, hs, hf, hw, hl⟩ := hinv
    cases fs with
    | nil =>
      simp only [parseLoop, hs, stackOf, List.isEmpty_nil, if_true, Except.ok.injEq] at h
      subst h
      exact ⟨cur, by simp [hp, prefixFlat], hw, by simpa [prefixFlat] using hl⟩
    | cons f fs =>
      obtain ⟨c0, b⟩ := f
      simp [parseLoop, hs, stackOf] at h
  | cons c cs ih =>
    intro program st p hinv h
    simp only [parseLoop] at h
    split_ifs at h
    · exact ih _ _ _ (ParseInv_simple _ _ _ (by simp) (by simp) hinv) h
    · exact ih _ _ _ (ParseInv_simple _ _ _ (by simp) (by simp) hinv) h
    · exact ih _ _ _ (ParseInv_simple _ _ _ (by simp) (by simp) hinv) h
    · exact ih _ _ _ (ParseInv_simple _ _ _ (by simp) (by simp) hinv) h
    · exact ih _ _ _ (ParseInv_simple _ _ _ (by simp) (by simp) hinv) h
    · exact ih _ _ _ (ParseInv_simple _ _ _ (by simp) (by simp) hinv) h
    · exact ih _ _ _ (ParseInv_open _ _ _ rfl hinv) h
    · cases st with
      | nil => simp at h
      | cons opn rest =>
        exact ih _ _ _ (ParseInv_close _ _ _ hinv) h
    · exact ih _ _ _ hinv h

theorem parse_tree (ts : List Char) (p : List IRInst) (h : parse ts = .ok p) :
    ∃ c : Code, p = c.flatten ∧ c.WF ∧ c.Linked 0 :=
  parseLoop_tree ts [] [] p ParseInv_init h

/-! ## The jump invariant of a linked block -/

theorem lt_of_getElem? {α : Type} (l : List α) (i : Nat) (x : α) (h : l[i]? = some x) :
    i < l.length := by
  by_contra hge
  rw [List.getElem?_eq_none (by omega)] at h
  cases h

theorem balancedFrom_flatten (c : Code) : c.WF → ∀ (d : Nat) (rest : List IRInst),
    balancedFrom d (c.flatten ++ rest) = balancedFrom d rest := by
  induction c with
  | nil => intro _ d rest; rfl
  | op i r ih =>
    intro h d rest
    obtain ⟨h1, h2, h3⟩ := h
    simp only [Code.flatten_op, List.cons_append, balancedFrom, h1, h2, if_false]
    exact ih h3 d rest
  | loop b e body r ihb ihr =>
    intro h d rest
    obtain ⟨h1, h2, h3, h4⟩ := h
    have hne : e.type ≠ .LoopBegin := by rw [h2]; decide
    simp only [Code.flatten_loop, List.cons_append, List.append_assoc, balancedFrom, h1, if_true,
      List.append_eq]
    rw [ihb h3]
    simp only [balancedFrom, hne, h2, if_false, if_true]
    exact ihr h4 d rest

theorem balanced_flatten (c : Code) (h : c.WF) : Balanced c.flatten := by
  have := balancedFrom_flatten c h 0 []
  simpa [Balanced, balancedFrom] using this

theorem LinkInv_nil (o : Nat) : LinkInv o [] := by
  constructor <;> intro i x h <;> simp at h

theorem LinkInv_single (o : Nat) (x : IRInst) (h1 : x.type ≠ .LoopBegin)
    (h2 : x.type ≠ .LoopEnd) : LinkInv o [x] := by
  constructor
  · intro i y hy ht
    have hi := lt_of_getElem? _ _ _ hy
    simp only [List.length_singleton, Nat.lt_one_iff] at hi
    subst hi
    simp only [List.getElem?_cons_zero, Option.some.injEq] at hy
    subst hy
    exact absurd ht h1
  · intro i y hy ht
    have hi := lt_of_getElem? _ _ _ hy
    simp only [List.length_singleton, Nat.lt_one_iff] at hi
    subst hi
    simp only [List.getElem?_cons_zero, Option.some.injEq] at hy
    subst hy
    exact absurd ht h2

theorem LinkInv_append (o : Nat) (a b : List IRInst) (ha : LinkInv o a)
    (hb : LinkInv (o + a.length) b) : LinkInv o (a ++ b) := by
  constructor
  · intro i x hx ht
    by_cases hi : i < a.length
    · rw [List.getElem?_append_left hi] at hx
      obtain ⟨j, y, h1, h2, h3, h4, h5, h6⟩ := ha.1 i x hx ht
      have hj := lt_of_getElem? _ _ _ h3
      refine ⟨j, y, h1, h2, ?_, h4, h5, ?_⟩
      · rw [List.getElem?_append_left hj]; exact h3
      · rw [List.take_append_of_le_length (le_of_lt hj)]; exact h6
    · push_neg at hi
      rw [List.getElem?_append_right hi] at hx
      obtain ⟨j, y, h1, h2, h3, h4, h5, h6⟩ := hb.1 (i - a.length) x hx ht
      refine ⟨a.length + j, y, ?_, by omega, ?_, h4, ?_, ?_⟩
      · rw [h1]; congr 1; omega
      · rw [List.getElem?_append_right (by omega)]
        simpa using h3
      · rw [h5]; congr 1; omega
      · have e : i + 1 = a.length + (i - a.length + 1) := by omega
        rw [List.take_append, e, List.drop_append]
        exact h6
  · intro j y hy ht
    by_cases hj : j < a.length
    · rw [List.getElem?_append_left hj] at hy
      obtain ⟨i, x, h1, h2, h3, h4, h5⟩ := ha.2 j y hy ht
      refine ⟨i, x, h1, h2, ?_, h4, h5⟩
      rw [List.getElem?_append_left (by omega)]; exact h3
    · push_neg at hj
      rw [List.getElem?_append_right hj] at hy
      obtain ⟨i, x, h1, h2, h3, h4, h5⟩ := hb.2 (j - a.length) y hy ht
      refine ⟨a.length + i, x, ?_, by omega, ?_, h4, ?_⟩
      · rw [h1]; congr 1; omega
      · rw [List.getElem?_append_right (by omega)]
        simpa using h3
      · rw [h5]; congr 1; omega

theorem LinkInv_loop (o : Nat) (b e : IRInst) (body : List IRInst)
    (hb : b.type = .LoopBegin) (he : e.type = .LoopEnd)
    (hjb : b.jump_target = ((o + 1 + body.length : Nat) : Int))
    (hje : e.jump_target = (o : Int)) (hbody : LinkInv (o + 1) body)
    (hbal : Balanced body) : LinkInv o (b :: (body ++ [e])) := by
  have hlast : (body ++ [e])[body.length]? = some e := by
    rw [List.getElem?_append_right (le_refl _)]; simp
  constructor
  · intro i x hx ht
    cases i with
    | zero =>
      simp only [List.getElem?_cons_zero, Option.some.injEq] at hx
      subst hx
      refine ⟨body.length + 1, e, ?_, by omega, ?_, he, by simpa using hje, ?_⟩
      · rw [hjb]; congr 1; omega
      · simp
      · simpa [List.take_append_of_le_length] using hbal
    | succ i =>
      simp only [List.getElem?_cons_succ] at hx
      by_cases hi : i < body.length
      · rw [List.getElem?_append_left hi] at hx
        obtain ⟨j, y, h1, h2, h3, h4, h5, h6⟩ := hbody.1 i x hx ht
        have hj := lt_of_getElem? _ _ _ h3
        refine ⟨j + 1, y, ?_, by omega, ?_, h4, ?_, ?_⟩
        · rw [h1]; congr 1; omega
        · simp only [List.getElem?_cons_succ]
          rw [List.getElem?_append_left hj]; exact h3
        · rw [h5]; congr 1; omega
        · simp only [List.take_succ_cons, List.drop_succ_cons]
          rw [List.take_append_of_le_length (le_of_lt hj)]; exact h6
      · push_neg at hi
        rw [List.getElem?_append_right hi] at hx
        have hlt := lt_of_getElem? _ _ _ hx
        simp only [List.length_singleton, Nat.lt_one_iff] at hlt
        rw [hlt] at hx
        simp only [List.getElem?_cons_zero, Option.some.injEq] at hx
        subst hx
        rw [he] at ht
        cases ht
  · intro j y hy ht
    cases j with
    | zero =>
      simp only [List.getElem?_cons_zero, Option.some.injEq] at hy
      subst hy
      rw [hb] at ht
      cases ht
    | succ j =>
      simp only [List.getElem?_cons_succ] at hy
      by_cases hj : j < body.length
      · rw [List.getElem?_append_left hj] at hy
        obtain ⟨i, x, h1, h2, h3, h4, h5⟩ := hbody.2 j y hy ht
        refine ⟨i + 1, x, ?_, by omega, ?_, h4, ?_⟩
        · rw [h1]; congr 1; omega
        · simp only [List.getElem?_cons_succ]
          rw [List.getElem?_append_left (by omega)]; exact h3
        · rw [h5]; congr 1; omega
      · push_neg at hj
        rw [List.getElem?_append_right hj] at hy
        have hlt := lt_of_getElem? _ _ _ hy
        simp only [List.length_singleton, Nat.lt_one_iff] at hlt
        rw [hlt] at hy
        simp only [List.getElem?_cons_zero, Option.some.injEq] at hy
        subst hy
        refine ⟨0, b, by simpa using hje, by omega, by simp, hb, ?_⟩
        rw [hjb]; congr 1; omega

theorem linkInv_flatten (c : Code) : ∀ o, c.WF → c.Linked o → LinkInv o c.flatten := by
  induction c with
  | nil => intro o _ _; exact LinkInv_nil o
  | op i r ih =>
    intro o hw hl
    obtain ⟨h1, h2, h3⟩ := hw
    have := LinkInv_append o [i] r.flatten (LinkInv_single o i h1 h2) (ih (o + 1) h3 hl)
    simpa using this
  | loop b e body r ihb ihr =>
    intro o hw hl
    obtain ⟨h1, h2, h3, h4⟩ := hw
    obtain ⟨l1, l2, l3, l4⟩ := hl
    have hloop := LinkInv_loop o b e body.flatten h1 h2 l1 l2 (ihb (o + 1) h3 l3)
      (balanced_flatten body h3)
    have hrest : LinkInv (o + (b :: (body.flatten ++ [e])).length) r.flatten := by
      have e1 : o + (b :: (body.flatten ++ [e])).length = o + 2 + body.size := by
        simp [Code.size]; omega
      rw [e1]; exact ihr _ h4 l4
    have := LinkInv_append o _ _ hloop hrest
    simpa using this

theorem jumpInvariant_flatten (c : Code) (hw : c.WF) (hl : c.Linked 0) :
    JumpInvariant c.flatten := by
  obtain ⟨h1, h2⟩ := linkInv_flatten c 0 hw hl
  refine ⟨?_, ?_, balanced_flatten c hw⟩
  · intro i x hx ht
    obtain ⟨j, y, a1, a2, a3, a4, a5, a6⟩ := h1 i x hx ht
    exact ⟨j, y, by simpa using a1, a2, lt_of_getElem? _ _ _ a3, a3, a4, by simpa using a5, a6⟩
  · intro j y hy ht
    obtain ⟨i, x, a1, a2, a3, a4, a5⟩ := h2 j y hy ht
    exact ⟨i, x, by simpa using a1, a2, a3, a4, by simpa using a5⟩

/-- C2. A program returned by `parse` satisfies the jump invariant: the brackets
of every loop hold each other's index, the `LoopBegin` first, the instructions
between them are bracket-balanced, and no `LoopBegin` keeps the value `-1`. -/
theorem parse_jump_invariant (ts : List Char) (p : List IRInst) (h : parse ts = .ok p) :
    JumpInvariant p ∧ ∀ x ∈ p, x.type = .LoopBegin → x.jump_target ≠ -1 := by
  obtain ⟨c, hc, hw, hl⟩ := parse_tree ts p h
  subst hc
  have hinv := jumpInvariant_flatten c hw hl
  refine ⟨hinv, ?_⟩
  intro x hx ht
  obtain ⟨i, hi⟩ := List.getElem?_of_mem hx
  obtain ⟨j, y, a1, _⟩ := hinv.1 i x hi ht
  rw [a1]
  omega

theorem parse_jump_invariant_witness :
    parse ['[', '-', ']'] = .ok [⟨.LoopBegin, 0, 2⟩, ⟨.AddVal, -1, -1⟩, ⟨.LoopEnd, 0, 0⟩] ∧
    (JumpInvariant [⟨.LoopBegin, 0, 2⟩, ⟨.AddVal, -1, -1⟩, ⟨.LoopEnd, 0, 0⟩] ∧
      ∀ x ∈ [(⟨.LoopBegin, 0, 2⟩ : IRInst), ⟨.AddVal, -1, -1⟩, ⟨.LoopEnd, 0, 0⟩],
        x.type = .LoopBegin → x.jump_target ≠ -1) :=
  ⟨rfl, parse_jump_invariant ['[', '-', ']'] _ rfl⟩

/-! ## Pass A on a block -/

namespace Code

@[simp] theorem flatten_ofList (l : List IRInst) : (ofList l).flatten = l := by
  induction l with
  | nil => rfl
  | cons x xs ih => simp [ofList, ih]

theorem WF_ofList (l : List IRInst)
    (h : ∀ x ∈ l, x.type ≠ .LoopBegin ∧ x.type ≠ .LoopEnd) : (ofList l).WF := by
  induction l with
  | nil => trivial
  | cons x xs ih =>
    exact ⟨(h x (by simp)).1, (h x (by simp)).2, ih (fun y hy => h y (by simp [hy]))⟩

end Code

theorem mergeStep_barrier (acc : List IRInst) (x : IRInst)
    (h : ¬ (x.type = .MovePtr ∨ x.type = .AddVal)) : mergeStep acc x = x :: acc := by
  cases acc with
  | nil => rfl
  | cons b bs => simp [mergeStep, h]

theorem mergeStep_append (t acc : List IRInst) (x y : IRInst)
    (h : ¬ (x.type = .MovePtr ∨ x.type = .AddVal)) :
    mergeStep (t ++ x :: acc) y = mergeStep t y ++ x :: acc := by
  cases t with
  | nil =>
    have : ¬ (x.type = y.type ∧ (y.type = .MovePtr ∨ y.type = .AddVal)) := by
      rintro ⟨h1, h2⟩; rw [← h1] at h2; exact h h2
    simp [mergeStep, this]
  | cons b bs =>
    simp only [mergeStep, List.cons_append]
    split_ifs <;> rfl

theorem foldl_mergeStep_append (l : List IRInst) : ∀ (t acc : List IRInst) (x : IRInst),
    ¬ (x.type = .MovePtr ∨ x.type = .AddVal) →
      l.foldl mergeStep (t ++ x :: acc) = l.foldl mergeStep t ++ x :: acc := by
  induction l with
  | nil => intro t acc x _; rfl
  | cons y ys ih =>
    intro t acc x h
    simp only [List.foldl_cons]
    rw [mergeStep_append t acc x y h]
    exact ih _ acc x h

theorem foldl_mergeStep_barrier (l : List IRInst) (acc : List IRInst) (x : IRInst)
    (h : ¬ (x.type = .MovePtr ∨ x.type = .AddVal)) :
    (x :: l).foldl mergeStep acc = l.foldl mergeStep [] ++ x :: acc := by
  simp only [List.foldl_cons]
  rw [mergeStep_barrier acc x h]
  exact foldl_mergeStep_append l [] acc x h

theorem flatten_mergeRun (c : Code) : c.WF → ∀ t : List IRInst,
    (Code.mergeRun t c).flatten = (c.flatten.foldl mergeStep t).reverse := by
  induction c with
  | nil => intro _ t; simp [Code.mergeRun]
  | op x r ih =>
    intro hw t
    obtain ⟨_, _, h3⟩ := hw
    by_cases hx : x.type = .MovePtr ∨ x.type = .AddVal
    · simp only [Code.mergeRun, hx, if_true, Code.flatten_op, List.foldl_cons]
      exact ih h3 _
    · simp only [Code.mergeRun, hx, if_false, Code.flatten_op, Code.flatten_append,
        Code.flatten_ofList]
      rw [foldl_mergeStep_barrier _ _ _ hx, ih h3]
      simp
  | loop b e body r ihb ihr =>
    intro hw t
    obtain ⟨h1, h2, h3, h4⟩ := hw
    have hb : ¬ (b.type = .MovePtr ∨ b.type = .AddVal) := by rw [h1]; decide
    have he : ¬ (e.type = .MovePtr ∨ e.type = .AddVal) := by rw [h2]; decide
    simp only [Code.mergeRun, Code.flatten_loop, Code.flatten_append, Code.flatten_ofList]
    rw [foldl_mergeStep_barrier _ _ _ hb, List.foldl_append, foldl_mergeStep_barrier _ _ _ he,
      ihb h3, ihr h4]
    simp

theorem merge_flatten (c : Code) (hw : c.WF) :
    merge_consecutive c.flatten = (Code.mergeRun [] c).flatten := by
  rw [flatten_mergeRun c hw]; rfl

theorem mergeStep_plain (t : List IRInst) (x : IRInst)
    (ht : ∀ y ∈ t, y.type ≠ .LoopBegin ∧ y.type ≠ .LoopEnd)
    (hx : x.type ≠ .LoopBegin ∧ x.type ≠ .LoopEnd) :
    ∀ y ∈ mergeStep t x, y.type ≠ .LoopBegin ∧ y.type ≠ .LoopEnd := by
  cases t with
  | nil => intro y hy; simp only [mergeStep, List.mem_singleton] at hy; subst hy; exact hx
  | cons b bs =>
    intro y hy
    simp only [mergeStep] at hy
    split_ifs at hy
    · exact ht y (by simp [hy])
    · simp only [List.mem_cons] at hy
      rcases hy with hy | hy
      · subst hy; exact ht b (by simp)
      · exact ht y (by simp [hy])
    · simp only [List.mem_cons] at hy
      rcases hy with hy | hy | hy
      · subst hy; exact hx
      · subst hy; exact ht _ (by simp)
      · exact ht y (by simp [hy])

theorem WF_mergeRun (c : Code) : c.WF → ∀ t : List IRInst,
    (∀ y ∈ t, y.type ≠ .LoopBegin ∧ y.type ≠ .LoopEnd) → (Code.mergeRun t c).WF := by
  induction c with
  | nil =>
    intro _ t ht
    exact Code.WF_ofList _ (fun x hx => ht x (by simpa using hx))
  | op x r ih =>
    intro hw t ht
    obtain ⟨h1, h2, h3⟩ := hw
    by_cases hx : x.type = .MovePtr ∨ x.type = .AddVal
    · simp only [Code.mergeRun, hx, if_true]
      exact ih h3 _ (mergeStep_plain t x ht ⟨h1, h2⟩)
    · simp only [Code.mergeRun, hx, if_false]
      rw [Code.WF_append]
      exact ⟨Code.WF_ofList _ (fun x hx => ht x (by simpa using hx)), h1, h2,
        ih h3 [] (by simp)⟩
  | loop b e body r ihb ihr =>
    intro hw t ht
    obtain ⟨h1, h2, h3, h4⟩ := hw
    simp only [Code.mergeRun]
    rw [Code.WF_append]
    exact ⟨Code.WF_ofList _ (fun x hx => ht x (by simpa using hx)), h1, h2,
      ihb h3 [] (by simp), ihr h4 [] (by simp)⟩

/-! ## Pass B on a block -/

theorem detect_set_zero_cons (a : IRInst) (l : List IRInst) (h : ¬ zeroLoopAt (a :: l)) :
    detect_set_zero (a :: l) = a :: detect_set_zero l := by
  match l with
  | [] => rfl
  | [b] => rfl
  | b :: c :: rest =>
    rw [detect_set_zero]
    exact if_neg h

theorem detect_set_zero_match (a b c : IRInst) (l : List IRInst)
    (h : zeroLoopAt (a :: b :: c :: l)) :
    detect_set_zero (a :: b :: c :: l) = ⟨.SetZero, 0, -1⟩ :: detect_set_zero l := by
  rw [detect_set_zero]
  exact if_pos h

theorem not_zeroLoopAt_of_head (a : IRInst) (l : List IRInst) (h : a.type ≠ .LoopBegin) :
    ¬ zeroLoopAt (a :: l) := by
  match l with
  | [] => exact id
  | [b] => exact id
  | b :: c :: rest => exact fun hz => h hz.1

theorem zeroLoopAt_flatten_loop (b e : IRInst) (body : Code) (tail : List IRInst)
    (hw : body.WF) (he : e.type = .LoopEnd) (hb : b.type = .LoopBegin) :
    zeroLoopAt (b :: (body.flatten ++ e :: tail)) ↔ body.isUnit = true := by
  cases body with
  | nil =>
    simp only [Code.flatten_nil, List.nil_append, Code.isUnit]
    cases tail with
    | nil => simp [zeroLoopAt]
    | cons t ts => simp [zeroLoopAt, he]
  | op a r =>
    cases r with
    | nil => simp [zeroLoopAt, Code.isUnit, hb, he]
    | op a2 r2 =>
      have := hw.2.2.2.1
      simp [zeroLoopAt, Code.isUnit, this]
    | loop b2 e2 body2 r2 =>
      have := hw.2.2.1
      simp [zeroLoopAt, Code.isUnit, this]
  | loop b2 e2 body2 r2 =>
    have := hw.1
    cases body2 with
    | nil => simp [zeroLoopAt, Code.isUnit, this]
    | op _ _ => simp [zeroLoopAt, Code.isUnit, this]
    | loop _ _ _ _ => simp [zeroLoopAt, Code.isUnit, this]

theorem dsz_flatten_append (c : Code) : c.WF → ∀ tail : List IRInst,
    detect_set_zero (c.flatten ++ tail) = (Code.zeroLoops c).flatten ++ detect_set_zero tail := by
  induction c with
  | nil => intro _ tail; rfl
  | op x r ih =>
    intro hw tail
    obtain ⟨h1, _, h3⟩ := hw
    simp only [Code.flatten_op, List.cons_append, Code.zeroLoops]
    rw [detect_set_zero_cons _ _ (not_zeroLoopAt_of_head _ _ h1), ih h3]
  | loop b e body r ihb ihr =>
    intro hw tail
    obtain ⟨h1, h2, h3, h4⟩ := hw
    have hne : e.type ≠ .LoopBegin := by rw [h2]; decide
    have hz := zeroLoopAt_flatten_loop b e body (r.flatten ++ tail) h3 h2 h1
    by_cases hu : body.isUnit = true
    · simp only [Code.zeroLoops, hu, if_true, Code.flatten_op]
      have hz2 := hz.2 hu
      cases body with
      | nil => simp [Code.isUnit] at hu
      | loop _ _ _ _ => simp [Code.isUnit] at hu
      | op a r2 =>
        cases r2 with
        | op _ _ => simp [Code.isUnit] at hu
        | loop _ _ _ _ => simp [Code.isUnit] at hu
        | nil =>
          simp only [Code.flatten_loop, Code.flatten_op, Code.flatten_nil, List.cons_append,
            List.nil_append, List.append_assoc] at hz2 ⊢
          rw [detect_set_zero_match _ _ _ _ hz2, ihr h4]
    · simp only [Code.zeroLoops, hu, Code.flatten_loop, List.cons_append, List.append_assoc]
      have hz2 : ¬ zeroLoopAt (b :: (body.flatten ++ e :: (r.flatten ++ tail))) :=
        fun h => hu (hz.1 h)
      simp only [Bool.false_eq_true, if_false, Code.flatten_loop, List.cons_append,
        List.append_assoc]
      rw [detect_set_zero_cons _ _ hz2, ihb h3,
        detect_set_zero_cons _ _ (not_zeroLoopAt_of_head _ _ hne), ihr h4]

theorem dsz_flatten (c : Code) (hw : c.WF) :
    detect_set_zero c.flatten = (Code.zeroLoops c).flatten := by
  have := dsz_flatten_append c hw []
  simpa [detect_set_zero] using this

theorem WF_zeroLoops (c : Code) : c.WF → (Code.zeroLoops c).WF := by
  induction c with
  | nil => intro _; trivial
  | op x r ih => intro hw; exact ⟨hw.1, hw.2.1, ih hw.2.2⟩
  | loop b e body r ihb ihr =>
    intro hw
    obtain ⟨h1, h2, h3, h4⟩ := hw
    simp only [Code.zeroLoops]
    split_ifs
    · exact ⟨by decide, by decide, ihr h4⟩
    · exact ⟨h1, h2, ihb h3, ihr h4⟩

/-! ## Pass C on a block -/

theorem skipDead_flatten (c : Code) : c.WF → ∀ (d : Int) (tail : List IRInst), 0 < d →
    skipDead d (c.flatten ++ tail) = skipDead d tail := by
  induction c with
  | nil => intro _ d tail _; rfl
  | op x r ih =>
    intro hw d tail hd
    obtain ⟨h1, h2, h3⟩ := hw
    simp only [Code.flatten_op, List.cons_append, skipDead, hd, if_true, h1, h2, if_false]
    exact ih h3 d tail hd
  | loop b e body r ihb ihr =>
    intro hw d tail hd
    obtain ⟨h1, h2, h3, h4⟩ := hw
    have hne : e.type ≠ .LoopBegin := by rw [h2]; decide
    have hne2 : ¬ (IRType.LoopBegin = IRType.LoopEnd) := by decide
    simp only [Code.flatten_loop, List.cons_append, List.append_assoc, skipDead, hd, if_true, h1,
      hne2, if_false, List.append_eq]
    rw [ihb h3 _ _ (by omega)]
    have hd1 : d + 1 > 0 := by omega
    have hne3 : ¬ (IRType.LoopEnd = IRType.LoopBegin) := by decide
    simp only [skipDead, hd1, if_true, hne, hne3, if_false, h2]
    have : d + 1 - 1 = d := by omega
    rw [this]
    exact ihr h4 d tail hd

theorem edc_flatten (c : Code) : c.WF →
    eliminate_dead_code c.flatten = (Code.dropDead c).flatten := by
  unfold eliminate_dead_code
  induction c with
  | nil => intro _; rfl
  | op x r _ =>
    intro hw
    have : ¬ ((0 : Int) > 0) := by decide
    simp [Code.dropDead, skipDead, hw.1]
  | loop b e body r _ ihr =>
    intro hw
    obtain ⟨h1, h2, h3, h4⟩ := hw
    have hne : e.type ≠ .LoopBegin := by rw [h2]; decide
    have h0 : ¬ ((0 : Int) > 0) := by decide
    have h1' : (1 : Int) > 0 := by decide
    simp only [Code.flatten_loop, Code.dropDead, skipDead, h0, if_false, h1, if_true]
    rw [skipDead_flatten body h3 1 _ (by decide)]
    have hne3 : ¬ (IRType.LoopEnd = IRType.LoopBegin) := by decide
    simp only [skipDead, h1', if_true, hne, hne3, if_false, h2]
    exact ihr h4

theorem WF_dropDead (c : Code) : c.WF → (Code.dropDead c).WF := by
  induction c with
  | nil => intro _; trivial
  | op x r _ => intro hw; exact hw
  | loop b e body r _ ihr => intro hw; exact ihr hw.2.2.2

theorem dropDead_head (c : Code) : c.WF →
    Code.dropDead c = .nil ∨ ∃ x r, Code.dropDead c = .op x r := by
  induction c with
  | nil => intro _; exact Or.inl rfl
  | op x r _ => intro _; exact Or.inr ⟨x, r, rfl⟩
  | loop b e body r _ ihr => intro hw; exact ihr hw.2.2.2

/-! ## Pass D on a block -/

theorem getElem?_append_cons {α : Type} (pre post : List α) (x : α) :
    (pre ++ x :: post)[pre.length]? = some x := by
  rw [List.getElem?_append_right (le_refl _)]; simp

theorem setJump_mid (pre post : List IRInst) (x : IRInst) (t : Int) :
    setJump (pre ++ x :: post) pre.length t = pre ++ { x with jump_target := t } :: post := by
  have := setJump_append_right pre (x :: post) 0 t
  simpa [setJump] using this

theorem setJump_two (pre B T : List IRInst) (b e : IRInst) (t1 t2 : Int) :
    setJump (setJump (pre ++ (b :: (B ++ e :: T))) (pre.length + 1 + B.length) t1)
      pre.length t2 =
    pre ++ ({ b with jump_target := t2 } :: (B ++ { e with jump_target := t1 } :: T)) := by
  have e1 : pre ++ (b :: (B ++ e :: T)) = (pre ++ b :: B) ++ e :: T := by simp
  have e2 : pre.length + 1 + B.length = (pre ++ b :: B).length := by simp; omega
  rw [e1, e2, setJump_mid]
  have e3 : (pre ++ b :: B) ++ { e with jump_target := t1 } :: T =
      pre ++ b :: (B ++ { e with jump_target := t1 } :: T) := by simp
  rw [e3, setJump_mid]

theorem recomputeLoop_step (n i : Nat) (program : List IRInst) (st : List Nat) (inst : IRInst)
    (h : program[i]? = some inst) :
    recomputeLoop (n + 1) i program st =
      if inst.type = .LoopBegin then recomputeLoop n (i + 1) program (i :: st)
      else if inst.type = .LoopEnd then
        match st with
        | [] => none
        | opn :: rest =>
          recomputeLoop n (i + 1) (setJump (setJump program i (opn : Int)) opn (i : Int)) rest
      else recomputeLoop n (i + 1) program st := by
  simp only [recomputeLoop, h]

theorem recomputeLoop_flatten (c : Code) : c.WF →
    ∀ (pre post : List IRInst) (st : List Nat) (m : Nat),
      recomputeLoop (c.size + m) pre.length (pre ++ (c.flatten ++ post)) st =
        recomputeLoop m (pre.length + c.size)
          (pre ++ ((Code.relink pre.length c).flatten ++ post)) st := by
  induction c with
  | nil => intro _ pre post st m; simp [Code.relink]
  | op x r ih =>
    intro hw pre post st m
    obtain ⟨h1, h2, h3⟩ := hw
    have hn : (Code.op x r).size + m = (r.size + m) + 1 := by simp; omega
    rw [hn]
    simp only [Code.flatten_op, List.cons_append, Code.relink]
    rw [recomputeLoop_step _ _ _ _ _ (getElem?_append_cons _ _ _), if_neg h1, if_neg h2]
    have := ih h3 (pre ++ [x]) post st m
    simp only [List.length_append, List.length_singleton, List.append_assoc,
      List.singleton_append] at this
    rw [this]
    congr 1
    simp; omega
  | loop b e body r ihb ihr =>
    intro hw pre post st m
    obtain ⟨h1, h2, h3, h4⟩ := hw
    have hne : e.type ≠ .LoopBegin := by rw [h2]; decide
    have hn : (Code.loop b e body r).size + m = (body.size + (r.size + 1 + m)) + 1 := by
      simp; omega
    rw [hn]
    simp only [Code.flatten_loop, List.cons_append, List.append_assoc, Code.relink]
    rw [recomputeLoop_step _ _ _ _ _ (getElem?_append_cons _ _ _), if_pos h1]
    have hb := ihb h3 (pre ++ [b]) (e :: (r.flatten ++ post)) (pre.length :: st) (r.size + 1 + m)
    simp only [List.length_append, List.length_singleton, List.append_assoc,
      List.singleton_append] at hb
    rw [hb]
    have hB : ((Code.relink (pre.length + 1) body).flatten).length = body.size :=
      Code.size_relink body _
    have hlen : pre.length + 1 + body.size =
        (pre ++ b :: (Code.relink (pre.length + 1) body).flatten).length := by
      simp only [List.length_append, List.length_cons, hB]
      omega
    have hget : (pre ++ b :: ((Code.relink (pre.length + 1) body).flatten ++
        e :: (r.flatten ++ post)))[pre.length + 1 + body.size]? = some e := by
      have := getElem?_append_cons (pre ++ b :: (Code.relink (pre.length + 1) body).flatten)
        (r.flatten ++ post) e
      rw [← hlen] at this
      simpa using this
    have hn2 : r.size + 1 + m = (r.size + m) + 1 := by omega
    rw [hn2, recomputeLoop_step _ _ _ _ _ hget, if_neg hne, if_pos h2]
    have htwo := setJump_two pre (Code.relink (pre.length + 1) body).flatten (r.flatten ++ post)
      b e (pre.length : Int) ((pre.length + 1 + body.size : Nat) : Int)
    rw [hB] at htwo
    show recomputeLoop (r.size + m) (pre.length + 1 + body.size + 1)
        (setJump
          (setJump (pre ++ b :: ((Code.relink (pre.length + 1) body).flatten ++
            e :: (r.flatten ++ post))) (pre.length + 1 + body.size) (pre.length : Int))
          pre.length ((pre.length + 1 + body.size : Nat) : Int)) st = _
    rw [htwo]
    have hr := ihr h4 (pre ++ { b with jump_target := ((pre.length + 1 + body.size : Nat) : Int) } ::
      ((Code.relink (pre.length + 1) body).flatten ++ [{ e with jump_target := (pre.length : Int) }]))
      post st m
    simp only [List.length_append, List.length_cons, List.length_singleton, List.append_assoc,
      List.cons_append, List.singleton_append, List.nil_append, hB, List.length_nil,
      zero_add] at hr
    have e1 : pre.length + (body.size + 1 + 1) = pre.length + 2 + body.size := by omega
    have e2 : pre.length + 1 + body.size + 1 = pre.length + 2 + body.size := by omega
    have e3 : pre.length + (body.size + r.size + 2) = pre.length + 2 + body.size + r.size := by
      omega
    rw [e1] at hr
    rw [e2, hr, Code.size_loop, e3]

theorem recompute_flatten (c : Code) (hw : c.WF) :
    recompute_jumps c.flatten = some (Code.relink 0 c).flatten := by
  have := recomputeLoop_flatten c hw [] [] [] 0
  simp only [List.nil_append, List.append_nil, add_zero, List.length_nil, zero_add] at this
  unfold recompute_jumps
  rw [← Code.size, this]
  rfl

theorem optimize_flatten (c : Code) (hw : c.WF) :
    optimize c.flatten = some c.optimized.flatten := by
  have h1 := WF_mergeRun c hw [] (by simp)
  have h2 := WF_zeroLoops _ h1
  have h3 := WF_dropDead _ h2
  unfold optimize Code.optimized
  rw [merge_flatten c hw, dsz_flatten _ h1, edc_flatten _ h2, recompute_flatten _ h3]

theorem WF_optimized (c : Code) (hw : c.WF) : c.optimized.WF :=
  Code.WF_relink _ _ (WF_dropDead _ (WF_zeroLoops _ (WF_mergeRun c hw [] (by simp))))

/-- C10. On a program returned by `parse`, the sequence left by passes A to C is
bracket-balanced, `optimize` returns a program (the re-linking pass never reads
an empty stack), and that program satisfies the jump invariant on its own
indices. -/
theorem optimize_total_and_linked (ts : List Char) (p : List IRInst)
    (h : parse ts = .ok p) :
    Balanced (eliminate_dead_code (detect_set_zero (merge_consecutive p))) ∧
    ∃ q, optimize p = some q ∧ JumpInvariant q := by
  obtain ⟨c, hc, hw, _⟩ := parse_tree ts p h
  subst hc
  have h1 := WF_mergeRun c hw [] (by simp)
  have h2 := WF_zeroLoops _ h1
  have h3 := WF_dropDead _ h2
  refine ⟨?_, c.optimized.flatten, optimize_flatten c hw, ?_⟩
  · rw [merge_flatten c hw, dsz_flatten _ h1, edc_flatten _ h2]
    exact balanced_flatten _ h3
  · exact jumpInvariant_flatten _ (WF_optimized c hw) (Code.Linked_relink _ 0)

/-! ## What re-linking keeps -/

theorem key_flatten_relink (c : Code) : ∀ o,
    (Code.relink o c).flatten.map IRInst.key = c.flatten.map IRInst.key := by
  induction c with
  | nil => intro o; rfl
  | op x r ih => intro o; simp [Code.relink, ih]
  | loop b e body r ihb ihr => intro o; simp [Code.relink, ihb, ihr, IRInst.key]

theorem getElem?_of_map_key (q l : List IRInst) (h : q.map IRInst.key = l.map IRInst.key)
    (i : Nat) (x : IRInst) (hx : q[i]? = some x) :
    ∃ y, l[i]? = some y ∧ y.type = x.type ∧ y.operand = x.operand := by
  have h1 := congrArg (fun l => l[i]?) h
  simp only [List.getElem?_map, hx, Option.map_some'] at h1
  cases hl : l[i]? with
  | none => rw [hl] at h1; cases h1
  | some y =>
    rw [hl] at h1
    simp only [Option.map_some', Option.some.injEq, IRInst.key, Prod.mk.injEq] at h1
    exact ⟨y, rfl, h1.1.symm, h1.2.symm⟩

/-- The optimizer output and the sequence left by passes A to C. -/
theorem optimize_shape (ts : List Char) (p : List IRInst) (h : parse ts = .ok p) :
    ∃ q, optimize p = some q ∧
      q.map IRInst.key =
        (eliminate_dead_code (detect_set_zero (merge_consecutive p))).map IRInst.key := by
  obtain ⟨c, hc, hw, _⟩ := parse_tree ts p h
  subst hc
  have h1 := WF_mergeRun c hw [] (by simp)
  have h2 := WF_zeroLoops _ h1
  refine ⟨c.optimized.flatten, optimize_flatten c hw, ?_⟩
  rw [merge_flatten c hw, dsz_flatten _ h1, edc_flatten _ h2]
  exact key_flatten_relink _ 0

theorem skipDead_suffix (l : List IRInst) : ∀ d : Int, skipDead d l <:+ l := by
  induction l with
  | nil => intro d; exact List.suffix_refl _
  | cons x xs ih =>
    intro d
    simp only [skipDead]
    split_ifs
    all_goals first
      | exact List.suffix_refl _
      | exact (ih _).trans (List.suffix_cons _ _)

/-! ## No two neighbours of the same kind -/

theorem mergeStep_noAdjacent (acc : List IRInst) (x : IRInst) (h : NoAdjacent acc) :
    NoAdjacent (mergeStep acc x) := by
  cases acc with
  | nil => exact List.chain'_singleton _
  | cons b bs =>
    simp only [mergeStep]
    split_ifs with h1 h2
    · exact h.tail
    · unfold NoAdjacent at h ⊢
      rw [List.chain'_cons'] at h ⊢
      exact ⟨fun y hy hk => h.1 y hy hk, h.2⟩
    · unfold NoAdjacent at h ⊢
      rw [List.chain'_cons]
      refine ⟨?_, h⟩
      rintro ⟨e1, e2⟩
      apply h1
      refine ⟨e1.symm, ?_⟩
      rw [e1]; exact e2

theorem foldl_mergeStep_noAdjacent (l : List IRInst) : ∀ acc, NoAdjacent acc →
    NoAdjacent (l.foldl mergeStep acc) := by
  induction l with
  | nil => intro acc h; exact h
  | cons x xs ih => intro acc h; exact ih _ (mergeStep_noAdjacent acc x h)

theorem sameKind_symm (a b : IRInst) (h : sameKind a b) : sameKind b a :=
  ⟨h.1.symm, by rw [h.1]; exact h.2⟩

theorem merge_noAdjacent (l : List IRInst) : NoAdjacent (merge_consecutive l) := by
  unfold merge_consecutive NoAdjacent
  rw [List.chain'_reverse]
  have := foldl_mergeStep_noAdjacent l [] List.chain'_nil
  refine List.Chain'.imp ?_ this
  intro a b hab hk
  exact hab (sameKind_symm _ _ hk)

theorem detect_set_zero_head (l : List IRInst) :
    ∀ h ∈ (detect_set_zero l).head?, h.type = .SetZero ∨ l.head? = some h := by
  match l with
  | [] => intro h hh; simp [detect_set_zero] at hh
  | [a] => intro h hh; right; simpa [detect_set_zero] using hh
  | [a, b] => intro h hh; right; simpa [detect_set_zero] using hh
  | a :: b :: c :: rest =>
    intro h hh
    by_cases hz : zeroLoopAt (a :: b :: c :: rest)
    · rw [detect_set_zero_match _ _ _ _ hz] at hh
      simp only [List.head?_cons, Option.mem_def, Option.some.injEq] at hh
      subst hh
      exact Or.inl rfl
    · rw [detect_set_zero_cons _ _ hz] at hh
      right
      simpa using hh

theorem detect_set_zero_noAdjacent (n : Nat) : ∀ l : List IRInst, l.length ≤ n →
    NoAdjacent l → NoAdjacent (detect_set_zero l) := by
  induction n with
  | zero =>
    intro l hl _
    have : l = [] := List.length_eq_zero.1 (by omega)
    subst this
    exact List.chain'_nil
  | succ n ih =>
    intro l hl h
    match l with
    | [] => exact List.chain'_nil
    | [a] => exact h
    | [a, b] => exact h
    | a :: b :: c :: rest =>
      by_cases hz : zeroLoopAt (a :: b :: c :: rest)
      · rw [detect_set_zero_match _ _ _ _ hz]
        have hrest : NoAdjacent rest := h.tail.tail.tail
        have := ih rest (by simp at hl; omega) hrest
        unfold NoAdjacent
        rw [List.chain'_cons']
        refine ⟨?_, this⟩
        intro y _ hk
        obtain ⟨e1, e2⟩ := hk
        rw [← e1] at e2
        rcases e2 with h1 | h1 <;> cases h1
      · rw [detect_set_zero_cons _ _ hz]
        have htail : NoAdjacent (b :: c :: rest) := h.tail
        have := ih (b :: c :: rest) (by simp at hl ⊢; omega) htail
        unfold NoAdjacent
        rw [List.chain'_cons']
        refine ⟨?_, this⟩
        intro y hy hk
        rcases detect_set_zero_head _ y hy with h1 | h1
        · obtain ⟨_, e2⟩ := hk
          rw [h1] at e2
          rcases e2 with h2 | h2 <;> cases h2
        · simp only [List.head?_cons, Option.some.injEq] at h1
          subst h1
          exact (List.chain'_cons.1 h).1 hk

theorem chain'_getElem? {α : Type} (R : α → α → Prop) (l : List α) (h : List.Chain' R l) :
    ∀ (i : Nat) (x y : α), l[i]? = some x → l[i + 1]? = some y → R x y := by
  induction l with
  | nil => intro i x y hx; simp at hx
  | cons a l ih =>
    intro i x y hx hy
    cases i with
    | zero =>
      simp only [List.getElem?_cons_zero, Option.some.injEq] at hx
      simp only [zero_add, List.getElem?_cons_succ] at hy
      subst hx
      rw [List.chain'_cons'] at h
      exact h.1 y (by rw [← List.head?_eq_getElem?] at hy; exact hy)
    | succ i =>
      simp only [List.getElem?_cons_succ] at hx hy
      rw [List.chain'_cons'] at h
      exact ih h.2 i x y hx hy

/-- C6. In the optimized form of a program returned by `parse`, no two
neighbouring instructions are both `MovePtr` or both `AddVal`. -/
theorem optimize_no_adjacent_runs (ts : List Char) (p : List IRInst)
    (h : parse ts = .ok p) :
    ∃ q, optimize p = some q ∧
      ∀ (i : Nat) (x y : IRInst), q[i]? = some x → q[i + 1]? = some y →
        ¬ (x.type = .MovePtr ∧ y.type = .MovePtr) ∧ ¬ (x.type = .AddVal ∧ y.type = .AddVal) := by
  obtain ⟨q, hq, hkey⟩ := optimize_shape ts p h
  refine ⟨q, hq, ?_⟩
  intro i x y hx hy
  obtain ⟨x1, hx1, tx, _⟩ := getElem?_of_map_key _ _ hkey i x hx
  obtain ⟨y1, hy1, ty, _⟩ := getElem?_of_map_key _ _ hkey (i + 1) y hy
  have hchain : NoAdjacent (eliminate_dead_code (detect_set_zero (merge_consecutive p))) := by
    refine List.Chain'.suffix ?_ (skipDead_suffix _ 0)
    exact detect_set_zero_noAdjacent _ _ (le_refl _) (merge_noAdjacent p)
  have := chain'_getElem? _ _ hchain i x1 y1 hx1 hy1
  simp only [sameKind, tx, ty] at this
  constructor
  · rintro ⟨a, b⟩; exact this ⟨by rw [a, b], Or.inl b⟩
  · rintro ⟨a, b⟩; exact this ⟨by rw [a, b], Or.inr b⟩

/-! ## Operands -/

theorem key_setJump (l : List IRInst) : ∀ (i : Nat) (t : Int),
    (setJump l i t).map IRInst.key = l.map IRInst.key := by
  induction l with
  | nil => intro i t; rfl
  | cons x xs ih =>
    intro i t
    cases i with
    | zero => simp [setJump, IRInst.key]
    | succ i => simp [setJump, ih]

theorem parseLoop_operands (ts : List Char) : ∀ (program : List IRInst) (st : List Nat)
    (p : List IRInst),
    (∀ k ∈ program.map IRInst.key,
      (k.1 = .MovePtr ∨ k.1 = .AddVal) → (k.2 = 1 ∨ k.2 = -1)) →
    parseLoop ts program st = .ok p →
    ∀ k ∈ p.map IRInst.key, (k.1 = .MovePtr ∨ k.1 = .AddVal) → (k.2 = 1 ∨ k.2 = -1) := by
  induction ts with
  | nil =>
    intro program st p hinv h
    simp only [parseLoop] at h
    split_ifs at h
    simp only [Except.ok.injEq] at h
    subst h
    exact hinv
  | cons c cs ih =>
    intro program st p hinv h
    have step : ∀ x : IRInst,
        ((x.type = .MovePtr ∨ x.type = .AddVal) → (x.operand = 1 ∨ x.operand = -1)) →
        ∀ k ∈ (program ++ [x]).map IRInst.key,
          (k.1 = .MovePtr ∨ k.1 = .AddVal) → (k.2 = 1 ∨ k.2 = -1) := by
      intro x hx k hk
      simp only [List.map_append, List.map_cons, List.map_nil, List.mem_append,
        List.mem_singleton] at hk
      rcases hk with hk | hk
      · exact hinv k hk
      · subst hk; exact hx
    simp only [parseLoop] at h
    split_ifs at h
    · exact ih _ _ _ (step _ (by simp)) h
    · exact ih _ _ _ (step _ (by simp)) h
    · exact ih _ _ _ (step _ (by simp)) h
    · exact ih _ _ _ (step _ (by simp)) h
    · exact ih _ _ _ (step _ (by simp)) h
    · exact ih _ _ _ (step _ (by simp)) h
    · exact ih _ _ _ (step _ (by simp)) h
    · cases st with
      | nil => simp at h
      | cons opn rest =>
        refine ih _ _ _ ?_ h
        rw [key_setJump]
        exact step _ (by simp)
    · exact ih _ _ _ hinv h

theorem parse_operands (ts : List Char) (p : List IRInst) (h : parse ts = .ok p) :
    ∀ x ∈ p, (x.type = .MovePtr ∨ x.type = .AddVal) → (x.operand = 1 ∨ x.operand = -1) := by
  intro x hx
  exact parseLoop_operands ts [] [] p (by simp) h x.key (List.mem_map_of_mem _ hx)

theorem mergeStep_nonzero (acc : List IRInst) (x : IRInst)
    (hacc : ∀ y ∈ acc, y.type = .AddVal → y.operand ≠ 0)
    (hx : x.type = .AddVal → x.operand ≠ 0) :
    ∀ y ∈ mergeStep acc x, y.type = .AddVal → y.operand ≠ 0 := by
  cases acc with
  | nil =>
    intro y hy
    simp only [mergeStep, List.mem_singleton] at hy
    subst hy; exact hx
  | cons b bs =>
    intro y hy
    simp only [mergeStep] at hy
    split_ifs at hy with h1 h2
    · exact hacc y (by simp [hy])
    · simp only [List.mem_cons] at hy
      rcases hy with hy | hy
      · subst hy; intro _; exact h2
      · exact hacc y (by simp [hy])
    · simp only [List.mem_cons] at hy
      rcases hy with hy | hy | hy
      · subst hy; exact hx
      · subst hy; exact hacc _ (by simp)
      · exact hacc y (by simp [hy])

theorem merge_nonzero (l : List IRInst) (hl : ∀ y ∈ l, y.type = .AddVal → y.operand ≠ 0) :
    ∀ y ∈ merge_consecutive l, y.type = .AddVal → y.operand ≠ 0 := by
  have gen : ∀ (l acc : List IRInst), (∀ y ∈ l, y.type = .AddVal → y.operand ≠ 0) →
      (∀ y ∈ acc, y.type = .AddVal → y.operand ≠ 0) →
      ∀ y ∈ l.foldl mergeStep acc, y.type = .AddVal → y.operand ≠ 0 := by
    intro l
    induction l with
    | nil => intro acc _ hacc; exact hacc
    | cons x xs ih =>
      intro acc hl hacc
      exact ih _ (fun y hy => hl y (by simp [hy]))
        (mergeStep_nonzero acc x hacc (hl x (by simp)))
  intro y hy
  unfold merge_consecutive at hy
  rw [List.mem_reverse] at hy
  exact gen l [] hl (by simp) y hy

theorem detect_set_zero_mem (n : Nat) : ∀ l : List IRInst, l.length ≤ n →
    ∀ y ∈ detect_set_zero l, y ∈ l ∨ y.type = .SetZero := by
  induction n with
  | zero =>
    intro l hl y hy
    have : l = [] := List.length_eq_zero.1 (by omega)
    subst this
    simp [detect_set_zero] at hy
  | succ n ih =>
    intro l hl y hy
    match l with
    | [] => simp [detect_set_zero] at hy
    | [a] => exact Or.inl hy
    | [a, b] => exact Or.inl hy
    | a :: b :: c :: rest =>
      by_cases hz : zeroLoopAt (a :: b :: c :: rest)
      · rw [detect_set_zero_match _ _ _ _ hz] at hy
        simp only [List.mem_cons] at hy
        rcases hy with hy | hy
        · subst hy; exact Or.inr rfl
        · rcases ih rest (by simp at hl; omega) y hy with h1 | h1
          · left; simp [h1]
          · exact Or.inr h1
      · rw [detect_set_zero_cons _ _ hz] at hy
        simp only [List.mem_cons] at hy
        rcases hy with hy | hy
        · subst hy; left; simp
        · rcases ih (b :: c :: rest) (by simp at hl ⊢; omega) y hy with h1 | h1
          · left; exact List.mem_cons_of_mem _ h1
          · exact Or.inr h1

/-- C7. A program returned by `parse` has operand `+1` or `-1` in every
`MovePtr` and `AddVal`, and its optimized form holds no `AddVal` with operand 0,
operands being unbounded integers. -/
theorem optimize_no_zero_addval (ts : List Char) (p : List IRInst)
    (h : parse ts = .ok p) :
    (∀ x ∈ p, (x.type = .MovePtr ∨ x.type = .AddVal) → (x.operand = 1 ∨ x.operand = -1)) ∧
    ∃ q, optimize p = some q ∧ ∀ x ∈ q, x.type = .AddVal → x.operand ≠ 0 := by
  have hops := parse_operands ts p h
  refine ⟨hops, ?_⟩
  obtain ⟨q, hq, hkey⟩ := optimize_shape ts p h
  refine ⟨q, hq, ?_⟩
  intro x hx ht
  obtain ⟨i, hi⟩ := List.getElem?_of_mem hx
  obtain ⟨y, hy, ty, oy⟩ := getElem?_of_map_key _ _ hkey i x hi
  have hy3 : y ∈ eliminate_dead_code (detect_set_zero (merge_consecutive p)) :=
    List.getElem?_mem hy
  have hy2 : y ∈ detect_set_zero (merge_consecutive p) :=
    (skipDead_suffix _ 0).subset hy3
  rw [← oy]
  rcases detect_set_zero_mem _ _ (le_refl _) y hy2 with h1 | h1
  · refine merge_nonzero p ?_ y h1 (by rw [ty, ht])
    intro z hz hzt
    rcases hops z hz (Or.inr hzt) with h2 | h2 <;> rw [h2] <;> decide
  · rw [ty, ht] at h1
    cases h1

/-! ## The head of the optimized program -/

/-- C8. The optimized form of a program returned by `parse` is empty or starts
with an instruction that is neither a `LoopBegin` nor a `LoopEnd`. -/
theorem optimize_head_not_loop (ts : List Char) (p : List IRInst) (h : parse ts = .ok p) :
    ∃ q, optimize p = some q ∧
      (q = [] ∨ ∃ x rest, q = x :: rest ∧ x.type ≠ .LoopBegin ∧ x.type ≠ .LoopEnd) := by
  obtain ⟨c, hc, hw, _⟩ := parse_tree ts p h
  subst hc
  refine ⟨c.optimized.flatten, optimize_flatten c hw, ?_⟩
  have h2 := WF_zeroLoops _ (WF_mergeRun c hw [] (by simp))
  have h3 := WF_dropDead _ h2
  unfold Code.optimized
  rcases dropDead_head _ h2 with h4 | ⟨x, r, h4⟩
  · left; rw [h4]; rfl
  · right
    rw [h4] at h3 ⊢
    exact ⟨x, (Code.relink 1 r).flatten, rfl, h3.1, h3.2.1⟩

/-! ## No zero loop is left -/

theorem isUnit_zeroLoops (c : Code) : (Code.zeroLoops c).isUnit = c.isUnit := by
  cases c with
  | nil => rfl
  | op a r =>
    cases r with
    | nil => rfl
    | op a2 r2 => rfl
    | loop b e body r2 =>
      simp only [Code.zeroLoops]
      split_ifs <;> rfl
  | loop b e body r =>
    simp only [Code.zeroLoops]
    split_ifs
    · cases h : Code.zeroLoops r <;> simp [Code.isUnit]
    · rfl

theorem zeroLoops_idem (c : Code) : Code.zeroLoops (Code.zeroLoops c) = Code.zeroLoops c := by
  induction c with
  | nil => rfl
  | op x r ih => simp [Code.zeroLoops, ih]
  | loop b e body r ihb ihr =>
    by_cases hu : body.isUnit = true
    · simp [Code.zeroLoops, hu, ihr]
    · simp [Code.zeroLoops, hu, isUnit_zeroLoops, ihb, ihr]

theorem detect_set_zero_length (n : Nat) : ∀ l : List IRInst, l.length ≤ n →
    (detect_set_zero l).length ≤ l.length := by
  induction n with
  | zero =>
    intro l hl
    have : l = [] := List.length_eq_zero.1 (by omega)
    subst this
    simp [detect_set_zero]
  | succ n ih =>
    intro l hl
    match l with
    | [] => simp [detect_set_zero]
    | [a] => simp [detect_set_zero]
    | [a, b] => simp [detect_set_zero]
    | a :: b :: c :: rest =>
      by_cases hz : zeroLoopAt (a :: b :: c :: rest)
      · rw [detect_set_zero_match _ _ _ _ hz]
        have := ih rest (by simp at hl; omega)
        simp only [List.length_cons]
        omega
      · rw [detect_set_zero_cons _ _ hz]
        have := ih (b :: c :: rest) (by simp at hl ⊢; omega)
        simp only [List.length_cons] at this ⊢
        omega

theorem noZeroLoop_of_fixed (l : List IRInst) : detect_set_zero l = l → NoZeroLoop l := by
  induction l with
  | nil => intro _ k; simp [zeroLoopAt]
  | cons a l ih =>
    intro h
    have hz : ¬ zeroLoopAt (a :: l) := by
      intro hz
      match l, hz with
      | b :: c :: rest, hz =>
        rw [detect_set_zero_match _ _ _ _ hz] at h
        have h1 := congrArg List.length h
        have h2 := detect_set_zero_length _ rest (le_refl _)
        simp only [List.length_cons] at h1
        omega
    rw [detect_set_zero_cons _ _ hz] at h
    simp only [List.cons.injEq, true_and] at h
    intro k
    cases k with
    | zero => exact hz
    | succ k => exact ih h k

theorem fixed_of_noZeroLoop (l : List IRInst) : NoZeroLoop l → detect_set_zero l = l := by
  induction l with
  | nil => intro _; rfl
  | cons a l ih =>
    intro h
    rw [detect_set_zero_cons _ _ (h 0), ih (fun k => h (k + 1))]

theorem noZeroLoop_suffix (l1 l2 : List IRInst) (hs : l1 <:+ l2) (h : NoZeroLoop l2) :
    NoZeroLoop l1 := by
  obtain ⟨t, ht⟩ := hs
  intro k
  have := h (t.length + k)
  rw [← ht, List.drop_append] at this
  exact this

theorem noZeroLoop_pipeline (c : Code) (hw : c.WF) :
    NoZeroLoop (eliminate_dead_code (detect_set_zero (merge_consecutive c.flatten))) := by
  have h1 := WF_mergeRun c hw [] (by simp)
  have h2 := WF_zeroLoops _ h1
  refine noZeroLoop_suffix _ _ (skipDead_suffix _ 0) ?_
  apply noZeroLoop_of_fixed
  rw [merge_flatten c hw, dsz_flatten _ h1, dsz_flatten _ h2, zeroLoops_idem]

theorem drop_of_three {α : Type} (l : List α) (i : Nat) (a b c : α) (ha : l[i]? = some a)
    (hb : l[i + 1]? = some b) (hc : l[i + 2]? = some c) :
    l.drop i = a :: b :: c :: l.drop (i + 3) := by
  have h0 := lt_of_getElem? _ _ _ ha
  have h1 := lt_of_getElem? _ _ _ hb
  have h2 := lt_of_getElem? _ _ _ hc
  rw [List.getElem?_eq_getElem h0] at ha
  rw [List.getElem?_eq_getElem h1] at hb
  rw [List.getElem?_eq_getElem h2] at hc
  simp only [Option.some.injEq] at ha hb hc
  rw [List.drop_eq_getElem_cons h0, List.drop_eq_getElem_cons h1, List.drop_eq_getElem_cons h2,
    ha, hb, hc]

/-- C9. The optimized form of a program returned by `parse` holds no three
consecutive instructions `LoopBegin`, `AddVal` with operand `+1` or `-1`,
`LoopEnd`, at any index, the last three instructions included. -/
theorem optimize_no_zero_loop (ts : List Char) (p : List IRInst) (h : parse ts = .ok p) :
    ∃ q, optimize p = some q ∧
      ∀ (i : Nat) (a b c : IRInst), q[i]? = some a → q[i + 1]? = some b →
        q[i + 2]? = some c →
        ¬ (a.type = .LoopBegin ∧ b.type = .AddVal ∧ (b.operand = 1 ∨ b.operand = -1) ∧
          c.type = .LoopEnd) := by
  obtain ⟨q, hq, hkey⟩ := optimize_shape ts p h
  refine ⟨q, hq, ?_⟩
  intro i a b c ha hb hc hpat
  obtain ⟨a1, ha1, ta, _⟩ := getElem?_of_map_key _ _ hkey i a ha
  obtain ⟨b1, hb1, tb, ob⟩ := getElem?_of_map_key _ _ hkey (i + 1) b hb
  obtain ⟨c1, hc1, tc, _⟩ := getElem?_of_map_key _ _ hkey (i + 2) c hc
  obtain ⟨t, ht, hw, _⟩ := parse_tree ts p h
  subst ht
  have hno := noZeroLoop_pipeline t hw i
  rw [drop_of_three _ i a1 b1 c1 ha1 hb1 hc1] at hno
  apply hno
  simp only [zeroLoopAt, ta, tb, tc, ob]
  exact hpat

/-! ## A second run of the optimizer changes nothing -/

theorem noAdjacent_of_key (q l : List IRInst) (h : q.map IRInst.key = l.map IRInst.key)
    (hl : NoAdjacent l) : NoAdjacent q := by
  have e : ∀ m : List IRInst, NoAdjacent m ↔
      List.Chain' (fun k1 k2 : IRType × Int =>
        ¬ (k1.1 = k2.1 ∧ (k2.1 = .MovePtr ∨ k2.1 = .AddVal))) (m.map IRInst.key) := by
    intro m
    rw [List.chain'_map]
    rfl
  rw [e] at hl ⊢
  rw [h]
  exact hl

theorem noZeroLoop_of_key (q l : List IRInst) (h : q.map IRInst.key = l.map IRInst.key)
    (hl : NoZeroLoop l) : NoZeroLoop q := by
  intro k hz
  match hd : q.drop k, hz with
  | a :: b :: c :: rest, hz =>
    have ha : q[k]? = some a := by
      have := List.getElem?_drop q k 0
      rw [hd] at this
      simpa using this.symm
    have hb : q[k + 1]? = some b := by
      have := List.getElem?_drop q k 1
      rw [hd] at this
      simpa using this.symm
    have hc : q[k + 2]? = some c := by
      have := List.getElem?_drop q k 2
      rw [hd] at this
      simpa using this.symm
    obtain ⟨a1, ha1, ta, _⟩ := getElem?_of_map_key _ _ h k a ha
    obtain ⟨b1, hb1, tb, ob⟩ := getElem?_of_map_key _ _ h (k + 1) b hb
    obtain ⟨c1, hc1, tc, _⟩ := getElem?_of_map_key _ _ h (k + 2) c hc
    have hno := hl k
    rw [drop_of_three _ k a1 b1 c1 ha1 hb1 hc1] at hno
    apply hno
    simp only [zeroLoopAt, ta, tb, tc, ob]
    exact hz

theorem foldl_mergeStep_of_noAdjacent (l : List IRInst) : ∀ acc : List IRInst,
    NoAdjacent (acc.reverse ++ l) → l.foldl mergeStep acc = l.reverse ++ acc := by
  induction l with
  | nil => intro acc _; rfl
  | cons x xs ih =>
    intro acc h
    have hstep : mergeStep acc x = x :: acc := by
      cases acc with
      | nil => rfl
      | cons b bs =>
        have h1 : NoAdjacent (bs.reverse ++ b :: x :: xs) := by simpa using h
        have h2 : ¬ sameKind b x := by
          unfold NoAdjacent at h1
          rw [List.chain'_split] at h1
          exact (List.chain'_cons.1 h1.2).1
        simp only [mergeStep]
        exact if_neg h2
    simp only [List.foldl_cons, hstep]
    rw [ih (x :: acc) (by simpa using h)]
    simp

theorem merge_of_noAdjacent (l : List IRInst) (h : NoAdjacent l) : merge_consecutive l = l := by
  unfold merge_consecutive
  rw [foldl_mergeStep_of_noAdjacent l [] (by simpa using h)]
  simp

theorem optimize_fixed (c : Code) (hw : c.WF) :
    optimize c.optimized.flatten = some c.optimized.flatten := by
  have h1 := WF_mergeRun c hw [] (by simp)
  have h2 := WF_zeroLoops _ h1
  have h3 := WF_dropDead _ h2
  have hkey : c.optimized.flatten.map IRInst.key =
      (eliminate_dead_code (detect_set_zero (merge_consecutive c.flatten))).map IRInst.key := by
    rw [merge_flatten c hw, dsz_flatten _ h1, edc_flatten _ h2]
    exact key_flatten_relink _ 0
  have hadj : NoAdjacent c.optimized.flatten := by
    refine noAdjacent_of_key _ _ hkey ?_
    refine List.Chain'.suffix ?_ (skipDead_suffix _ 0)
    exact detect_set_zero_noAdjacent _ _ (le_refl _) (merge_noAdjacent _)
  have hzero : NoZeroLoop c.optimized.flatten :=
    noZeroLoop_of_key _ _ hkey (noZeroLoop_pipeline c hw)
  have hhead : eliminate_dead_code c.optimized.flatten = c.optimized.flatten := by
    unfold Code.optimized eliminate_dead_code
    rcases dropDead_head _ h2 with h4 | ⟨x, r, h4⟩
    · rw [h4]; rfl
    · rw [h4] at h3 ⊢
      have h0 : ¬ ((0 : Int) > 0) := by decide
      simp only [Code.relink, Code.flatten_op, skipDead, h0, if_false, h3.1]
  unfold optimize
  rw [merge_of_noAdjacent _ hadj, fixed_of_noZeroLoop _ hzero, hhead,
    recompute_flatten _ (WF_optimized c hw)]
  unfold Code.optimized
  rw [Code.relink_of_Linked _ 0 (Code.Linked_relink _ 0)]

/-- C5. `optimize` is idempotent on parser output: optimizing the optimized form
of a program returned by `parse` returns it unchanged, jump targets included. -/
theorem optimize_idempotent (ts : List Char) (p : List IRInst) (h : parse ts = .ok p) :
    ∃ q, optimize p = some q ∧ optimize q = some q := by
  obtain ⟨c, hc, hw, _⟩ := parse_tree ts p h
  subst hc
  exact ⟨c.optimized.flatten, optimize_flatten c hw, optimize_fixed c hw⟩

/-! ## Instances on concrete programs -/

theorem optimize_idempotent_witness :
    parse ['+', '[', '-', ']', '>', '>'] =
      .ok [⟨.AddVal, 1, -1⟩, ⟨.LoopBegin, 0, 3⟩, ⟨.AddVal, -1, -1⟩, ⟨.LoopEnd, 0, 1⟩,
        ⟨.MovePtr, 1, -1⟩, ⟨.MovePtr, 1, -1⟩] ∧
    ∃ q, optimize [⟨.AddVal, 1, -1⟩, ⟨.LoopBegin, 0, 3⟩, ⟨.AddVal, -1, -1⟩, ⟨.LoopEnd, 0, 1⟩,
        ⟨.MovePtr, 1, -1⟩, ⟨.MovePtr, 1, -1⟩] = some q ∧ optimize q = some q :=
  ⟨rfl, optimize_idempotent ['+', '[', '-', ']', '>', '>'] _ rfl⟩

theorem optimize_no_adjacent_runs_witness :
    parse ['+', '>', '<', '+'] =
      .ok [⟨.AddVal, 1, -1⟩, ⟨.MovePtr, 1, -1⟩, ⟨.MovePtr, -1, -1⟩, ⟨.AddVal, 1, -1⟩] ∧
    ∃ q, optimize [⟨.AddVal, 1, -1⟩, ⟨.MovePtr, 1, -1⟩, ⟨.MovePtr, -1, -1⟩,
        ⟨.AddVal, 1, -1⟩] = some q ∧
      ∀ (i : Nat) (x y : IRInst), q[i]? = some x → q[i + 1]? = some y →
        ¬ (x.type = .MovePtr ∧ y.type = .MovePtr) ∧ ¬ (x.type = .AddVal ∧ y.type = .AddVal) :=
  ⟨rfl, optimize_no_adjacent_runs ['+', '>', '<', '+'] _ rfl⟩

theorem optimize_no_zero_addval_witness :
    parse ['.', '+', '-', '+'] =
      .ok [⟨.Output, 0, -1⟩, ⟨.AddVal, 1, -1⟩, ⟨.AddVal, -1, -1⟩, ⟨.AddVal, 1, -1⟩] ∧
    ((∀ x ∈ [(⟨.Output, 0, -1⟩ : IRInst), ⟨.AddVal, 1, -1⟩, ⟨.AddVal, -1, -1⟩,
        ⟨.AddVal, 1, -1⟩],
      (x.type = .MovePtr ∨ x.type = .AddVal) → (x.operand = 1 ∨ x.operand = -1)) ∧
    ∃ q, optimize [⟨.Output, 0, -1⟩, ⟨.AddVal, 1, -1⟩, ⟨.AddVal, -1, -1⟩,
        ⟨.AddVal, 1, -1⟩] = some q ∧ ∀ x ∈ q, x.type = .AddVal → x.operand ≠ 0) :=
  ⟨rfl, optimize_no_zero_addval ['.', '+', '-', '+'] _ rfl⟩

theorem optimize_head_not_loop_witness :
    parse ['[', '.', ']', '[', ']', ','] =
      .ok [⟨.LoopBegin, 0, 2⟩, ⟨.Output, 0, -1⟩, ⟨.LoopEnd, 0, 0⟩, ⟨.LoopBegin, 0, 4⟩,
        ⟨.LoopEnd, 0, 3⟩, ⟨.Input, 0, -1⟩] ∧
    ∃ q, optimize [⟨.LoopBegin, 0, 2⟩, ⟨.Output, 0, -1⟩, ⟨.LoopEnd, 0, 0⟩,
        ⟨.LoopBegin, 0, 4⟩, ⟨.LoopEnd, 0, 3⟩, ⟨.Input, 0, -1⟩] = some q ∧
      (q = [] ∨ ∃ x rest, q = x :: rest ∧ x.type ≠ .LoopBegin ∧ x.type ≠ .LoopEnd) :=
  ⟨rfl, optimize_head_not_loop ['[', '.', ']', '[', ']', ','] _ rfl⟩

theorem optimize_no_zero_loop_witness :
    parse ['+', '[', '+', '-', '-', ']'] =
      .ok [⟨.AddVal, 1, -1⟩, ⟨.LoopBegin, 0, 5⟩, ⟨.AddVal, 1, -1⟩, ⟨.AddVal, -1, -1⟩,
        ⟨.AddVal, -1, -1⟩, ⟨.LoopEnd, 0, 1⟩] ∧
    ∃ q, optimize [⟨.AddVal, 1, -1⟩, ⟨.LoopBegin, 0, 5⟩, ⟨.AddVal, 1, -1⟩, ⟨.AddVal, -1, -1⟩,
        ⟨.AddVal, -1, -1⟩, ⟨.LoopEnd, 0, 1⟩] = some q ∧
      ∀ (i : Nat) (a b c : IRInst), q[i]? = some a → q[i + 1]? = some b →
        q[i + 2]? = some c →
        ¬ (a.type = .LoopBegin ∧ b.type = .AddVal ∧ (b.operand = 1 ∨ b.operand = -1) ∧
          c.type = .LoopEnd) :=
  ⟨rfl, optimize_no_zero_loop ['+', '[', '+', '-', '-', ']'] _ rfl⟩

theorem optimize_total_and_linked_witness :
    parse ['[', ']', '+', '[', '>', ']'] =
      .ok [⟨.LoopBegin, 0, 1⟩, ⟨.LoopEnd, 0, 0⟩, ⟨.AddVal, 1, -1⟩, ⟨.LoopBegin, 0, 5⟩,
        ⟨.MovePtr, 1, -1⟩, ⟨.LoopEnd, 0, 3⟩] ∧
    (Balanced (eliminate_dead_code (detect_set_zero (merge_consecutive
        [⟨.LoopBegin, 0, 1⟩, ⟨.LoopEnd, 0, 0⟩, ⟨.AddVal, 1, -1⟩, ⟨.LoopBegin, 0, 5⟩,
          ⟨.MovePtr, 1, -1⟩, ⟨.LoopEnd, 0, 3⟩]))) ∧
    ∃ q, optimize [⟨.LoopBegin, 0, 1⟩, ⟨.LoopEnd, 0, 0⟩, ⟨.AddVal, 1, -1⟩,
        ⟨.LoopBegin, 0, 5⟩, ⟨.MovePtr, 1, -1⟩, ⟨.LoopEnd, 0, 3⟩] = some q ∧
      JumpInvariant q) :=
  ⟨rfl, optimize_total_and_linked ['[', ']', '+', '[', '>', ']'] _ rfl⟩

theorem parse_unmatched_close_witness :
    ['+', ']', '['][1]? = some ']' ∧
    (∀ rest, parse ((['+', ']', '['] : List Char).take 2 ++ rest) = .error UnmatchedClose) ∧
    parse ((['+', ']', '['] : List Char).take 1) ≠ .error UnmatchedClose :=
  (parse_unmatched_close ['+', ']', '[']).2.1 1 (by decide) (by decide)

/-! ## Bytes and stores -/

theorem Machine.ext_iff' (a b : Machine) (h1 : a.tape = b.tape) (h2 : a.ptr = b.ptr)
    (h3 : a.input = b.input) (h4 : a.output = b.output) : a = b := by
  cases a; cases b; simp only at h1 h2 h3 h4; subst h1 h2 h3 h4; rfl

theorem write_write (m : Machine) (v w : Byte) : (m.write v).write w = m.write w := by
  apply Machine.ext_iff' <;> try rfl
  funext k
  simp only [Machine.write]
  split_ifs <;> rfl

theorem write_self (m : Machine) : m.write (m.tape m.ptr) = m := by
  apply Machine.ext_iff' <;> try rfl
  funext k
  simp only [Machine.write]
  split_ifs with h
  · rw [h]
  · rfl

@[simp] theorem write_ptr (m : Machine) (v : Byte) : (m.write v).ptr = m.ptr := rfl

@[simp] theorem write_tape_ptr (m : Machine) (v : Byte) : (m.write v).tape m.ptr = v := by
  simp [Machine.write]

theorem addByte_val (v : Byte) (n : Int) :
    ((addByte v n).val : Int) = ((v.val : Int) + n) % 256 := by
  have h0 : 0 ≤ n % 256 := Int.emod_nonneg _ (by decide)
  simp only [addByte]
  push_cast
  rw [Int.toNat_of_nonneg h0]
  omega

theorem addByte_addByte (v : Byte) (a b : Int) :
    addByte (addByte v a) b = addByte v (a + b) := by
  apply Fin.ext
  have h1 := addByte_val (addByte v a) b
  have h2 := addByte_val v a
  have h3 := addByte_val v (a + b)
  have : ((addByte (addByte v a) b).val : Int) = ((addByte v (a + b)).val : Int) := by
    rw [h1, h2, h3]; omega
  exact_mod_cast this

theorem addByte_zero (v : Byte) : addByte v 0 = v := by
  apply Fin.ext
  have h1 := addByte_val v 0
  have := v.isLt
  have : ((addByte v 0).val : Int) = (v.val : Int) := by
    rw [h1]; omega
  exact_mod_cast this

/-! ## Structured semantics: loops, sequences, congruence -/

theorem Big_loop_ind {b e : IRInst} {body rest : Code} (Q : Machine → Option Machine → Prop)
    (hfault : ∀ m, ¬ inTape m.ptr → Q m none)
    (hskip : ∀ m r, inTape m.ptr → m.tape m.ptr = 0 → Big rest m r → Q m r)
    (hbody : ∀ m, inTape m.ptr → m.tape m.ptr ≠ 0 → Big body m none → Q m none)
    (hiter : ∀ m m1 r, inTape m.ptr → m.tape m.ptr ≠ 0 → Big body m (some m1) →
      Big (.loop b e body rest) m1 r → Q m1 r → Q m r) :
    ∀ m r, Big (.loop b e body rest) m r → Q m r := by
  intro m r h
  generalize hc : Code.loop b e body rest = c at h
  induction h with
  | nil => cases hc
  | op_ok => cases hc
  | op_fault => cases hc
  | loop_fault h1 => exact hfault _ h1
  | loop_skip h1 h2 h3 =>
    cases hc
    exact hskip _ _ h1 h2 h3
  | loop_body_fault h1 h2 h3 =>
    cases hc
    exact hbody _ h1 h2 h3
  | loop_iter h1 h2 h3 h4 _ ih4 =>
    cases hc
    exact hiter _ _ _ h1 h2 h3 h4 (ih4 rfl)

theorem Same_refl (c : Code) : Same c c := fun _ _ h => h

theorem Same_op (x : IRInst) {c d : Code} (h : Same c d) : Same (.op x c) (.op x d) := by
  intro m r hb
  cases hb with
  | op_ok h1 h2 => exact Big.op_ok h1 (h _ _ h2)
  | op_fault h1 => exact Big.op_fault h1

theorem Same_loop (b e b1 e1 : IRInst) {body body1 rest rest1 : Code} (hb : Same body body1)
    (hr : Same rest rest1) : Same (.loop b e body rest) (.loop b1 e1 body1 rest1) := by
  refine Big_loop_ind (fun m r => Big (.loop b1 e1 body1 rest1) m r) ?_ ?_ ?_ ?_
  · intro m h1; exact Big.loop_fault h1
  · intro m r h1 h2 h3; exact Big.loop_skip h1 h2 (hr _ _ h3)
  · intro m h1 h2 h3; exact Big.loop_body_fault h1 h2 (hb _ _ h3)
  · intro m m1 r h1 h2 h3 _ ih; exact Big.loop_iter h1 h2 (hb _ _ h3) ih

theorem Same_relink (c : Code) : ∀ o, Same c (Code.relink o c) ∧ Same (Code.relink o c) c := by
  induction c with
  | nil => intro o; exact ⟨Same_refl _, Same_refl _⟩
  | op x r ih => intro o; exact ⟨Same_op x (ih _).1, Same_op x (ih _).2⟩
  | loop b e body r ihb ihr =>
    intro o
    exact ⟨Same_loop _ _ _ _ (ihb _).1 (ihr _).1, Same_loop _ _ _ _ (ihb _).2 (ihr _).2⟩

theorem Ref_refl (c : Code) : Ref c c := ⟨fun _ _ h => h, fun _ _ h => Or.inl h⟩

theorem Ref_trans {a b c : Code} (h1 : Ref a b) (h2 : Ref b c) : Ref a c := by
  refine ⟨fun m m1 h => h2.1 _ _ (h1.1 _ _ h), ?_⟩
  intro m r h
  rcases h2.2 _ _ h with h3 | h3
  · exact h1.2 _ _ h3
  · rcases h1.2 _ _ h3 with h4 | h4 <;> exact Or.inr h4

theorem Ref_of_Same {c d : Code} (h1 : Same c d) (h2 : Same d c) : Ref c d :=
  ⟨fun _ _ h => h1 _ _ h, fun _ _ h => Or.inl (h2 _ _ h)⟩

theorem Ref_op (x : IRInst) {c d : Code} (h : Ref c d) : Ref (.op x c) (.op x d) := by
  constructor
  · intro m m1 hb
    cases hb with
    | op_ok h1 h2 => exact Big.op_ok h1 (h.1 _ _ h2)
  · intro m r hb
    cases hb with
    | op_ok h1 h2 =>
      rcases h.2 _ _ h2 with h3 | h3
      · exact Or.inl (Big.op_ok h1 h3)
      · exact Or.inr (Big.op_ok h1 h3)
    | op_fault h1 => exact Or.inl (Big.op_fault h1)

theorem Ref_loop (b e b1 e1 : IRInst) {body body1 rest rest1 : Code} (hb : Ref body body1)
    (hr : Ref rest rest1) : Ref (.loop b e body rest) (.loop b1 e1 body1 rest1) := by
  constructor
  · intro m m1 h
    refine Big_loop_ind (fun m r => ∀ m1, r = some m1 → Big (.loop b1 e1 body1 rest1) m (some m1))
      ?_ ?_ ?_ ?_ m (some m1) h m1 rfl
    · intro m _ m1 h; cases h
    · intro m r h1 h2 h3 m1 hm; subst hm; exact Big.loop_skip h1 h2 (hr.1 _ _ h3)
    · intro m _ _ _ m1 h; cases h
    · intro m m2 r h1 h2 h3 _ ih m1 hm
      exact Big.loop_iter h1 h2 (hb.1 _ _ h3) (ih m1 hm)
  · refine Big_loop_ind
      (fun m r => Big (.loop b e body rest) m r ∨ Big (.loop b e body rest) m none) ?_ ?_ ?_ ?_
    · intro m h1; exact Or.inl (Big.loop_fault h1)
    · intro m r h1 h2 h3
      rcases hr.2 _ _ h3 with h4 | h4
      · exact Or.inl (Big.loop_skip h1 h2 h4)
      · exact Or.inr (Big.loop_skip h1 h2 h4)
    · intro m h1 h2 h3
      rcases hb.2 _ _ h3 with h4 | h4 <;> exact Or.inl (Big.loop_body_fault h1 h2 h4)
    · intro m m1 r h1 h2 h3 _ ih
      rcases hb.2 _ _ h3 with h4 | h4
      · rcases ih with h5 | h5
        · exact Or.inl (Big.loop_iter h1 h2 h4 h5)
        · exact Or.inr (Big.loop_iter h1 h2 h4 h5)
      · exact Or.inr (Big.loop_body_fault h1 h2 h4)

namespace Code

@[simp] theorem nil_append (c : Code) : (nil : Code).append c = c := rfl

@[simp] theorem append_nil (c : Code) : c.append nil = c := by
  induction c with
  | nil => rfl
  | op x r ih => simp [append, ih]
  | loop b e body r _ ih => simp [append, ih]

theorem append_assoc (a b c : Code) : (a.append b).append c = a.append (b.append c) := by
  induction a with
  | nil => rfl
  | op x r ih => simp [append, ih]
  | loop b1 e1 body r _ ih => simp [append, ih]

theorem ofList_append (l1 l2 : List IRInst) :
    ofList (l1 ++ l2) = (ofList l1).append (ofList l2) := by
  induction l1 with
  | nil => rfl
  | cons x xs ih => simp [ofList, append, ih]

end Code

theorem Big_append_intro (a c : Code) : ∀ m m1 r, Big a m (some m1) → Big c m1 r →
    Big (a.append c) m r := by
  induction a with
  | nil => intro m m1 r h hc; cases h; exact hc
  | op x rest ih =>
    intro m m1 r h hc
    cases h with
    | op_ok h1 h2 => exact Big.op_ok h1 (ih _ _ _ h2 hc)
  | loop b e body rest _ ih =>
    intro m m1 r h hc
    refine Big_loop_ind
      (fun m r0 => ∀ m1, r0 = some m1 → Big c m1 r → Big (.loop b e body (rest.append c)) m r)
      ?_ ?_ ?_ ?_ m (some m1) h m1 rfl hc
    · intro m _ m1 h; cases h
    · intro m r0 h1 h2 h3 m1 hm hc; subst hm; exact Big.loop_skip h1 h2 (ih _ _ _ h3 hc)
    · intro m _ _ _ m1 h; cases h
    · intro m m2 r0 h1 h2 h3 _ ih2 m1 hm hc
      exact Big.loop_iter h1 h2 h3 (ih2 m1 hm hc)

theorem Big_append_fault (a c : Code) : ∀ m, Big a m none → Big (a.append c) m none := by
  induction a with
  | nil => intro m h; cases h
  | op x rest ih =>
    intro m h
    cases h with
    | op_ok h1 h2 => exact Big.op_ok h1 (ih _ h2)
    | op_fault h1 => exact Big.op_fault h1
  | loop b e body rest _ ih =>
    intro m h
    refine Big_loop_ind
      (fun m r0 => r0 = none → Big (.loop b e body (rest.append c)) m none)
      ?_ ?_ ?_ ?_ m none h rfl
    · intro m h1 _; exact Big.loop_fault h1
    · intro m r0 h1 h2 h3 hm; subst hm; exact Big.loop_skip h1 h2 (ih _ h3)
    · intro m h1 h2 h3 _; exact Big.loop_body_fault h1 h2 h3
    · intro m m2 r0 h1 h2 h3 _ ih2 hm
      exact Big.loop_iter h1 h2 h3 (ih2 hm)

theorem Big_append_elim (a c : Code) : ∀ m r, Big (a.append c) m r →
    (∃ m1, Big a m (some m1) ∧ Big c m1 r) ∨ (r = none ∧ Big a m none) := by
  induction a with
  | nil => intro m r h; exact Or.inl ⟨m, Big.nil m, h⟩
  | op x rest ih =>
    intro m r h
    cases h with
    | op_ok h1 h2 =>
      rcases ih _ _ h2 with ⟨m1, h3, h4⟩ | ⟨h3, h4⟩
      · exact Or.inl ⟨m1, Big.op_ok h1 h3, h4⟩
      · exact Or.inr ⟨h3, Big.op_ok h1 h4⟩
    | op_fault h1 => exact Or.inr ⟨rfl, Big.op_fault h1⟩
  | loop b e body rest _ ih =>
    refine Big_loop_ind (fun m r => (∃ m1, Big (.loop b e body rest) m (some m1) ∧ Big c m1 r) ∨
      (r = none ∧ Big (.loop b e body rest) m none)) ?_ ?_ ?_ ?_
    · intro m h1; exact Or.inr ⟨rfl, Big.loop_fault h1⟩
    · intro m r h1 h2 h3
      rcases ih _ _ h3 with ⟨m1, h4, h5⟩ | ⟨h4, h5⟩
      · exact Or.inl ⟨m1, Big.loop_skip h1 h2 h4, h5⟩
      · exact Or.inr ⟨h4, Big.loop_skip h1 h2 h5⟩
    · intro m h1 h2 h3; exact Or.inr ⟨rfl, Big.loop_body_fault h1 h2 h3⟩
    · intro m m1 r h1 h2 h3 _ ih2
      rcases ih2 with ⟨m2, h4, h5⟩ | ⟨h4, h5⟩
      · exact Or.inl ⟨m2, Big.loop_iter h1 h2 h3 h4, h5⟩
      · exact Or.inr ⟨h4, Big.loop_iter h1 h2 h3 h5⟩

theorem Ref_append {a a1 c c1 : Code} (ha : Ref a a1) (hc : Ref c c1) :
    Ref (a.append c) (a1.append c1) := by
  constructor
  · intro m m1 h
    rcases Big_append_elim _ _ _ _ h with ⟨m2, h1, h2⟩ | ⟨h1, _⟩
    · exact Big_append_intro _ _ _ _ _ (ha.1 _ _ h1) (hc.1 _ _ h2)
    · cases h1
  · intro m r h
    rcases Big_append_elim _ _ _ _ h with ⟨m2, h1, h2⟩ | ⟨h1, h2⟩
    · rcases ha.2 _ _ h1 with h3 | h3
      · rcases hc.2 _ _ h2 with h4 | h4
        · exact Or.inl (Big_append_intro _ _ _ _ _ h3 h4)
        · exact Or.inr (Big_append_intro _ _ _ _ _ h3 h4)
      · exact Or.inr (Big_append_fault _ _ _ h3)
    · subst h1
      rcases ha.2 _ _ h2 with h3 | h3 <;> exact Or.inl (Big_append_fault _ _ _ h3)


/-! ## The passes keep the structured semantics -/

theorem Big_ofList (l : List IRInst) : ∀ m r, Big (Code.ofList l) m r ↔ r = runOps l m := by
  induction l with
  | nil =>
    intro m r
    constructor
    · intro h; cases h; rfl
    · intro h; subst h; exact Big.nil m
  | cons x xs ih =>
    intro m r
    simp only [Code.ofList, runOps]
    constructor
    · intro h
      cases h with
      | op_ok h1 h2 => rw [h1]; exact (ih _ _).1 h2
      | op_fault h1 => rw [h1]
    · intro h
      cases hx : execOp x m with
      | none => rw [hx] at h; subst h; exact Big.op_fault hx
      | some m1 => rw [hx] at h; exact Big.op_ok hx ((ih _ _).2 h)

theorem Ref_ofList (l1 l2 : List IRInst)
    (h : ∀ m, runOps l1 m = none ∨ runOps l2 m = runOps l1 m) :
    Ref (Code.ofList l1) (Code.ofList l2) := by
  constructor
  · intro m m1 hb
    rw [Big_ofList] at hb ⊢
    rcases h m with h1 | h1
    · rw [h1] at hb; cases hb
    · rw [h1]; exact hb
  · intro m r hb
    rw [Big_ofList] at hb
    rcases h m with h1 | h1
    · right; rw [Big_ofList, h1]
    · left; rw [Big_ofList, ← h1]; exact hb

theorem execOp_move (x : IRInst) (m : Machine) (h : x.type = .MovePtr) :
    execOp x m = some { m with ptr := m.ptr + x.operand } := by
  simp [execOp, h]

theorem execOp_add (x : IRInst) (m : Machine) (h : x.type = .AddVal) :
    execOp x m =
      if inTape m.ptr then some (m.write (addByte (m.tape m.ptr) x.operand)) else none := by
  simp [execOp, h]

theorem merge_pair_ref (b x : IRInst) (hbx : b.type = x.type)
    (hx : x.type = .MovePtr ∨ x.type = .AddVal) :
    Ref (Code.ofList [b, x])
      (Code.ofList [{ b with operand := b.operand + x.operand }]) := by
  apply Ref_ofList
  intro m
  rcases hx with hx | hx
  · right
    have hb : b.type = .MovePtr := by rw [hbx, hx]
    simp only [runOps, execOp_move _ _ hx, execOp_move _ _ hb,
      execOp_move { b with operand := b.operand + x.operand } _ hb, add_assoc]
  · have hb : b.type = .AddVal := by rw [hbx, hx]
    by_cases ht : inTape m.ptr
    · right
      have ht2 : inTape (m.write (addByte (m.tape m.ptr) b.operand)).ptr := ht
      simp only [runOps, execOp_add _ _ hx, execOp_add _ _ hb,
        execOp_add { b with operand := b.operand + x.operand } _ hb, ht, ht2, if_true,
        write_ptr, write_tape_ptr, write_write, addByte_addByte]
    · left
      simp only [runOps, execOp_add _ _ hb, ht, if_false]

theorem cancel_pair_ref (b x : IRInst) (hbx : b.type = x.type)
    (hx : x.type = .MovePtr ∨ x.type = .AddVal) (h0 : b.operand + x.operand = 0) :
    Ref (Code.ofList [b, x]) .nil := by
  have : Code.nil = Code.ofList [] := rfl
  rw [this]
  apply Ref_ofList
  intro m
  rcases hx with hx | hx
  · right
    have hb : b.type = .MovePtr := by rw [hbx, hx]
    simp only [runOps, execOp_move _ _ hx, execOp_move _ _ hb, add_assoc, h0, add_zero]
  · have hb : b.type = .AddVal := by rw [hbx, hx]
    by_cases ht : inTape m.ptr
    · right
      have ht2 : inTape (m.write (addByte (m.tape m.ptr) b.operand)).ptr := ht
      simp only [runOps, execOp_add _ _ hx, execOp_add _ _ hb, ht, ht2, if_true,
        write_ptr, write_tape_ptr, write_write, addByte_addByte, h0, addByte_zero, write_self]
    · left
      simp only [runOps, execOp_add _ _ hb, ht, if_false]

theorem mergeStep_ref (t : List IRInst) (x : IRInst)
    (hx : x.type = .MovePtr ∨ x.type = .AddVal) :
    Ref (Code.ofList (t.reverse ++ [x])) (Code.ofList (mergeStep t x).reverse) := by
  cases t with
  | nil => exact Ref_refl _
  | cons b bs =>
    simp only [mergeStep]
    split_ifs with h1 h2
    · have e : (b :: bs).reverse ++ [x] = bs.reverse ++ [b, x] := by simp
      rw [e, Code.ofList_append]
      have := Ref_append (Ref_refl (Code.ofList bs.reverse)) (cancel_pair_ref b x h1.1 hx h2)
      simpa using this
    · have e : (b :: bs).reverse ++ [x] = bs.reverse ++ [b, x] := by simp
      have e2 : ({ b with operand := b.operand + x.operand } :: bs).reverse =
          bs.reverse ++ [{ b with operand := b.operand + x.operand }] := by simp
      rw [e, e2, Code.ofList_append, Code.ofList_append]
      exact Ref_append (Ref_refl _) (merge_pair_ref b x h1.1 hx)
    · have e : (x :: b :: bs).reverse = (b :: bs).reverse ++ [x] := by simp
      rw [e]
      exact Ref_refl _

theorem mergeRun_ref (c : Code) : ∀ t : List IRInst,
    Ref ((Code.ofList t.reverse).append c) (Code.mergeRun t c) := by
  induction c with
  | nil => intro t; simp only [Code.append_nil, Code.mergeRun]; exact Ref_refl _
  | op x r ih =>
    intro t
    by_cases hx : x.type = .MovePtr ∨ x.type = .AddVal
    · simp only [Code.mergeRun, hx, if_true]
      have e : (Code.ofList t.reverse).append (.op x r) =
          (Code.ofList (t.reverse ++ [x])).append r := by
        rw [Code.ofList_append, Code.append_assoc]; rfl
      rw [e]
      exact Ref_trans (Ref_append (mergeStep_ref t x hx) (Ref_refl r)) (ih _)
    · simp only [Code.mergeRun, hx, if_false]
      exact Ref_append (Ref_refl _) (Ref_op x (ih []))
  | loop b e body r ihb ihr =>
    intro t
    simp only [Code.mergeRun]
    exact Ref_append (Ref_refl _) (Ref_loop _ _ _ _ (ihb []) (ihr []))

theorem merge_ref (c : Code) : Ref c (Code.mergeRun [] c) := by
  have := mergeRun_ref c []
  simpa [Code.ofList] using this


theorem execOp_setZero (x : IRInst) (m : Machine) (h : x.type = .SetZero) :
    execOp x m = if inTape m.ptr then some (m.write 0) else none := by
  simp [execOp, h]

theorem write_zero_of_zero (m : Machine) (h : m.tape m.ptr = 0) : m.write 0 = m := by
  have := write_self m
  rw [h] at this
  exact this

theorem Big_unit_body (a : IRInst) (ha : a.type = .AddVal) (m : Machine) (r : Option Machine)
    (ht : inTape m.ptr) (h : Big (.op a .nil) m r) :
    r = some (m.write (addByte (m.tape m.ptr) a.operand)) := by
  cases h with
  | op_ok h1 h2 =>
    rw [execOp_add _ _ ha, if_pos ht] at h1
    cases h2
    exact h1.symm
  | op_fault h1 =>
    rw [execOp_add _ _ ha, if_pos ht] at h1
    cases h1

theorem zero_loop_forward (b e a z : IRInst) (rest : Code) (ha : a.type = .AddVal)
    (hz : z.type = .SetZero) :
    Same (.loop b e (.op a .nil) rest) (.op z rest) := by
  refine Big_loop_ind (fun m r => Big (.op z rest) m r) ?_ ?_ ?_ ?_
  · intro m h1
    exact Big.op_fault (by rw [execOp_setZero _ _ hz, if_neg h1])
  · intro m r h1 h2 h3
    refine @Big.op_ok z rest m m r ?_ h3
    rw [execOp_setZero _ _ hz, if_pos h1, write_zero_of_zero m h2]
  · intro m h1 _ h3
    have := Big_unit_body a ha m none h1 h3
    cases this
  · intro m m1 r h1 _ h3 _ ih
    have hm1 := Big_unit_body a ha m (some m1) h1 h3
    simp only [Option.some.injEq] at hm1
    subst hm1
    cases ih with
    | op_ok h4 h5 =>
      rw [execOp_setZero _ _ hz] at h4
      simp only [write_ptr, h1, if_true, Option.some.injEq, write_write] at h4
      subst h4
      exact Big.op_ok (by rw [execOp_setZero _ _ hz, if_pos h1]) h5
    | op_fault h4 =>
      rw [execOp_setZero _ _ hz] at h4
      simp only [write_ptr, h1, if_true] at h4
      cases h4

theorem zero_loop_terminates (b e a : IRInst) (rest : Code) (ha : a.type = .AddVal)
    (r : Option Machine) (k : Nat) : ∀ m : Machine, inTape m.ptr →
    ((a.operand = -1 ∧ (m.tape m.ptr).val = k) ∨
      (a.operand = 1 ∧ (256 - (m.tape m.ptr).val) % 256 = k)) →
    Big rest (m.write 0) r → Big (.loop b e (.op a .nil) rest) m r := by
  induction k with
  | zero =>
    intro m ht hk hrest
    have hv : m.tape m.ptr = 0 := by
      apply Fin.ext
      have := (m.tape m.ptr).isLt
      simp only [Fin.val_zero]
      omega
    rw [write_zero_of_zero m hv] at hrest
    exact Big.loop_skip ht hv hrest
  | succ k ih =>
    intro m ht hk hrest
    have hlt := (m.tape m.ptr).isLt
    have hv : m.tape m.ptr ≠ 0 := by
      intro h0
      rw [h0] at hk
      simp at hk
    have hbody : Big (.op a .nil) m (some (m.write (addByte (m.tape m.ptr) a.operand))) :=
      Big.op_ok (by rw [execOp_add _ _ ha, if_pos ht]) (Big.nil _)
    refine Big.loop_iter ht hv hbody (ih _ ht ?_ (by rw [write_write]; exact hrest))
    have hval := addByte_val (m.tape m.ptr) a.operand
    simp only [write_ptr, write_tape_ptr]
    rcases hk with ⟨h1, h2⟩ | ⟨h1, h2⟩
    · left
      refine ⟨h1, ?_⟩
      omega
    · right
      refine ⟨h1, ?_⟩
      omega

theorem zero_loop_ref (b e a z : IRInst) (rest : Code) (ha : a.type = .AddVal)
    (hop : a.operand = 1 ∨ a.operand = -1) (hz : z.type = .SetZero) :
    Ref (.loop b e (.op a .nil) rest) (.op z rest) := by
  constructor
  · intro m m1 h
    exact zero_loop_forward b e a z rest ha hz _ _ h
  · intro m r h
    cases h with
    | op_ok h1 h2 =>
      by_cases ht : inTape m.ptr
      · rw [execOp_setZero _ _ hz, if_pos ht] at h1
        simp only [Option.some.injEq] at h1
        subst h1
        left
        rcases hop with h3 | h3
        · exact zero_loop_terminates b e a rest ha r _ m ht (Or.inr ⟨h3, rfl⟩) h2
        · exact zero_loop_terminates b e a rest ha r _ m ht (Or.inl ⟨h3, rfl⟩) h2
      · rw [execOp_setZero _ _ hz, if_neg ht] at h1
        cases h1
    | op_fault h1 =>
      left
      by_cases ht : inTape m.ptr
      · rw [execOp_setZero _ _ hz, if_pos ht] at h1
        cases h1
      · exact Big.loop_fault ht

theorem zeroLoops_ref (c : Code) : Ref c (Code.zeroLoops c) := by
  induction c with
  | nil => exact Ref_refl _
  | op x r ih => exact Ref_op x ih
  | loop b e body r ihb ihr =>
    simp only [Code.zeroLoops]
    split_ifs with hu
    · match body, hu with
      | .op a .nil, hu =>
        simp only [Code.isUnit, decide_eq_true_eq] at hu
        exact Ref_trans (zero_loop_ref b e a ⟨.SetZero, 0, -1⟩ r hu.1 hu.2 rfl) (Ref_op _ ihr)
    · exact Ref_loop _ _ _ _ ihb ihr

theorem dropDead_sem (c : Code) : ∀ (m : Machine) (r : Option Machine), inTape m.ptr →
    m.tape m.ptr = 0 → (Big c m r ↔ Big (Code.dropDead c) m r) := by
  induction c with
  | nil => intro m r _ _; exact Iff.rfl
  | op x rest _ => intro m r _ _; exact Iff.rfl
  | loop b e body rest _ ih =>
    intro m r h1 h2
    simp only [Code.dropDead]
    rw [← ih m r h1 h2]
    constructor
    · intro h
      cases h with
      | loop_fault h3 => exact absurd h1 h3
      | loop_skip _ _ h5 => exact h5
      | loop_body_fault _ h4 _ => exact absurd h2 h4
      | loop_iter _ h4 _ _ => exact absurd h2 h4
    · intro h
      exact Big.loop_skip h1 h2 h

theorem optimized_sem (c : Code) (m : Machine) (h1 : inTape m.ptr) (h2 : m.tape m.ptr = 0) :
    (∀ m1, Big c m (some m1) → Big c.optimized m (some m1)) ∧
    (∀ r, Big c.optimized m r → Big c m r ∨ Big c m none) := by
  have href : Ref c (Code.zeroLoops (Code.mergeRun [] c)) :=
    Ref_trans (merge_ref c) (zeroLoops_ref _)
  constructor
  · intro m1 h
    exact (Same_relink _ 0).1 _ _ ((dropDead_sem _ m _ h1 h2).1 (href.1 _ _ h))
  · intro r h
    exact href.2 _ _ ((dropDead_sem _ m _ h1 h2).2 ((Same_relink _ 0).2 _ _ h))


/-! ## The interpreter loop and the structured semantics -/

theorem interpLoop_succ (n : Nat) (program : List IRInst) (m : Machine) (ip : Int) :
    interpLoop (n + 1) program m ip =
      match interpStep program m ip with
      | .running m1 ip1 => interpLoop n program m1 ip1
      | r => r := rfl

theorem interpLoop_add (a : Nat) : ∀ (b : Nat) (program : List IRInst) (m : Machine) (ip : Int),
    interpLoop (a + b) program m ip =
      match interpLoop a program m ip with
      | .running m1 ip1 => interpLoop b program m1 ip1
      | r => r := by
  induction a with
  | zero => intro b program m ip; simp [interpLoop]
  | succ a ih =>
    intro b program m ip
    have e : a + 1 + b = (a + b) + 1 := by omega
    rw [e, interpLoop_succ, interpLoop_succ]
    cases h : interpStep program m ip with
    | running m1 ip1 => exact ih b program m1 ip1
    | halted m1 => rfl
    | fault => rfl

theorem interpLoop_halted_stable (a b : Nat) (program : List IRInst) (m : Machine) (ip : Int)
    (mh : Machine) (h : interpLoop a program m ip = .halted mh) :
    interpLoop (a + b) program m ip = .halted mh := by
  rw [interpLoop_add, h]

theorem interpLoop_fault_stable (a b : Nat) (program : List IRInst) (m : Machine) (ip : Int)
    (h : interpLoop a program m ip = .fault) :
    interpLoop (a + b) program m ip = .fault := by
  rw [interpLoop_add, h]

theorem interpLoop_halted_unique (a b : Nat) (program : List IRInst) (m : Machine) (ip : Int)
    (x y : Machine) (hx : interpLoop a program m ip = .halted x)
    (hy : interpLoop b program m ip = .halted y) : x = y := by
  have h1 := interpLoop_halted_stable a b program m ip x hx
  have h2 := interpLoop_halted_stable b a program m ip y hy
  rw [Nat.add_comm] at h2
  rw [h1] at h2
  cases h2
  rfl

theorem interpStep_at (program : List IRInst) (m : Machine) (o : Nat) (x : IRInst)
    (h : program[o]? = some x) : interpStep program m (o : Int) = execInst x m (o : Int) := by
  have hlt := lt_of_getElem? _ _ _ h
  have h1 : ((o : Nat) : Int) < (program.length : Int) := by exact_mod_cast hlt
  have h2 : ¬ ((o : Nat) : Int) < 0 := by omega
  simp only [interpStep, h1, h2, if_true, if_false, Int.toNat_ofNat, h]

theorem interpStep_end (program : List IRInst) (m : Machine) :
    interpStep program m (program.length : Int) = .halted m := by
  simp [interpStep]

theorem execInst_op (x : IRInst) (m : Machine) (ip : Int) (h1 : x.type ≠ .LoopBegin)
    (h2 : x.type ≠ .LoopEnd) :
    execInst x m ip =
      match execOp x m with
      | some m1 => .running m1 (ip + 1)
      | none => .fault := by
  unfold execInst execOp
  cases hx : x.type with
  | LoopBegin => exact absurd hx h1
  | LoopEnd => exact absurd hx h2
  | MovePtr => rfl
  | AddVal => simp only []; split_ifs <;> rfl
  | Output => simp only []; split_ifs <;> rfl
  | Input => simp only []; split_ifs <;> rfl
  | SetZero => simp only []; split_ifs <;> rfl

theorem Located_op (program : List IRInst) (o : Nat) (x : IRInst) (rest : Code)
    (h : Located program o (.op x rest)) :
    program[o]? = some x ∧ x.type ≠ .LoopBegin ∧ x.type ≠ .LoopEnd ∧
      Located program (o + 1) rest := by
  obtain ⟨hw, hl, pre, post, hp, hlen⟩ := h
  refine ⟨?_, hw.1, hw.2.1, hw.2.2, hl, pre ++ [x], post, ?_, ?_⟩
  · rw [hp, ← hlen]
    simpa using getElem?_append_cons pre (rest.flatten ++ post) x
  · simp [hp]
  · simp [hlen]

theorem Located_loop (program : List IRInst) (o : Nat) (b e : IRInst) (body rest : Code)
    (h : Located program o (.loop b e body rest)) :
    program[o]? = some b ∧ program[o + 1 + body.size]? = some e ∧
      b.type = .LoopBegin ∧ e.type = .LoopEnd ∧
      b.jump_target = ((o + 1 + body.size : Nat) : Int) ∧ e.jump_target = (o : Int) ∧
      Located program (o + 1) body ∧ Located program (o + 2 + body.size) rest := by
  obtain ⟨hw, hl, pre, post, hp, hlen⟩ := h
  obtain ⟨w1, w2, w3, w4⟩ := hw
  obtain ⟨l1, l2, l3, l4⟩ := hl
  refine ⟨?_, ?_, w1, w2, l1, l2, ⟨w3, l3, pre ++ [b], e :: (rest.flatten ++ post), ?_, ?_⟩,
    ⟨w4, l4, pre ++ b :: (body.flatten ++ [e]), post, ?_, ?_⟩⟩
  · rw [hp, ← hlen]
    simpa using getElem?_append_cons pre (body.flatten ++ e :: (rest.flatten ++ post)) b
  · have := getElem?_append_cons (pre ++ b :: body.flatten) (rest.flatten ++ post) e
    have e1 : (pre ++ b :: body.flatten).length = o + 1 + body.size := by
      simp [Code.size, hlen]; omega
    rw [e1] at this
    rw [hp, ← this]
    simp
  · simp [hp]
  · simp [hlen]
  · simp [hp]
  · simp [hlen, Code.size]; omega

theorem Located_whole (c : Code) (hw : c.WF) (hl : c.Linked 0) : Located c.flatten 0 c :=
  ⟨hw, hl, [], [], by simp, rfl⟩

theorem Located_size (program : List IRInst) (o : Nat) (c : Code) (h : Located program o c) :
    o + c.size ≤ program.length := by
  obtain ⟨_, _, pre, post, hp, hlen⟩ := h
  rw [hp, ← hlen]
  simp [Code.size]

theorem loop_ends_agree (program : List IRInst) (o : Nat) (b e : IRInst) (body rest : Code)
    (h : Located program o (.loop b e body rest)) (m : Machine) :
    interpStep program m ((o + 1 + body.size : Nat) : Int) = interpStep program m (o : Int) := by
  obtain ⟨hb, he, tb, te, jb, je, _, _⟩ := Located_loop _ _ _ _ _ _ h
  rw [interpStep_at _ _ _ _ hb, interpStep_at _ _ _ _ he]
  unfold execInst
  rw [tb, te]
  simp only []
  by_cases ht : inTape m.ptr
  · by_cases hz : m.tape m.ptr = 0
    · simp only [ht, hz, if_true, ne_eq, not_true_eq_false, if_false, jb]
    · simp only [ht, hz, if_true, ne_eq, not_false_eq_true, if_false, je]
  · simp only [ht, if_false]

theorem Big_run (program : List IRInst) (c : Code) (m : Machine) (r : Option Machine)
    (h : Big c m r) : ∀ o, Located program o c →
      (∀ m1, r = some m1 →
        ∃ n, interpLoop n program m (o : Int) = .running m1 ((o + c.size : Nat) : Int)) ∧
      (r = none → ∃ n, interpLoop n program m (o : Int) = .fault) := by
  induction h with
  | nil m =>
    intro o _
    refine ⟨?_, fun h => by cases h⟩
    intro m1 hm
    cases hm
    exact ⟨0, by simp [interpLoop]⟩
  | @op_ok x rest m m1 r h1 _ ih =>
    intro o hloc
    obtain ⟨hx, t1, t2, hrest⟩ := Located_op _ _ _ _ hloc
    have hstep : interpStep program m (o : Int) = .running m1 ((o + 1 : Nat) : Int) := by
      rw [interpStep_at _ _ _ _ hx, execInst_op _ _ _ t1 t2, h1]
      simp
    obtain ⟨ih1, ih2⟩ := ih (o + 1) hrest
    constructor
    · intro m2 hm
      obtain ⟨n, hn⟩ := ih1 m2 hm
      refine ⟨n + 1, ?_⟩
      rw [interpLoop_succ, hstep]
      simp only [hn, Code.size_op]
      congr 1
      push_cast
      omega
    · intro hm
      obtain ⟨n, hn⟩ := ih2 hm
      refine ⟨n + 1, ?_⟩
      rw [interpLoop_succ, hstep]
      exact hn
  | @op_fault x rest m h1 =>
    intro o hloc
    obtain ⟨hx, t1, t2, _⟩ := Located_op _ _ _ _ hloc
    refine ⟨fun m1 h => (by cases h), fun _ => ⟨1, ?_⟩⟩
    rw [interpLoop_succ, interpStep_at _ _ _ _ hx, execInst_op _ _ _ t1 t2, h1]
  | @loop_fault b e body rest m h1 =>
    intro o hloc
    obtain ⟨hb, _, tb, _⟩ := Located_loop _ _ _ _ _ _ hloc
    refine ⟨fun m1 h => (by cases h), fun _ => ⟨1, ?_⟩⟩
    rw [interpLoop_succ, interpStep_at _ _ _ _ hb]
    simp [execInst, tb, h1]
  | @loop_skip b e body rest m r h1 h2 _ ih =>
    intro o hloc
    obtain ⟨hb, _, tb, _, jb, _, _, hrest⟩ := Located_loop _ _ _ _ _ _ hloc
    have hstep : interpStep program m (o : Int) =
        .running m ((o + 2 + body.size : Nat) : Int) := by
      rw [interpStep_at _ _ _ _ hb]
      simp only [execInst, tb, h1, h2, if_true, jb]
      congr 1
      push_cast
      omega
    obtain ⟨ih1, ih2⟩ := ih _ hrest
    constructor
    · intro m2 hm
      obtain ⟨n, hn⟩ := ih1 m2 hm
      refine ⟨n + 1, ?_⟩
      rw [interpLoop_succ, hstep]
      simp only [hn, Code.size_loop]
      congr 1
      push_cast
      omega
    · intro hm
      obtain ⟨n, hn⟩ := ih2 hm
      refine ⟨n + 1, ?_⟩
      rw [interpLoop_succ, hstep]
      exact hn
  | @loop_body_fault b e body rest m h1 h2 _ ih =>
    intro o hloc
    obtain ⟨hb, _, tb, _, _, _, hbody, _⟩ := Located_loop _ _ _ _ _ _ hloc
    have hstep : interpStep program m (o : Int) = .running m ((o + 1 : Nat) : Int) := by
      rw [interpStep_at _ _ _ _ hb]
      simp only [execInst, tb, h1, h2, if_true, if_false]
      rfl
    refine ⟨fun m1 h => (by cases h), fun _ => ?_⟩
    obtain ⟨n, hn⟩ := (ih _ hbody).2 rfl
    refine ⟨n + 1, ?_⟩
    rw [interpLoop_succ, hstep]
    exact hn
  | @loop_iter b e body rest m m1 r h1 h2 _ _ ihb ihl =>
    intro o hloc
    obtain ⟨hb, _, tb, _, _, _, hbody, _⟩ := Located_loop _ _ _ _ _ _ hloc
    have hstep : interpStep program m (o : Int) = .running m ((o + 1 : Nat) : Int) := by
      rw [interpStep_at _ _ _ _ hb]
      simp only [execInst, tb, h1, h2, if_true, if_false]
      rfl
    obtain ⟨n1, hn1⟩ := (ihb _ hbody).1 m1 rfl
    have hagree := loop_ends_agree _ _ _ _ _ _ hloc m1
    have key : ∀ (out : Outcome) (n2 : Nat), interpLoop n2 program m1 (o : Int) = out →
        (∀ mm, out ≠ .running mm (o : Int)) →
        ∃ n, interpLoop n program m (o : Int) = out := by
      intro out n2 hn2 hne
      cases n2 with
      | zero => exact absurd hn2.symm (by simpa [interpLoop] using hne m1)
      | succ k =>
        refine ⟨1 + (n1 + (k + 1)), ?_⟩
        rw [Nat.add_comm 1, interpLoop_succ, hstep]
        simp only []
        rw [interpLoop_add, hn1]
        simp only []
        rw [interpLoop_succ, hagree, ← interpLoop_succ]
        exact hn2
    obtain ⟨il1, il2⟩ := ihl o hloc
    constructor
    · intro m2 hm
      obtain ⟨n2, hn2⟩ := il1 m2 hm
      refine key _ n2 hn2 ?_
      intro mm hh
      simp only [Outcome.running.injEq, Code.size_loop] at hh
      have := hh.2
      omega
    · intro hm
      obtain ⟨n2, hn2⟩ := il2 hm
      exact key _ n2 hn2 (fun mm hh => by cases hh)

theorem step_op (program : List IRInst) (o : Nat) (x : IRInst) (rest : Code)
    (h : Located program o (.op x rest)) (m : Machine) :
    interpStep program m (o : Int) =
      match execOp x m with
      | some m1 => .running m1 ((o + 1 : Nat) : Int)
      | none => .fault := by
  obtain ⟨hx, t1, t2, _⟩ := Located_op _ _ _ _ h
  rw [interpStep_at _ _ _ _ hx, execInst_op _ _ _ t1 t2]
  cases execOp x m <;> simp

theorem step_loop (program : List IRInst) (o : Nat) (b e : IRInst) (body rest : Code)
    (h : Located program o (.loop b e body rest)) (m : Machine) :
    interpStep program m (o : Int) =
      if inTape m.ptr then
        if m.tape m.ptr = 0 then .running m ((o + 2 + body.size : Nat) : Int)
        else .running m ((o + 1 : Nat) : Int)
      else .fault := by
  obtain ⟨hb, _, tb, _, jb, _, _, _⟩ := Located_loop _ _ _ _ _ _ h
  rw [interpStep_at _ _ _ _ hb]
  simp only [execInst, tb, jb]
  split_ifs
  · congr 1; push_cast; omega
  · rfl
  · rfl

theorem run_Big (program : List IRInst) : ∀ (n : Nat) (c : Code) (o : Nat) (m mh : Machine),
    Located program o c → interpLoop n program m (o : Int) = .halted mh →
    ∃ m1 k, k ≤ n ∧ Big c m (some m1) ∧
      interpLoop k program m (o : Int) = .running m1 ((o + c.size : Nat) : Int) := by
  intro n
  induction n using Nat.strong_induction_on with
  | _ n ih =>
    intro c o m mh hloc hrun
    cases c with
    | nil => exact ⟨m, 0, Nat.zero_le _, Big.nil m, by simp [interpLoop]⟩
    | op x rest =>
      obtain ⟨_, _, _, hrest⟩ := Located_op _ _ _ _ hloc
      cases n with
      | zero => simp [interpLoop] at hrun
      | succ n1 =>
        have hstep := step_op _ _ _ _ hloc m
        rw [interpLoop_succ, hstep] at hrun
        cases hop : execOp x m with
        | none => rw [hop] at hrun; cases hrun
        | some m1 =>
          rw [hop] at hrun hstep
          obtain ⟨m2, k, hk, hbig, hreach⟩ := ih n1 (Nat.lt_succ_self _) rest (o + 1) m1 mh
            hrest hrun
          refine ⟨m2, k + 1, by omega, Big.op_ok hop hbig, ?_⟩
          rw [interpLoop_succ, hstep]
          simp only [hreach, Code.size_op]
          congr 1
          push_cast
          omega
    | loop b e body rest =>
      obtain ⟨_, _, _, _, _, _, hbody, hrest⟩ := Located_loop _ _ _ _ _ _ hloc
      cases n with
      | zero => simp [interpLoop] at hrun
      | succ n1 =>
        have hstep := step_loop _ _ _ _ _ _ hloc m
        rw [interpLoop_succ, hstep] at hrun
        by_cases ht : inTape m.ptr
        · by_cases hz : m.tape m.ptr = 0
          · simp only [ht, hz, if_true] at hrun hstep
            obtain ⟨m2, k, hk, hbig, hreach⟩ := ih n1 (Nat.lt_succ_self _) rest _ m mh
              hrest hrun
            refine ⟨m2, k + 1, by omega, Big.loop_skip ht hz hbig, ?_⟩
            rw [interpLoop_succ, hstep]
            simp only [hreach, Code.size_loop]
            congr 1
            push_cast
            omega
          · simp only [ht, hz, if_true, if_false] at hrun hstep
            obtain ⟨m1, k1, hk1, hbig1, hreach1⟩ := ih n1 (Nat.lt_succ_self _) body _ m mh
              hbody hrun
            obtain ⟨j, hj⟩ : ∃ j, n1 = k1 + j := ⟨n1 - k1, by omega⟩
            rw [hj, interpLoop_add, hreach1] at hrun
            simp only [] at hrun
            have hagree := loop_ends_agree _ _ _ _ _ _ hloc m1
            cases j with
            | zero => simp [interpLoop] at hrun
            | succ j1 =>
              rw [interpLoop_succ, hagree, ← interpLoop_succ] at hrun
              obtain ⟨m2, k2, hk2, hbig2, hreach2⟩ := ih (j1 + 1) (by omega)
                (.loop b e body rest) o m1 mh hloc hrun
              cases k2 with
              | zero =>
                simp only [interpLoop, Outcome.running.injEq, Code.size_loop] at hreach2
                have := hreach2.2
                omega
              | succ k3 =>
                refine ⟨m2, 1 + (k1 + (k3 + 1)), by omega, Big.loop_iter ht hz hbig1 hbig2, ?_⟩
                rw [Nat.add_comm 1, interpLoop_succ, hstep]
                simp only []
                rw [interpLoop_add, hreach1]
                simp only []
                rw [interpLoop_succ, hagree, ← interpLoop_succ]
                exact hreach2
        · simp only [ht, if_false] at hrun
          cases hrun


/-! ## Optimization keeps the behaviour of the interpreter -/

theorem halted_of_Big (c : Code) (hw : c.WF) (hl : c.Linked 0) (m m1 : Machine)
    (h : Big c m (some m1)) : ∃ n, interpLoop n c.flatten m 0 = .halted m1 := by
  obtain ⟨n, hn⟩ := (Big_run c.flatten c m _ h 0 (Located_whole c hw hl)).1 m1 rfl
  refine ⟨n + 1, ?_⟩
  have h0 : ((0 : Nat) : Int) = 0 := rfl
  rw [h0] at hn
  have e : ((0 + c.size : Nat) : Int) = (c.flatten.length : Int) := by simp [Code.size]
  rw [interpLoop_add, hn, e]
  show interpLoop (0 + 1) c.flatten m1 (c.flatten.length : Int) = .halted m1
  rw [interpLoop_succ, interpStep_end]

theorem fault_of_Big (c : Code) (hw : c.WF) (hl : c.Linked 0) (m : Machine)
    (h : Big c m none) : ∃ n, interpLoop n c.flatten m 0 = .fault := by
  obtain ⟨n, hn⟩ := (Big_run c.flatten c m _ h 0 (Located_whole c hw hl)).2 rfl
  exact ⟨n, hn⟩

theorem Big_of_halted (c : Code) (hw : c.WF) (hl : c.Linked 0) (m mh : Machine) (n : Nat)
    (h : interpLoop n c.flatten m 0 = .halted mh) : Big c m (some mh) := by
  obtain ⟨m1, k, _, hbig, _⟩ := run_Big c.flatten n c 0 m mh (Located_whole c hw hl) h
  obtain ⟨n2, hn2⟩ := halted_of_Big c hw hl m m1 hbig
  have := interpLoop_halted_unique _ _ _ _ _ _ _ h hn2
  rw [this]
  exact hbig

theorem never_fault_of_halted (program : List IRInst) (m : Machine) (ip : Int) (k : Nat)
    (mh : Machine) (h : interpLoop k program m ip = .halted mh) :
    ∀ n, interpLoop n program m ip ≠ .fault := by
  intro n hf
  have h1 := interpLoop_halted_stable k n program m ip mh h
  have h2 := interpLoop_fault_stable n k program m ip hf
  rw [Nat.add_comm] at h2
  rw [h1] at h2
  cases h2

theorem optimized_behaviour (c : Code) (hw : c.WF) (hl : c.Linked 0) (stdin : List Byte)
    (hsafe : ∀ n, interpret n c.flatten stdin ≠ .fault) :
    ((∃ n m, interpret n c.flatten stdin = .halted m) ↔
      (∃ n m, interpret n c.optimized.flatten stdin = .halted m)) ∧
    (∀ n k m1 m2, interpret n c.flatten stdin = .halted m1 →
      interpret k c.optimized.flatten stdin = .halted m2 → m1 = m2) := by
  have hw2 := WF_optimized c hw
  have hl2 : c.optimized.Linked 0 := Code.Linked_relink _ 0
  have ht : inTape (initMachine stdin).ptr := by
    simp only [initMachine, inTape, TAPE_SIZE]; decide
  have hz : (initMachine stdin).tape (initMachine stdin).ptr = 0 := rfl
  obtain ⟨fwd, bwd⟩ := optimized_sem c (initMachine stdin) ht hz
  have hfwd : ∀ n m, interpret n c.flatten stdin = .halted m →
      ∃ k, interpret k c.optimized.flatten stdin = .halted m := by
    intro n m h
    exact halted_of_Big _ hw2 hl2 _ _ (fwd _ (Big_of_halted c hw hl _ _ n h))
  refine ⟨⟨?_, ?_⟩, ?_⟩
  · rintro ⟨n, m, h⟩
    obtain ⟨k, hk⟩ := hfwd n m h
    exact ⟨k, m, hk⟩
  · rintro ⟨n, m, h⟩
    rcases bwd _ (Big_of_halted _ hw2 hl2 _ _ n h) with h1 | h1
    · obtain ⟨k, hk⟩ := halted_of_Big c hw hl _ _ h1
      exact ⟨k, m, hk⟩
    · obtain ⟨k, hk⟩ := fault_of_Big c hw hl _ h1
      exact absurd hk (hsafe k)
  · intro n k m1 m2 h1 h2
    obtain ⟨j, hj⟩ := hfwd n m1 h1
    exact interpLoop_halted_unique _ _ _ _ _ _ _ hj h2

/-- C1. Optimization preserves observable behaviour. For a source text whose
parse succeeds and whose unoptimized run never indexes the tape outside
`[0, 30000)`, whatever the stdin bytes: `optimize` returns a program, the
interpreter halts on it exactly when it halts on the unoptimized program, and
when both halt they have written the same stdout bytes. -/
theorem optimize_preserves_behaviour (source : List Char) (stdin : List Byte)
    (p : List IRInst) (hp : parse (lex source) = .ok p)
    (hsafe : ∀ n, interpret n p stdin ≠ .fault) :
    ∃ q, optimize p = some q ∧
      ((∃ n m, interpret n p stdin = .halted m) ↔ (∃ n m, interpret n q stdin = .halted m)) ∧
      (∀ n k m1 m2, interpret n p stdin = .halted m1 → interpret k q stdin = .halted m2 →
        m1.output = m2.output) := by
  obtain ⟨c, hc, hw, hl⟩ := parse_tree _ p hp
  subst hc
  obtain ⟨h1, h2⟩ := optimized_behaviour c hw hl stdin hsafe
  refine ⟨c.optimized.flatten, optimize_flatten c hw, h1, ?_⟩
  intro n k m1 m2 hn hk
  rw [h2 n k m1 m2 hn hk]

theorem optimize_preserves_behaviour_witness :
    parse (lex ['a', '+', '[', '-', ']', '+', '.']) =
      .ok [⟨.AddVal, 1, -1⟩, ⟨.LoopBegin, 0, 3⟩, ⟨.AddVal, -1, -1⟩, ⟨.LoopEnd, 0, 1⟩,
        ⟨.AddVal, 1, -1⟩, ⟨.Output, 0, -1⟩] ∧
    (∀ n, interpret n [⟨.AddVal, 1, -1⟩, ⟨.LoopBegin, 0, 3⟩, ⟨.AddVal, -1, -1⟩,
        ⟨.LoopEnd, 0, 1⟩, ⟨.AddVal, 1, -1⟩, ⟨.Output, 0, -1⟩] [7] ≠ .fault) ∧
    ∃ q, optimize [⟨.AddVal, 1, -1⟩, ⟨.LoopBegin, 0, 3⟩, ⟨.AddVal, -1, -1⟩,
        ⟨.LoopEnd, 0, 1⟩, ⟨.AddVal, 1, -1⟩, ⟨.Output, 0, -1⟩] = some q ∧
      ((∃ n m, interpret n [⟨.AddVal, 1, -1⟩, ⟨.LoopBegin, 0, 3⟩, ⟨.AddVal, -1, -1⟩,
        ⟨.LoopEnd, 0, 1⟩, ⟨.AddVal, 1, -1⟩, ⟨.Output, 0, -1⟩] [7] = .halted m) ↔
        (∃ n m, interpret n q [7] = .halted m)) ∧
      (∀ n k m1 m2, interpret n [⟨.AddVal, 1, -1⟩, ⟨.LoopBegin, 0, 3⟩, ⟨.AddVal, -1, -1⟩,
        ⟨.LoopEnd, 0, 1⟩, ⟨.AddVal, 1, -1⟩, ⟨.Output, 0, -1⟩] [7] = .halted m1 →
        interpret k q [7] = .halted m2 → m1.output = m2.output) :=
  ⟨rfl, never_fault_of_halted _ _ _ 7 _ rfl,
    optimize_preserves_behaviour ['a', '+', '[', '-', ']', '+', '.'] [7] _ rfl
      (never_fault_of_halted _ _ _ 7 _ rfl)⟩

/-! ## Lexer -/

theorem lex_foldl (source : List Char) : ∀ acc : List Char,
    source.foldl (fun tokens c => if isSignificant c then tokens ++ [c] else tokens) acc =
      acc ++ source.filter isSignificant := by
  induction source with
  | nil => intro acc; simp
  | cons c cs ih =>
    intro acc
    simp only [List.foldl_cons, ih, List.filter_cons]
    split_ifs <;> simp

theorem lex_eq_filter (source : List Char) : lex source = source.filter isSignificant := by
  unfold lex
  rw [lex_foldl]
  simp

theorem isSignificant_iff (c : Char) :
    isSignificant c = true ↔ c ∈ ['>', '<', '+', '-', '.', ',', '[', ']'] := by
  simp [isSignificant, or_assoc]

/-- C13. `lex s` is `s` with the characters outside `> < + - . , [ ]` removed: every
character of `lex s` is one of the eight, `lex s` is a subsequence of `s`, it is
exactly the significant characters of `s` in their order (none is omitted), and
`lex` is a total function. -/
theorem lex_filters (s : List Char) :
    (∀ c ∈ lex s, c ∈ ['>', '<', '+', '-', '.', ',', '[', ']']) ∧
    List.Sublist (lex s) s ∧
    lex s = s.filter (fun c => decide (c ∈ ['>', '<', '+', '-', '.', ',', '[', ']'])) ∧
    (∀ c, c ∈ ['>', '<', '+', '-', '.', ',', '[', ']'] → (lex s).count c = s.count c) := by
  have hf : (fun c => decide (c ∈ ['>', '<', '+', '-', '.', ',', '[', ']'])) = isSignificant := by
    funext c
    rw [Bool.eq_iff_iff, decide_eq_true_iff, isSignificant_iff]
  rw [hf, lex_eq_filter]
  refine ⟨?_, List.filter_sublist s, rfl, ?_⟩
  · intro c hc
    rw [← isSignificant_iff]
    exact (List.mem_filter.1 hc).2
  · intro c hc
    rw [← isSignificant_iff] at hc
    rw [List.count_filter hc]

/-- C14. `lex` is idempotent, and it is the identity on a text made only of the
eight significant characters. -/
theorem lex_idempotent (s : List Char) :
    lex (lex s) = lex s ∧
    ((∀ c ∈ s, c ∈ ['>', '<', '+', '-', '.', ',', '[', ']']) → lex s = s) := by
  constructor
  · rw [lex_eq_filter, lex_eq_filter, List.filter_filter]
    simp
  · intro h
    rw [lex_eq_filter, List.filter_eq_self]
    intro c hc
    rw [isSignificant_iff]
    exact h c hc

theorem lex_idempotent_witness :
    lex ['[', '-', ']', '+'] = ['[', '-', ']', '+'] :=
  (lex_idempotent ['[', '-', ']', '+']).2 (by decide)


/-! ## The parser emits one instruction per significant character -/

theorem parseLoop_keys (ts : List Char) : ∀ (program : List IRInst) (st : List Nat)
    (p : List IRInst), parseLoop ts program st = .ok p →
      p.map IRInst.key = program.map IRInst.key ++ (ts.filter isSignificant).map tokenKey := by
  induction ts with
  | nil =>
    intro program st p h
    simp only [parseLoop] at h
    split_ifs at h
    simp only [Except.ok.injEq] at h
    subst h
    simp
  | cons c cs ih =>
    intro program st p h
    simp only [parseLoop] at h
    split_ifs at h with h1 h2 h3 h4 h5 h6 h7 h8
    · rw [ih _ _ _ h]; subst h1; simp [isSignificant, tokenKey, IRInst.key]
    · rw [ih _ _ _ h]; subst h2; simp [isSignificant, tokenKey, IRInst.key]
    · rw [ih _ _ _ h]; subst h3; simp [isSignificant, tokenKey, IRInst.key]
    · rw [ih _ _ _ h]; subst h4; simp [isSignificant, tokenKey, IRInst.key]
    · rw [ih _ _ _ h]; subst h5; simp [isSignificant, tokenKey, IRInst.key]
    · rw [ih _ _ _ h]; subst h6; simp [isSignificant, tokenKey, IRInst.key]
    · rw [ih _ _ _ h]; subst h7; simp [isSignificant, tokenKey, IRInst.key]
    · cases st with
      | nil => simp at h
      | cons opn rest =>
        simp only at h
        rw [ih _ _ _ h, key_setJump]
        subst h8
        simp [isSignificant, tokenKey, IRInst.key]
    · rw [ih _ _ _ h]
      have : isSignificant c = false := by
        simp [isSignificant, h1, h2, h3, h4, h5, h6, h7, h8]
      simp [this]

theorem getElem?_setJump (l : List IRInst) : ∀ (i j : Nat) (t : Int),
    (setJump l i t)[j]? =
      if j = i then (l[j]?).map (fun x => { x with jump_target := t }) else l[j]? := by
  induction l with
  | nil => intro i j t; simp [setJump]
  | cons x xs ih =>
    intro i j t
    cases i with
    | zero =>
      cases j with
      | zero => simp [setJump]
      | succ j => simp [setJump]
    | succ i =>
      cases j with
      | zero => simp [setJump]
      | succ j => simp [setJump, ih]

theorem PlainInv_push (program : List IRInst) (st : List Nat) (x : IRInst)
    (hx : x.type ≠ .LoopBegin → x.type ≠ .LoopEnd → x.jump_target = -1)
    (h : PlainInv program st) : PlainInv (program ++ [x]) st := by
  constructor
  · intro y hy
    rcases List.mem_append.1 hy with h1 | h1
    · exact h.1 y h1
    · simp only [List.mem_singleton] at h1; subst h1; exact hx
  · intro o ho
    obtain ⟨y, hy, ty⟩ := h.2 o ho
    exact ⟨y, by rw [List.getElem?_append_left (lt_of_getElem? _ _ _ hy)]; exact hy, ty⟩

theorem PlainInv_open (program : List IRInst) (st : List Nat) (x : IRInst)
    (hx : x.type = .LoopBegin) (h : PlainInv program st) :
    PlainInv (program ++ [x]) (program.length :: st) := by
  have h1 := PlainInv_push program st x (fun hne => absurd hx hne) h
  refine ⟨h1.1, ?_⟩
  intro o ho
  rcases List.mem_cons.1 ho with h2 | h2
  · subst h2
    exact ⟨x, by simp, hx⟩
  · exact h1.2 o h2

theorem PlainInv_setJump (program : List IRInst) (opn : Nat) (st : List Nat) (t : Int)
    (h : PlainInv program (opn :: st)) : PlainInv (setJump program opn t) st := by
  obtain ⟨b, hb, tb⟩ := h.2 opn (by simp)
  constructor
  · intro y hy h1 h2
    obtain ⟨j, hj⟩ := List.getElem?_of_mem hy
    rw [getElem?_setJump] at hj
    split_ifs at hj with hji
    · subst hji
      rw [hb] at hj
      simp only [Option.map_some', Option.some.injEq] at hj
      subst hj
      exact absurd tb h1
    · exact h.1 y (List.getElem?_mem hj) h1 h2
  · intro o ho
    obtain ⟨y, hy, ty⟩ := h.2 o (List.mem_cons_of_mem _ ho)
    by_cases hoo : o = opn
    · subst hoo
      refine ⟨{ y with jump_target := t }, ?_, ty⟩
      rw [getElem?_setJump, if_pos rfl, hy]
      rfl
    · exact ⟨y, by rw [getElem?_setJump, if_neg hoo]; exact hy, ty⟩

theorem parseLoop_plain (ts : List Char) : ∀ (program : List IRInst) (st : List Nat)
    (p : List IRInst), PlainInv program st → parseLoop ts program st = .ok p →
      ∀ x ∈ p, x.type ≠ .LoopBegin → x.type ≠ .LoopEnd → x.jump_target = -1 := by
  induction ts with
  | nil =>
    intro program st p hinv h
    simp only [parseLoop] at h
    split_ifs at h
    simp only [Except.ok.injEq] at h
    subst h
    exact hinv.1
  | cons c cs ih =>
    intro program st p hinv h
    simp only [parseLoop] at h
    split_ifs at h
    · exact ih _ _ _ (PlainInv_push _ _ _ (fun _ _ => rfl) hinv) h
    · exact ih _ _ _ (PlainInv_push _ _ _ (fun _ _ => rfl) hinv) h
    · exact ih _ _ _ (PlainInv_push _ _ _ (fun _ _ => rfl) hinv) h
    · exact ih _ _ _ (PlainInv_push _ _ _ (fun _ _ => rfl) hinv) h
    · exact ih _ _ _ (PlainInv_push _ _ _ (fun _ _ => rfl) hinv) h
    · exact ih _ _ _ (PlainInv_push _ _ _ (fun _ _ => rfl) hinv) h
    · exact ih _ _ _ (PlainInv_open _ _ _ rfl hinv) h
    · cases st with
      | nil => simp at h
      | cons opn rest =>
        refine ih _ _ _ ?_ h
        apply PlainInv_setJump
        have h1 := PlainInv_push program (opn :: rest) ⟨.LoopEnd, 0, (opn : Int)⟩
          (fun _ hne => absurd rfl hne) hinv
        exact h1
    · exact ih _ _ _ hinv h

/-- C15. For a bracket-balanced sequence of significant characters, `parse` returns
as many instructions as there are characters, and the instruction at index `k` is
fixed by the character at index `k`: `>` and `<` give `MovePtr` with operand 1 and
-1, `+` and `-` give `AddVal` with operand 1 and -1, `.` gives `Output`, `,` gives
`Input`, `[` gives `LoopBegin`, `]` gives `LoopEnd`; an instruction that is not a
bracket holds jump target -1. -/
theorem parse_instruction_table (ts : List Char)
    (hsig : ∀ c ∈ ts, c ∈ ['>', '<', '+', '-', '.', ',', '[', ']'])
    (hpre : ¬ ∃ k, k ≤ ts.length ∧ (ts.take k).count '[' < (ts.take k).count ']')
    (hbal : ts.count ']' = ts.count '[') :
    ∃ p, parse ts = .ok p ∧ p.length = ts.length ∧
      ∀ (k : Nat) (c : Char) (x : IRInst), ts[k]? = some c → p[k]? = some x →
        (c = '>' → x.type = .MovePtr ∧ x.operand = 1) ∧
        (c = '<' → x.type = .MovePtr ∧ x.operand = -1) ∧
        (c = '+' → x.type = .AddVal ∧ x.operand = 1) ∧
        (c = '-' → x.type = .AddVal ∧ x.operand = -1) ∧
        (c = '.' → x.type = .Output) ∧
        (c = ',' → x.type = .Input) ∧
        (c = '[' → x.type = .LoopBegin) ∧
        (c = ']' → x.type = .LoopEnd) ∧
        (x.type ≠ .LoopBegin → x.type ≠ .LoopEnd → x.jump_target = -1) := by
  have hscan : bracketScan 0 ts = .balanced := by
    have hn : ¬ ExcessClose 0 ts := by rw [excessClose_zero]; exact hpre
    exact (scan_not_close ts 0 hn).2.2 (by simpa using hbal)
  obtain ⟨p, hp⟩ := (parse_verdict ts).2.2.2 hscan
  have hfil : ts.filter isSignificant = ts := by
    rw [List.filter_eq_self]
    intro c hc
    rw [isSignificant_iff]
    exact hsig c hc
  have hkeys := parseLoop_keys ts [] [] p hp
  rw [hfil] at hkeys
  simp only [List.map_nil, List.nil_append] at hkeys
  have hlen : p.length = ts.length := by
    have := congrArg List.length hkeys
    simpa using this
  refine ⟨p, hp, hlen, ?_⟩
  intro k c x hc hx
  have hk := congrArg (fun l => l[k]?) hkeys
  simp only [List.getElem?_map, hc, hx, Option.map_some', Option.some.injEq, IRInst.key] at hk
  have ht : x.type = (tokenKey c).1 := by rw [← hk]
  have ho : x.operand = (tokenKey c).2 := by rw [← hk]
  have hplain := parseLoop_plain ts [] [] p ⟨by simp, by simp⟩ hp x (List.getElem?_mem hx)
  refine ⟨?_, ?_, ?_, ?_, ?_, ?_, ?_, ?_, hplain⟩
  all_goals
    intro hcc
    subst hcc
    first
      | exact ⟨ht, ho⟩
      | exact ht

theorem parse_instruction_table_witness :
    ∃ p, parse ['+', '[', '>', ']'] = .ok p ∧ p.length = ['+', '[', '>', ']'].length ∧
      ∀ (k : Nat) (c : Char) (x : IRInst), ['+', '[', '>', ']'][k]? = some c →
        p[k]? = some x →
        (c = '>' → x.type = .MovePtr ∧ x.operand = 1) ∧
        (c = '<' → x.type = .MovePtr ∧ x.operand = -1) ∧
        (c = '+' → x.type = .AddVal ∧ x.operand = 1) ∧
        (c = '-' → x.type = .AddVal ∧ x.operand = -1) ∧
        (c = '.' → x.type = .Output) ∧
        (c = ',' → x.type = .Input) ∧
        (c = '[' → x.type = .LoopBegin) ∧
        (c = ']' → x.type = .LoopEnd) ∧
        (x.type ≠ .LoopBegin → x.type ≠ .LoopEnd → x.jump_target = -1) :=
  parse_instruction_table ['+', '[', '>', ']'] (by decide) (by decide) (by decide)


/-! ## End-to-end scenario: print `A` -/

theorem execInst_withInput (x : IRInst) (m : Machine) (ip : Int) (i : List Byte)
    (hx : x.type ≠ .Input) :
    execInst x { m with input := i } ip = (execInst x m ip).withInput i := by
  unfold execInst
  cases ht : x.type with
  | Input => exact absurd ht hx
  | MovePtr => rfl
  | AddVal => simp only []; split_ifs <;> rfl
  | Output => simp only []; split_ifs <;> rfl
  | LoopBegin => simp only []; split_ifs <;> rfl
  | LoopEnd => simp only []; split_ifs <;> rfl
  | SetZero => simp only []; split_ifs <;> rfl

theorem interpLoop_withInput (program : List IRInst) (hp : ∀ x ∈ program, x.type ≠ .Input)
    (i : List Byte) (n : Nat) : ∀ (m : Machine) (ip : Int),
    interpLoop n program { m with input := i } ip = (interpLoop n program m ip).withInput i := by
  induction n with
  | zero => intro m ip; rfl
  | succ n ih =>
    intro m ip
    rw [interpLoop_succ, interpLoop_succ]
    have hstep : interpStep program { m with input := i } ip =
        (interpStep program m ip).withInput i := by
      unfold interpStep
      split_ifs
      · rfl
      · cases hget : program[ip.toNat]? with
        | none => rfl
        | some x => exact execInst_withInput x m ip i (hp x (List.getElem?_mem hget))
      · rfl
    rw [hstep]
    cases interpStep program m ip with
    | running m1 ip1 => exact ih m1 ip1
    | halted m1 => rfl
    | fault => rfl

theorem halted_of_output (o : Outcome) (out : List Byte)
    (h : (match o with
      | .halted m => some m.output
      | _ => none) = some out) : ∃ m, o = .halted m ∧ m.output = out := by
  cases o with
  | running m ip => cases h
  | halted m => exact ⟨m, rfl, by simpa using h⟩
  | fault => cases h

/-- C16. For the source `++++++++[>++++++++<-]>+.` the pipeline
`optimize (parse (lex src))` yields the ten instructions `AddVal 8`,
`LoopBegin` (target 6), `MovePtr 1`, `AddVal 8`, `MovePtr -1`, `AddVal -1`,
`LoopEnd` (target 1), `MovePtr 1`, `AddVal 1`, `Output`, and the interpreter loop
on them, from the all-zero tape and whatever the stdin bytes, halts having written
exactly the byte 0x41. -/
theorem scenario_print_A (stdin : List Byte) :
    ∃ p, parse (lex "++++++++[>++++++++<-]>+.".toList) = .ok p ∧
      optimize p = some [⟨.AddVal, 8, -1⟩, ⟨.LoopBegin, 0, 6⟩, ⟨.MovePtr, 1, -1⟩,
        ⟨.AddVal, 8, -1⟩, ⟨.MovePtr, -1, -1⟩, ⟨.AddVal, -1, -1⟩, ⟨.LoopEnd, 0, 1⟩,
        ⟨.MovePtr, 1, -1⟩, ⟨.AddVal, 1, -1⟩, ⟨.Output, 0, -1⟩] ∧
      ∃ n m, interpret n [⟨.AddVal, 8, -1⟩, ⟨.LoopBegin, 0, 6⟩, ⟨.MovePtr, 1, -1⟩,
        ⟨.AddVal, 8, -1⟩, ⟨.MovePtr, -1, -1⟩, ⟨.AddVal, -1, -1⟩, ⟨.LoopEnd, 0, 1⟩,
        ⟨.MovePtr, 1, -1⟩, ⟨.AddVal, 1, -1⟩, ⟨.Output, 0, -1⟩] stdin = .halted m ∧
        m.output = [0x41] := by
  refine ⟨_, rfl, rfl, 46, ?_⟩
  obtain ⟨m0, h0, hout⟩ := halted_of_output (interpret 46 [⟨.AddVal, 8, -1⟩,
    ⟨.LoopBegin, 0, 6⟩, ⟨.MovePtr, 1, -1⟩, ⟨.AddVal, 8, -1⟩, ⟨.MovePtr, -1, -1⟩,
    ⟨.AddVal, -1, -1⟩, ⟨.LoopEnd, 0, 1⟩, ⟨.MovePtr, 1, -1⟩, ⟨.AddVal, 1, -1⟩,
    ⟨.Output, 0, -1⟩] []) [0x41] rfl
  refine ⟨{ m0 with input := stdin }, ?_, hout⟩
  have := interpLoop_withInput [⟨.AddVal, 8, -1⟩, ⟨.LoopBegin, 0, 6⟩, ⟨.MovePtr, 1, -1⟩,
    ⟨.AddVal, 8, -1⟩, ⟨.MovePtr, -1, -1⟩, ⟨.AddVal, -1, -1⟩, ⟨.LoopEnd, 0, 1⟩,
    ⟨.MovePtr, 1, -1⟩, ⟨.AddVal, 1, -1⟩, ⟨.Output, 0, -1⟩] (by decide) stdin 46
    (initMachine []) 0
  unfold interpret at h0 ⊢
  rw [h0] at this
  exact this


/-! ## Code buffer -/

namespace pe

@[simp] theorem u8_data (c : CodeBuf) (v : Nat) : (c.u8 v).data = c.data ++ [v % 256] := rfl

@[simp] theorem u32_data (c : CodeBuf) (v : Nat) :
    (c.u32 v).data =
      c.data ++ [v % 256, v / 256 % 256, v / 65536 % 256, v / 16777216 % 256] := by
  simp [CodeBuf.u32]

@[simp] theorem rip_rel_data (text_rva : Nat) (c : CodeBuf) (target : Nat) :
    (rip_rel text_rva c target).data =
      c.data ++ [wrap32 ((target : Int) -
          (wrap32 ((text_rva : Int) + ((c.size % 4294967296 : Nat) : Int) + 4) : Int)) % 256,
        wrap32 ((target : Int) -
          (wrap32 ((text_rva : Int) + ((c.size % 4294967296 : Nat) : Int) + 4) : Int)) / 256 % 256,
        wrap32 ((target : Int) -
          (wrap32 ((text_rva : Int) + ((c.size % 4294967296 : Nat) : Int) + 4) : Int)) / 65536 %
          256,
        wrap32 ((target : Int) -
          (wrap32 ((text_rva : Int) + ((c.size % 4294967296 : Nat) : Int) + 4) : Int)) /
          16777216 % 256] := by
  simp [rip_rel]

theorem size_eq (c : CodeBuf) : c.size = c.data.length := rfl

theorem gen_prologue_size (text_rva iat_rva data_rva : Nat) :
    (gen_prologue text_rva iat_rva data_rva ⟨[]⟩).size = 44 := by
  simp [gen_prologue, size_eq]

theorem gen_epilogue_data (text_rva iat_rva : Nat) (c : CodeBuf) :
    ∃ t, (gen_epilogue text_rva iat_rva c).data = c.data ++ t ∧ t.length = 8 ∧
      t.take 2 = [0x33, 0xC9] := by
  refine ⟨(gen_epilogue text_rva iat_rva c).data.drop c.data.length, ?_, ?_, ?_⟩ <;>
    simp [gen_epilogue, size_eq]

theorem gen_step_spec (text_rva iat_rva data_rva i : Nat) (inst : IRInst) (s s1 : GenState)
    (h : gen_step text_rva iat_rva data_rva i inst s = some s1) :
    (∃ bs, s1.c.data = s.c.data ++ bs ∧ bs.length = instLen inst ∧
      (inst.type = .LoopBegin → bs = loopBeginBytes)) ∧
    s1.inst_offsets = s.inst_offsets.set i s.c.size ∧
    s1.fwd_patches = s.fwd_patches ++
      (if inst.type = .LoopBegin then [(⟨s.c.size + 5, wrap64 inst.jump_target⟩ : FwdPatch)]
        else []) := by
  unfold gen_step at h
  cases ht : inst.type <;> simp only [ht] at h
  · -- MovePtr
    split_ifs at h with h1 h2 h3 <;> simp only [Option.some.injEq] at h <;> subst h <;>
      refine ⟨⟨_, by simp only [u8_data, u32_data, List.append_assoc]; rfl, ?_, ?_⟩, rfl, ?_⟩ <;>
      simp [instLen, ht, *]
  · -- AddVal
    split_ifs at h with h1 h2 h3 <;> simp only [Option.some.injEq] at h <;> subst h <;>
      refine ⟨⟨_, by simp only [u8_data, u32_data, List.append_assoc]; rfl, ?_, ?_⟩, rfl, ?_⟩ <;>
      simp [instLen, ht, *]
  · -- Output
    simp only [Option.some.injEq] at h
    subst h
    refine ⟨⟨_, by simp only [u8_data, u32_data, rip_rel_data, List.append_assoc]; rfl, ?_, ?_⟩,
      rfl, ?_⟩ <;> simp [instLen, ht]
  · -- Input
    simp only [Option.some.injEq] at h
    subst h
    refine ⟨⟨_, by simp only [u8_data, u32_data, rip_rel_data, List.append_assoc]; rfl, ?_, ?_⟩,
      rfl, ?_⟩ <;> simp [instLen, ht]
  · -- LoopBegin
    simp only [Option.some.injEq] at h
    subst h
    refine ⟨⟨_, by simp only [u8_data, u32_data, List.append_assoc]; rfl, ?_, ?_⟩, rfl, ?_⟩
    · simp [instLen, ht]
    · intro _; simp [loopBeginBytes]
    · simp [size_eq]
  · -- LoopEnd
    split_ifs at h with h1
    cases hg : (s.inst_offsets.set i s.c.size)[inst.jump_target.toNat]? with
    | none => rw [hg] at h; cases h
    | some target_off =>
      rw [hg] at h
      simp only [Option.some.injEq] at h
      subst h
      refine ⟨⟨_, by simp only [u8_data, u32_data, List.append_assoc]; rfl, ?_, ?_⟩, rfl, ?_⟩ <;>
        simp [instLen, ht]
  · -- SetZero
    simp only [Option.some.injEq] at h
    subst h
    refine ⟨⟨_, by simp only [u8_data, u32_data, List.append_assoc]; rfl, ?_, ?_⟩, rfl, ?_⟩ <;>
      simp [instLen, ht]


theorem gen_loop_cons (text_rva iat_rva data_rva : Nat) (x : IRInst) (xs : List IRInst) (i : Nat)
    (s : GenState) :
    gen_loop text_rva iat_rva data_rva (x :: xs) i s =
      match gen_step text_rva iat_rva data_rva i x s with
      | none => none
      | some s1 => gen_loop text_rva iat_rva data_rva xs (i + 1) s1 := rfl

theorem codeLen_cons (x : IRInst) (xs : List IRInst) :
    codeLen (x :: xs) = instLen x + codeLen xs := by
  simp [codeLen]

theorem codeLen_append (l1 l2 : List IRInst) : codeLen (l1 ++ l2) = codeLen l1 + codeLen l2 := by
  simp [codeLen]

theorem gen_loop_spec (text_rva iat_rva data_rva : Nat) : ∀ (rest : List IRInst) (i : Nat)
    (s s1 : GenState), gen_loop text_rva iat_rva data_rva rest i s = some s1 →
    (∃ tail, s1.c.data = s.c.data ++ tail ∧ tail.length = codeLen rest) ∧
    s1.inst_offsets.length = s.inst_offsets.length ∧
    (∀ k, k < rest.length → i + k < s.inst_offsets.length →
      s1.inst_offsets[i + k]? = some (s.c.size + codeLen (rest.take k))) ∧
    (∀ k, k < i → s1.inst_offsets[k]? = s.inst_offsets[k]?) ∧
    s1.fwd_patches = s.fwd_patches ++ patchesFrom s.c.size rest ∧
    (∀ k x, rest[k]? = some x → x.type = .LoopBegin →
      (s1.c.data.drop (s.c.size + codeLen (rest.take k))).take 9 = loopBeginBytes) := by
  intro rest
  induction rest with
  | nil =>
    intro i s s1 h
    simp only [gen_loop, Option.some.injEq] at h
    subst h
    refine ⟨⟨[], by simp, rfl⟩, rfl, ?_, fun _ _ => rfl, by simp [patchesFrom], ?_⟩
    · intro k hk; simp at hk
    · intro k x hx; simp at hx
  | cons x xs ih =>
    intro i s s2 h
    rw [gen_loop_cons] at h
    cases hstep : gen_step text_rva iat_rva data_rva i x s with
    | none => rw [hstep] at h; cases h
    | some s1 =>
      rw [hstep] at h
      simp only [] at h
      obtain ⟨⟨bs, hbs, hlen, hlb⟩, hoffs, hps⟩ := gen_step_spec _ _ _ _ _ _ _ hstep
      obtain ⟨⟨tail, htail, htl⟩, ilen, ioff, ikeep, ips, icont⟩ := ih (i + 1) s1 s2 h
      have hsize : s1.c.size = s.c.size + instLen x := by
        simp [size_eq, hbs, hlen]
      have hl1 : s1.inst_offsets.length = s.inst_offsets.length := by
        rw [hoffs]; simp
      refine ⟨⟨bs ++ tail, by rw [htail, hbs, List.append_assoc], ?_⟩, by rw [ilen, hl1], ?_, ?_,
        ?_, ?_⟩
      · simp [hlen, htl, codeLen_cons]
      · intro k hk hik
        cases k with
        | zero =>
          rw [Nat.add_zero, ikeep i (Nat.lt_succ_self i), hoffs]
          simp only [List.take_zero, codeLen, List.map_nil, List.sum_nil, Nat.add_zero]
          rw [List.getElem?_set_self (by simpa using hik)]
        | succ k =>
          have := ioff k (by simpa using hk) (by rw [hl1]; omega)
          have e : i + (k + 1) = i + 1 + k := by omega
          rw [e, this, hsize]
          simp only [List.take_succ_cons, codeLen_cons]
          congr 1
          omega
      · intro k hk
        rw [ikeep k (by omega), hoffs]
        rw [List.getElem?_set_ne (by omega)]
      · rw [ips, hps, hsize]
        simp only [patchesFrom, List.append_assoc]
      · intro k y hy ty
        cases k with
        | zero =>
          simp only [List.getElem?_cons_zero, Option.some.injEq] at hy
          subst hy
          have hb := hlb ty
          simp only [List.take_zero, codeLen, List.map_nil, List.sum_nil, Nat.add_zero]
          rw [htail, hbs, size_eq, List.append_assoc, List.drop_left, hb]
          rfl
        | succ k =>
          simp only [List.getElem?_cons_succ] at hy
          have := icont k y hy ty
          rw [hsize] at this
          simp only [List.take_succ_cons, codeLen_cons]
          rw [← this]
          congr 2
          omega

theorem gen_loop_defined (text_rva iat_rva data_rva : Nat) : ∀ (rest : List IRInst) (i : Nat)
    (s : GenState),
    (∀ x ∈ rest, x.type = .LoopEnd →
      0 ≤ x.jump_target ∧ x.jump_target < (s.inst_offsets.length : Int)) →
    ∃ s1, gen_loop text_rva iat_rva data_rva rest i s = some s1 := by
  intro rest
  induction rest with
  | nil => intro i s _; exact ⟨s, rfl⟩
  | cons x xs ih =>
    intro i s hv
    have hstep : ∃ s1, gen_step text_rva iat_rva data_rva i x s = some s1 := by
      unfold gen_step
      cases ht : x.type <;> simp only []
      · split_ifs <;> exact ⟨_, rfl⟩
      · split_ifs <;> exact ⟨_, rfl⟩
      · exact ⟨_, rfl⟩
      · exact ⟨_, rfl⟩
      · exact ⟨_, rfl⟩
      · obtain ⟨h0, h1⟩ := hv x (by simp) ht
        rw [if_neg (by omega)]
        have hlt : x.jump_target.toNat < (s.inst_offsets.set i s.c.size).length := by
          simp only [List.length_set]
          omega
        rw [List.getElem?_eq_getElem hlt]
        exact ⟨_, rfl⟩
      · exact ⟨_, rfl⟩
    obtain ⟨s1, hs1⟩ := hstep
    rw [gen_loop_cons, hs1]
    have hl : s1.inst_offsets.length = s.inst_offsets.length := by
      rw [(gen_step_spec _ _ _ _ _ _ _ hs1).2.1]; simp
    exact ih (i + 1) s1 (fun y hy ty => by rw [hl]; exact hv y (by simp [hy]) ty)


/-! ## Patching the forward jumps -/

theorem patchesFrom_append (l1 l2 : List IRInst) : ∀ b,
    patchesFrom b (l1 ++ l2) = patchesFrom b l1 ++ patchesFrom (b + codeLen l1) l2 := by
  induction l1 with
  | nil => intro b; simp [patchesFrom, codeLen]
  | cons x xs ih =>
    intro b
    simp only [List.cons_append, patchesFrom, codeLen_cons, List.append_assoc, List.append_eq]
    rw [ih, Nat.add_assoc]

theorem instLen_pos (x : IRInst) : 2 ≤ instLen x := by
  unfold instLen
  cases x.type <;> simp only [] <;> (try split_ifs) <;> omega

theorem patchesFrom_bounds (l : List IRInst) : ∀ b, ∀ p ∈ patchesFrom b l,
    b + 5 ≤ p.patch_off ∧ p.patch_off + 4 ≤ b + codeLen l := by
  induction l with
  | nil => intro b p hp; simp [patchesFrom] at hp
  | cons x xs ih =>
    intro b p hp
    simp only [patchesFrom, List.mem_append] at hp
    rw [codeLen_cons]
    rcases hp with hp | hp
    · split_ifs at hp with ht
      · simp only [List.mem_singleton] at hp
        subst hp
        have : instLen x = 9 := by simp [instLen, ht]
        simp only
        omega
      · simp at hp
    · have := ih _ p hp
      have := instLen_pos x
      omega

theorem patch32_length (c : CodeBuf) (off v : Nat) :
    (c.patch32 off v).data.length = c.data.length := by
  simp [CodeBuf.patch32]

theorem patch32_other (c : CodeBuf) (off v j : Nat) (h : j < off ∨ off + 4 ≤ j) :
    (c.patch32 off v).data[j]? = c.data[j]? := by
  simp only [CodeBuf.patch32]
  rw [List.getElem?_set_ne (by omega), List.getElem?_set_ne (by omega),
    List.getElem?_set_ne (by omega), List.getElem?_set_ne (by omega)]

theorem patch32_read (c : CodeBuf) (off v : Nat) (h : off + 4 ≤ c.data.length)
    (hv : v < 4294967296) : read32 (c.patch32 off v).data off = v := by
  have h0 : (c.patch32 off v).data[off]? = some (v % 256) := by
    simp only [CodeBuf.patch32]
    rw [List.getElem?_set_ne (by omega), List.getElem?_set_ne (by omega),
      List.getElem?_set_ne (by omega), List.getElem?_set_self (by omega)]
  have h1 : (c.patch32 off v).data[off + 1]? = some (v / 256 % 256) := by
    simp only [CodeBuf.patch32]
    rw [List.getElem?_set_ne (by omega), List.getElem?_set_ne (by omega),
      List.getElem?_set_self (by simp; omega)]
  have h2 : (c.patch32 off v).data[off + 2]? = some (v / 65536 % 256) := by
    simp only [CodeBuf.patch32]
    rw [List.getElem?_set_ne (by omega), List.getElem?_set_self (by simp; omega)]
  have h3 : (c.patch32 off v).data[off + 3]? = some (v / 16777216 % 256) := by
    simp only [CodeBuf.patch32]
    rw [List.getElem?_set_self (by simp; omega)]
  simp only [read32, List.getD_eq_getElem?_getD, h0, h1, h2, h3, Option.getD_some]
  omega

theorem apply_patch_other (offs : List Nat) (e : Nat) (c : CodeBuf) (p : FwdPatch) (j : Nat)
    (h : j < p.patch_off ∨ p.patch_off + 4 ≤ j) :
    (apply_patch offs e c p).data[j]? = c.data[j]? := by
  simp only [apply_patch]
  exact patch32_other _ _ _ _ h

theorem foldl_patch_length (offs : List Nat) (e : Nat) (ps : List FwdPatch) : ∀ c : CodeBuf,
    (ps.foldl (apply_patch offs e) c).data.length = c.data.length := by
  induction ps with
  | nil => intro c; rfl
  | cons p ps ih =>
    intro c
    simp only [List.foldl_cons]
    rw [ih]
    simp only [apply_patch]
    exact patch32_length _ _ _

theorem foldl_patch_other (offs : List Nat) (e : Nat) (ps : List FwdPatch) (j : Nat) :
    ∀ c : CodeBuf, (∀ p ∈ ps, j < p.patch_off ∨ p.patch_off + 4 ≤ j) →
      (ps.foldl (apply_patch offs e) c).data[j]? = c.data[j]? := by
  induction ps with
  | nil => intro c _; rfl
  | cons p ps ih =>
    intro c h
    simp only [List.foldl_cons]
    rw [ih _ (fun q hq => h q (by simp [hq])), apply_patch_other _ _ _ _ _ (h p (by simp))]

theorem read32_congr (l1 l2 : List Nat) (a : Nat)
    (h : ∀ j, a ≤ j → j < a + 4 → l1[j]? = l2[j]?) : read32 l1 a = read32 l2 a := by
  simp only [read32, List.getD_eq_getElem?_getD]
  rw [h a (by omega) (by omega), h (a + 1) (by omega) (by omega),
    h (a + 2) (by omega) (by omega), h (a + 3) (by omega) (by omega)]


theorem codeLen_split (prog : List IRInst) (k : Nat) (x : IRInst) (h : prog[k]? = some x) :
    prog = prog.take k ++ x :: prog.drop (k + 1) ∧
    codeLen prog = codeLen (prog.take k) + instLen x + codeLen (prog.drop (k + 1)) := by
  have hlt := lt_of_getElem? _ _ _ h
  have e : prog = prog.take k ++ x :: prog.drop (k + 1) := by
    conv_lhs => rw [← List.take_append_drop k prog]
    rw [List.drop_eq_getElem_cons hlt]
    rw [List.getElem?_eq_getElem hlt] at h
    simp only [Option.some.injEq] at h
    rw [h]
  refine ⟨e, ?_⟩
  conv_lhs => rw [e]
  rw [codeLen_append, codeLen_cons]
  omega

theorem wrap32_lt (x : Int) : wrap32 x < 4294967296 := by
  unfold wrap32
  have := Int.emod_lt_of_pos x (show (0 : Int) < 4294967296 by decide)
  have := Int.emod_nonneg x (show (4294967296 : Int) ≠ 0 by decide)
  omega

theorem getElem?_of_drop_take {α : Type} (l bs : List α) (m n : Nat)
    (h : (l.drop m).take n = bs) (j : Nat) (hj : j < n) : l[m + j]? = bs[j]? := by
  rw [← h, List.getElem?_take_of_lt hj, List.getElem?_drop]

theorem gen_emit_spec (prog : List IRInst) (text_rva iat_rva data_rva : Nat) (s : GenState)
    (h : gen_emit prog text_rva iat_rva data_rva = some s) :
    s.inst_offsets.length = prog.length ∧
    (∀ k, k < prog.length → s.inst_offsets[k]? = some (44 + codeLen (prog.take k))) ∧
    s.c.size = 44 + codeLen prog + 8 ∧
    s.fwd_patches = patchesFrom 44 prog ∧
    (∀ k x, prog[k]? = some x → x.type = .LoopBegin → ∀ j, j < 9 →
      s.c.data[44 + codeLen (prog.take k) + j]? = loopBeginBytes[j]?) ∧
    s.c.data[44 + codeLen prog]? = some 0x33 ∧ s.c.data[44 + codeLen prog + 1]? = some 0xC9 := by
  unfold gen_emit at h
  cases hl : gen_loop text_rva iat_rva data_rva prog 0
      ⟨gen_prologue text_rva iat_rva data_rva ⟨[]⟩, List.replicate prog.length 0, []⟩ with
  | none => rw [hl] at h; cases h
  | some s0 =>
    rw [hl] at h
    simp only [Option.some.injEq] at h
    subst h
    obtain ⟨⟨tail, htail, htl⟩, ilen, ioff, _, ips, icont⟩ := gen_loop_spec _ _ _ _ _ _ _ hl
    have hpro := gen_prologue_size text_rva iat_rva data_rva
    simp only [hpro, List.length_replicate, Nat.zero_add, List.nil_append] at ilen ioff ips icont
    obtain ⟨t, ht, htlen, htake⟩ := gen_epilogue_data text_rva iat_rva s0.c
    have hlen0 : s0.c.data.length = 44 + codeLen prog := by
      rw [htail, List.length_append, htl, ← size_eq, hpro]
    refine ⟨ilen, fun k hk => ioff k hk hk, ?_, ips, ?_, ?_, ?_⟩
    · simp only [size_eq, ht, List.length_append, htlen, hlen0]
    · intro k x hx tx j hj
      have hsplit := (codeLen_split prog k x hx).2
      have hx9 : instLen x = 9 := by simp [instLen, tx]
      have := getElem?_of_drop_take _ _ _ _ (icont k x hx tx) j hj
      simp only [ht]
      rw [List.getElem?_append_left (by omega)]
      exact this
    · simp only [ht]
      rw [List.getElem?_append_right (by omega), hlen0, Nat.sub_self]
      have := congrArg (fun l => l[0]?) htake
      simpa using this
    · simp only [ht]
      rw [List.getElem?_append_right (by omega), hlen0]
      have := congrArg (fun l => l[1]?) htake
      have e : 44 + codeLen prog + 1 - (44 + codeLen prog) = 1 := by omega
      rw [e]
      simpa [List.getElem?_take] using this

/-- What `gen_code` leaves at a `LoopBegin`: the compare, the `jz` opcode, and a
displacement that targets the offset of the instruction after the stored jump
target, or the size of the code when there is none. -/
theorem gen_code_jz (prog : List IRInst) (text_rva iat_rva data_rva : Nat) (s : GenState)
    (code : CodeBuf) (hs : gen_emit prog text_rva iat_rva data_rva = some s)
    (hc : gen_code prog text_rva iat_rva data_rva = some code) (i : Nat) (x : IRInst)
    (hx : prog[i]? = some x) (tx : x.type = .LoopBegin) :
    code.size = s.c.size ∧
    (∀ j, j < 5 → code.data[44 + codeLen (prog.take i) + j]? = loopBeginBytes[j]?) ∧
    read32 code.data (44 + codeLen (prog.take i) + 5) =
      wrap32 (((if (wrap64 x.jump_target + 1) % 18446744073709551616 < prog.length then
          s.inst_offsets.getD ((wrap64 x.jump_target + 1) % 18446744073709551616) 0
        else s.c.size : Nat) : Int) - ((44 + codeLen (prog.take i) + 5 + 4 : Nat) : Int)) := by
  obtain ⟨hlen, _, hsize, hps, hcont, _, _⟩ := gen_emit_spec _ _ _ _ _ hs
  unfold gen_code at hc
  rw [hs] at hc
  simp only [Option.some.injEq] at hc
  obtain ⟨hprog, hsplit⟩ := codeLen_split prog i x hx
  have hx9 : instLen x = 9 := by simp [instLen, tx]
  have hpatches : s.fwd_patches = patchesFrom 44 (prog.take i) ++
      (⟨44 + codeLen (prog.take i) + 5, wrap64 x.jump_target⟩ ::
        patchesFrom (44 + codeLen (prog.take i) + 9) (prog.drop (i + 1))) := by
    rw [hps]
    conv_lhs => rw [hprog]
    rw [patchesFrom_append]
    simp only [patchesFrom, tx, if_true, List.singleton_append, hx9]
  have hb1 := patchesFrom_bounds (prog.take i) 44
  have hb2 := patchesFrom_bounds (prog.drop (i + 1)) (44 + codeLen (prog.take i) + 9)
  have hsz : code.data.length = s.c.data.length := by
    rw [← hc]; exact foldl_patch_length _ _ _ _
  refine ⟨hsz, ?_, ?_⟩
  · intro j hj
    rw [← hcont i x hx tx j (by omega), ← hc]
    apply foldl_patch_other
    intro p hp
    rw [hpatches] at hp
    rcases List.mem_append.1 hp with h1 | h1
    · have := hb1 p h1; omega
    · rcases List.mem_cons.1 h1 with h2 | h2
      · subst h2; simp only; omega
      · have := hb2 p h2; omega
  · rw [← hc, hpatches, List.foldl_append, List.foldl_cons]
    rw [read32_congr _ _ _ (fun j h1 h2 => foldl_patch_other _ _ _ j _ (fun p hp => by
      have := hb2 p hp; omega))]
    simp only [apply_patch, hlen]
    apply patch32_read
    · rw [foldl_patch_length]
      rw [size_eq] at hsize
      omega
    · exact wrap32_lt _

end pe


/-! ## The jump-patching law -/

namespace pe

theorem gen_code_defined (prog : List IRInst) (hinv : JumpInvariant prog)
    (text_rva iat_rva data_rva : Nat) :
    ∃ s code, gen_emit prog text_rva iat_rva data_rva = some s ∧
      gen_code prog text_rva iat_rva data_rva = some code := by
  have hv : ∀ x ∈ prog, x.type = .LoopEnd →
      0 ≤ x.jump_target ∧ x.jump_target < ((List.replicate prog.length 0).length : Int) := by
    intro x hx tx
    obtain ⟨j, hj⟩ := List.getElem?_of_mem hx
    obtain ⟨i, y, h1, h2, _⟩ := hinv.2.1 j x hj tx
    have := lt_of_getElem? _ _ _ hj
    rw [h1]
    simp only [List.length_replicate]
    omega
  obtain ⟨s0, hs0⟩ := gen_loop_defined text_rva iat_rva data_rva prog 0
    ⟨gen_prologue text_rva iat_rva data_rva ⟨[]⟩, List.replicate prog.length 0, []⟩ hv
  have hs : gen_emit prog text_rva iat_rva data_rva =
      some { s0 with c := gen_epilogue text_rva iat_rva s0.c } := by
    unfold gen_emit; rw [hs0]
  have hc : ∃ code, gen_code prog text_rva iat_rva data_rva = some code := by
    unfold gen_code
    rw [hs]
    exact ⟨_, rfl⟩
  obtain ⟨code, hc⟩ := hc
  exact ⟨_, code, hs, hc⟩

end pe

/-- What the code does when the matched `LoopEnd` is the last instruction: the
patched displacement targets the end of the code, eight bytes past the first
byte `33 C9` of the epilogue. -/
theorem last_loop_jump_target (prog : List IRInst) (hinv : JumpInvariant prog)
    (hlen : prog.length < 18446744073709551616) (text_rva iat_rva data_rva : Nat) :
    ∃ s code, pe.gen_emit prog text_rva iat_rva data_rva = some s ∧
      pe.gen_code prog text_rva iat_rva data_rva = some code ∧
      8 ≤ code.size ∧ code.data[code.size - 8]? = some 0x33 ∧
      code.data[code.size - 8 + 1]? = some 0xC9 ∧
      ∀ (i t : Nat) (x : IRInst) (oi : Nat), prog[i]? = some x → x.type = .LoopBegin →
        x.jump_target = (t : Int) → t + 1 = prog.length → s.inst_offsets[i]? = some oi →
        pe.read32 code.data (oi + 5) = wrap32 ((code.size : Int) - ((oi : Int) + 9)) := by
  obtain ⟨s, code, hs, hc⟩ := pe.gen_code_defined prog hinv text_rva iat_rva data_rva
  obtain ⟨hl, hoff, hsz, hps, _, he1, he2⟩ := pe.gen_emit_spec _ _ _ _ _ hs
  have hcs : code.size = s.c.size := by
    unfold pe.gen_code at hc
    rw [hs] at hc
    simp only [Option.some.injEq] at hc
    rw [← hc]
    exact pe.foldl_patch_length _ _ _ _
  have hother : ∀ j, 44 + pe.codeLen prog ≤ j → code.data[j]? = s.c.data[j]? := by
    intro j hj
    unfold pe.gen_code at hc
    rw [hs] at hc
    simp only [Option.some.injEq] at hc
    rw [← hc]
    apply pe.foldl_patch_other
    intro p hp
    rw [hps] at hp
    have := pe.patchesFrom_bounds prog 44 p hp
    omega
  have e8 : code.size - 8 = 44 + pe.codeLen prog := by omega
  refine ⟨s, code, hs, hc, by omega, ?_, ?_, ?_⟩
  · rw [e8, hother _ (le_refl _)]; exact he1
  · rw [e8, hother _ (by omega)]; exact he2
  · intro i t x oi hx tx hj ht hoi
    obtain ⟨_, _, hread⟩ := pe.gen_code_jz prog text_rva iat_rva data_rva s code hs hc i x hx tx
    have hi := lt_of_getElem? _ _ _ hx
    rw [hoff i hi] at hoi
    simp only [Option.some.injEq] at hoi
    rw [hoi] at hread
    have hw : wrap64 x.jump_target = t := by
      rw [hj]
      unfold wrap64
      omega
    have hmod : (t + 1) % 18446744073709551616 = t + 1 := Nat.mod_eq_of_lt (by omega)
    rw [hw, hmod, if_neg (by omega)] at hread
    rw [hread, hcs]
    congr 1

/-- C12 fails on the code. The optimized form of `+[.-]` ends with the `LoopEnd`
matched to the `LoopBegin` at index 1. With the RVAs that `write_pe` passes, the
instruction offsets are 44, 46, 55, 89, 91, the code has 108 bytes and its epilogue
`33 C9 ...` starts at offset 100; the displacement stored at offsets 51 .. 54 is
53 = 108 - 55, the end of the code, and not the 45 = 100 - 55 that reaches the
epilogue. -/
theorem last_loop_jump_misses_epilogue :
    ∃ p q s code, parse (lex "+[.-]".toList) = .ok p ∧ optimize p = some q ∧
      q = [⟨.AddVal, 1, -1⟩, ⟨.LoopBegin, 0, 4⟩, ⟨.Output, 0, -1⟩, ⟨.AddVal, -1, -1⟩,
        ⟨.LoopEnd, 0, 1⟩] ∧
      pe.gen_emit q 0x1000 0x2050 0x3000 = some s ∧
      pe.gen_code q 0x1000 0x2050 0x3000 = some code ∧
      s.inst_offsets = [44, 46, 55, 89, 91] ∧ code.size = 108 ∧
      code.data[100]? = some 0x33 ∧ code.data[101]? = some 0xC9 ∧
      pe.read32 code.data (46 + 5) = 53 ∧
      wrap32 ((100 : Int) - (46 + 9)) = 45 ∧ wrap32 ((108 : Int) - (46 + 9)) = 53 :=
  ⟨_, _, _, _, rfl, rfl, rfl, rfl, rfl, rfl, rfl, rfl, rfl, rfl, rfl, rfl⟩

/-! ## The PE writer -/

namespace pe
theorem le16_length (v : Nat) : (le16 v).length = 2 := rfl
theorem le32_length (v : Nat) : (le32 v).length = 4 := rfl
theorem le64_length (v : Nat) : (le64 v).length = 8 := rfl
theorem DOS_HEADER_bytes_length (h : DOS_HEADER) : h.bytes.length = 64 := by
  simp [DOS_HEADER.bytes, le16_length, le32_length]
theorem FILE_HEADER_bytes_length (h : FILE_HEADER) : h.bytes.length = 20 := by
  simp [FILE_HEADER.bytes, le16_length, le32_length]
theorem OPTIONAL_HEADER64_bytes_length (h : OPTIONAL_HEADER64) : h.bytes.length = 240 := by
  simp [OPTIONAL_HEADER64.bytes, dataDirectoryBytes, DATA_DIRECTORY.bytes, le16_length, le32_length, le64_length]
theorem NT_HEADERS64_bytes_length (h : NT_HEADERS64) : h.bytes.length = 264 := by
  simp [NT_HEADERS64.bytes, FILE_HEADER_bytes_length, OPTIONAL_HEADER64_bytes_length, le32_length]
theorem SECTION_HEADER_bytes_length (h : SECTION_HEADER) : h.bytes.length = 40 := by
  simp [SECTION_HEADER.bytes, le16_length, le32_length]
theorem w64_eq (l : List Nat) (off v : Nat) : w64 l off v =
    (((((((l.set (off + 0) (v / 2 ^ (0 * 8) % 256)).set (off + 1) (v / 2 ^ (1 * 8) % 256)).set
      (off + 2) (v / 2 ^ (2 * 8) % 256)).set (off + 3) (v / 2 ^ (3 * 8) % 256)).set
      (off + 4) (v / 2 ^ (4 * 8) % 256)).set (off + 5) (v / 2 ^ (5 * 8) % 256)).set
      (off + 6) (v / 2 ^ (6 * 8) % 256)).set (off + 7) (v / 2 ^ (7 * 8) % 256) := rfl
set_option maxRecDepth 100000 in
theorem build_idata_eq : build_idata 120 =
    (List.replicate 120 0 ++ ([0, 0] ++ cstr "GetStdHandle" ++ [0, 0]) ++
      ([0, 0] ++ cstr "WriteFile" ++ [0]) ++ ([0, 0] ++ cstr "ReadFile" ++ [0, 0]) ++
      ([0, 0] ++ cstr "ExitProcess" ++ [0]) ++ (cstr "kernel32.dll" ++ [0, 0]),
      [120, 136, 148, 160], 174) := by
  rfl

set_option maxRecDepth 100000 in
theorem build_idata_val : build_idata 120 =
    ([0,0,0,0,0,0,0,0,0,0,0,0,0,0,0,0,0,0,0,0,0,0,0,0,0,0,0,0,0,0,0,0,0,0,0,0,0,0,0,0,
      0,0,0,0,0,0,0,0,0,0,0,0,0,0,0,0,0,0,0,0,0,0,0,0,0,0,0,0,0,0,0,0,0,0,0,0,0,0,0,0,
      0,0,0,0,0,0,0,0,0,0,0,0,0,0,0,0,0,0,0,0,0,0,0,0,0,0,0,0,0,0,0,0,0,0,0,0,0,0,0,0,
      0,0,71,101,116,83,116,100,72,97,110,100,108,101,0,0,
      0,0,87,114,105,116,101,70,105,108,101,0,
      0,0,82,101,97,100,70,105,108,101,0,0,
      0,0,69,120,105,116,80,114,111,99,101,115,115,0,
      107,101,114,110,101,108,51,50,46,100,108,108,0,0],
      [120, 136, 148, 160], 174) := by
  decide

set_option maxRecDepth 100000 in
theorem fill_val (r : Nat) (l : List Nat) (h : l = (build_idata 120).1) :
  (fill_idata r 40 80 174 [120, 136, 148, 160] l) =
    le32 (add32 r 40) ++ le32 0 ++ le32 0 ++ le32 (add32 r 174) ++ le32 (add32 r 80) ++
    List.replicate 20 0 ++
    le64 (add32 r 120) ++ le64 (add32 r 136) ++ le64 (add32 r 148) ++ le64 (add32 r 160) ++
    List.replicate 8 0 ++
    le64 (add32 r 120) ++ le64 (add32 r 136) ++ le64 (add32 r 148) ++ le64 (add32 r 160) ++
    List.replicate 8 0 ++ l.drop 120 := by
  subst h
  rw [build_idata_val]
  simp [fill_idata, w64_eq, w32, le32, le64, List.range, List.range.loop]

set_option maxRecDepth 100000 in
theorem build_idata_length : (build_idata 120).1.length = 188 := by decide

theorem w32_length (l : List Nat) (off v : Nat) : (w32 l off v).length = l.length := by
  simp [w32]

theorem w64_length (l : List Nat) (off v : Nat) : (w64 l off v).length = l.length := by
  simp [w64_eq]

theorem fill_idata_length (r a b c : Nat) (hp l : List Nat) :
    (fill_idata r a b c hp l).length = l.length := by
  simp [fill_idata, List.range, List.range.loop, w32_length, w64_length]

theorem align_up_448 : align_up 448 0x200 = 0x200 := by decide
theorem align_up_188 : align_up 188 0x200 = 0x200 ∧ align_up 188 0x1000 = 0x1000 := by decide
theorem align_up_30016 : align_up 30016 0x200 = 30208 ∧ align_up 30016 0x1000 = 0x8000 := by
  decide

set_option maxHeartbeats 1000000 in
set_option maxRecDepth 100000 in
theorem write_pe_inv (prog : List IRInst) (w : PEFile) (h : write_pe prog = some w) :
    ∃ dummy, gen_code prog 0x1000 20560 24576 = some dummy ∧
      gen_code prog 0x1000 w.iat_rva_real w.data_rva = some w.code ∧
      w.code_size = dummy.size % 4294967296 ∧
      w.headers_size = 0x200 ∧
      w.text_raw = align_up w.code_size 0x200 ∧
      w.idata_rva = add32 0x1000 (align_up w.code_size 0x1000) ∧
      w.iat_rva_real = add32 w.idata_rva 80 ∧
      w.idata_raw = 0x200 ∧
      w.data_rva = add32 w.idata_rva 0x1000 ∧
      w.data_raw = 30208 ∧
      w.hint_positions = [120, 136, 148, 160] ∧
      w.dll_name_off = 174 ∧
      w.idata = fill_idata w.idata_rva 40 80 174 [120, 136, 148, 160] (build_idata 120).1 ∧
      w.dos = { e_magic := 0x5A4D, e_lfanew := 64 } ∧
      w.nt =
        { Signature := 0x00004550
          FileHeader :=
            { Machine := 0x8664
              NumberOfSections := 3
              SizeOfOptionalHeader := 240
              Characteristics := 0x0022 }
          OptionalHeader :=
            { Magic := 0x020B
              MajorLinkerVersion := 1
              SizeOfCode := w.text_raw
              SizeOfInitializedData := 30720
              AddressOfEntryPoint := 0x1000
              BaseOfCode := 0x1000
              ImageBase := 0x140000000
              SectionAlignment := 0x1000
              FileAlignment := 0x200
              MajorOSVersion := 6
              MajorSubsystemVersion := 6
              SizeOfImage := add32 w.data_rva 0x8000
              SizeOfHeaders := 0x200
              Subsystem := 3
              DllCharacteristics := 0x8160
              SizeOfStackReserve := 0x100000
              SizeOfStackCommit := 0x1000
              SizeOfHeapReserve := 0x100000
              SizeOfHeapCommit := 0x1000
              NumberOfRvaAndSizes := 16
              DataDirectory :=
                ((List.replicate 16 ({} : DATA_DIRECTORY)).set 1 ⟨w.idata_rva, 40⟩).set 12
                  ⟨add32 w.idata_rva 80, 40⟩ } } ∧
      w.sects =
        [ { Name := cstr ".text" ++ [0, 0, 0]
            VirtualSize := w.code_size
            VirtualAddress := 0x1000
            SizeOfRawData := w.text_raw
            PointerToRawData := 0x200
            Characteristics := 0x60000020 },
          { Name := cstr ".idata" ++ [0, 0]
            VirtualSize := 188
            VirtualAddress := w.idata_rva
            SizeOfRawData := 0x200
            PointerToRawData := add32 0x200 w.text_raw
            Characteristics := 0xC0000040 },
          { Name := cstr ".data" ++ [0, 0, 0]
            VirtualSize := 30016
            VirtualAddress := w.data_rva
            SizeOfRawData := 30208
            PointerToRawData := add32 (add32 0x200 w.text_raw) 0x200
            Characteristics := 0xC0000040 } ] ∧
      w.out = w.dos.bytes ++ w.nt.bytes ++ (w.sects.map SECTION_HEADER.bytes).flatten ++
        List.replicate 64 0 ++ w.code.data ++
        (if w.text_raw > w.code.data.length then
          List.replicate (w.text_raw - w.code.data.length) 0 else []) ++
        w.idata ++ List.replicate 324 0 ++ List.replicate 30208 0 := by
  unfold write_pe at h
  simp only [build_idata_length] at h
  simp only [build_idata_val, sizeof_DOS_HEADER, sizeof_NT_HEADERS64, sizeof_OPTIONAL_HEADER64,
    sizeof_SECTION_HEADER, Nat.reduceAdd, Nat.reduceMul, Nat.reduceMod, align_up_448,
    align_up_188.1, align_up_188.2, align_up_30016.1, align_up_30016.2] at h
  split at h
  · cases h
  rename_i dummy hd
  split at h
  · cases h
  rename_i code hcode
  simp only [Option.some.injEq] at h
  subst h
  refine ⟨dummy, hd, hcode, rfl, ?_, ?_, ?_, ?_, ?_, ?_, ?_, ?_, ?_, ?_, ?_, ?_, ?_, ?_⟩
  · rfl
  · rfl
  · rfl
  · rfl
  · rfl
  · rfl
  · rfl
  · rfl
  · rfl
  · simp only [build_idata_val]
  · rfl
  · rfl
  · rfl
  · have e1 : wrap32 ((512 : Int) - 448) = 64 := by decide
    have e2 : (512 : Nat) > 188 := by decide
    simp only [fill_idata_length, List.length_cons, List.length_nil, Nat.reduceAdd,
      Nat.reduceSub, Nat.cast_ofNat, e1, e2, if_true]
end pe

namespace pe

theorem land_mask (x k : Nat) (hx : x < 4294967296) (hk : k ≤ 32) :
    Nat.land x (4294967295 - (2 ^ k - 1)) = x / 2 ^ k * 2 ^ k := by
  have hm : 4294967295 - (2 ^ k - 1) = 2 ^ k * (2 ^ (32 - k) - 1) := by
    have h1 : 2 ^ k * 2 ^ (32 - k) = 4294967296 := by
      rw [← pow_add]
      have : k + (32 - k) = 32 := by omega
      rw [this]
      norm_num
    have h2 : 0 < 2 ^ k := Nat.two_pow_pos k
    rw [Nat.mul_sub, h1]
    omega
  rw [hm]
  apply Nat.eq_of_testBit_eq
  intro i
  show (x &&& 2 ^ k * (2 ^ (32 - k) - 1)).testBit i = _
  rw [Nat.testBit_and, Nat.mul_comm (x / 2 ^ k), Nat.testBit_mul_pow_two, Nat.testBit_mul_pow_two,
    Nat.testBit_two_pow_sub_one, ← Nat.shiftRight_eq_div_pow, Nat.testBit_shiftRight]
  by_cases h1 : k ≤ i
  · have e : i - k + k = i := by omega
    have e' : k + (i - k) = i := by omega
    simp only [ge_iff_le, h1, decide_True, Bool.true_and]
    by_cases h2 : i < 32
    · have : i - k < 32 - k := by omega
      simp [this, e, e']
    · have h3 : x.testBit i = false := by
        apply Nat.testBit_lt_two_pow
        calc x < 2 ^ 32 := hx
          _ ≤ 2 ^ i := Nat.pow_le_pow_right (by decide) (by omega)
      have : ¬ (i - k < 32 - k) := by omega
      simp [this, h3, e, e']
  · simp [h1]


theorem align_up_eq (v a : Nat) (ha : 1 ≤ a) : align_up v a =
    Nat.land ((v + a - 1) % 4294967296) (4294967295 - (a - 1) % 4294967296) := by
  unfold align_up
  have h1 : wrap32 ((v : Int) + (a : Int) - 1) = (v + a - 1) % 4294967296 := by
    unfold wrap32; omega
  have h2 : wrap32 ((a : Int) - 1) = (a - 1) % 4294967296 := by
    unfold wrap32; omega
  rw [h1, h2]

theorem align_up_pow (v k : Nat) (hk : k ≤ 32) :
    align_up v (2 ^ k) = (v + 2 ^ k - 1) % 4294967296 / 2 ^ k * 2 ^ k := by
  have h2 : 0 < 2 ^ k := Nat.two_pow_pos k
  have h3 : 2 ^ k ≤ 4294967296 := by
    calc 2 ^ k ≤ 2 ^ 32 := Nat.pow_le_pow_right (by decide) hk
      _ = 4294967296 := by norm_num
  rw [align_up_eq v _ h2, Nat.mod_eq_of_lt (a := 2 ^ k - 1) (by omega)]
  exact land_mask _ k (Nat.mod_lt _ (by decide)) hk

theorem align_up_4096 (v : Nat) :
    align_up v 4096 = (v + 4095) % 4294967296 / 4096 * 4096 := by
  have := align_up_pow v 12 (by decide)
  norm_num at this
  rw [this]

theorem align_up_512 (v : Nat) :
    align_up v 512 = (v + 511) % 4294967296 / 512 * 512 := by
  have := align_up_pow v 9 (by decide)
  norm_num at this
  rw [this]

/-- For a power of two `a` and no overflow, `align_up v a` is the least multiple of
`a` that is at least `v`. -/
theorem align_up_least (v k : Nat) (hk : k ≤ 32) (hv : v + 2 ^ k ≤ 4294967296) :
    2 ^ k ∣ align_up v (2 ^ k) ∧ v ≤ align_up v (2 ^ k) ∧ align_up v (2 ^ k) < v + 2 ^ k := by
  have h2 : 0 < 2 ^ k := Nat.two_pow_pos k
  rw [align_up_pow v k hk, Nat.mod_eq_of_lt (by omega)]
  refine ⟨Nat.dvd_mul_left _ _, ?_, ?_⟩
  · have := Nat.lt_div_mul_add (a := v + 2 ^ k - 1) h2
    omega
  · have := Nat.div_mul_le_self (v + 2 ^ k - 1) (2 ^ k)
    omega

theorem gen_code_size (prog : List IRInst) (text_rva iat_rva data_rva : Nat) (code : CodeBuf)
    (h : gen_code prog text_rva iat_rva data_rva = some code) :
    code.size = 44 + codeLen prog + 8 := by
  unfold gen_code at h
  cases hs : gen_emit prog text_rva iat_rva data_rva with
  | none => rw [hs] at h; cases h
  | some s =>
    rw [hs] at h
    simp only [Option.some.injEq] at h
    obtain ⟨_, _, hsz, _⟩ := gen_emit_spec _ _ _ _ _ hs
    rw [← h, size_eq, foldl_patch_length, ← size_eq, hsz]

theorem gen_code_ne_none (prog : List IRInst) (hinv : JumpInvariant prog)
    (text_rva iat_rva data_rva : Nat) : gen_code prog text_rva iat_rva data_rva ≠ none := by
  obtain ⟨_, c, _, hc⟩ := gen_code_defined prog hinv text_rva iat_rva data_rva
  rw [hc]
  exact fun h => by cases h

theorem write_pe_defined (prog : List IRInst) (hinv : JumpInvariant prog) :
    ∃ w, write_pe prog = some w := by
  cases h : write_pe prog with
  | some w => exact ⟨w, rfl⟩
  | none =>
    exfalso
    unfold write_pe at h
    simp only [] at h
    split at h
    · rename_i heq
      exact gen_code_ne_none prog hinv _ _ _ heq
    · split at h
      · rename_i heq
        exact gen_code_ne_none prog hinv _ _ _ heq
      · cases h

/-- The layout facts of `write_pe` in terms of the size of the code. -/
theorem write_pe_layout (prog : List IRInst) (w : PEFile) (h : write_pe prog = some w) :
    w.code.size = 44 + codeLen prog + 8 ∧
    w.code_size = w.code.size % 4294967296 ∧
    w.text_raw = (w.code_size + 511) % 4294967296 / 512 * 512 ∧
    w.idata_rva = (4096 + (w.code_size + 4095) % 4294967296 / 4096 * 4096) % 4294967296 ∧
    w.idata_rva % 4096 = 0 ∧ w.idata_rva < 4294967296 ∧
    w.iat_rva_real = w.idata_rva + 80 ∧
    w.data_rva = (w.idata_rva + 4096) % 4294967296 := by
  obtain ⟨dummy, hd, hc, h1, _, h3, h4, h5, _, h7, _⟩ := write_pe_inv prog w h
  have s1 := gen_code_size _ _ _ _ _ hd
  have s2 := gen_code_size _ _ _ _ _ hc
  rw [align_up_512] at h3
  rw [align_up_4096] at h4
  unfold add32 at h4 h5 h7
  refine ⟨s2, by rw [h1, s1, s2], h3, h4, by omega, by omega, by omega, h7⟩

end pe


/-! ## Section layout -/

namespace pe

theorem jumpInvariant_sample :
    JumpInvariant [⟨.AddVal, 1, -1⟩, ⟨.LoopBegin, 0, 4⟩, ⟨.Output, 0, -1⟩, ⟨.AddVal, -1, -1⟩,
      ⟨.LoopEnd, 0, 1⟩] :=
  jumpInvariant_flatten
    (.op ⟨.AddVal, 1, -1⟩ (.loop ⟨.LoopBegin, 0, 4⟩ ⟨.LoopEnd, 0, 1⟩
      (.op ⟨.Output, 0, -1⟩ (.op ⟨.AddVal, -1, -1⟩ .nil)) .nil))
    (by simp [Code.WF]) (by simp [Code.Linked, Code.size])

theorem write_pe_idata_length (prog : List IRInst) (w : PEFile) (h : write_pe prog = some w) :
    w.idata.length = 188 := by
  obtain ⟨_, _, _, _, _, _, _, _, _, _, _, _, _, hid, _⟩ := write_pe_inv prog w h
  rw [hid, fill_idata_length, build_idata_length]

end pe

/-- C17. PE section layout. When `write_pe` returns for a program whose generated
code has fewer than 2^31 bytes, the section table is `.text`, `.idata`, `.data`;
`.text` is at RVA 0x1000 with the code size as virtual size; `.idata` is at RVA
0x1000 + r, where r is the least multiple of 0x1000 that is at least the code size;
the `.idata` blob has 188 bytes, `align_up(188, 0x1000)` is 0x1000, and `.data` is at
the `.idata` RVA + 0x1000; every section RVA is a multiple of 0x1000; the three
virtual ranges are ascending and disjoint; `AddressOfEntryPoint` is 0x1000;
`SizeOfImage` is the `.data` RVA + 0x8000 and is at least the end of the last
range. For a power of two `a = 2^k` and `v + a <= 2^32`, `align_up(v, a)` is the
least multiple of `a` that is at least `v`. -/
theorem pe_section_layout (prog : List IRInst) (w : pe.PEFile)
    (h : pe.write_pe prog = some w) (hc : w.code.size < 2147483648) :
    (∃ text idata data : pe.SECTION_HEADER, w.sects = [text, idata, data] ∧
      text.Name = pe.cstr ".text" ++ [0, 0, 0] ∧ idata.Name = pe.cstr ".idata" ++ [0, 0] ∧
      data.Name = pe.cstr ".data" ++ [0, 0, 0] ∧
      text.VirtualAddress = 0x1000 ∧ text.VirtualSize = w.code.size ∧
      (∃ r, 0x1000 ∣ r ∧ w.code.size ≤ r ∧ r < w.code.size + 0x1000 ∧
        idata.VirtualAddress = 0x1000 + r) ∧
      w.idata.length = 188 ∧ idata.VirtualSize = 188 ∧ pe.align_up 188 0x1000 = 0x1000 ∧
      data.VirtualAddress = idata.VirtualAddress + 0x1000 ∧ data.VirtualSize = 30016 ∧
      0x1000 ∣ text.VirtualAddress ∧ 0x1000 ∣ idata.VirtualAddress ∧
      0x1000 ∣ data.VirtualAddress ∧
      text.VirtualAddress + text.VirtualSize ≤ idata.VirtualAddress ∧
      idata.VirtualAddress + idata.VirtualSize ≤ data.VirtualAddress ∧
      w.nt.OptionalHeader.AddressOfEntryPoint = 0x1000 ∧
      w.nt.OptionalHeader.SizeOfImage = data.VirtualAddress + 0x8000 ∧
      data.VirtualAddress + data.VirtualSize ≤ w.nt.OptionalHeader.SizeOfImage) ∧
    ∀ v k : Nat, k ≤ 32 → v + 2 ^ k ≤ 4294967296 →
      2 ^ k ∣ pe.align_up v (2 ^ k) ∧ v ≤ pe.align_up v (2 ^ k) ∧
        pe.align_up v (2 ^ k) < v + 2 ^ k := by
  refine ⟨?_, pe.align_up_least⟩
  obtain ⟨_, _, _, _, _, _, _, _, _, _, _, _, _, _, _, hnt, hsects, _⟩ := pe.write_pe_inv prog w h
  obtain ⟨_, hcs, _, hir, _, _, _, hdr⟩ := pe.write_pe_layout prog w h
  have hlen := pe.write_pe_idata_length prog w h
  have e1 : w.code_size = w.code.size := by rw [hcs]; omega
  have e2 : w.idata_rva = 4096 + (w.code.size + 4095) / 4096 * 4096 := by
    rw [hir, e1]; omega
  have e3 : w.data_rva = w.idata_rva + 4096 := by rw [hdr]; omega
  refine ⟨_, _, _, hsects, rfl, rfl, rfl, rfl, e1, ⟨(w.code.size + 4095) / 4096 * 4096,
    Nat.dvd_mul_left _ _, by omega, by omega, e2⟩, hlen, rfl, pe.align_up_188.2, e3, rfl,
    Nat.dvd_refl 4096, ?_, ?_, ?_, ?_, ?_, ?_, ?_⟩
  · show 4096 ∣ w.idata_rva
    omega
  · show 4096 ∣ w.data_rva
    omega
  · show 4096 + w.code_size ≤ w.idata_rva
    omega
  · show w.idata_rva + 188 ≤ w.data_rva
    omega
  · rw [hnt]
  · rw [hnt]
    show pe.add32 w.data_rva 32768 = w.data_rva + 32768
    unfold pe.add32
    omega
  · rw [hnt]
    show w.data_rva + 30016 ≤ pe.add32 w.data_rva 32768
    unfold pe.add32
    omega

theorem pe_section_layout_witness :
    ∃ w, pe.write_pe [⟨.AddVal, 1, -1⟩, ⟨.LoopBegin, 0, 4⟩, ⟨.Output, 0, -1⟩,
        ⟨.AddVal, -1, -1⟩, ⟨.LoopEnd, 0, 1⟩] = some w ∧ w.code.size < 2147483648 ∧
    ((∃ text idata data : pe.SECTION_HEADER, w.sects = [text, idata, data] ∧
      text.Name = pe.cstr ".text" ++ [0, 0, 0] ∧ idata.Name = pe.cstr ".idata" ++ [0, 0] ∧
      data.Name = pe.cstr ".data" ++ [0, 0, 0] ∧
      text.VirtualAddress = 0x1000 ∧ text.VirtualSize = w.code.size ∧
      (∃ r, 0x1000 ∣ r ∧ w.code.size ≤ r ∧ r < w.code.size + 0x1000 ∧
        idata.VirtualAddress = 0x1000 + r) ∧
      w.idata.length = 188 ∧ idata.VirtualSize = 188 ∧ pe.align_up 188 0x1000 = 0x1000 ∧
      data.VirtualAddress = idata.VirtualAddress + 0x1000 ∧ data.VirtualSize = 30016 ∧
      0x1000 ∣ text.VirtualAddress ∧ 0x1000 ∣ idata.VirtualAddress ∧
      0x1000 ∣ data.VirtualAddress ∧
      text.VirtualAddress + text.VirtualSize ≤ idata.VirtualAddress ∧
      idata.VirtualAddress + idata.VirtualSize ≤ data.VirtualAddress ∧
      w.nt.OptionalHeader.AddressOfEntryPoint = 0x1000 ∧
      w.nt.OptionalHeader.SizeOfImage = data.VirtualAddress + 0x8000 ∧
      data.VirtualAddress + data.VirtualSize ≤ w.nt.OptionalHeader.SizeOfImage) ∧
    ∀ v k : Nat, k ≤ 32 → v + 2 ^ k ≤ 4294967296 →
      2 ^ k ∣ pe.align_up v (2 ^ k) ∧ v ≤ pe.align_up v (2 ^ k) ∧
        pe.align_up v (2 ^ k) < v + 2 ^ k) :=
  (pe.write_pe_defined _ pe.jumpInvariant_sample).elim fun w hw =>
    have hc : w.code.size < 2147483648 := by
      rw [(pe.write_pe_layout _ w hw).1]; decide
    ⟨w, hw, hc, pe_section_layout _ w hw hc⟩


/-! ## The import blob -/

namespace pe

/-- The `.idata` blob as a function of the RVA of the section. -/
theorem write_pe_idata (prog : List IRInst) (w : PEFile) (h : write_pe prog = some w) :
    w.idata =
      le32 (w.idata_rva + 40) ++ le32 0 ++ le32 0 ++ le32 (w.idata_rva + 174) ++
      le32 (w.idata_rva + 80) ++ List.replicate 20 0 ++
      le64 (w.idata_rva + 120) ++ le64 (w.idata_rva + 136) ++ le64 (w.idata_rva + 148) ++
      le64 (w.idata_rva + 160) ++ List.replicate 8 0 ++
      le64 (w.idata_rva + 120) ++ le64 (w.idata_rva + 136) ++ le64 (w.idata_rva + 148) ++
      le64 (w.idata_rva + 160) ++ List.replicate 8 0 ++
      ([0, 0] ++ cstr "GetStdHandle" ++ [0, 0]) ++ ([0, 0] ++ cstr "WriteFile" ++ [0]) ++
      ([0, 0] ++ cstr "ReadFile" ++ [0, 0]) ++ ([0, 0] ++ cstr "ExitProcess" ++ [0]) ++
      (cstr "kernel32.dll" ++ [0, 0]) := by
  obtain ⟨_, _, _, _, _, _, _, _, _, _, _, _, _, hid, _⟩ := write_pe_inv prog w h
  obtain ⟨_, _, _, _, hmod, hlt, _⟩ := write_pe_layout prog w h
  rw [hid, fill_val _ _ rfl]
  have a1 : add32 w.idata_rva 40 = w.idata_rva + 40 := by unfold add32; omega
  have a2 : add32 w.idata_rva 174 = w.idata_rva + 174 := by unfold add32; omega
  have a3 : add32 w.idata_rva 80 = w.idata_rva + 80 := by unfold add32; omega
  have a4 : add32 w.idata_rva 120 = w.idata_rva + 120 := by unfold add32; omega
  have a5 : add32 w.idata_rva 136 = w.idata_rva + 136 := by unfold add32; omega
  have a6 : add32 w.idata_rva 148 = w.idata_rva + 148 := by unfold add32; omega
  have a7 : add32 w.idata_rva 160 = w.idata_rva + 160 := by unfold add32; omega
  rw [a1, a2, a3, a4, a5, a6, a7, build_idata_eq]
  simp only [List.append_assoc, List.drop_left', List.length_replicate]

theorem read32_le32 (pre post : List Nat) (v : Nat) (hv : v < 4294967296) :
    read32 (pre ++ le32 v ++ post) pre.length = v := by
  have key : ∀ j, (pre ++ (le32 v ++ post))[pre.length + j]? = (le32 v ++ post)[j]? := fun j => by
    rw [List.getElem?_append_right (Nat.le_add_right _ _), Nat.add_sub_cancel_left]
  have k0 := key 0
  rw [Nat.add_zero] at k0
  simp only [read32, List.getD_eq_getElem?_getD, List.append_assoc]
  rw [key 1, key 2, key 3, k0]
  simp [le32]
  omega

theorem read64_le64 (pre post : List Nat) (v : Nat) (hv : v < 18446744073709551616) :
    read64 (pre ++ le64 v ++ post) pre.length = v := by
  have key : ∀ j, (pre ++ (le64 v ++ post))[pre.length + j]? = (le64 v ++ post)[j]? := fun j => by
    rw [List.getElem?_append_right (Nat.le_add_right _ _), Nat.add_sub_cancel_left]
  have k0 := key 0
  rw [Nat.add_zero] at k0
  simp only [read64, read32, List.getD_eq_getElem?_getD, List.append_assoc, Nat.add_assoc]
  rw [key 1, key 2, key 3, key 4, key (4 + 1), key (4 + 2), key (4 + 3), k0]
  simp [le64]
  omega

end pe


namespace pe

theorem read32_at (l pre post : List Nat) (v n : Nat) (h : l = pre ++ le32 v ++ post)
    (hn : pre.length = n) (hv : v < 4294967296) : read32 l n = v := by
  rw [h, ← hn]
  exact read32_le32 pre post v hv

theorem read64_at (l pre post : List Nat) (v n : Nat) (h : l = pre ++ le64 v ++ post)
    (hn : pre.length = n) (hv : v < 18446744073709551616) : read64 l n = v := by
  rw [h, ← hn]
  exact read64_le64 pre post v hv

theorem drop_take_at {α : Type} (l pre mid post : List α) (n m : Nat)
    (h : l = pre ++ mid ++ post) (hn : pre.length = n) (hm : mid.length = m) :
    (l.drop n).take m = mid := by
  rw [h, ← hn, ← hm, List.append_assoc, List.drop_left, List.take_left]

theorem callsSlot_rip_rel (c : CodeBuf) (text_rva target : Nat) :
    CallsSlot (rip_rel text_rva (c |>.u8 0xFF |>.u8 0x15) target).data text_rva c.size target := by
  have hd : (rip_rel text_rva (c |>.u8 0xFF |>.u8 0x15) target).data =
      (c.data ++ [0xFF, 0x15]) ++
        le32 (wrap32 ((target : Int) -
          (wrap32 ((text_rva : Int) + (((c.size + 2) % 4294967296 : Nat) : Int) + 4) : Int))) ++
        [] := by
    simp [le32, size_eq]
  have hr := read32_at _ _ _ _ (c.size + 2) hd (by simp [size_eq]) (wrap32_lt _)
  refine ⟨?_, ?_, ?_, ?_⟩
  · rw [hd, List.append_assoc, List.append_assoc, size_eq,
      List.getElem?_append_right (Nat.le_refl _), Nat.sub_self]
    rfl
  · rw [hd, List.append_assoc, List.append_assoc, size_eq,
      List.getElem?_append_right (Nat.le_add_right _ _), Nat.add_sub_cancel_left]
    rfl
  · rw [hd]; simp [size_eq, le32_length]
  · rw [hr]
    unfold wrap32
    omega

theorem callsSlot_append (code more : List Nat) (text_rva off slot : Nat)
    (h : CallsSlot code text_rva off slot) : CallsSlot (code ++ more) text_rva off slot := by
  obtain ⟨h1, h2, h3, h4⟩ := h
  have hr : read32 (code ++ more) (off + 2) = read32 code (off + 2) := by
    apply read32_congr
    intro j hj hj2
    rw [List.getElem?_append_left (by omega)]
  refine ⟨?_, ?_, ?_, ?_⟩
  · rw [List.getElem?_append_left (by omega)]; exact h1
  · rw [List.getElem?_append_left (by omega)]; exact h2
  · rw [List.length_append]; omega
  · rw [hr]; exact h4


theorem callsSlot_u8 (c : CodeBuf) (v text_rva off slot : Nat)
    (h : CallsSlot c.data text_rva off slot) : CallsSlot (c.u8 v).data text_rva off slot := by
  rw [u8_data]
  exact callsSlot_append _ _ _ _ _ h

theorem callsSlot_u32 (c : CodeBuf) (v text_rva off slot : Nat)
    (h : CallsSlot c.data text_rva off slot) : CallsSlot (c.u32 v).data text_rva off slot := by
  rw [u32_data]
  exact callsSlot_append _ _ _ _ _ h

theorem callsSlot_keep (c : CodeBuf) (t target text_rva off slot : Nat)
    (h : CallsSlot c.data text_rva off slot) :
    CallsSlot (rip_rel t c target).data text_rva off slot := by
  rw [rip_rel_data]
  exact callsSlot_append _ _ _ _ _ h

theorem callsSlot_congr (code : List Nat) (text_rva off slot1 slot2 : Nat)
    (e : slot1 % 4294967296 = slot2 % 4294967296) (h : CallsSlot code text_rva off slot1) :
    CallsSlot code text_rva off slot2 := by
  obtain ⟨h1, h2, h3, h4⟩ := h
  exact ⟨h1, h2, h3, by rw [h4, e]⟩

/-- The two calls of the prologue read the slot at `iat_rva`. -/
theorem gen_prologue_calls (text_rva iat_rva data_rva : Nat) :
    CallsSlot (gen_prologue text_rva iat_rva data_rva ⟨[]⟩).data text_rva 21 iat_rva ∧
    CallsSlot (gen_prologue text_rva iat_rva data_rva ⟨[]⟩).data text_rva 35 iat_rva := by
  unfold gen_prologue
  simp only []
  constructor
  · apply callsSlot_u8
    apply callsSlot_u8
    apply callsSlot_u8
    apply callsSlot_keep
    apply callsSlot_u8
    apply callsSlot_u8
    apply callsSlot_u32
    apply callsSlot_u8
    apply callsSlot_u8
    apply callsSlot_u8
    apply callsSlot_u8
    have := callsSlot_rip_rel ((rip_rel text_rva ((((((((((⟨[]⟩ : CodeBuf).u8 0x53).u8 0x41).u8
      0x54).u8 0x41).u8 0x55).u8 0x48).u8 0x83).u8 0xEC).u8 0x30 |>.u8 0x48 |>.u8 0x8D |>.u8 0x1D)
      data_rva) |>.u8 0xB9 |>.u32 0xFFFFFFF5) text_rva iat_rva
    rw [show CodeBuf.size _ = 21 from by simp [size_eq]] at this
    exact this
  · apply callsSlot_u8
    apply callsSlot_u8
    apply callsSlot_u8
    have := callsSlot_rip_rel (((rip_rel text_rva (((rip_rel text_rva
      ((((((((((⟨[]⟩ : CodeBuf).u8 0x53).u8 0x41).u8
      0x54).u8 0x41).u8 0x55).u8 0x48).u8 0x83).u8 0xEC).u8 0x30 |>.u8 0x48 |>.u8 0x8D |>.u8 0x1D)
      data_rva) |>.u8 0xB9 |>.u32 0xFFFFFFF5) |>.u8 0xFF |>.u8 0x15) iat_rva) |>.u8 0x49
      |>.u8 0x89 |>.u8 0xC4) |>.u8 0xB9 |>.u32 0xFFFFFFF6) text_rva iat_rva
    rw [show CodeBuf.size _ = 35 from by simp [size_eq]] at this
    exact this

/-- The call emitted for an `Output` reads the slot at `iat_rva + 8`, and the call
emitted for an `Input` reads the slot at `iat_rva + 16`. -/
theorem gen_step_calls (text_rva iat_rva data_rva i : Nat) (x : IRInst) (s s1 : GenState)
    (h : gen_step text_rva iat_rva data_rva i x s = some s1) :
    (x.type = .Output → CallsSlot s1.c.data text_rva (s.c.size + 28) (iat_rva + 8)) ∧
    (x.type = .Input → CallsSlot s1.c.data text_rva (s.c.size + 28) (iat_rva + 16)) := by
  have w8 : wrap32 ((iat_rva : Int) + 8) % 4294967296 = (iat_rva + 8) % 4294967296 := by
    unfold wrap32; omega
  have w16 : wrap32 ((iat_rva : Int) + 16) % 4294967296 = (iat_rva + 16) % 4294967296 := by
    unfold wrap32; omega
  unfold gen_step at h
  constructor
  · intro ht
    simp only [ht, Option.some.injEq] at h
    subst h
    apply callsSlot_congr _ _ _ _ _ w8
    simp only []
    have := callsSlot_rip_rel (((rip_rel text_rva (s.c |>.u8 0x4C |>.u8 0x89 |>.u8 0xE1 |>.u8 0x48
      |>.u8 0x89 |>.u8 0xDA |>.u8 0x41 |>.u8 0xB8 |>.u32 1 |>.u8 0x4C |>.u8 0x8D |>.u8 0x0D)
      (wrap32 ((data_rva : Int) + 30000))) |>.u8 0x48 |>.u8 0xC7 |>.u8 0x44 |>.u8 0x24
      |>.u8 0x20) |>.u32 0) text_rva (wrap32 ((iat_rva : Int) + 8))
    rw [show CodeBuf.size _ = s.c.size + 28 from by simp [size_eq]] at this
    exact this
  · intro ht
    simp only [ht, Option.some.injEq] at h
    subst h
    apply callsSlot_congr _ _ _ _ _ w16
    simp only []
    have := callsSlot_rip_rel (((rip_rel text_rva (s.c |>.u8 0x4C |>.u8 0x89 |>.u8 0xE9 |>.u8 0x48
      |>.u8 0x89 |>.u8 0xDA |>.u8 0x41 |>.u8 0xB8 |>.u32 1 |>.u8 0x4C |>.u8 0x8D |>.u8 0x0D)
      (wrap32 ((data_rva : Int) + 30008))) |>.u8 0x48 |>.u8 0xC7 |>.u8 0x44 |>.u8 0x24
      |>.u8 0x20) |>.u32 0) text_rva (wrap32 ((iat_rva : Int) + 16))
    rw [show CodeBuf.size _ = s.c.size + 28 from by simp [size_eq]] at this
    exact this

/-- The call of the epilogue reads the slot at `iat_rva + 24`. -/
theorem gen_epilogue_calls (text_rva iat_rva : Nat) (c : CodeBuf) :
    CallsSlot (gen_epilogue text_rva iat_rva c).data text_rva (c.size + 2) (iat_rva + 24) := by
  have w24 : wrap32 ((iat_rva : Int) + 24) % 4294967296 = (iat_rva + 24) % 4294967296 := by
    unfold wrap32; omega
  apply callsSlot_congr _ _ _ _ _ w24
  have := callsSlot_rip_rel (c |>.u8 0x33 |>.u8 0xC9) text_rva (wrap32 ((iat_rva : Int) + 24))
  rw [show CodeBuf.size _ = c.size + 2 from by simp [size_eq]] at this
  exact this

end pe

namespace pe

set_option maxRecDepth 100000 in
/-- The 188 bytes of the `.idata` blob. -/
theorem write_pe_idata_flat (prog : List IRInst) (w : PEFile) (h : write_pe prog = some w) :
    w.idata =
    [(w.idata_rva + 40) % 256, (w.idata_rva + 40) / 256 % 256, (w.idata_rva + 40) / 65536 % 256, (w.idata_rva + 40) / 16777216 % 256,
      0 % 256, 0 / 256 % 256, 0 / 65536 % 256, 0 / 16777216 % 256, 0 % 256, 0 / 256 % 256,
      0 / 65536 % 256, 0 / 16777216 % 256, (w.idata_rva + 174) % 256, (w.idata_rva + 174) / 256 % 256,
      (w.idata_rva + 174) / 65536 % 256, (w.idata_rva + 174) / 16777216 % 256, (w.idata_rva + 80) % 256, (w.idata_rva + 80) / 256 % 256,
      (w.idata_rva + 80) / 65536 % 256, (w.idata_rva + 80) / 16777216 % 256, 0, 0, 0, 0, 0, 0, 0, 0, 0, 0, 0, 0, 0,
      0, 0, 0, 0, 0, 0, 0, (w.idata_rva + 120) % 256, (w.idata_rva + 120) / 256 % 256, (w.idata_rva + 120) / 65536 % 256,
      (w.idata_rva + 120) / 16777216 % 256, (w.idata_rva + 120) / 4294967296 % 256, (w.idata_rva + 120) / 1099511627776 % 256,
      (w.idata_rva + 120) / 281474976710656 % 256, (w.idata_rva + 120) / 72057594037927936 % 256, (w.idata_rva + 136) % 256,
      (w.idata_rva + 136) / 256 % 256, (w.idata_rva + 136) / 65536 % 256, (w.idata_rva + 136) / 16777216 % 256,
      (w.idata_rva + 136) / 4294967296 % 256, (w.idata_rva + 136) / 1099511627776 % 256,
      (w.idata_rva + 136) / 281474976710656 % 256, (w.idata_rva + 136) / 72057594037927936 % 256, (w.idata_rva + 148) % 256,
      (w.idata_rva + 148) / 256 % 256, (w.idata_rva + 148) / 65536 % 256, (w.idata_rva + 148) / 16777216 % 256,
      (w.idata_rva + 148) / 4294967296 % 256, (w.idata_rva + 148) / 1099511627776 % 256,
      (w.idata_rva + 148) / 281474976710656 % 256, (w.idata_rva + 148) / 72057594037927936 % 256, (w.idata_rva + 160) % 256,
      (w.idata_rva + 160) / 256 % 256, (w.idata_rva + 160) / 65536 % 256, (w.idata_rva + 160) / 16777216 % 256,
      (w.idata_rva + 160) / 4294967296 % 256, (w.idata_rva + 160) / 1099511627776 % 256,
      (w.idata_rva + 160) / 281474976710656 % 256, (w.idata_rva + 160) / 72057594037927936 % 256, 0, 0, 0, 0, 0, 0,
      0, 0, (w.idata_rva + 120) % 256, (w.idata_rva + 120) / 256 % 256, (w.idata_rva + 120) / 65536 % 256,
      (w.idata_rva + 120) / 16777216 % 256, (w.idata_rva + 120) / 4294967296 % 256, (w.idata_rva + 120) / 1099511627776 % 256,
      (w.idata_rva + 120) / 281474976710656 % 256, (w.idata_rva + 120) / 72057594037927936 % 256, (w.idata_rva + 136) % 256,
      (w.idata_rva + 136) / 256 % 256, (w.idata_rva + 136) / 65536 % 256, (w.idata_rva + 136) / 16777216 % 256,
      (w.idata_rva + 136) / 4294967296 % 256, (w.idata_rva + 136) / 1099511627776 % 256,
      (w.idata_rva + 136) / 281474976710656 % 256, (w.idata_rva + 136) / 72057594037927936 % 256, (w.idata_rva + 148) % 256,
      (w.idata_rva + 148) / 256 % 256, (w.idata_rva + 148) / 65536 % 256, (w.idata_rva + 148) / 16777216 % 256,
      (w.idata_rva + 148) / 4294967296 % 256, (w.idata_rva + 148) / 1099511627776 % 256,
      (w.idata_rva + 148) / 281474976710656 % 256, (w.idata_rva + 148) / 72057594037927936 % 256, (w.idata_rva + 160) % 256,
      (w.idata_rva + 160) / 256 % 256, (w.idata_rva + 160) / 65536 % 256, (w.idata_rva + 160) / 16777216 % 256,
      (w.idata_rva + 160) / 4294967296 % 256, (w.idata_rva + 160) / 1099511627776 % 256,
      (w.idata_rva + 160) / 281474976710656 % 256, (w.idata_rva + 160) / 72057594037927936 % 256, 0, 0, 0, 0, 0, 0,
      0, 0, 0, 0, 71, 101, 116, 83, 116, 100, 72, 97, 110, 100, 108, 101, 0, 0, 0, 0, 87, 114,
      105, 116, 101, 70, 105, 108, 101, 0, 0, 0, 82, 101, 97, 100, 70, 105, 108, 101, 0, 0, 0, 0,
      69, 120, 105, 116, 80, 114, 111, 99, 101, 115, 115, 0, 107, 101, 114, 110, 101, 108, 51,
      50, 46, 100, 108, 108, 0, 0] := by
  have c1 : cstr "GetStdHandle" = [71, 101, 116, 83, 116, 100, 72, 97, 110, 100, 108, 101] := by
    decide
  have c2 : cstr "WriteFile" = [87, 114, 105, 116, 101, 70, 105, 108, 101] := by decide
  have c3 : cstr "ReadFile" = [82, 101, 97, 100, 70, 105, 108, 101] := by decide
  have c4 : cstr "ExitProcess" = [69, 120, 105, 116, 80, 114, 111, 99, 101, 115, 115] := by decide
  have c5 : cstr "kernel32.dll" = [107, 101, 114, 110, 101, 108, 51, 50, 46, 100, 108, 108] := by
    decide
  have z20 : List.replicate 20 0 = [0, 0, 0, 0, 0, 0, 0, 0, 0, 0, 0, 0, 0, 0, 0, 0, 0, 0, 0, 0] :=
    rfl
  have z8 : List.replicate 8 0 = [0, 0, 0, 0, 0, 0, 0, 0] := rfl
  rw [write_pe_idata prog w h]
  simp only [c1, c2, c3, c4, c5, z20, z8, le32, le64, List.cons_append, List.nil_append,
    List.append_assoc, Nat.zero_div, Nat.zero_mod]

theorem read32_of_bytes (l : List Nat) (o v : Nat) (h0 : l.getD o 0 = v % 256)
    (h1 : l.getD (o + 1) 0 = v / 256 % 256) (h2 : l.getD (o + 2) 0 = v / 65536 % 256)
    (h3 : l.getD (o + 3) 0 = v / 16777216 % 256) (hv : v < 4294967296) : read32 l o = v := by
  simp only [read32, h0, h1, h2, h3]
  omega

theorem read64_of_bytes (l : List Nat) (o v : Nat) (h0 : l.getD o 0 = v % 256)
    (h1 : l.getD (o + 1) 0 = v / 256 % 256) (h2 : l.getD (o + 2) 0 = v / 65536 % 256)
    (h3 : l.getD (o + 3) 0 = v / 16777216 % 256)
    (h4 : l.getD (o + 4) 0 = v / 4294967296 % 256)
    (h5 : l.getD (o + 4 + 1) 0 = v / 1099511627776 % 256)
    (h6 : l.getD (o + 4 + 2) 0 = v / 281474976710656 % 256)
    (h7 : l.getD (o + 4 + 3) 0 = v / 72057594037927936 % 256)
    (hv : v < 18446744073709551616) : read64 l o = v := by
  simp only [read64, read32, h0, h1, h2, h3, h4, h5, h6, h7]
  omega

/-- What the `.idata` blob holds at the offsets of the import directory, of the
two tables and of the names. -/
theorem write_pe_idata_reads (prog : List IRInst) (w : PEFile) (h : write_pe prog = some w) :
    (read32 w.idata 0 = w.idata_rva + 40 ∧ read32 w.idata 4 = 0 ∧ read32 w.idata 8 = 0 ∧
      read32 w.idata 12 = w.idata_rva + 174 ∧ read32 w.idata 16 = w.idata_rva + 80) ∧
    (read64 w.idata 40 = w.idata_rva + 120 ∧ read64 w.idata 48 = w.idata_rva + 136 ∧
      read64 w.idata 56 = w.idata_rva + 148 ∧ read64 w.idata 64 = w.idata_rva + 160 ∧
      read64 w.idata 72 = 0) ∧
    (read64 w.idata 80 = w.idata_rva + 120 ∧ read64 w.idata 88 = w.idata_rva + 136 ∧
      read64 w.idata 96 = w.idata_rva + 148 ∧ read64 w.idata 104 = w.idata_rva + 160 ∧
      read64 w.idata 112 = 0) ∧
    (w.idata.drop 20).take 20 = List.replicate 20 0 ∧
    (w.idata.drop 120).take 15 = [0, 0] ++ cstr "GetStdHandle" ++ [0] ∧
    (w.idata.drop 136).take 12 = [0, 0] ++ cstr "WriteFile" ++ [0] ∧
    (w.idata.drop 148).take 11 = [0, 0] ++ cstr "ReadFile" ++ [0] ∧
    (w.idata.drop 160).take 14 = [0, 0] ++ cstr "ExitProcess" ++ [0] ∧
    (w.idata.drop 174).take 13 = cstr "kernel32.dll" ++ [0] := by
  obtain ⟨_, _, _, _, hmod, hlt, _⟩ := write_pe_layout prog w h
  rw [write_pe_idata_flat prog w h]
  refine ⟨⟨?_, ?_, ?_, ?_, ?_⟩, ⟨?_, ?_, ?_, ?_, ?_⟩, ⟨?_, ?_, ?_, ?_, ?_⟩, rfl, rfl, rfl, rfl,
    rfl, rfl⟩
  · exact read32_of_bytes _ _ _ rfl rfl rfl rfl (by omega)
  · exact read32_of_bytes _ _ _ rfl rfl rfl rfl (by omega)
  · exact read32_of_bytes _ _ _ rfl rfl rfl rfl (by omega)
  · exact read32_of_bytes _ _ _ rfl rfl rfl rfl (by omega)
  · exact read32_of_bytes _ _ _ rfl rfl rfl rfl (by omega)
  · exact read64_of_bytes _ _ _ rfl rfl rfl rfl rfl rfl rfl rfl (by omega)
  · exact read64_of_bytes _ _ _ rfl rfl rfl rfl rfl rfl rfl rfl (by omega)
  · exact read64_of_bytes _ _ _ rfl rfl rfl rfl rfl rfl rfl rfl (by omega)
  · exact read64_of_bytes _ _ _ rfl rfl rfl rfl rfl rfl rfl rfl (by omega)
  · exact read64_of_bytes _ _ _ rfl rfl rfl rfl rfl rfl rfl rfl (by omega)
  · exact read64_of_bytes _ _ _ rfl rfl rfl rfl rfl rfl rfl rfl (by omega)
  · exact read64_of_bytes _ _ _ rfl rfl rfl rfl rfl rfl rfl rfl (by omega)
  · exact read64_of_bytes _ _ _ rfl rfl rfl rfl rfl rfl rfl rfl (by omega)
  · exact read64_of_bytes _ _ _ rfl rfl rfl rfl rfl rfl rfl rfl (by omega)
  · exact read64_of_bytes _ _ _ rfl rfl rfl rfl rfl rfl rfl rfl (by omega)
end pe

/-! ## The import tables -/


/-- C18. Import tables name the functions the code calls. When `write_pe` returns,
with `r` the RVA of `.idata`: the four hint positions `h_k` are even; for
k = 0..3 the little-endian 64-bit values of the blob at offsets 40 + 8k (ILT)
and 80 + 8k (IAT) both are `r + h_k`; the blob at `h_k` holds a two-byte zero hint
and the NUL-terminated k-th name of GetStdHandle, WriteFile, ReadFile, ExitProcess;
the fifth entry of each table is zero; the final `gen_code` call receives the IAT
RVA `r + 80`. In the code that `gen_code` emits for any RVAs, the two calls of the
prologue read the slot `iat_rva + 0`, the call emitted for an `Output` reads
`iat_rva + 8`, the call emitted for an `Input` reads `iat_rva + 16` and the call of
the epilogue reads `iat_rva + 24`, which are the slots of GetStdHandle, WriteFile,
ReadFile and ExitProcess that the comments of `gen_code` name. -/
theorem import_tables_name_functions (prog : List IRInst) (w : pe.PEFile)
    (h : pe.write_pe prog = some w) :
    pe.func_names = [pe.cstr "GetStdHandle", pe.cstr "WriteFile", pe.cstr "ReadFile",
      pe.cstr "ExitProcess"] ∧
    w.hint_positions.length = 4 ∧
    (∀ (k hk : Nat) (name : List Nat), w.hint_positions[k]? = some hk →
      pe.func_names[k]? = some name →
      hk % 2 = 0 ∧ pe.read64 w.idata (40 + 8 * k) = w.idata_rva + hk ∧
      pe.read64 w.idata (80 + 8 * k) = w.idata_rva + hk ∧
      (w.idata.drop hk).take (2 + name.length + 1) = [0, 0] ++ name ++ [0]) ∧
    pe.read64 w.idata (40 + 8 * 4) = 0 ∧ pe.read64 w.idata (80 + 8 * 4) = 0 ∧
    (∃ text idata data : pe.SECTION_HEADER, w.sects = [text, idata, data] ∧
      idata.VirtualAddress = w.idata_rva ∧ data.VirtualAddress = w.data_rva) ∧
    pe.gen_code prog 0x1000 (w.idata_rva + 80) w.data_rva = some w.code ∧
    (∀ text_rva iat_rva data_rva : Nat,
      pe.CallsSlot (pe.gen_prologue text_rva iat_rva data_rva ⟨[]⟩).data text_rva 21
        (iat_rva + 0) ∧
      pe.CallsSlot (pe.gen_prologue text_rva iat_rva data_rva ⟨[]⟩).data text_rva 35
        (iat_rva + 0) ∧
      (∀ (i : Nat) (x : IRInst) (s s1 : pe.GenState),
        pe.gen_step text_rva iat_rva data_rva i x s = some s1 →
        (x.type = .Output → pe.CallsSlot s1.c.data text_rva (s.c.size + 28) (iat_rva + 8)) ∧
        (x.type = .Input → pe.CallsSlot s1.c.data text_rva (s.c.size + 28) (iat_rva + 16))) ∧
      ∀ c : pe.CodeBuf,
        pe.CallsSlot (pe.gen_epilogue text_rva iat_rva c).data text_rva (c.size + 2)
          (iat_rva + 24)) := by
  obtain ⟨_, _, hcode, _, _, _, _, _, _, _, _, hhp, _, _, _, _, hsects, _⟩ :=
    pe.write_pe_inv prog w h
  obtain ⟨_, _, _, _, hmod, hlt, hiat, _⟩ := pe.write_pe_layout prog w h
  obtain ⟨_, hilt, hiat2, _, hn0, hn1, hn2, hn3, _⟩ := pe.write_pe_idata_reads prog w h
  refine ⟨rfl, by rw [hhp]; rfl, ?_, ?_, ?_, ⟨_, _, _, hsects, rfl, rfl⟩, by rw [← hiat]; exact hcode,
    fun t i d => ⟨(pe.gen_prologue_calls t i d).1, (pe.gen_prologue_calls t i d).2,
      fun i x s s1 hs => pe.gen_step_calls t _ d i x s s1 hs, pe.gen_epilogue_calls t i⟩⟩
  · intro k hk name h1 h2
    rw [hhp] at h1
    match k, h1, h2 with
    | 0, h1, h2 =>
      simp only [List.getElem?_cons_zero, Option.some.injEq] at h1
      simp only [pe.func_names, List.getElem?_cons_zero, Option.some.injEq] at h2
      subst h1 h2
      exact ⟨by decide, hilt.1, hiat2.1, hn0⟩
    | 1, h1, h2 =>
      simp only [List.getElem?_cons_succ, List.getElem?_cons_zero, Option.some.injEq] at h1
      simp only [pe.func_names, List.getElem?_cons_succ, List.getElem?_cons_zero,
        Option.some.injEq] at h2
      subst h1 h2
      exact ⟨by decide, hilt.2.1, hiat2.2.1, hn1⟩
    | 2, h1, h2 =>
      simp only [List.getElem?_cons_succ, List.getElem?_cons_zero, Option.some.injEq] at h1
      simp only [pe.func_names, List.getElem?_cons_succ, List.getElem?_cons_zero,
        Option.some.injEq] at h2
      subst h1 h2
      exact ⟨by decide, hilt.2.2.1, hiat2.2.2.1, hn2⟩
    | 3, h1, h2 =>
      simp only [List.getElem?_cons_succ, List.getElem?_cons_zero, Option.some.injEq] at h1
      simp only [pe.func_names, List.getElem?_cons_succ, List.getElem?_cons_zero,
        Option.some.injEq] at h2
      subst h1 h2
      exact ⟨by decide, hilt.2.2.2.1, hiat2.2.2.2.1, hn3⟩
    | k + 4, h1, h2 => simp at h1
  · exact hilt.2.2.2.2
  · exact hiat2.2.2.2.2

theorem import_tables_name_functions_witness :
    ∃ w, pe.write_pe [⟨.AddVal, 1, -1⟩, ⟨.LoopBegin, 0, 4⟩, ⟨.Output, 0, -1⟩,
        ⟨.AddVal, -1, -1⟩, ⟨.LoopEnd, 0, 1⟩] = some w ∧
    (pe.func_names = [pe.cstr "GetStdHandle", pe.cstr "WriteFile", pe.cstr "ReadFile",
      pe.cstr "ExitProcess"] ∧
    w.hint_positions.length = 4 ∧
    (∀ (k hk : Nat) (name : List Nat), w.hint_positions[k]? = some hk →
      pe.func_names[k]? = some name →
      hk % 2 = 0 ∧ pe.read64 w.idata (40 + 8 * k) = w.idata_rva + hk ∧
      pe.read64 w.idata (80 + 8 * k) = w.idata_rva + hk ∧
      (w.idata.drop hk).take (2 + name.length + 1) = [0, 0] ++ name ++ [0]) ∧
    pe.read64 w.idata (40 + 8 * 4) = 0 ∧ pe.read64 w.idata (80 + 8 * 4) = 0 ∧
    (∃ text idata data : pe.SECTION_HEADER, w.sects = [text, idata, data] ∧
      idata.VirtualAddress = w.idata_rva ∧ data.VirtualAddress = w.data_rva) ∧
    pe.gen_code [⟨.AddVal, 1, -1⟩, ⟨.LoopBegin, 0, 4⟩, ⟨.Output, 0, -1⟩, ⟨.AddVal, -1, -1⟩,
      ⟨.LoopEnd, 0, 1⟩] 0x1000 (w.idata_rva + 80) w.data_rva = some w.code ∧
    (∀ text_rva iat_rva data_rva : Nat,
      pe.CallsSlot (pe.gen_prologue text_rva iat_rva data_rva ⟨[]⟩).data text_rva 21
        (iat_rva + 0) ∧
      pe.CallsSlot (pe.gen_prologue text_rva iat_rva data_rva ⟨[]⟩).data text_rva 35
        (iat_rva + 0) ∧
      (∀ (i : Nat) (x : IRInst) (s s1 : pe.GenState),
        pe.gen_step text_rva iat_rva data_rva i x s = some s1 →
        (x.type = .Output → pe.CallsSlot s1.c.data text_rva (s.c.size + 28) (iat_rva + 8)) ∧
        (x.type = .Input → pe.CallsSlot s1.c.data text_rva (s.c.size + 28) (iat_rva + 16))) ∧
      ∀ c : pe.CodeBuf,
        pe.CallsSlot (pe.gen_epilogue text_rva iat_rva c).data text_rva (c.size + 2)
          (iat_rva + 24))) :=
  (pe.write_pe_defined _ pe.jumpInvariant_sample).elim fun w hw =>
    ⟨w, hw, import_tables_name_functions _ w hw⟩

/-- C19. Import directory and data directories agree with the blob. When `write_pe`
returns, with `r` the RVA of `.idata`: the first import descriptor of the blob has
`OriginalFirstThunk = r + 40`, `TimeDateStamp = ForwarderChain = 0`,
`Name = r + dll_name_off`, where the blob at `dll_name_off` holds the NUL-terminated
string `kernel32.dll`, and `FirstThunk = r + 80`; the bytes 20..39 of the blob are
zero; there are 16 data directories, `DataDirectory[1]` is `(r, 40)`,
`DataDirectory[12]` is `(r + 80, 40)`, the others are zero, and
`NumberOfRvaAndSizes` is 16. -/
theorem import_directory_agrees (prog : List IRInst) (w : pe.PEFile)
    (h : pe.write_pe prog = some w) :
    (∃ text idata data : pe.SECTION_HEADER, w.sects = [text, idata, data] ∧
      idata.VirtualAddress = w.idata_rva) ∧
    pe.read32 w.idata 0 = w.idata_rva + 40 ∧
    pe.read32 w.idata 4 = 0 ∧ pe.read32 w.idata 8 = 0 ∧
    pe.read32 w.idata 12 = w.idata_rva + w.dll_name_off ∧
    pe.dll_name = pe.cstr "kernel32.dll" ∧
    (w.idata.drop w.dll_name_off).take (pe.dll_name.length + 1) = pe.dll_name ++ [0] ∧
    pe.read32 w.idata 16 = w.idata_rva + 80 ∧
    (w.idata.drop 20).take 20 = List.replicate 20 0 ∧
    w.nt.OptionalHeader.DataDirectory.length = 16 ∧
    w.nt.OptionalHeader.DataDirectory[1]? = some ⟨w.idata_rva, 40⟩ ∧
    w.nt.OptionalHeader.DataDirectory[12]? = some ⟨w.idata_rva + 80, 40⟩ ∧
    (∀ i, i < 16 → i ≠ 1 → i ≠ 12 → w.nt.OptionalHeader.DataDirectory[i]? = some ⟨0, 0⟩) ∧
    w.nt.OptionalHeader.NumberOfRvaAndSizes = 16 := by
  obtain ⟨_, _, _, _, _, _, _, _, _, _, _, _, hdll, _, _, hnt, hsects, _⟩ :=
    pe.write_pe_inv prog w h
  obtain ⟨_, _, _, _, hmod, hlt, _⟩ := pe.write_pe_layout prog w h
  obtain ⟨⟨d0, d4, d8, d12, d16⟩, _, _, hz, _, _, _, _, hname⟩ := pe.write_pe_idata_reads prog w h
  have a80 : pe.add32 w.idata_rva 80 = w.idata_rva + 80 := by unfold pe.add32; omega
  refine ⟨⟨_, _, _, hsects, rfl⟩, d0, d4, d8, by rw [hdll]; exact d12, rfl,
    by rw [hdll]; exact hname, d16, hz, ?_, ?_, ?_, ?_, ?_⟩
  · rw [hnt]; rfl
  · rw [hnt]; rfl
  · rw [hnt, ← a80]; rfl
  · intro i hi h1 h12
    rw [hnt]
    interval_cases i <;> first | rfl | exact absurd rfl h1 | exact absurd rfl h12
  · rw [hnt]

theorem import_directory_agrees_witness :
    ∃ w, pe.write_pe [⟨.AddVal, 1, -1⟩, ⟨.LoopBegin, 0, 4⟩, ⟨.Output, 0, -1⟩,
        ⟨.AddVal, -1, -1⟩, ⟨.LoopEnd, 0, 1⟩] = some w ∧
    ((∃ text idata data : pe.SECTION_HEADER, w.sects = [text, idata, data] ∧
      idata.VirtualAddress = w.idata_rva) ∧
    pe.read32 w.idata 0 = w.idata_rva + 40 ∧
    pe.read32 w.idata 4 = 0 ∧ pe.read32 w.idata 8 = 0 ∧
    pe.read32 w.idata 12 = w.idata_rva + w.dll_name_off ∧
    pe.dll_name = pe.cstr "kernel32.dll" ∧
    (w.idata.drop w.dll_name_off).take (pe.dll_name.length + 1) = pe.dll_name ++ [0] ∧
    pe.read32 w.idata 16 = w.idata_rva + 80 ∧
    (w.idata.drop 20).take 20 = List.replicate 20 0 ∧
    w.nt.OptionalHeader.DataDirectory.length = 16 ∧
    w.nt.OptionalHeader.DataDirectory[1]? = some ⟨w.idata_rva, 40⟩ ∧
    w.nt.OptionalHeader.DataDirectory[12]? = some ⟨w.idata_rva + 80, 40⟩ ∧
    (∀ i, i < 16 → i ≠ 1 → i ≠ 12 → w.nt.OptionalHeader.DataDirectory[i]? = some ⟨0, 0⟩) ∧
    w.nt.OptionalHeader.NumberOfRvaAndSizes = 16) :=
  (pe.write_pe_defined _ pe.jumpInvariant_sample).elim fun w hw =>
    ⟨w, hw, import_directory_agrees _ w hw⟩


/-! ## File layout -/

namespace pe

theorem gen_code_ne_none_of_targets (prog : List IRInst)
    (hv : ∀ x ∈ prog, x.type = .LoopEnd →
      0 ≤ x.jump_target ∧ x.jump_target < (prog.length : Int))
    (text_rva iat_rva data_rva : Nat) : gen_code prog text_rva iat_rva data_rva ≠ none := by
  have hv2 : ∀ x ∈ prog, x.type = .LoopEnd →
      0 ≤ x.jump_target ∧ x.jump_target < ((List.replicate prog.length 0).length : Int) := by
    intro x hx tx
    rw [List.length_replicate]
    exact hv x hx tx
  obtain ⟨s0, hs0⟩ := gen_loop_defined text_rva iat_rva data_rva prog 0
    ⟨gen_prologue text_rva iat_rva data_rva ⟨[]⟩, List.replicate prog.length 0, []⟩ hv2
  unfold gen_code gen_emit
  rw [hs0]
  exact fun h => by cases h

theorem write_pe_defined_of_targets (prog : List IRInst)
    (hv : ∀ x ∈ prog, x.type = .LoopEnd →
      0 ≤ x.jump_target ∧ x.jump_target < (prog.length : Int)) :
    ∃ w, write_pe prog = some w := by
  cases h : write_pe prog with
  | some w => exact ⟨w, rfl⟩
  | none =>
    exfalso
    unfold write_pe at h
    simp only [] at h
    split at h
    · rename_i heq
      exact gen_code_ne_none_of_targets prog hv _ _ _ heq
    · split at h
      · rename_i heq
        exact gen_code_ne_none_of_targets prog hv _ _ _ heq
      · cases h

theorem codeLen_replicate_output (n : Nat) :
    codeLen (List.replicate n ⟨.Output, 0, -1⟩) = 34 * n := by
  induction n with
  | zero => rfl
  | succ n ih =>
    rw [List.replicate_succ, codeLen_cons, ih]
    simp only [instLen]
    omega

theorem four_parts {α : Type} (H T1 T2 I1 I2 D : List α) (nh nt n1 n2 ni : Nat)
    (hh : H.length = nh) (h1 : T1.length = n1) (ht : (T1 ++ T2).length = nt)
    (h2 : I1.length = n2) (hi : (I1 ++ I2).length = ni) :
    ((H ++ (T1 ++ T2) ++ (I1 ++ I2) ++ D).drop nh).take n1 = T1 ∧
    ((H ++ (T1 ++ T2) ++ (I1 ++ I2) ++ D).drop (nh + nt)).take n2 = I1 ∧
    (H ++ (T1 ++ T2) ++ (I1 ++ I2) ++ D).drop (nh + nt + ni) = D := by
  subst hh h1 ht h2 hi
  refine ⟨?_, ?_, ?_⟩
  · rw [List.append_assoc, List.append_assoc, List.append_assoc, List.drop_left,
      List.take_left]
  · rw [← List.length_append, List.append_assoc (H ++ (T1 ++ T2)), List.append_assoc I1,
      List.drop_left, List.take_left]
  · rw [← List.length_append, ← List.length_append, List.drop_left]

/-- The bytes that `write_pe` writes, in four parts: the headers with their padding,
the code with its padding, the import blob with its padding, and the zero bytes of
`.data`. The first part has 0x200 bytes. -/
theorem write_pe_out (prog : List IRInst) (w : PEFile) (h : write_pe prog = some w) :
    ∃ text idata data : SECTION_HEADER, w.sects = [text, idata, data] ∧
      w.out = (w.dos.bytes ++ w.nt.bytes ++ text.bytes ++ idata.bytes ++ data.bytes ++
          List.replicate 64 0) ++
        (w.code.data ++ List.replicate (w.text_raw - w.code.data.length) 0) ++
        (w.idata ++ List.replicate 324 0) ++ List.replicate 30208 0 ∧
      (w.dos.bytes ++ w.nt.bytes ++ text.bytes ++ idata.bytes ++ data.bytes ++
          List.replicate 64 0).length = 0x200 := by
  obtain ⟨_, _, _, _, _, _, _, _, _, _, _, _, _, _, _, _, hsects, hout⟩ := write_pe_inv prog w h
  refine ⟨_, _, _, hsects, ?_, ?_⟩
  · rw [hout, hsects]
    have e : (if w.text_raw > w.code.data.length then
        List.replicate (w.text_raw - w.code.data.length) 0 else []) =
        List.replicate (w.text_raw - w.code.data.length) 0 := by
      split_ifs with hgt
      · rfl
      · have : w.text_raw - w.code.data.length = 0 := by omega
        rw [this]
        rfl
    rw [e]
    simp only [List.map_cons, List.map_nil, List.flatten_cons, List.flatten_nil, List.append_nil,
      List.append_assoc]
  · simp only [List.length_append, DOS_HEADER_bytes_length, NT_HEADERS64_bytes_length,
      SECTION_HEADER_bytes_length, List.length_replicate]

end pe

/-- C20, with the bound that the claim lacks. When `write_pe` returns for a program
whose generated code has at most 2^32 - 0x600 bytes, the bytes written are the 448
header bytes (the 64-byte DOS header with `e_lfanew = 64`, the 264-byte NT headers,
three 40-byte section headers) zero-padded to 0x200, the code zero-padded to
`text_raw`, the least multiple of 0x200 that is at least the code size, the
188-byte import blob zero-padded to 0x200, and 30208 zero bytes; each `PointerToRawData`
(0x200, 0x200 + text_raw, 0x400 + text_raw) is the offset in the file at which the
bytes of the section begin; every `PointerToRawData` and `SizeOfRawData` is a
multiple of 0x200; `SizeOfRawData` is at least `VirtualSize` for each section; and
`headers_size - 448` does not underflow. -/
theorem pe_file_layout (prog : List IRInst) (w : pe.PEFile)
    (h : pe.write_pe prog = some w) (hc : w.code.size ≤ 4294965760) :
    (∃ text idata data : pe.SECTION_HEADER, w.sects = [text, idata, data] ∧
      w.dos.bytes.length = 64 ∧ w.dos.e_lfanew = 64 ∧ w.nt.bytes.length = 264 ∧
      text.bytes.length = 40 ∧ idata.bytes.length = 40 ∧ data.bytes.length = 40 ∧
      w.headers_size = 0x200 ∧ 448 ≤ w.headers_size ∧
      0x200 ∣ w.text_raw ∧ w.code.size ≤ w.text_raw ∧ w.text_raw < w.code.size + 0x200 ∧
      w.idata.length = 188 ∧
      w.out = (w.dos.bytes ++ w.nt.bytes ++ text.bytes ++ idata.bytes ++ data.bytes ++
          List.replicate (w.headers_size - 448) 0) ++
        (w.code.data ++ List.replicate (w.text_raw - w.code.size) 0) ++
        (w.idata ++ List.replicate (0x200 - 188) 0) ++ List.replicate 30208 0 ∧
      text.PointerToRawData = 0x200 ∧ idata.PointerToRawData = 0x200 + w.text_raw ∧
      data.PointerToRawData = 0x400 + w.text_raw ∧
      (w.out.drop text.PointerToRawData).take w.code.size = w.code.data ∧
      (w.out.drop idata.PointerToRawData).take 188 = w.idata ∧
      w.out.drop data.PointerToRawData = List.replicate 30208 0 ∧
      text.SizeOfRawData = w.text_raw ∧ idata.SizeOfRawData = 0x200 ∧
      data.SizeOfRawData = 30208 ∧
      0x200 ∣ text.PointerToRawData ∧ 0x200 ∣ idata.PointerToRawData ∧
      0x200 ∣ data.PointerToRawData ∧ 0x200 ∣ text.SizeOfRawData ∧
      0x200 ∣ idata.SizeOfRawData ∧ 0x200 ∣ data.SizeOfRawData ∧
      text.VirtualSize ≤ text.SizeOfRawData ∧ idata.VirtualSize ≤ idata.SizeOfRawData ∧
      data.VirtualSize ≤ data.SizeOfRawData) := by
  obtain ⟨_, _, _, _, hhs, _, _, _, _, _, _, _, _, _, hdos, _, hsects, _⟩ :=
    pe.write_pe_inv prog w h
  obtain ⟨_, hcs, htr, _⟩ := pe.write_pe_layout prog w h
  obtain ⟨text, idata, data, hs2, hout, hH⟩ := pe.write_pe_out prog w h
  have hlen := pe.write_pe_idata_length prog w h
  have e1 : w.code_size = w.code.size := by rw [hcs]; omega
  have e2 : w.text_raw = (w.code.size + 511) / 512 * 512 := by rw [htr, e1]; omega
  have hsz : w.code.size = w.code.data.length := rfl
  rw [hsects] at hs2
  simp only [List.cons.injEq, and_true] at hs2
  obtain ⟨ht, hi, hd⟩ := hs2
  have a1 : pe.add32 512 w.text_raw = 512 + w.text_raw := by unfold pe.add32; omega
  have a2 : pe.add32 (pe.add32 512 w.text_raw) 512 = 1024 + w.text_raw := by
    unfold pe.add32; omega
  have p1 : text.PointerToRawData = 512 := by rw [← ht]
  have p2 : idata.PointerToRawData = 512 + w.text_raw := by rw [← hi, ← a1]
  have p3 : data.PointerToRawData = 1024 + w.text_raw := by rw [← hd, ← a2]
  have r1 : text.SizeOfRawData = w.text_raw := by rw [← ht]
  have r2 : idata.SizeOfRawData = 512 := by rw [← hi]
  have r3 : data.SizeOfRawData = 30208 := by rw [← hd]
  have v1 : text.VirtualSize = w.code_size := by rw [← ht]
  have v2 : idata.VirtualSize = 188 := by rw [← hi]
  have v3 : data.VirtualSize = 30016 := by rw [← hd]
  have hT : (w.code.data ++ List.replicate (w.text_raw - w.code.data.length) 0).length =
      w.text_raw := by
    rw [List.length_append, List.length_replicate]; omega
  have hI : (w.idata ++ List.replicate 324 0).length = 512 := by
    rw [List.length_append, List.length_replicate, hlen]
  refine ⟨text, idata, data, by rw [hsects, ht, hi, hd], pe.DOS_HEADER_bytes_length _,
    by rw [hdos], pe.NT_HEADERS64_bytes_length _, pe.SECTION_HEADER_bytes_length _,
    pe.SECTION_HEADER_bytes_length _, pe.SECTION_HEADER_bytes_length _, hhs, by rw [hhs]; decide,
    by omega, by omega, by omega, hlen, by rw [hhs]; exact hout, p1, p2, p3, ?_, ?_, ?_, r1, r2,
    r3, by omega, by omega, by omega, by omega, by omega, by omega, by omega, by omega,
    by omega⟩
  · rw [p1, hout]
    exact (pe.four_parts _ _ _ _ _ _ _ _ _ _ _ hH rfl hT hlen hI).1
  · rw [p2, hout]
    exact (pe.four_parts _ _ _ _ _ _ _ _ _ _ _ hH rfl hT hlen hI).2.1
  · rw [p3, hout, show 1024 + w.text_raw = 512 + w.text_raw + 512 from by omega]
    exact (pe.four_parts _ _ _ _ _ _ _ _ _ _ _ hH rfl hT hlen hI).2.2

theorem pe_file_layout_witness :
    ∃ w, pe.write_pe [⟨.AddVal, 1, -1⟩, ⟨.LoopBegin, 0, 4⟩, ⟨.Output, 0, -1⟩,
        ⟨.AddVal, -1, -1⟩, ⟨.LoopEnd, 0, 1⟩] = some w ∧ w.code.size ≤ 4294965760 ∧
    (∃ text idata data : pe.SECTION_HEADER, w.sects = [text, idata, data] ∧
      w.dos.bytes.length = 64 ∧ w.dos.e_lfanew = 64 ∧ w.nt.bytes.length = 264 ∧
      text.bytes.length = 40 ∧ idata.bytes.length = 40 ∧ data.bytes.length = 40 ∧
      w.headers_size = 0x200 ∧ 448 ≤ w.headers_size ∧
      0x200 ∣ w.text_raw ∧ w.code.size ≤ w.text_raw ∧ w.text_raw < w.code.size + 0x200 ∧
      w.idata.length = 188 ∧
      w.out = (w.dos.bytes ++ w.nt.bytes ++ text.bytes ++ idata.bytes ++ data.bytes ++
          List.replicate (w.headers_size - 448) 0) ++
        (w.code.data ++ List.replicate (w.text_raw - w.code.size) 0) ++
        (w.idata ++ List.replicate (0x200 - 188) 0) ++ List.replicate 30208 0 ∧
      text.PointerToRawData = 0x200 ∧ idata.PointerToRawData = 0x200 + w.text_raw ∧
      data.PointerToRawData = 0x400 + w.text_raw ∧
      (w.out.drop text.PointerToRawData).take w.code.size = w.code.data ∧
      (w.out.drop idata.PointerToRawData).take 188 = w.idata ∧
      w.out.drop data.PointerToRawData = List.replicate 30208 0 ∧
      text.SizeOfRawData = w.text_raw ∧ idata.SizeOfRawData = 0x200 ∧
      data.SizeOfRawData = 30208 ∧
      0x200 ∣ text.PointerToRawData ∧ 0x200 ∣ idata.PointerToRawData ∧
      0x200 ∣ data.PointerToRawData ∧ 0x200 ∣ text.SizeOfRawData ∧
      0x200 ∣ idata.SizeOfRawData ∧ 0x200 ∣ data.SizeOfRawData ∧
      text.VirtualSize ≤ text.SizeOfRawData ∧ idata.VirtualSize ≤ idata.SizeOfRawData ∧
      data.VirtualSize ≤ data.SizeOfRawData) :=
  (pe.write_pe_defined _ pe.jumpInvariant_sample).elim fun w hw =>
    have hc : w.code.size ≤ 4294965760 := by
      rw [(pe.write_pe_layout _ w hw).1]; decide
    ⟨w, hw, hc, pe_file_layout _ w hw hc⟩

/-- C20 fails without a bound on the code size. The program of 126322565 `Output`
instructions has 2^32 - 34 bytes of code; `align_up` wraps, so `.text` gets
`SizeOfRawData = 0` below its `VirtualSize`, the code is written without padding,
and `.idata` gets `PointerToRawData = 0x200` although its bytes begin at the offset
0x200 + 4294967262 of the file. -/
theorem pe_file_layout_overflow :
    ∃ w, pe.write_pe (List.replicate 126322565 ⟨.Output, 0, -1⟩) = some w ∧
      w.code.size = 4294967262 ∧ w.text_raw = 0 ∧
      ∃ text idata data : pe.SECTION_HEADER, w.sects = [text, idata, data] ∧
        text.VirtualSize = 4294967262 ∧ text.SizeOfRawData = 0 ∧
        ¬ (text.VirtualSize ≤ text.SizeOfRawData) ∧
        idata.PointerToRawData = 0x200 ∧
        (w.out.drop 0x200).take 4294967262 = w.code.data ∧
        (w.out.drop (0x200 + 4294967262)).take 188 = w.idata := by
  obtain ⟨w, hw⟩ := pe.write_pe_defined_of_targets (List.replicate 126322565 ⟨.Output, 0, -1⟩)
    (fun x hx tx => by
      rw [List.eq_of_mem_replicate hx] at tx
      cases tx)
  obtain ⟨_, _, _, _, _, _, _, _, _, _, _, _, _, _, _, _, hsects, _⟩ :=
    pe.write_pe_inv _ w hw
  obtain ⟨hsize, hcs, htr, _⟩ := pe.write_pe_layout _ w hw
  obtain ⟨text, idata, data, hs2, hout, hH⟩ := pe.write_pe_out _ w hw
  have hlen := pe.write_pe_idata_length _ w hw
  rw [pe.codeLen_replicate_output] at hsize
  have hsz : w.code.data.length = 4294967262 := hsize
  have e1 : w.code_size = 4294967262 := by rw [hcs, hsize]
  have e2 : w.text_raw = 0 := by rw [htr, e1]
  rw [hsects] at hs2
  simp only [List.cons.injEq, and_true] at hs2
  obtain ⟨ht, hi, hd⟩ := hs2
  have v1 : text.VirtualSize = 4294967262 := by rw [← ht]; exact e1
  have r1 : text.SizeOfRawData = 0 := by rw [← ht]; exact e2
  have p2 : idata.PointerToRawData = 512 := by
    rw [← hi]
    show pe.add32 512 w.text_raw = 512
    rw [e2]
    rfl
  rw [e2, Nat.zero_sub] at hout
  have hT : (w.code.data ++ List.replicate 0 0).length = 4294967262 := by
    rw [List.length_append, hsz]; rfl
  have hI : (w.idata ++ List.replicate 324 0).length = 512 := by
    rw [List.length_append, List.length_replicate, hlen]
  refine ⟨w, hw, hsize, e2, text, idata, data, by rw [hsects, ht, hi, hd], v1, r1,
    by rw [v1, r1]; decide, p2, ?_, ?_⟩
  · rw [hout]
    exact (pe.four_parts _ _ _ _ _ _ _ _ _ _ _ hH hsz hT hlen hI).1
  · rw [hout]
    exact (pe.four_parts _ _ _ _ _ _ _ _ _ _ _ hH hsz hT hlen hI).2.1


/-! ## Jump discipline of the interpreter -/

/-- C30, for machine states whose data pointer is inside the tape. For a program
with the jump invariant and such a state `m`: one step at a `LoopBegin` at index
`i`, whose partner is the `LoopEnd` at `j = jump_target`, leaves `m` unchanged and
continues at `jump_target + 1 = j + 1` when the current cell is 0 and at `i + 1`
otherwise; one step at a `LoopEnd` at index `j`, whose partner is the `LoopBegin`
at `i = jump_target`, leaves `m` unchanged and continues at `jump_target + 1 = i + 1`
when the current cell is not 0 and at `j + 1` otherwise; the next index is at most
the length of the program. -/
theorem interp_jump_discipline (p : List IRInst) (hinv : JumpInvariant p) (m : Machine)
    (hm : inTape m.ptr) :
    (∀ (i : Nat) (x : IRInst), p[i]? = some x → x.type = .LoopBegin →
      ∃ (j : Nat) (y : IRInst), x.jump_target = (j : Int) ∧ i < j ∧ p[j]? = some y ∧
        y.type = .LoopEnd ∧ y.jump_target = (i : Int) ∧
        interpStep p m (i : Int) =
          .running m (if m.tape m.ptr = 0 then x.jump_target + 1 else (i : Int) + 1) ∧
        (if m.tape m.ptr = 0 then x.jump_target + 1 else (i : Int) + 1) ≤ (p.length : Int)) ∧
    (∀ (j : Nat) (y : IRInst), p[j]? = some y → y.type = .LoopEnd →
      ∃ (i : Nat) (x : IRInst), y.jump_target = (i : Int) ∧ i < j ∧ p[i]? = some x ∧
        x.type = .LoopBegin ∧ x.jump_target = (j : Int) ∧
        interpStep p m (j : Int) =
          .running m (if m.tape m.ptr ≠ 0 then y.jump_target + 1 else (j : Int) + 1) ∧
        (if m.tape m.ptr ≠ 0 then y.jump_target + 1 else (j : Int) + 1) ≤ (p.length : Int)) := by
  constructor
  · intro i x hx tx
    obtain ⟨j, y, h1, h2, h3, h4, h5, h6, _⟩ := hinv.1 i x hx tx
    refine ⟨j, y, h1, h2, h4, h5, h6, ?_, ?_⟩
    · rw [interpStep_at _ _ _ _ hx]
      simp only [execInst, tx, hm, if_true]
      split_ifs <;> rfl
    · have := lt_of_getElem? _ _ _ hx
      split_ifs <;> omega
  · intro j y hy ty
    obtain ⟨i, x, h1, h2, h3, h4, h5⟩ := hinv.2.1 j y hy ty
    refine ⟨i, x, h1, h2, h3, h4, h5, ?_, ?_⟩
    · rw [interpStep_at _ _ _ _ hy]
      simp only [execInst, ty, hm, if_true]
      split_ifs <;> rfl
    · have := lt_of_getElem? _ _ _ hy
      split_ifs <;> omega

theorem interp_jump_discipline_witness :
    JumpInvariant [⟨.AddVal, 1, -1⟩, ⟨.LoopBegin, 0, 4⟩, ⟨.Output, 0, -1⟩, ⟨.AddVal, -1, -1⟩,
      ⟨.LoopEnd, 0, 1⟩] ∧ inTape (initMachine []).ptr ∧
    ∃ (j : Nat) (y : IRInst), (4 : Int) = (j : Int) ∧ 1 < j ∧
      [(⟨.AddVal, 1, -1⟩ : IRInst), ⟨.LoopBegin, 0, 4⟩, ⟨.Output, 0, -1⟩, ⟨.AddVal, -1, -1⟩,
        ⟨.LoopEnd, 0, 1⟩][j]? = some y ∧
      y.type = .LoopEnd ∧ y.jump_target = ((1 : Nat) : Int) ∧
      interpStep [⟨.AddVal, 1, -1⟩, ⟨.LoopBegin, 0, 4⟩, ⟨.Output, 0, -1⟩, ⟨.AddVal, -1, -1⟩,
        ⟨.LoopEnd, 0, 1⟩] (initMachine []) ((1 : Nat) : Int) =
          .running (initMachine [])
            (if (initMachine []).tape (initMachine []).ptr = 0 then (4 : Int) + 1
              else ((1 : Nat) : Int) + 1) ∧
      (if (initMachine []).tape (initMachine []).ptr = 0 then (4 : Int) + 1
        else ((1 : Nat) : Int) + 1) ≤
        (([(⟨.AddVal, 1, -1⟩ : IRInst), ⟨.LoopBegin, 0, 4⟩, ⟨.Output, 0, -1⟩,
          ⟨.AddVal, -1, -1⟩, ⟨.LoopEnd, 0, 1⟩].length : Nat) : Int) :=
  ⟨pe.jumpInvariant_sample, by decide,
    (interp_jump_discipline _ pe.jumpInvariant_sample (initMachine []) (by decide)).1 1
      ⟨.LoopBegin, 0, 4⟩ rfl rfl⟩

/-- C30 fails for a machine state whose data pointer is outside the tape. The
optimized form of `<[]` is `MovePtr -1, LoopBegin(2), LoopEnd(1)`; it has the jump
invariant; its first step leaves the data pointer at -1, and the step at the
`LoopBegin` at index 1 then reads `tape[-1]`, which is undefined behaviour, so it
does not set a next instruction index. -/
theorem interp_jump_outside_tape :
    ∃ p q m, parse (lex "<[]".toList) = .ok p ∧ optimize p = some q ∧
      q = [⟨.MovePtr, -1, -1⟩, ⟨.LoopBegin, 0, 2⟩, ⟨.LoopEnd, 0, 1⟩] ∧ JumpInvariant q ∧
      interpLoop 1 q (initMachine []) 0 = .running m 1 ∧ m.ptr = -1 ∧
      interpStep q m 1 = .fault ∧
      ¬ ∃ ip, interpStep q m 1 = .running m ip :=
  ⟨[⟨.MovePtr, -1, -1⟩, ⟨.LoopBegin, 0, 2⟩, ⟨.LoopEnd, 0, 1⟩],
    [⟨.MovePtr, -1, -1⟩, ⟨.LoopBegin, 0, 2⟩, ⟨.LoopEnd, 0, 1⟩],
    ⟨fun _ => 0, -1, [], []⟩, rfl, rfl, rfl,
    jumpInvariant_flatten
      (.op ⟨.MovePtr, -1, -1⟩ (.loop ⟨.LoopBegin, 0, 2⟩ ⟨.LoopEnd, 0, 1⟩ .nil .nil))
      (by simp [Code.WF]) (by simp [Code.Linked, Code.size]),
    rfl, rfl, rfl, fun h => h.elim fun ip hip => by
      have h2 : interpStep [⟨.MovePtr, -1, -1⟩, ⟨.LoopBegin, 0, 2⟩, ⟨.LoopEnd, 0, 1⟩]
          ⟨fun _ => 0, -1, [], []⟩ 1 = .fault := rfl
      rw [h2] at hip
      cases hip⟩


/-! ## The code of one instruction inside the generated code -/

namespace pe

theorem gen_loop_append (text_rva iat_rva data_rva : Nat) (l1 l2 : List IRInst) :
    ∀ (i : Nat) (s : GenState),
    gen_loop text_rva iat_rva data_rva (l1 ++ l2) i s =
      match gen_loop text_rva iat_rva data_rva l1 i s with
      | none => none
      | some sm => gen_loop text_rva iat_rva data_rva l2 (i + l1.length) sm := by
  induction l1 with
  | nil => intro i s; rfl
  | cons x xs ih =>
    intro i s
    rw [List.cons_append, gen_loop_cons, gen_loop_cons]
    cases hstep : gen_step text_rva iat_rva data_rva i x s with
    | none => rfl
    | some s1 =>
      simp only []
      rw [ih (i + 1) s1, List.length_cons]
      have e : i + 1 + xs.length = i + (xs.length + 1) := by omega
      rw [e]

/-- The state of the emission loop before and after instruction `k`: the code
emitted so far, the offsets recorded so far, and what follows in the buffer that
`gen_emit` returns. -/
theorem gen_emit_at (prog : List IRInst) (text_rva iat_rva data_rva : Nat) (s : GenState)
    (hs : gen_emit prog text_rva iat_rva data_rva = some s) (k : Nat) (x : IRInst)
    (hx : prog[k]? = some x) :
    ∃ sk sk1 tl,
      gen_loop text_rva iat_rva data_rva (prog.take k) 0
        ⟨gen_prologue text_rva iat_rva data_rva ⟨[]⟩, List.replicate prog.length 0, []⟩ =
        some sk ∧
      gen_step text_rva iat_rva data_rva k x sk = some sk1 ∧
      sk.c.size = 44 + codeLen (prog.take k) ∧
      sk1.c.size = 44 + codeLen (prog.take k) + instLen x ∧
      s.c.data = sk1.c.data ++ tl ∧
      sk.inst_offsets.length = prog.length ∧
      ∀ q, q < k → sk.inst_offsets[q]? = some (44 + codeLen (prog.take q)) := by
  obtain ⟨hprog, _⟩ := codeLen_split prog k x hx
  have hk := lt_of_getElem? _ _ _ hx
  unfold gen_emit at hs
  cases hl : gen_loop text_rva iat_rva data_rva prog 0
      ⟨gen_prologue text_rva iat_rva data_rva ⟨[]⟩, List.replicate prog.length 0, []⟩ with
  | none => rw [hl] at hs; cases hs
  | some s0 =>
    rw [hl] at hs
    simp only [Option.some.injEq] at hs
    have hl2 := hl
    conv at hl2 => lhs; arg 4; rw [hprog]
    rw [gen_loop_append] at hl2
    cases h1 : gen_loop text_rva iat_rva data_rva (prog.take k) 0
        ⟨gen_prologue text_rva iat_rva data_rva ⟨[]⟩, List.replicate prog.length 0, []⟩ with
    | none => rw [h1] at hl2; cases hl2
    | some sk =>
      rw [h1] at hl2
      simp only [] at hl2
      rw [gen_loop_cons] at hl2
      cases h2 : gen_step text_rva iat_rva data_rva (0 + (prog.take k).length) x sk with
      | none => rw [h2] at hl2; cases hl2
      | some sk1 =>
        rw [h2] at hl2
        simp only [] at hl2
        have hlen : (prog.take k).length = k := by
          rw [List.length_take]; omega
        rw [Nat.zero_add, hlen] at h2
        obtain ⟨⟨t1, ht1, hl1⟩, il1, io1, _, _, _⟩ := gen_loop_spec _ _ _ _ _ _ _ h1
        obtain ⟨⟨t3, ht3, _⟩, _⟩ := gen_loop_spec _ _ _ _ _ _ _ hl2
        obtain ⟨⟨bs, hbs, hbl, _⟩, _, _⟩ := gen_step_spec _ _ _ _ _ _ _ h2
        obtain ⟨te, hte, _, _⟩ := gen_epilogue_data text_rva iat_rva s0.c
        have hpro := gen_prologue_size text_rva iat_rva data_rva
        simp only [hpro, List.length_replicate, Nat.zero_add] at il1 io1
        have hsk : sk.c.size = 44 + codeLen (prog.take k) := by
          rw [size_eq, ht1, List.length_append, hl1, ← size_eq, hpro]
        refine ⟨sk, sk1, t3 ++ te, rfl, h2, hsk, ?_, ?_, il1, ?_⟩
        · rw [size_eq, hbs, List.length_append, hbl, ← size_eq, hsk]
        · rw [← hs]
          simp only [hte, ht3, List.append_assoc]
        · intro q hq
          have := io1 q (by rw [hlen]; exact hq) (by omega)
          rw [this, List.take_take, Nat.min_eq_left (by omega)]


/-- The buffer that `gen_emit` returns is the prologue, the code of the
instructions and the epilogue. -/
theorem gen_emit_parts (prog : List IRInst) (text_rva iat_rva data_rva : Nat) (s : GenState)
    (hs : gen_emit prog text_rva iat_rva data_rva = some s) :
    ∃ (s0 : GenState) (tail : List Nat), s.c = gen_epilogue text_rva iat_rva s0.c ∧
      s0.c.data = (gen_prologue text_rva iat_rva data_rva ⟨[]⟩).data ++ tail ∧
      s0.c.size = 44 + codeLen prog ∧
      ∃ te, s.c.data = (gen_prologue text_rva iat_rva data_rva ⟨[]⟩).data ++ (tail ++ te) := by
  unfold gen_emit at hs
  cases hl : gen_loop text_rva iat_rva data_rva prog 0
      ⟨gen_prologue text_rva iat_rva data_rva ⟨[]⟩, List.replicate prog.length 0, []⟩ with
  | none => rw [hl] at hs; cases hs
  | some s0 =>
    rw [hl] at hs
    simp only [Option.some.injEq] at hs
    obtain ⟨⟨tail, ht, htl⟩, _⟩ := gen_loop_spec _ _ _ _ _ _ _ hl
    obtain ⟨te, hte, _, _⟩ := gen_epilogue_data text_rva iat_rva s0.c
    have hpro := gen_prologue_size text_rva iat_rva data_rva
    simp only [] at ht
    refine ⟨s0, tail, by rw [← hs], ht, ?_, te, ?_⟩
    · rw [size_eq, ht, List.length_append, htl, ← size_eq, hpro]
    · rw [← hs]
      simp only [hte, ht, List.append_assoc]

/-- The patch loop leaves every byte outside the displacement fields of the
`LoopBegin` instructions as it is. -/
theorem gen_code_keeps (prog : List IRInst) (text_rva iat_rva data_rva : Nat) (s : GenState)
    (code : CodeBuf) (hs : gen_emit prog text_rva iat_rva data_rva = some s)
    (hc : gen_code prog text_rva iat_rva data_rva = some code) :
    code.data.length = s.c.data.length ∧
    (∀ j, j < 44 → code.data[j]? = s.c.data[j]?) ∧
    (∀ j, 44 + codeLen prog ≤ j → code.data[j]? = s.c.data[j]?) ∧
    (∀ (k : Nat) (x : IRInst), prog[k]? = some x → ∀ j, 44 + codeLen (prog.take k) ≤ j →
      j < 44 + codeLen (prog.take k) + instLen x →
      (x.type = .LoopBegin → j < 44 + codeLen (prog.take k) + 5) →
      code.data[j]? = s.c.data[j]?) := by
  obtain ⟨_, _, _, hps, _⟩ := gen_emit_spec _ _ _ _ _ hs
  unfold gen_code at hc
  rw [hs] at hc
  simp only [Option.some.injEq] at hc
  have hb := patchesFrom_bounds prog 44
  refine ⟨by rw [← hc]; exact foldl_patch_length _ _ _ _, ?_, ?_, ?_⟩
  · intro j hj
    rw [← hc]
    apply foldl_patch_other
    intro p hp
    rw [hps] at hp
    have := hb p hp
    omega
  · intro j hj
    rw [← hc]
    apply foldl_patch_other
    intro p hp
    rw [hps] at hp
    have := hb p hp
    omega
  · intro k x hx j h1 h2 h3
    obtain ⟨hprog, _⟩ := codeLen_split prog k x hx
    have hb1 := patchesFrom_bounds (prog.take k) 44
    have hb2 := patchesFrom_bounds (prog.drop (k + 1)) (44 + codeLen (prog.take k) + instLen x)
    rw [← hc]
    apply foldl_patch_other
    intro p hp
    rw [hps] at hp
    have hpp := congrArg (patchesFrom 44) hprog
    rw [hpp, patchesFrom_append] at hp
    simp only [patchesFrom, List.mem_append] at hp
    rcases hp with hp | hp | hp
    · have := hb1 p hp; omega
    · split_ifs at hp with ht
      · simp only [List.mem_singleton] at hp
        subst hp
        have := h3 ht
        simp only
        omega
      · simp at hp
    · have := hb2 p hp; omega

/-! ## RIP-relative fields -/

theorem ripField_rip_rel (c : CodeBuf) (text_rva target : Nat) :
    RipField (rip_rel text_rva c target).data text_rva c.size target := by
  have hd : (rip_rel text_rva c target).data =
      c.data ++
        le32 (wrap32 ((target : Int) -
          (wrap32 ((text_rva : Int) + ((c.size % 4294967296 : Nat) : Int) + 4) : Int))) ++
        [] := by
    simp [le32, size_eq]
  have hr := read32_at _ _ _ _ c.size hd rfl (wrap32_lt _)
  refine ⟨?_, ?_⟩
  · rw [hd]; simp [size_eq, le32_length]
  · rw [hr]
    unfold wrap32
    omega

theorem ripField_append (code more : List Nat) (text_rva o target : Nat)
    (h : RipField code text_rva o target) : RipField (code ++ more) text_rva o target := by
  obtain ⟨h1, h2⟩ := h
  have hr : read32 (code ++ more) o = read32 code o := by
    apply read32_congr
    intro j hj hj2
    rw [List.getElem?_append_left (by omega)]
  exact ⟨by rw [List.length_append]; omega, by rw [hr]; exact h2⟩

theorem ripField_u8 (c : CodeBuf) (v text_rva o target : Nat)
    (h : RipField c.data text_rva o target) : RipField (c.u8 v).data text_rva o target := by
  rw [u8_data]
  exact ripField_append _ _ _ _ _ h

theorem ripField_u32 (c : CodeBuf) (v text_rva o target : Nat)
    (h : RipField c.data text_rva o target) : RipField (c.u32 v).data text_rva o target := by
  rw [u32_data]
  exact ripField_append _ _ _ _ _ h

theorem ripField_keep (c : CodeBuf) (t tg text_rva o target : Nat)
    (h : RipField c.data text_rva o target) :
    RipField (rip_rel t c tg).data text_rva o target := by
  rw [rip_rel_data]
  exact ripField_append _ _ _ _ _ h

theorem ripField_target (code : List Nat) (text_rva o t1 t2 : Nat)
    (e : t1 % 4294967296 = t2 % 4294967296) (h : RipField code text_rva o t1) :
    RipField code text_rva o t2 :=
  ⟨h.1, by rw [h.2, e]⟩

theorem ripField_congr (l1 l2 : List Nat) (text_rva o target : Nat)
    (h : ∀ j, o ≤ j → j < o + 4 → l2[j]? = l1[j]?) (hlen : o + 4 ≤ l2.length)
    (hr : RipField l1 text_rva o target) : RipField l2 text_rva o target :=
  ⟨hlen, by rw [read32_congr l2 l1 o h]; exact hr.2⟩

theorem callsSlot_transfer (l1 l2 : List Nat) (text_rva off slot : Nat)
    (h : ∀ j, off ≤ j → j < off + 6 → l2[j]? = l1[j]?) (hlen : off + 6 ≤ l2.length)
    (hr : CallsSlot l1 text_rva off slot) : CallsSlot l2 text_rva off slot := by
  obtain ⟨h1, h2, _, h4⟩ := hr
  refine ⟨by rw [h off (by omega) (by omega)]; exact h1,
    by rw [h (off + 1) (by omega) (by omega)]; exact h2, hlen, ?_⟩
  rw [read32_congr l2 l1 (off + 2) (fun j a b => h j (by omega) (by omega))]
  exact h4

end pe


namespace pe

theorem getElem?_append_add {α : Type} (l bs : List α) (n : Nat) :
    (l ++ bs)[l.length + n]? = bs[n]? := by
  rw [List.getElem?_append_right (Nat.le_add_right _ _), Nat.add_sub_cancel_left]

/-- The `lea rbx, [rip + tape]` of the prologue. -/
theorem gen_prologue_lea (text_rva iat_rva data_rva : Nat) :
    (gen_prologue text_rva iat_rva data_rva ⟨[]⟩).data[9]? = some 0x48 ∧
    (gen_prologue text_rva iat_rva data_rva ⟨[]⟩).data[10]? = some 0x8D ∧
    (gen_prologue text_rva iat_rva data_rva ⟨[]⟩).data[11]? = some 0x1D ∧
    RipField (gen_prologue text_rva iat_rva data_rva ⟨[]⟩).data text_rva 12 data_rva := by
  refine ⟨by simp [gen_prologue], by simp [gen_prologue], by simp [gen_prologue], ?_⟩
  unfold gen_prologue
  simp only []
  apply ripField_u8
  apply ripField_u8
  apply ripField_u8
  apply ripField_keep
  apply ripField_u8
  apply ripField_u8
  apply ripField_u32
  apply ripField_u8
  apply ripField_u8
  apply ripField_u8
  apply ripField_u8
  apply ripField_keep
  apply ripField_u8
  apply ripField_u8
  apply ripField_u32
  apply ripField_u8
  have := ripField_rip_rel ((⟨[]⟩ : CodeBuf) |>.u8 0x53 |>.u8 0x41 |>.u8 0x54 |>.u8 0x41
    |>.u8 0x55 |>.u8 0x48 |>.u8 0x83 |>.u8 0xEC |>.u8 0x30 |>.u8 0x48 |>.u8 0x8D |>.u8 0x1D)
    text_rva data_rva
  rw [show CodeBuf.size _ = 12 from by simp [size_eq]] at this
  exact this

/-- The first fifteen bytes of the code of an `Output` (`b3 = E1`) or of an `Input`
(`b3 = E9`). -/
theorem io_bytes (t : Nat) (c : CodeBuf) (b3 g1 g2 n b : Nat)
    (hn : ([0x4C, 0x89, b3 % 256, 0x48, 0x89, 0xDA, 0x41, 0xB8, 1, 0, 0, 0, 0x4C, 0x8D, 0x0D] :
      List Nat)[n]? = some b) :
    (rip_rel t (rip_rel t (c |>.u8 0x4C |>.u8 0x89 |>.u8 b3 |>.u8 0x48 |>.u8 0x89 |>.u8 0xDA
      |>.u8 0x41 |>.u8 0xB8 |>.u32 1 |>.u8 0x4C |>.u8 0x8D |>.u8 0x0D) g1
      |>.u8 0x48 |>.u8 0xC7 |>.u8 0x44 |>.u8 0x24 |>.u8 0x20 |>.u32 0 |>.u8 0xFF |>.u8 0x15)
      g2).data[c.size + n]? = some b := by
  have hlt : n < 15 := by
    have := lt_of_getElem? _ _ _ hn
    simpa using this
  simp only [u8_data, u32_data, rip_rel_data, List.append_assoc, size_eq,
    getElem?_append_add]
  rw [← hn]
  simp only [List.singleton_append, List.cons_append, List.nil_append]
  interval_cases n <;> rfl

/-- The displacement of the `lea r9` in the code of an `Output` or of an `Input`. -/
theorem io_field (t : Nat) (c : CodeBuf) (b3 g1 g2 : Nat) :
    RipField (rip_rel t (rip_rel t (c |>.u8 0x4C |>.u8 0x89 |>.u8 b3 |>.u8 0x48 |>.u8 0x89
      |>.u8 0xDA |>.u8 0x41 |>.u8 0xB8 |>.u32 1 |>.u8 0x4C |>.u8 0x8D |>.u8 0x0D) g1
      |>.u8 0x48 |>.u8 0xC7 |>.u8 0x44 |>.u8 0x24 |>.u8 0x20 |>.u32 0 |>.u8 0xFF |>.u8 0x15)
      g2).data t (c.size + 15) g1 := by
  apply ripField_keep
  apply ripField_u8
  apply ripField_u8
  apply ripField_u32
  apply ripField_u8
  apply ripField_u8
  apply ripField_u8
  apply ripField_u8
  apply ripField_u8
  have := ripField_rip_rel (c |>.u8 0x4C |>.u8 0x89 |>.u8 b3 |>.u8 0x48
    |>.u8 0x89 |>.u8 0xDA |>.u8 0x41 |>.u8 0xB8 |>.u32 1 |>.u8 0x4C |>.u8 0x8D |>.u8 0x0D)
    t g1
  rw [show CodeBuf.size _ = c.size + 15 from by simp [size_eq]] at this
  exact this

/-- The `lea r9, [rip + written]` of an `Output` and the `lea r9, [rip + readcnt]`
of an `Input`. -/
theorem gen_step_lea (text_rva iat_rva data_rva i : Nat) (x : IRInst) (s s1 : GenState)
    (h : gen_step text_rva iat_rva data_rva i x s = some s1)
    (ht : x.type = .Output ∨ x.type = .Input) :
    s1.c.data[s.c.size + 12]? = some 0x4C ∧ s1.c.data[s.c.size + 13]? = some 0x8D ∧
    s1.c.data[s.c.size + 14]? = some 0x0D ∧
    (x.type = .Output → RipField s1.c.data text_rva (s.c.size + 15) (data_rva + 30000)) ∧
    (x.type = .Input → RipField s1.c.data text_rva (s.c.size + 15) (data_rva + 30008)) := by
  have w1 : wrap32 ((data_rva : Int) + 30000) % 4294967296 = (data_rva + 30000) % 4294967296 := by
    unfold wrap32; omega
  have w2 : wrap32 ((data_rva : Int) + 30008) % 4294967296 = (data_rva + 30008) % 4294967296 := by
    unfold wrap32; omega
  unfold gen_step at h
  rcases ht with ht | ht
  · simp only [ht, Option.some.injEq] at h
    subst h
    exact ⟨io_bytes _ _ 0xE1 _ _ 12 _ rfl, io_bytes _ _ 0xE1 _ _ 13 _ rfl,
      io_bytes _ _ 0xE1 _ _ 14 _ rfl,
      fun _ => ripField_target _ _ _ _ _ w1 (io_field _ _ 0xE1 _ _),
      fun h2 => by rw [ht] at h2; cases h2⟩
  · simp only [ht, Option.some.injEq] at h
    subst h
    exact ⟨io_bytes _ _ 0xE9 _ _ 12 _ rfl, io_bytes _ _ 0xE9 _ _ 13 _ rfl,
      io_bytes _ _ 0xE9 _ _ 14 _ rfl,
      fun h2 => (by rw [ht] at h2; cases h2),
      fun _ => ripField_target _ _ _ _ _ w2 (io_field _ _ 0xE9 _ _)⟩

theorem gen_step_none_iff (text_rva iat_rva data_rva i : Nat) (x : IRInst) (s : GenState) :
    gen_step text_rva iat_rva data_rva i x s = none ↔
      x.type = .LoopEnd ∧ (x.jump_target < 0 ∨ s.inst_offsets.length ≤ x.jump_target.toNat) := by
  unfold gen_step
  cases ht : x.type <;> simp only []
  · split_ifs <;> simp
  · split_ifs <;> simp
  · simp
  · simp
  · simp
  · split_ifs with hneg
    · simp [hneg]
    · cases hg : (s.inst_offsets.set i s.c.size)[x.jump_target.toNat]? with
      | none =>
        rw [List.getElem?_eq_none_iff, List.length_set] at hg
        simp [hg]
      | some v =>
        have := lt_of_getElem? _ _ _ hg
        rw [List.length_set] at this
        simp only [false_iff, true_and, not_or, not_le, reduceCtorEq]
        exact ⟨hneg, this⟩
  · simp

theorem gen_loop_none_iff (text_rva iat_rva data_rva : Nat) : ∀ (rest : List IRInst) (i : Nat)
    (s : GenState),
    gen_loop text_rva iat_rva data_rva rest i s = none ↔
      ∃ x ∈ rest, x.type = .LoopEnd ∧
        (x.jump_target < 0 ∨ s.inst_offsets.length ≤ x.jump_target.toNat) := by
  intro rest
  induction rest with
  | nil => intro i s; simp [gen_loop]
  | cons x xs ih =>
    intro i s
    rw [gen_loop_cons]
    cases hstep : gen_step text_rva iat_rva data_rva i x s with
    | none =>
      simp only [true_iff]
      exact ⟨x, by simp, (gen_step_none_iff _ _ _ _ _ _).1 hstep⟩
    | some s1 =>
      simp only []
      have hl : s1.inst_offsets.length = s.inst_offsets.length := by
        rw [(gen_step_spec _ _ _ _ _ _ _ hstep).2.1]; simp
      have hx : ¬ (x.type = .LoopEnd ∧
          (x.jump_target < 0 ∨ s.inst_offsets.length ≤ x.jump_target.toNat)) := by
        intro hc
        rw [(gen_step_none_iff _ _ _ _ _ _).2 hc] at hstep
        cases hstep
      rw [ih, hl]
      constructor
      · rintro ⟨y, hy, h⟩
        exact ⟨y, by simp [hy], h⟩
      · rintro ⟨y, hy, h⟩
        rcases List.mem_cons.1 hy with e | e
        · subst e; exact absurd h hx
        · exact ⟨y, e, h⟩

/-- The result of `gen_code` is undefined exactly when some `LoopEnd` holds a jump
target outside the program. -/
theorem gen_code_none_iff (prog : List IRInst) (text_rva iat_rva data_rva : Nat) :
    gen_code prog text_rva iat_rva data_rva = none ↔
      ∃ x ∈ prog, x.type = .LoopEnd ∧
        (x.jump_target < 0 ∨ prog.length ≤ x.jump_target.toNat) := by
  have h := gen_loop_none_iff text_rva iat_rva data_rva prog 0
    ⟨gen_prologue text_rva iat_rva data_rva ⟨[]⟩, List.replicate prog.length 0, []⟩
  simp only [List.length_replicate] at h
  rw [← h]
  unfold gen_code gen_emit
  cases gen_loop text_rva iat_rva data_rva prog 0
    ⟨gen_prologue text_rva iat_rva data_rva ⟨[]⟩, List.replicate prog.length 0, []⟩ <;> simp


theorem gen_emit_of_gen_code (prog : List IRInst) (text_rva iat_rva data_rva : Nat)
    (code : CodeBuf) (hc : gen_code prog text_rva iat_rva data_rva = some code) :
    ∃ s, gen_emit prog text_rva iat_rva data_rva = some s := by
  unfold gen_code at hc
  cases hs : gen_emit prog text_rva iat_rva data_rva with
  | none => rw [hs] at hc; cases hc
  | some s => exact ⟨s, rfl⟩

/-- In the code that `gen_code` returns, the bytes of an instruction other than a
`LoopBegin` are the bytes that its iteration of the emission loop appended. -/
theorem gen_code_at (prog : List IRInst) (text_rva iat_rva data_rva : Nat) (s : GenState)
    (code : CodeBuf) (hs : gen_emit prog text_rva iat_rva data_rva = some s)
    (hc : gen_code prog text_rva iat_rva data_rva = some code) (k : Nat) (x : IRInst)
    (hx : prog[k]? = some x) (hnb : x.type ≠ .LoopBegin) :
    ∃ sk sk1,
      gen_loop text_rva iat_rva data_rva (prog.take k) 0
        ⟨gen_prologue text_rva iat_rva data_rva ⟨[]⟩, List.replicate prog.length 0, []⟩ =
        some sk ∧
      gen_step text_rva iat_rva data_rva k x sk = some sk1 ∧
      sk.c.size = 44 + codeLen (prog.take k) ∧
      sk1.c.size = 44 + codeLen (prog.take k) + instLen x ∧
      44 + codeLen (prog.take k) + instLen x ≤ code.data.length ∧
      (∀ j, 44 + codeLen (prog.take k) ≤ j → j < 44 + codeLen (prog.take k) + instLen x →
        code.data[j]? = sk1.c.data[j]?) ∧
      sk.inst_offsets.length = prog.length ∧
      ∀ q, q < k → sk.inst_offsets[q]? = some (44 + codeLen (prog.take q)) := by
  obtain ⟨sk, sk1, tl, h1, h2, h3, h4, h5, h6, h7⟩ := gen_emit_at _ _ _ _ _ hs k x hx
  obtain ⟨k1, _, _, k4⟩ := gen_code_keeps _ _ _ _ _ _ hs hc
  refine ⟨sk, sk1, h1, h2, h3, h4, ?_, ?_, h6, h7⟩
  · rw [k1, h5, List.length_append, ← size_eq, h4]
    omega
  · intro j a b
    rw [k4 k x hx j a b (fun h => absurd h hnb), h5,
      List.getElem?_append_left (by rw [← size_eq, h4]; exact b)]

end pe

/-- C26. Two-pass soundness. For any two triples of RVAs `gen_code` is defined for
both or for neither, it is defined for both on a program with the jump invariant
(so on every optimizer output), and two buffers it returns have the same length,
44 + the sum of `instLen` over the instructions + 8. One iteration of the emission
loop appends `instLen` bytes for its instruction, where `instLen` is 3 for
`MovePtr` of +1 or -1 and 7 for any other `MovePtr`, 2 for `AddVal` of +1 or -1 and
3 for any other `AddVal`, 3 for `SetZero`, 34 for `Output` and for `Input`, 9 for
`LoopBegin` and for `LoopEnd`; the prologue has 44 bytes and the epilogue 8.
Instruction `k` starts at offset 44 + the sum of `instLen` over the instructions
before `k`. In `write_pe` the size of the code generated with the estimated RVAs is
the size of the code generated with the final RVAs. -/
theorem two_pass_sizes (prog : List IRInst) (t1 i1 d1 t2 i2 d2 : Nat) :
    (pe.gen_code prog t1 i1 d1 = none ↔ pe.gen_code prog t2 i2 d2 = none) ∧
    (JumpInvariant prog → ∃ c1 c2, pe.gen_code prog t1 i1 d1 = some c1 ∧
      pe.gen_code prog t2 i2 d2 = some c2) ∧
    (∀ c1 c2, pe.gen_code prog t1 i1 d1 = some c1 → pe.gen_code prog t2 i2 d2 = some c2 →
      c1.size = c2.size ∧ c1.size = 44 + pe.codeLen prog + 8) ∧
    pe.codeLen prog = (prog.map pe.instLen).sum ∧
    (∀ x : IRInst,
      (x.type = .MovePtr → pe.instLen x = if x.operand = 1 ∨ x.operand = -1 then 3 else 7) ∧
      (x.type = .AddVal → pe.instLen x = if x.operand = 1 ∨ x.operand = -1 then 2 else 3) ∧
      (x.type = .SetZero → pe.instLen x = 3) ∧ (x.type = .Output → pe.instLen x = 34) ∧
      (x.type = .Input → pe.instLen x = 34) ∧ (x.type = .LoopBegin → pe.instLen x = 9) ∧
      (x.type = .LoopEnd → pe.instLen x = 9)) ∧
    (pe.gen_prologue t1 i1 d1 ⟨[]⟩).size = 44 ∧
    (∀ c : pe.CodeBuf, (pe.gen_epilogue t1 i1 c).size = c.size + 8) ∧
    (∀ (i : Nat) (x : IRInst) (s s1 : pe.GenState), pe.gen_step t1 i1 d1 i x s = some s1 →
      s1.c.size = s.c.size + pe.instLen x) ∧
    (∀ s, pe.gen_emit prog t1 i1 d1 = some s → s.inst_offsets.length = prog.length ∧
      ∀ k, k < prog.length → s.inst_offsets[k]? = some (44 + pe.codeLen (prog.take k))) ∧
    (∀ w, pe.write_pe prog = some w →
      ∃ dummy, pe.gen_code prog 0x1000 20560 24576 = some dummy ∧
        pe.gen_code prog 0x1000 w.iat_rva_real w.data_rva = some w.code ∧
        dummy.size = w.code.size ∧ w.code_size = w.code.size % 4294967296) := by
  refine ⟨by rw [pe.gen_code_none_iff, pe.gen_code_none_iff], ?_, ?_, rfl, ?_,
    pe.gen_prologue_size _ _ _, ?_, ?_, ?_, ?_⟩
  · intro hinv
    obtain ⟨_, c1, _, h1⟩ := pe.gen_code_defined prog hinv t1 i1 d1
    obtain ⟨_, c2, _, h2⟩ := pe.gen_code_defined prog hinv t2 i2 d2
    exact ⟨c1, c2, h1, h2⟩
  · intro c1 c2 h1 h2
    have s1 := pe.gen_code_size _ _ _ _ _ h1
    have s2 := pe.gen_code_size _ _ _ _ _ h2
    exact ⟨by rw [s1, s2], s1⟩
  · intro x
    refine ⟨?_, ?_, ?_, ?_, ?_, ?_, ?_⟩ <;> intro ht <;> simp [pe.instLen, ht]
  · intro c
    obtain ⟨t, ht, hl, _⟩ := pe.gen_epilogue_data t1 i1 c
    rw [pe.size_eq, ht, List.length_append, hl, ← pe.size_eq]
  · intro i x s s1 h
    obtain ⟨⟨bs, hbs, hbl, _⟩, _⟩ := pe.gen_step_spec _ _ _ _ _ _ _ h
    rw [pe.size_eq, hbs, List.length_append, hbl, ← pe.size_eq]
  · intro s hs
    obtain ⟨hl, hoff, _⟩ := pe.gen_emit_spec _ _ _ _ _ hs
    exact ⟨hl, hoff⟩
  · intro w hw
    obtain ⟨dummy, hd, hc, _⟩ := pe.write_pe_inv prog w hw
    obtain ⟨_, hcs, _⟩ := pe.write_pe_layout prog w hw
    refine ⟨dummy, hd, hc, ?_, hcs⟩
    rw [pe.gen_code_size _ _ _ _ _ hd, pe.gen_code_size _ _ _ _ _ hc]

/-- C27, with the field of the second `GetStdHandle` call at offset 37. In the code
that `gen_code` returns for any program and RVAs, these fields are RIP-relative
displacements, each directly after the opcode bytes of its `lea` or `call`, and each
holds a value `d` with `text_rva + o + 4 + d` congruent to the target modulo 2^32,
`o` being the offset of the field: the `lea` of the tape in the prologue (`48 8D 1D`,
field at 12, target `data_rva`); the two `GetStdHandle` calls (`FF 15`, fields at 23
and 37, target `iat_rva`); in the code of an `Output` at offset `off` the `lea` of
`written` (`4C 8D 0D`, field at `off + 15`, target `data_rva + 30000`) and the
`WriteFile` call (`FF 15`, field at `off + 30`, target `iat_rva + 8`); in the code of
an `Input` the `lea` of `readcnt` (target `data_rva + 30008`) and the `ReadFile` call
(target `iat_rva + 16`) at the same places; the `ExitProcess` call of the epilogue
(`FF 15`, field at 4 bytes after the start of the epilogue, target `iat_rva + 24`). -/
theorem rip_relative_law (prog : List IRInst) (text_rva iat_rva data_rva : Nat)
    (code : pe.CodeBuf) (h : pe.gen_code prog text_rva iat_rva data_rva = some code) :
    code.size = 44 + pe.codeLen prog + 8 ∧
    (code.data[9]? = some 0x48 ∧ code.data[10]? = some 0x8D ∧ code.data[11]? = some 0x1D ∧
      pe.RipField code.data text_rva 12 data_rva) ∧
    pe.CallsSlot code.data text_rva 21 iat_rva ∧ pe.CallsSlot code.data text_rva 35 iat_rva ∧
    (∀ (k : Nat) (x : IRInst), prog[k]? = some x → x.type = .Output ∨ x.type = .Input →
      code.data[44 + pe.codeLen (prog.take k) + 12]? = some 0x4C ∧
      code.data[44 + pe.codeLen (prog.take k) + 13]? = some 0x8D ∧
      code.data[44 + pe.codeLen (prog.take k) + 14]? = some 0x0D ∧
      (x.type = .Output →
        pe.RipField code.data text_rva (44 + pe.codeLen (prog.take k) + 15) (data_rva + 30000) ∧
        pe.CallsSlot code.data text_rva (44 + pe.codeLen (prog.take k) + 28) (iat_rva + 8)) ∧
      (x.type = .Input →
        pe.RipField code.data text_rva (44 + pe.codeLen (prog.take k) + 15) (data_rva + 30008) ∧
        pe.CallsSlot code.data text_rva (44 + pe.codeLen (prog.take k) + 28) (iat_rva + 16))) ∧
    pe.CallsSlot code.data text_rva (44 + pe.codeLen prog + 2) (iat_rva + 24) := by
  obtain ⟨s, hs⟩ := pe.gen_emit_of_gen_code _ _ _ _ _ h
  obtain ⟨k1, k2, k3, _⟩ := pe.gen_code_keeps _ _ _ _ _ _ hs h
  obtain ⟨s0, tail, p1, p2, p3, te, p4⟩ := pe.gen_emit_parts _ _ _ _ _ hs
  have hsize := pe.gen_code_size _ _ _ _ _ h
  have hlen := hsize
  rw [pe.size_eq] at hlen
  have hpl := pe.gen_prologue_size text_rva iat_rva data_rva
  rw [pe.size_eq] at hpl
  have hpro : ∀ j, j < 44 →
      code.data[j]? = (pe.gen_prologue text_rva iat_rva data_rva ⟨[]⟩).data[j]? := by
    intro j hj
    rw [k2 j hj, p4, List.getElem?_append_left (by omega)]
  obtain ⟨l1, l2, l3, l4⟩ := pe.gen_prologue_lea text_rva iat_rva data_rva
  obtain ⟨c1, c2⟩ := pe.gen_prologue_calls text_rva iat_rva data_rva
  refine ⟨hsize, ⟨by rw [hpro 9 (by omega)]; exact l1, by rw [hpro 10 (by omega)]; exact l2,
    by rw [hpro 11 (by omega)]; exact l3,
    pe.ripField_congr _ _ _ _ _ (fun j a b => hpro j (by omega)) (by omega) l4⟩,
    pe.callsSlot_transfer _ _ _ _ _ (fun j a b => hpro j (by omega)) (by omega) c1,
    pe.callsSlot_transfer _ _ _ _ _ (fun j a b => hpro j (by omega)) (by omega) c2, ?_, ?_⟩
  · intro k x hx ht
    have hne : x.type ≠ .LoopBegin := by
      rcases ht with e | e <;> rw [e] <;> decide
    have h34 : pe.instLen x = 34 := by
      rcases ht with e | e <;> simp [pe.instLen, e]
    obtain ⟨sk, sk1, _, g2, g3, g4, g5, g6, _, _⟩ := pe.gen_code_at _ _ _ _ _ _ hs h k x hx hne
    rw [h34] at g5 g6
    obtain ⟨b1, b2, b3, r1, r2⟩ := pe.gen_step_lea _ _ _ _ _ _ _ g2 ht
    obtain ⟨q1, q2⟩ := pe.gen_step_calls _ _ _ _ _ _ _ g2
    rw [g3] at b1 b2 b3 r1 r2 q1 q2
    refine ⟨by rw [g6 _ (by omega) (by omega)]; exact b1,
      by rw [g6 _ (by omega) (by omega)]; exact b2,
      by rw [g6 _ (by omega) (by omega)]; exact b3, ?_, ?_⟩
    · intro e
      exact ⟨pe.ripField_congr _ _ _ _ _ (fun j a b => g6 j (by omega) (by omega)) (by omega)
        (r1 e), pe.callsSlot_transfer _ _ _ _ _ (fun j a b => g6 j (by omega) (by omega))
        (by omega) (q1 e)⟩
    · intro e
      exact ⟨pe.ripField_congr _ _ _ _ _ (fun j a b => g6 j (by omega) (by omega)) (by omega)
        (r2 e), pe.callsSlot_transfer _ _ _ _ _ (fun j a b => g6 j (by omega) (by omega))
        (by omega) (q2 e)⟩
  · have he := pe.gen_epilogue_calls text_rva iat_rva s0.c
    rw [← p1, p3] at he
    exact pe.callsSlot_transfer _ _ _ _ _ (fun j a b => k3 j (by omega)) (by omega) he

theorem rip_relative_law_witness :
    ∃ code, pe.gen_code sample_loop 0x1000 0x2050 0x3000 = some code ∧
    (code.size = 44 + pe.codeLen sample_loop + 8 ∧
    (code.data[9]? = some 0x48 ∧ code.data[10]? = some 0x8D ∧ code.data[11]? = some 0x1D ∧
      pe.RipField code.data 0x1000 12 0x3000) ∧
    pe.CallsSlot code.data 0x1000 21 0x2050 ∧ pe.CallsSlot code.data 0x1000 35 0x2050 ∧
    (∀ (k : Nat) (x : IRInst), sample_loop[k]? = some x → x.type = .Output ∨ x.type = .Input →
      code.data[44 + pe.codeLen (sample_loop.take k) + 12]? = some 0x4C ∧
      code.data[44 + pe.codeLen (sample_loop.take k) + 13]? = some 0x8D ∧
      code.data[44 + pe.codeLen (sample_loop.take k) + 14]? = some 0x0D ∧
      (x.type = .Output →
        pe.RipField code.data 0x1000 (44 + pe.codeLen (sample_loop.take k) + 15) (0x3000 + 30000) ∧
        pe.CallsSlot code.data 0x1000 (44 + pe.codeLen (sample_loop.take k) + 28) (0x2050 + 8)) ∧
      (x.type = .Input →
        pe.RipField code.data 0x1000 (44 + pe.codeLen (sample_loop.take k) + 15) (0x3000 + 30008) ∧
        pe.CallsSlot code.data 0x1000 (44 + pe.codeLen (sample_loop.take k) + 28) (0x2050 + 16))) ∧
    pe.CallsSlot code.data 0x1000 (44 + pe.codeLen sample_loop + 2) (0x2050 + 24)) :=
  (pe.gen_code_defined sample_loop pe.jumpInvariant_sample 0x1000 0x2050 0x3000).elim
    fun _ hs => hs.elim fun code hc =>
      ⟨code, hc.2, rip_relative_law sample_loop 0x1000 0x2050 0x3000 code hc.2⟩

/-- C27 fails at the offset it gives for the second `GetStdHandle` call. In the code
of the empty program for the RVAs 0x1000, 0x2050, 0x3000 the four bytes at offset
34 are `FF FF 15 27`: the last byte of the immediate of `mov ecx, -10`, the opcode
`FF 15` of the call and the first byte of its displacement. Their value does not
reach the IAT slot at 0x2050; the displacement field of that call is at 37. -/
theorem rip_field_not_at_34 :
    ∃ code, pe.gen_code [] 0x1000 0x2050 0x3000 = some code ∧
      code.data = [83, 65, 84, 65, 85, 72, 131, 236, 48, 72, 141, 29, 240, 31, 0, 0, 185, 245,
        255, 255, 255, 255, 21, 53, 16, 0, 0, 73, 137, 196, 185, 246, 255, 255, 255, 255, 21, 39,
        16, 0, 0, 73, 137, 197, 51, 201, 255, 21, 52, 16, 0, 0] ∧
      pe.read32 code.data 34 = 0x2715FFFF ∧
      ¬ pe.RipField code.data 0x1000 34 0x2050 ∧
      pe.read32 code.data 37 = 0x1027 ∧ (0x1000 + (37 + 4) + 0x1027) % 4294967296 = 0x2050 :=
  ⟨⟨[83, 65, 84, 65, 85, 72, 131, 236, 48, 72, 141, 29, 240, 31, 0, 0, 185, 245,
        255, 255, 255, 255, 21, 53, 16, 0, 0, 73, 137, 196, 185, 246, 255, 255, 255, 255, 21, 39,
        16, 0, 0, 73, 137, 197, 51, 201, 255, 21, 52, 16, 0, 0]⟩, by rfl, rfl, by decide,
    fun h => absurd h.2 (by decide), by decide, by decide⟩


/-! ## Dead loops at the start of a program -/

namespace Code

@[simp] theorem size_strip (c : Code) : (strip c).size = c.size := by
  induction c with
  | nil => rfl
  | op i r ih => simp [strip, ih]
  | loop b e body r ihb ihr => simp [strip, ihb, ihr]

theorem relink_strip (c : Code) : ∀ o, relink o (strip c) = relink o c := by
  induction c with
  | nil => intro o; rfl
  | op i r ih => intro o; simp [strip, relink, ih]
  | loop b e body r ihb ihr => intro o; simp [strip, relink, ihb, ihr]

theorem strip_ofList (l : List IRInst) : strip (ofList l) = ofList l := by
  induction l with
  | nil => rfl
  | cons x xs ih => simp [ofList, strip, ih]

theorem strip_append (c d : Code) : strip (c.append d) = (strip c).append (strip d) := by
  induction c with
  | nil => rfl
  | op i r ih => simp [append, strip, ih]
  | loop b e body r _ ihr => simp [append, strip, ihr]

theorem strip_mergeRun (c : Code) : ∀ t, strip (mergeRun t c) = mergeRun t (strip c) := by
  induction c with
  | nil => intro t; simp [mergeRun, strip, strip_ofList]
  | op x r ih =>
    intro t
    by_cases hx : x.type = .MovePtr ∨ x.type = .AddVal
    · simp only [mergeRun, strip, hx, if_true]
      exact ih _
    · simp only [mergeRun, strip, hx, if_false, strip_append, strip_ofList, ih]
  | loop b e body r ihb ihr =>
    intro t
    simp only [mergeRun, strip, strip_append, strip_ofList, ihb, ihr]

theorem isUnit_strip (c : Code) : isUnit (strip c) = isUnit c := by
  cases c with
  | nil => rfl
  | op x r => cases r <;> rfl
  | loop b e body r => rfl

theorem strip_zeroLoops (c : Code) : strip (zeroLoops c) = zeroLoops (strip c) := by
  induction c with
  | nil => rfl
  | op x r ih => simp [zeroLoops, strip, ih]
  | loop b e body r ihb ihr =>
    by_cases hu : isUnit body = true
    · simp [zeroLoops, strip, isUnit_strip, hu, ihr]
    · simp [zeroLoops, strip, isUnit_strip, hu, ihb, ihr]

theorem strip_dropDead (c : Code) : strip (dropDead c) = dropDead (strip c) := by
  induction c with
  | nil => rfl
  | op x r _ => rfl
  | loop b e body r _ ihr => simpa [dropDead, strip] using ihr

/-- The optimizer does not read the jump targets of the brackets. -/
theorem optimized_strip (c : Code) : optimized (strip c) = optimized c := by
  unfold optimized
  rw [← strip_mergeRun, ← strip_zeroLoops, ← strip_dropDead, relink_strip]

/-- A loop whose merged body is not a single `AddVal` of +1 or -1 is dropped at the
start of a block. -/
theorem optimized_loop (b e : IRInst) (body rest : Code)
    (hu : isUnit (mergeRun [] body) = false) :
    optimized (loop b e body rest) = optimized rest := by
  unfold optimized
  have : mergeRun [] (loop b e body rest) = loop b e (mergeRun [] body) (mergeRun [] rest) := by
    simp [mergeRun, ofList, append]
  rw [this]
  simp [zeroLoops, hu, dropDead]

theorem isUnit_flatten (c : Code) (h : isUnit c = true) :
    ∃ a, c.flatten = [a] ∧ a.type = .AddVal ∧ (a.operand = 1 ∨ a.operand = -1) := by
  cases c with
  | nil => simp [isUnit] at h
  | op x r =>
    cases r with
    | nil => exact ⟨x, rfl, by simpa [isUnit] using h⟩
    | op y r2 => simp [isUnit] at h
    | loop b e body r2 => simp [isUnit] at h
  | loop b e body r => simp [isUnit] at h

/-- Unique reading: two blocks whose instruction sequences have the same types and
operands, each followed by nothing or by a `LoopEnd`, are the same block up to the
jump targets of the brackets. -/
theorem strip_unique (c : Code) : ∀ (d : Code) (s t : List (IRType × Int)), c.WF → d.WF →
    (∀ x ∈ c.flatten, x.type ≠ .LoopBegin → x.type ≠ .LoopEnd → x.jump_target = -1) →
    (∀ x ∈ d.flatten, x.type ≠ .LoopBegin → x.type ≠ .LoopEnd → x.jump_target = -1) →
    (∀ k ∈ s.head?, k.1 = IRType.LoopEnd) → (∀ k ∈ t.head?, k.1 = IRType.LoopEnd) →
    c.flatten.map IRInst.key ++ s = d.flatten.map IRInst.key ++ t →
    strip c = strip d ∧ s = t := by
  induction c with
  | nil =>
    intro d s t _ hd _ _ hs _ h
    cases d with
    | nil => exact ⟨rfl, by simpa using h⟩
    | op y r =>
      simp only [flatten_nil, List.map_nil, List.nil_append, flatten_op, List.map_cons,
        List.cons_append] at h
      have := hs _ (by rw [h]; rfl)
      exact absurd this hd.2.1
    | loop b e body r =>
      simp only [flatten_nil, List.map_nil, List.nil_append, flatten_loop, List.map_cons,
        List.cons_append] at h
      have := hs _ (by rw [h]; rfl)
      simp only [IRInst.key, hd.1] at this
      cases this
  | op x r ih =>
    intro d s t hc hd pc pd hs ht h
    cases d with
    | nil =>
      simp only [flatten_nil, List.map_nil, List.nil_append, flatten_op, List.map_cons,
        List.cons_append] at h
      have := ht _ (by rw [← h]; rfl)
      exact absurd this hc.2.1
    | op y r2 =>
      simp only [flatten_op, List.map_cons, List.cons_append, List.cons.injEq] at h
      obtain ⟨h1, h2⟩ := h
      have hxy : x = y := by
        have e1 := pc x (by simp) hc.1 hc.2.1
        have e2 := pd y (by simp) hd.1 hd.2.1
        cases x; cases y
        simp only [IRInst.key, Prod.mk.injEq] at h1
        simp only at e1 e2
        simp [h1.1, h1.2, e1, e2]
      obtain ⟨i1, i2⟩ := ih r2 s t hc.2.2 hd.2.2
        (fun z hz => pc z (by simp [hz])) (fun z hz => pd z (by simp [hz])) hs ht h2
      exact ⟨by simp [strip, hxy, i1], i2⟩
    | loop b e body r2 =>
      simp only [flatten_op, flatten_loop, List.map_cons, List.cons_append, List.cons.injEq] at h
      have := h.1
      simp only [IRInst.key, Prod.mk.injEq] at this
      exact absurd (this.1.trans hd.1) hc.1
  | loop b e body r ihb ihr =>
    intro d s t hc hd pc pd hs ht h
    cases d with
    | nil =>
      simp only [flatten_nil, List.map_nil, List.nil_append, flatten_loop, List.map_cons,
        List.cons_append] at h
      have := ht _ (by rw [← h]; rfl)
      simp only [IRInst.key, hc.1] at this
      cases this
    | op y r2 =>
      simp only [flatten_op, flatten_loop, List.map_cons, List.cons_append, List.cons.injEq] at h
      have := h.1
      simp only [IRInst.key, Prod.mk.injEq] at this
      exact absurd (this.1.symm.trans hc.1) hd.1
    | loop b2 e2 body2 r2 =>
      simp only [flatten_loop, List.map_cons, List.map_append, List.cons_append,
        List.append_assoc, List.cons.injEq] at h
      obtain ⟨h1, h2⟩ := h
      obtain ⟨i1, i2⟩ := ihb body2 (e.key :: (r.flatten.map IRInst.key ++ s))
        (e2.key :: (r2.flatten.map IRInst.key ++ t)) hc.2.2.1 hd.2.2.1
        (fun z hz => pc z (by simp [hz])) (fun z hz => pd z (by simp [hz]))
        (fun k hk => by
          simp only [List.head?_cons, Option.mem_def, Option.some.injEq] at hk
          subst hk; exact hc.2.1)
        (fun k hk => by
          simp only [List.head?_cons, Option.mem_def, Option.some.injEq] at hk
          subst hk; exact hd.2.1) h2
      simp only [List.cons.injEq] at i2
      obtain ⟨j1, j2⟩ := ihr r2 s t hc.2.2.2 hd.2.2.2
        (fun z hz => pc z (by simp [hz])) (fun z hz => pd z (by simp [hz])) hs ht i2.2
      refine ⟨?_, j2⟩
      have kb : ({ b with jump_target := -1 } : IRInst) = { b2 with jump_target := -1 } := by
        cases b; cases b2
        simp only [IRInst.key, Prod.mk.injEq] at h1
        simp [h1.1, h1.2]
      have ke : ({ e with jump_target := -1 } : IRInst) = { e2 with jump_target := -1 } := by
        have := i2.1
        cases e; cases e2
        simp only [IRInst.key, Prod.mk.injEq] at this
        simp [this.1, this.2]
      simp only [strip, kb, ke, i1, j1]

end Code

theorem bracketScan_append (body tl : List Char) : ∀ (k d : Nat),
    bracketScan k body = .balanced → bracketScan (k + d) (body ++ tl) = bracketScan d tl := by
  induction body with
  | nil =>
    intro k d h
    simp only [bracketScan] at h
    split_ifs at h with hk
    subst hk
    simp
  | cons c cs ih =>
    intro k d h
    simp only [bracketScan, List.cons_append] at h ⊢
    by_cases h1 : c = '['
    · simp only [h1, if_true] at h ⊢
      have := ih (k + 1) d h
      rwa [show k + 1 + d = k + d + 1 by omega] at this
    · by_cases h2 : c = ']'
      · simp only [h1, h2, if_true, if_false] at h ⊢
        cases k with
        | zero => simp at h
        | succ j =>
          simp only at h
          rw [show j + 1 + d = (j + d) + 1 by omega]
          exact ih j d h
      · simp only [h1, h2, if_false] at h ⊢
        exact ih k d h

theorem PlainInv_init : PlainInv [] [] :=
  ⟨fun _ h => (by cases h), fun _ h => (by cases h)⟩

/-- A program returned by `parse`, read as a block. -/
theorem parse_block (ts : List Char) (p : List IRInst) (h : parse ts = .ok p) :
    ∃ c : Code, p = c.flatten ∧ c.WF ∧
      (∀ x ∈ c.flatten, x.type ≠ .LoopBegin → x.type ≠ .LoopEnd → x.jump_target = -1) ∧
      c.flatten.map IRInst.key = (ts.filter isSignificant).map tokenKey := by
  obtain ⟨c, hc, hw, _⟩ := parse_tree ts p h
  subst hc
  refine ⟨c, rfl, hw, parseLoop_plain ts [] [] _ PlainInv_init h, ?_⟩
  simpa using parseLoop_keys ts [] [] _ h

/-- C29. Dead-prologue law. Let `body` and `rest` be character sequences that
`parse` accepts, and let the merge pass not reduce the program of `body` to a single
`AddVal` of +1 or -1. Then `parse` accepts `[` `body` `]` `rest`, `optimize` returns a
program on it, and this is the program `optimize` returns on the program of `rest`
alone, jump targets included; it does not start with a `LoopBegin`. -/
theorem dead_prologue (body rest : List Char) (pb pr : List IRInst)
    (hb : parse body = .ok pb) (hr : parse rest = .ok pr)
    (hu : ¬ ∃ a, merge_consecutive pb = [a] ∧ a.type = .AddVal ∧
      (a.operand = 1 ∨ a.operand = -1)) :
    ∃ p q, parse ('[' :: (body ++ ']' :: rest)) = .ok p ∧ optimize p = some q ∧
      optimize pr = some q ∧ ∀ x ∈ q.head?, x.type ≠ .LoopBegin := by
  have sb := ((parse_verdict body).2.2).1 ⟨pb, hb⟩
  have sr := ((parse_verdict rest).2.2).1 ⟨pr, hr⟩
  have sc : bracketScan 0 ('[' :: (body ++ ']' :: rest)) = .balanced := by
    have h1 := bracketScan_append body (']' :: rest) 0 1 sb
    simp only [Nat.zero_add] at h1
    simp only [bracketScan, if_true]
    rw [h1]
    simpa [bracketScan] using sr
  obtain ⟨p, hp⟩ := ((parse_verdict _).2.2).2 sc
  obtain ⟨c, ec, wc, pc, kc⟩ := parse_block _ p hp
  obtain ⟨cb, eb, wb, pcb, kb⟩ := parse_block _ pb hb
  obtain ⟨cr, er, wr, pcr, kr⟩ := parse_block _ pr hr
  have hk : c.flatten.map IRInst.key =
      (IRType.LoopBegin, (0 : Int)) :: (cb.flatten.map IRInst.key ++
        (IRType.LoopEnd, (0 : Int)) :: cr.flatten.map IRInst.key) := by
    rw [kc, kb, kr]
    simp [isSignificant, tokenKey]
  have hur : Code.isUnit (Code.mergeRun [] cb) = false := by
    cases hx : Code.isUnit (Code.mergeRun [] cb) with
    | false => rfl
    | true =>
      exfalso
      apply hu
      rw [eb, merge_flatten cb wb]
      exact Code.isUnit_flatten _ hx
  have hq : ∀ x ∈ cr.optimized.flatten.head?, x.type ≠ .LoopBegin := by
    intro x hx
    have h1 := WF_mergeRun cr wr [] (by simp)
    have h2 := WF_zeroLoops _ h1
    unfold Code.optimized at hx
    rcases dropDead_head _ h2 with e | ⟨y, r, e⟩
    · rw [e] at hx; simp [Code.relink] at hx
    · rw [e] at hx
      simp only [Code.relink, Code.flatten_op, List.head?_cons, Option.mem_def,
        Option.some.injEq] at hx
      subst hx
      have h3 := WF_dropDead _ h2
      rw [e] at h3
      exact h3.1
  refine ⟨p, cr.optimized.flatten, hp, ?_, by rw [er]; exact optimize_flatten cr wr, hq⟩
  rw [ec, optimize_flatten c wc]
  cases c with
  | nil => simp at hk
  | op x r =>
    simp only [Code.flatten_op, List.map_cons, List.cons.injEq] at hk
    have := hk.1
    simp only [IRInst.key, Prod.mk.injEq] at this
    exact absurd this.1 wc.1
  | loop b e c1 c2 =>
    simp only [Code.flatten_loop, List.map_cons, List.map_append, List.cons.injEq] at hk
    obtain ⟨i1, i2⟩ := Code.strip_unique c1 cb (e.key :: c2.flatten.map IRInst.key)
      ((IRType.LoopEnd, (0 : Int)) :: cr.flatten.map IRInst.key) wc.2.2.1 wb
      (fun z hz => pc z (by simp [hz])) pcb
      (fun k hk => by
        simp only [List.head?_cons, Option.mem_def, Option.some.injEq] at hk
        subst hk; exact wc.2.1)
      (fun k hk => by
        simp only [List.head?_cons, Option.mem_def, Option.some.injEq] at hk
        subst hk; rfl) hk.2
    simp only [List.cons.injEq] at i2
    obtain ⟨j1, _⟩ := Code.strip_unique c2 cr [] [] wc.2.2.2 wr
      (fun z hz => pc z (by simp [hz])) pcr (fun k hk => by cases hk) (fun k hk => by cases hk)
      (by simpa using i2.2)
    have hu1 : Code.isUnit (Code.mergeRun [] c1) = false := by
      rw [← Code.isUnit_strip, Code.strip_mergeRun, i1, ← Code.strip_mergeRun, Code.isUnit_strip]
      exact hur
    rw [Code.optimized_loop b e c1 c2 hu1, ← Code.optimized_strip c2, j1, Code.optimized_strip]

theorem dead_prologue_witness :
    parse ">>>>>>>>>".toList = .ok (List.replicate 9 ⟨.MovePtr, 1, -1⟩) ∧
    parse [] = .ok [] ∧
    (∃ p, parse "[>>>>>>>>>]".toList = .ok p ∧ optimize p = some []) ∧
    (∃ p q, parse ('[' :: (">>>>>>>>>".toList ++ ']' :: [])) = .ok p ∧ optimize p = some q ∧
      optimize [] = some q ∧ ∀ x ∈ q.head?, x.type ≠ .LoopBegin) :=
  ⟨rfl, rfl, ⟨_, rfl, rfl⟩,
    dead_prologue ">>>>>>>>>".toList [] (List.replicate 9 ⟨.MovePtr, 1, -1⟩) [] rfl rfl
      (by
        rintro ⟨a, h, ht, _⟩
        have h2 : merge_consecutive (List.replicate 9 ⟨.MovePtr, 1, -1⟩) =
            [⟨.MovePtr, 9, -1⟩] := by decide
        rw [h2] at h
        cases h
        cases ht)⟩


/-! ## The C emitter -/

theorem emit_indent_blanks (out : String) (n : Nat) :
    emit_indent out (n : Int) = out ++ String.mk (List.replicate (4 * n) ' ') := by
  unfold emit_indent
  rw [Int.toNat_ofNat]
  induction n with
  | zero => apply String.ext; simp [Nat.repeat]
  | succ k ih =>
    simp only [Nat.repeat, ih]
    apply String.ext
    simp only [String.data_append, List.append_assoc]
    rw [show 4 * (k + 1) = 4 * k + 4 by omega, List.replicate_add]
    rfl

theorem join_cons (a : String) (l : List String) : String.join (a :: l) = a ++ String.join l := by
  apply String.ext
  simp [String.data_join]

theorem transpile_step_open (out : String) (n : Nat) (x : IRInst) (ht : x.type = .LoopBegin) :
    transpile_step (out, ((1 + n : Nat) : Int)) x = (out ++ c_line n x, ((1 + (n + 1) : Nat) : Int)) := by
  simp only [transpile_step, ht, c_line, emit_indent_blanks, String.append_assoc, Prod.mk.injEq,
    true_and]
  omega

theorem transpile_step_close (out : String) (n : Nat) (x : IRInst) (ht : x.type = .LoopEnd) :
    transpile_step (out, ((1 + (n + 1) : Nat) : Int)) x = (out ++ c_line n x, ((1 + n : Nat) : Int)) := by
  have e : ((1 + (n + 1) : Nat) : Int) - 1 = ((1 + n : Nat) : Int) := by omega
  simp only [transpile_step, ht, e, c_line, emit_indent_blanks, String.append_assoc]

theorem transpile_step_plain (out : String) (n : Nat) (x : IRInst) (h1 : x.type ≠ .LoopBegin)
    (h2 : x.type ≠ .LoopEnd) :
    transpile_step (out, ((1 + n : Nat) : Int)) x = (out ++ c_line n x, ((1 + n : Nat) : Int)) := by
  cases ht : x.type <;>
    first
      | exact absurd ht h1
      | exact absurd ht h2
      | simp only [transpile_step, ht, c_line, emit_indent_blanks, String.append_assoc]

/-- The loop of `transpile_to_c` on a sequence that closes the `d` open loops. -/
theorem transpile_fold (l : List IRInst) : ∀ (d : Nat) (out : String),
    balancedFrom d l = true →
    l.foldl transpile_step (out, ((1 + d : Nat) : Int)) = (out ++ String.join (c_lines d l), 1) := by
  induction l with
  | nil =>
    intro d out h
    simp only [balancedFrom, beq_iff_eq] at h
    subst h
    simp only [List.foldl_nil, c_lines, Prod.mk.injEq]
    exact ⟨String.ext (by simp [String.data_join]), rfl⟩
  | cons x xs ih =>
    intro d out h
    simp only [balancedFrom] at h
    simp only [List.foldl_cons, c_lines]
    by_cases h1 : x.type = .LoopBegin
    · simp only [h1, if_true] at h ⊢
      rw [transpile_step_open out d x h1, ih (d + 1) _ h, join_cons, String.append_assoc]
    · by_cases h2 : x.type = .LoopEnd
      · simp only [h1, h2, if_true, if_false, reduceCtorEq] at h ⊢
        cases d with
        | zero => simp at h
        | succ j =>
          simp only at h
          rw [transpile_step_close out j x h2, Nat.add_sub_cancel, ih j _ h, join_cons,
            String.append_assoc]
      · simp only [h1, h2, if_false] at h ⊢
        rw [transpile_step_plain out d x h1 h2, ih d _ h, join_cons, String.append_assoc]

theorem c_lines_length (l : List IRInst) : ∀ d, (c_lines d l).length = l.length := by
  induction l with
  | nil => intro d; rfl
  | cons x xs ih =>
    intro d
    simp only [c_lines]
    split_ifs <;> simp [ih]

/-- Line `k` stands at the depth given by the brackets before it. -/
theorem c_lines_get (l : List IRInst) : ∀ (d k : Nat) (x : IRInst),
    balancedFrom d l = true → l[k]? = some x →
    ∃ e : Nat, e + (l.take (k + 1)).countP (fun y => y.type = .LoopEnd) =
        d + (l.take k).countP (fun y => y.type = .LoopBegin) ∧
      (c_lines d l)[k]? = some (c_line e x) := by
  induction l with
  | nil => intro d k x _ hx; simp at hx
  | cons y ys ih =>
    intro d k x h hx
    simp only [balancedFrom] at h
    cases k with
    | zero =>
      simp only [List.getElem?_cons_zero, Option.some.injEq] at hx
      subst hx
      by_cases h1 : y.type = .LoopBegin
      · exact ⟨d, by simp [h1], by simp [c_lines, h1]⟩
      · by_cases h2 : y.type = .LoopEnd
        · simp only [h1, h2, if_true, if_false, reduceCtorEq] at h
          cases d with
          | zero => simp at h
          | succ j => exact ⟨j, by simp [h2], by simp [c_lines, h2]⟩
        · exact ⟨d, by simp [h2], by simp [c_lines, h1, h2]⟩
    | succ k =>
      simp only [List.getElem?_cons_succ] at hx
      by_cases h1 : y.type = .LoopBegin
      · simp only [h1, if_true] at h
        obtain ⟨e, he, hl⟩ := ih (d + 1) k x h hx
        refine ⟨e, ?_, by simpa [c_lines, h1] using hl⟩
        simp only [List.take_succ_cons, List.countP_cons, h1, decide_True, if_true, reduceCtorEq,
          decide_False, Bool.false_eq_true, if_false] at he ⊢
        omega
      · by_cases h2 : y.type = .LoopEnd
        · simp only [h1, h2, if_true, if_false, reduceCtorEq] at h
          cases d with
          | zero => simp at h
          | succ j =>
            simp only at h
            obtain ⟨e, he, hl⟩ := ih j k x h hx
            refine ⟨e, ?_, by simpa [c_lines, h2] using hl⟩
            simp only [List.take_succ_cons, List.countP_cons, h2, decide_True, if_true,
              reduceCtorEq, decide_False, Bool.false_eq_true, if_false] at he ⊢
            omega
        · simp only [h1, h2, if_false] at h
          obtain ⟨e, he, hl⟩ := ih d k x h hx
          refine ⟨e, ?_, by simpa [c_lines, h1, h2] using hl⟩
          simp only [List.take_succ_cons, List.countP_cons, h1, h2, decide_False,
            Bool.false_eq_true, if_false] at he ⊢
          omega

theorem balancedFrom_counts (l : List IRInst) : ∀ d, balancedFrom d l = true →
    d + l.countP (fun y => y.type = .LoopBegin) = l.countP (fun y => y.type = .LoopEnd) := by
  induction l with
  | nil => intro d h; simpa [balancedFrom] using h
  | cons y ys ih =>
    intro d h
    simp only [balancedFrom] at h
    by_cases h1 : y.type = .LoopBegin
    · simp only [h1, if_true] at h
      have := ih _ h
      simp only [List.countP_cons, h1, decide_True, if_true, reduceCtorEq, decide_False,
        Bool.false_eq_true, if_false]
      omega
    · by_cases h2 : y.type = .LoopEnd
      · simp only [h1, h2, if_true, if_false, reduceCtorEq] at h
        cases d with
        | zero => simp at h
        | succ j =>
          have := ih _ h
          simp only [List.countP_cons, h2, decide_True, if_true, reduceCtorEq, decide_False,
            Bool.false_eq_true, if_false]
          omega
      · simp only [h1, h2, if_false] at h
        have := ih _ h
        simp only [List.countP_cons, h1, h2, decide_False, Bool.false_eq_true, if_false]
        omega

theorem digitChar_no_newline (m : Nat) (h : m < 10) : Nat.digitChar m ≠ '\n' := by
  interval_cases m <;> decide

theorem toDigitsCore_no_newline : ∀ (fuel n : Nat) (ds : List Char), '\n' ∉ ds →
    '\n' ∉ Nat.toDigitsCore 10 fuel n ds := by
  intro fuel
  induction fuel with
  | zero => intro n ds h; simpa [Nat.toDigitsCore] using h
  | succ f ih =>
    intro n ds h
    have hd : '\n' ∉ Nat.digitChar (n % 10) :: ds := by
      intro hm
      rcases List.mem_cons.1 hm with e | e
      · exact digitChar_no_newline (n % 10) (Nat.mod_lt _ (by decide)) e.symm
      · exact h e
    simp only [Nat.toDigitsCore]
    split_ifs
    · exact hd
    · exact ih _ _ hd

theorem nat_no_newline (n : Nat) : '\n' ∉ (toString n).data :=
  toDigitsCore_no_newline _ _ _ (by simp)

theorem int_no_newline (i : Int) : '\n' ∉ (toString i).data := by
  cases i with
  | ofNat m => exact nat_no_newline m
  | negSucc m =>
    show '\n' ∉ ("-" ++ toString (m + 1)).data
    rw [String.data_append, List.mem_append, not_or]
    exact ⟨by decide, nat_no_newline _⟩

theorem toString_pos (i : Int) (h : 0 < i) : toString i = toString i.natAbs := by
  cases i with
  | ofNat m => rfl
  | negSucc m => exact absurd h (by simp [Int.negSucc_lt_zero, Int.not_lt, Int.le_of_lt])

theorem toString_neg (i : Int) (h : i ≤ 0) : toString (-i) = toString i.natAbs := by
  cases i with
  | ofNat m =>
    cases m with
    | zero => rfl
    | succ k => exact absurd h (by simp)
  | negSucc m => rfl

/-- The text of each instruction, with the absolute value of the operand. -/
theorem inst_text_table (x : IRInst) :
    (x.type = .MovePtr → 0 < x.operand →
      inst_text x = "ptr += " ++ toString x.operand.natAbs ++ ";\n") ∧
    (x.type = .MovePtr → x.operand ≤ 0 →
      inst_text x = "ptr -= " ++ toString x.operand.natAbs ++ ";\n") ∧
    (x.type = .AddVal → 0 < x.operand →
      inst_text x = "*ptr += " ++ toString x.operand.natAbs ++ ";\n") ∧
    (x.type = .AddVal → x.operand ≤ 0 →
      inst_text x = "*ptr -= " ++ toString x.operand.natAbs ++ ";\n") ∧
    (x.type = .Output → inst_text x = "putchar(*ptr);\n") ∧
    (x.type = .Input → inst_text x = "*ptr = (unsigned char)getchar();\n") ∧
    (x.type = .LoopBegin → inst_text x = "while (*ptr) \x7b\n") ∧
    (x.type = .LoopEnd → inst_text x = "\x7d\n") ∧
    (x.type = .SetZero → inst_text x = "*ptr = 0;\n") := by
  refine ⟨?_, ?_, ?_, ?_, ?_, ?_, ?_, ?_, ?_⟩
  · intro ht h
    simp only [inst_text, ht, gt_iff_lt, h, if_true, toString_pos _ h]
  · intro ht h
    simp only [inst_text, ht, gt_iff_lt, Int.not_lt.2 h, if_false, toString_neg _ h]
  · intro ht h
    simp only [inst_text, ht, gt_iff_lt, h, if_true, toString_pos _ h]
  · intro ht h
    simp only [inst_text, ht, gt_iff_lt, Int.not_lt.2 h, if_false, toString_neg _ h]
  all_goals
    intro ht
    simp only [inst_text, ht]

/-- The text of an instruction is one line: it ends with its only newline. -/
theorem inst_text_line (x : IRInst) : ∃ t : String, inst_text x = t ++ "\n" ∧ '\n' ∉ t.data := by
  have key : ∀ (a : String) (i : Int), '\n' ∉ a.data →
      ∃ t : String, a ++ toString i ++ ";\n" = t ++ "\n" ∧ '\n' ∉ t.data := by
    intro a i ha
    refine ⟨a ++ toString i ++ ";", String.ext (by simp [String.data_append]), ?_⟩
    simp only [String.data_append, List.mem_append, not_or]
    exact ⟨⟨ha, int_no_newline i⟩, by decide⟩
  cases ht : x.type
  · simp only [inst_text, ht]
    split_ifs
    · exact key _ _ (by decide)
    · exact key _ _ (by decide)
  · simp only [inst_text, ht]
    split_ifs
    · exact key _ _ (by decide)
    · exact key _ _ (by decide)
  · exact ⟨"putchar(*ptr);", by simp only [inst_text, ht]; rfl, by decide⟩
  · exact ⟨"*ptr = (unsigned char)getchar();", by simp only [inst_text, ht]; rfl, by decide⟩
  · exact ⟨"while (*ptr) \x7b", by simp only [inst_text, ht]; rfl, by decide⟩
  · exact ⟨"\x7d", by simp only [inst_text, ht]; rfl, by decide⟩
  · exact ⟨"*ptr = 0;", by simp only [inst_text, ht]; rfl, by decide⟩

theorem c_line_line (d : Nat) (x : IRInst) :
    ∃ t : String, c_line d x = t ++ "\n" ∧ '\n' ∉ t.data := by
  obtain ⟨t, h1, h2⟩ := inst_text_line x
  refine ⟨String.mk (List.replicate (4 * (1 + d)) ' ') ++ t, ?_, ?_⟩
  · rw [c_line, h1, String.append_assoc]
  · simp only [String.data_append, List.mem_append, not_or]
    exact ⟨fun h => absurd (List.eq_of_mem_replicate h) (by decide), h2⟩

theorem c_lines_mem (l : List IRInst) : ∀ (d : Nat) (s : String), s ∈ c_lines d l →
    ∃ e x, s = c_line e x := by
  induction l with
  | nil => intro d s h; simp [c_lines] at h
  | cons y ys ih =>
    intro d s h
    simp only [c_lines] at h
    split_ifs at h <;>
    · rcases List.mem_cons.1 h with e | e
      · exact ⟨_, _, e⟩
      · exact ih _ _ e

/-- C25. C emitter mapping and indentation. For a bracket-balanced program of n
instructions the text returned by `transpile_to_c` is the fixed prologue, n lines
and the fixed epilogue (an empty line, `return 0;` and the closing brace). Each of
the n strings ends with its only newline. Line k is made from instruction k: it is
`4 * (1 + d)` blanks followed by the text of the instruction, where d, the number
of loops around the instruction, is the number of `LoopBegin` before k minus the
number of `LoopEnd` up to k, k included (so a `while` line and its closing brace
are both at the depth outside their loop). The text of an instruction is `ptr +=`
or `ptr -=` for `MovePtr` and `*ptr +=` or `*ptr -=` for `AddVal`, with the absolute
value of the operand, `putchar(*ptr);`, `*ptr = (unsigned char)getchar();`,
`while (*ptr)` with an opening brace, a closing brace, `*ptr = 0;`. The program has
as many `LoopBegin` as `LoopEnd`, so as many opening as closing brace lines, and
`indent` is 1 after the loop. -/
theorem c_emitter_lines (program : List IRInst) (hb : Balanced program) :
    ∃ lines : List String,
      transpile_to_c program = c_prologue ++ String.join lines ++ c_epilogue ∧
      lines.length = program.length ∧
      (∀ l ∈ lines, ∃ t : String, l = t ++ "\n" ∧ '\n' ∉ t.data) ∧
      (∀ (k : Nat) (x : IRInst), program[k]? = some x → ∃ d : Nat,
        d + (program.take (k + 1)).countP (fun y => y.type = .LoopEnd) =
          (program.take k).countP (fun y => y.type = .LoopBegin) ∧
        lines[k]? = some (String.mk (List.replicate (4 * (1 + d)) ' ') ++ inst_text x)) ∧
      (∀ x : IRInst,
        (x.type = .MovePtr → 0 < x.operand →
          inst_text x = "ptr += " ++ toString x.operand.natAbs ++ ";\n") ∧
        (x.type = .MovePtr → x.operand ≤ 0 →
          inst_text x = "ptr -= " ++ toString x.operand.natAbs ++ ";\n") ∧
        (x.type = .AddVal → 0 < x.operand →
          inst_text x = "*ptr += " ++ toString x.operand.natAbs ++ ";\n") ∧
        (x.type = .AddVal → x.operand ≤ 0 →
          inst_text x = "*ptr -= " ++ toString x.operand.natAbs ++ ";\n") ∧
        (x.type = .Output → inst_text x = "putchar(*ptr);\n") ∧
        (x.type = .Input → inst_text x = "*ptr = (unsigned char)getchar();\n") ∧
        (x.type = .LoopBegin → inst_text x = "while (*ptr) \x7b\n") ∧
        (x.type = .LoopEnd → inst_text x = "\x7d\n") ∧
        (x.type = .SetZero → inst_text x = "*ptr = 0;\n")) ∧
      program.countP (fun y => y.type = .LoopBegin) =
        program.countP (fun y => y.type = .LoopEnd) ∧
      (program.foldl transpile_step (c_prologue, 1)).2 = 1 := by
  have hf := transpile_fold program 0 c_prologue hb
  simp only [Nat.add_zero, Nat.cast_one] at hf
  refine ⟨c_lines 0 program, by rw [transpile_to_c, hf], c_lines_length _ _, ?_, ?_,
    inst_text_table, ?_, by rw [hf]⟩
  · intro l hl
    obtain ⟨e, x, h⟩ := c_lines_mem _ _ _ hl
    rw [h]
    exact c_line_line e x
  · intro k x hx
    obtain ⟨e, he, hl⟩ := c_lines_get program 0 k x hb hx
    exact ⟨e, by omega, hl⟩
  · have := balancedFrom_counts program 0 hb
    omega

theorem c_emitter_lines_witness :
    Balanced sample_loop ∧
    transpile_to_c sample_loop =
      "#include <stdio.h>\n#include <string.h>\n\nint main(void) \x7b\n" ++
      "    unsigned char tape[30000];\n    memset(tape, 0, sizeof(tape));\n" ++
      "    unsigned char *ptr = tape;\n\n" ++
      "    *ptr += 1;\n" ++
      "    while (*ptr) \x7b\n" ++
      "        putchar(*ptr);\n" ++
      "        *ptr -= 1;\n" ++
      "    \x7d\n" ++
      "\n    return 0;\n\x7d\n" ∧
    ∃ lines : List String,
      transpile_to_c sample_loop = c_prologue ++ String.join lines ++ c_epilogue ∧
      lines.length = sample_loop.length ∧
      (∀ l ∈ lines, ∃ t : String, l = t ++ "\n" ∧ '\n' ∉ t.data) ∧
      (∀ (k : Nat) (x : IRInst), sample_loop[k]? = some x → ∃ d : Nat,
        d + (sample_loop.take (k + 1)).countP (fun y => y.type = .LoopEnd) =
          (sample_loop.take k).countP (fun y => y.type = .LoopBegin) ∧
        lines[k]? = some (String.mk (List.replicate (4 * (1 + d)) ' ') ++ inst_text x)) ∧
      (∀ x : IRInst,
        (x.type = .MovePtr → 0 < x.operand →
          inst_text x = "ptr += " ++ toString x.operand.natAbs ++ ";\n") ∧
        (x.type = .MovePtr → x.operand ≤ 0 →
          inst_text x = "ptr -= " ++ toString x.operand.natAbs ++ ";\n") ∧
        (x.type = .AddVal → 0 < x.operand →
          inst_text x = "*ptr += " ++ toString x.operand.natAbs ++ ";\n") ∧
        (x.type = .AddVal → x.operand ≤ 0 →
          inst_text x = "*ptr -= " ++ toString x.operand.natAbs ++ ";\n") ∧
        (x.type = .Output → inst_text x = "putchar(*ptr);\n") ∧
        (x.type = .Input → inst_text x = "*ptr = (unsigned char)getchar();\n") ∧
        (x.type = .LoopBegin → inst_text x = "while (*ptr) \x7b\n") ∧
        (x.type = .LoopEnd → inst_text x = "\x7d\n") ∧
        (x.type = .SetZero → inst_text x = "*ptr = 0;\n")) ∧
      sample_loop.countP (fun y => y.type = .LoopBegin) =
        sample_loop.countP (fun y => y.type = .LoopEnd) ∧
      (sample_loop.foldl transpile_step (c_prologue, 1)).2 = 1 :=
  ⟨rfl, by rfl, c_emitter_lines sample_loop rfl⟩



/-! ## The MASM generator on two loops in a row -/

/-- C22. The MASM generator defines a label twice. The source `+[.-]+[.-]` is parsed
and optimized to the ten instructions of `sample_siblings`, a balanced program with
its two loops one after the other. In the text `MasmCodeGen.generate` returns for
it, the lines that start with `loop_` are `loop_start_0:`, `loop_end_0:`,
`loop_start_0:`, `loop_end_0:`: the label `loop_start_0` is defined twice and so is
`loop_end_0`, and both `je` of the text name `loop_end_0`, both `jne` name
`loop_start_0`. -/
theorem masm_sibling_labels_clash :
    (∃ p, parse (lex "+[.-]+[.-]".data) = .ok p ∧ optimize p = some sample_siblings) ∧
    Balanced sample_siblings ∧
    (textLines (MasmCodeGen.generate sample_siblings)).filter
        (fun l => "loop_".data.isPrefixOf l.data) =
      ["loop_start_0:", "loop_end_0:", "loop_start_0:", "loop_end_0:"] ∧
    (textLines (MasmCodeGen.generate sample_siblings)).count "loop_start_0:" = 2 ∧
    (textLines (MasmCodeGen.generate sample_siblings)).count "loop_end_0:" = 2 ∧
    (textLines (MasmCodeGen.generate sample_siblings)).filter
        (fun l => "    j".data.isPrefixOf l.data) =
      ["    je loop_end_0", "    jne loop_start_0", "    je loop_end_0", "    jne loop_start_0"] :=
  ⟨⟨_, by rfl, by rfl⟩, rfl, by rfl, by rfl, by rfl, by rfl⟩

/-! ## Default output names -/

/-- C23. The default output name cuts the path at its last dot, wherever the dot
is. For `prog` and `prog.bf` the transpiler writes to `prog.c`; for `./prog` it
writes to `.c` and for `build.d/prog` to `build.c`, not to `./prog.c` and
`build.d/prog.c`. The compiler does the same with `.exe`: `./prog` gives `.exe` and
`build.d/prog` gives `build.exe`. -/
theorem default_output_cuts_at_last_dot :
    transpiler_output_file "prog" [] = "prog.c" ∧
    transpiler_output_file "prog.bf" [] = "prog.c" ∧
    transpiler_output_file "./prog" [] = ".c" ∧
    transpiler_output_file "build.d/prog" [] = "build.c" ∧
    compiler_scan ["./prog"] {} = some { input_file := "./prog" } ∧
    compiler_output_file { input_file := "prog.bf" } = "prog.exe" ∧
    compiler_output_file { input_file := "./prog" } = ".exe" ∧
    compiler_output_file { input_file := "build.d/prog" } = "build.exe" ∧
    rfind "./prog".data '.' = some 0 ∧ rfind "build.d/prog".data '.' = some 5 :=
  ⟨by rfl, by rfl, by rfl, by rfl, by rfl, by rfl, by rfl, by rfl, by rfl, by rfl⟩

/-! ## Exit status -/

theorem parse_error_what (ts : List Char) (hv : bracketScan 0 ts ≠ .balanced) :
    ∃ what, (what = UnmatchedClose ∨ what = UnmatchedOpen) ∧ parse ts = .error what := by
  obtain ⟨h1, h2, _⟩ := parse_verdict ts
  cases hs : bracketScan 0 ts with
  | balanced => exact absurd hs hv
  | unmatchedClose => exact ⟨_, Or.inl rfl, h1.2 hs⟩
  | unmatchedOpen => exact ⟨_, Or.inr rfl, h2.2 hs⟩

theorem interpreter_main_zero (argv : List String) (readFile : String → Option String)
    (stdin : List Byte) (fuel : Nat) (h : interpreter_main argv readFile stdin fuel = .returned 0) :
    ∃ input_file source p, argv[1]? = some input_file ∧ readFile input_file = some source ∧
      parse (lex source.data) = .ok p := by
  unfold interpreter_main at h
  split at h
  · cases h
  · cases h
  · rename_i a0 input_file rest
    split at h
    · cases h
    · rename_i source hr
      split at h
      · cases h
      · rename_i p hp
        exact ⟨input_file, source, p, by simp, hr, hp⟩

theorem transpiler_main_zero (argv : List String) (readFile : String → Option String)
    (canWrite : String → Bool) (h : transpiler_main argv readFile canWrite = .returned 0) :
    ∃ input_file source p, argv[1]? = some input_file ∧ readFile input_file = some source ∧
      parse (lex source.data) = .ok p := by
  unfold transpiler_main at h
  split at h
  · cases h
  · cases h
  · rename_i a0 input_file rest
    split at h
    · cases h
    · rename_i source hr
      split at h
      · cases h
      · rename_i p hp
        exact ⟨input_file, source, p, by simp, hr, hp⟩

theorem compiler_main_zero (argv : List String) (readFile : String → Option String)
    (canWrite : String → Bool) (h : compiler_main argv readFile canWrite = .returned 0) :
    ∃ a source p, compiler_scan argv.tail {} = some a ∧ readFile a.input_file = some source ∧
      parse (lex source.data) = .ok p := by
  unfold compiler_main at h
  split at h
  · cases h
  · cases h
  · rename_i a0 args hne
    split at h
    · cases h
    · rename_i a ha
      split at h
      · cases h
      · split at h
        · cases h
        · rename_i source hr
          split at h
          · cases h
          · rename_i p hp
            exact ⟨a, source, p, ha, hr, hp⟩

/-- What the three `main` functions do on a parse failure. A source with unbalanced
brackets makes `parse` throw, with the message `Unmatched ']' found` or
`Unmatched '[' found`, and none of the three `main` functions catches the exception:
for a readable input file with such a source no `return` of `main` is reached, in
the interpreter, the transpiler and the compiler. Each `main` returns 1 when the
input file cannot be opened, and returns 0 only when the file was read and `parse`
succeeded on its tokens. -/
theorem parse_failure_uncaught (readFile : String → Option String) (canWrite : String → Bool)
    (stdin : List Byte) (fuel : Nat) (input_file source : String)
    (hr : readFile input_file = some source)
    (hv : bracketScan 0 (lex source.data) ≠ .balanced) :
    (∃ what, (what = UnmatchedClose ∨ what = UnmatchedOpen) ∧
      parse (lex source.data) = .error what ∧
      (∀ a0 rest,
        interpreter_main (a0 :: input_file :: rest) readFile stdin fuel = .uncaught what) ∧
      (∀ a0 rest,
        transpiler_main (a0 :: input_file :: rest) readFile canWrite = .uncaught what) ∧
      (∀ a0 args a, compiler_scan args {} = some a → a.input_file = input_file →
        input_file ≠ "" → compiler_main (a0 :: args) readFile canWrite = .uncaught what)) ∧
    (∀ a0 missing rest, readFile missing = none →
      interpreter_main (a0 :: missing :: rest) readFile stdin fuel = .returned 1 ∧
      transpiler_main (a0 :: missing :: rest) readFile canWrite = .returned 1) ∧
    (∀ a0 args a, compiler_scan args {} = some a → readFile a.input_file = none →
      compiler_main (a0 :: args) readFile canWrite = .returned 1) ∧
    (∀ argv, interpreter_main argv readFile stdin fuel = .returned 0 →
      ∃ f s p, argv[1]? = some f ∧ readFile f = some s ∧ parse (lex s.data) = .ok p) ∧
    (∀ argv, transpiler_main argv readFile canWrite = .returned 0 →
      ∃ f s p, argv[1]? = some f ∧ readFile f = some s ∧ parse (lex s.data) = .ok p) ∧
    (∀ argv, compiler_main argv readFile canWrite = .returned 0 →
      ∃ a s p, compiler_scan argv.tail {} = some a ∧ readFile a.input_file = some s ∧
        parse (lex s.data) = .ok p) := by
  obtain ⟨what, hw, hp⟩ := parse_error_what _ hv
  refine ⟨⟨what, hw, hp, ?_, ?_, ?_⟩, ?_, ?_, fun argv h => interpreter_main_zero _ _ _ _ h,
    fun argv h => transpiler_main_zero _ _ _ h, fun argv h => compiler_main_zero _ _ _ h⟩
  · intro a0 rest
    simp only [interpreter_main, hr, hp]
  · intro a0 rest
    simp only [transpiler_main, hr, hp]
  · intro a0 args a ha hi hne
    cases args with
    | nil =>
      simp only [compiler_scan, Option.some.injEq] at ha
      subst ha
      exact absurd hi.symm hne
    | cons x xs =>
      subst hi
      simp only [compiler_main, ha, hne, if_false, hr, hp]
  · intro a0 missing rest hm
    exact ⟨by simp only [interpreter_main, hm], by simp only [transpiler_main, hm]⟩
  · intro a0 args a ha hm
    cases args with
    | nil => rfl
    | cons x xs =>
      simp only [compiler_main, ha, hm]
      split_ifs <;> rfl

theorem parse_failure_uncaught_witness :
    sample_files "a.bf" = some "]" ∧ bracketScan 0 (lex "]".data) ≠ .balanced ∧
    ((∃ what, (what = UnmatchedClose ∨ what = UnmatchedOpen) ∧
      parse (lex "]".data) = .error what ∧
      (∀ a0 rest,
        interpreter_main (a0 :: "a.bf" :: rest) sample_files [] 1000 = .uncaught what) ∧
      (∀ a0 rest,
        transpiler_main (a0 :: "a.bf" :: rest) sample_files (fun _ => true) = .uncaught what) ∧
      (∀ a0 args a, compiler_scan args {} = some a → a.input_file = "a.bf" →
        "a.bf" ≠ "" → compiler_main (a0 :: args) sample_files (fun _ => true) = .uncaught what)) ∧
    (∀ a0 missing rest, sample_files missing = none →
      interpreter_main (a0 :: missing :: rest) sample_files [] 1000 = .returned 1 ∧
      transpiler_main (a0 :: missing :: rest) sample_files (fun _ => true) = .returned 1) ∧
    (∀ a0 args a, compiler_scan args {} = some a → sample_files a.input_file = none →
      compiler_main (a0 :: args) sample_files (fun _ => true) = .returned 1) ∧
    (∀ argv, interpreter_main argv sample_files [] 1000 = .returned 0 →
      ∃ f s p, argv[1]? = some f ∧ sample_files f = some s ∧ parse (lex s.data) = .ok p) ∧
    (∀ argv, transpiler_main argv sample_files (fun _ => true) = .returned 0 →
      ∃ f s p, argv[1]? = some f ∧ sample_files f = some s ∧ parse (lex s.data) = .ok p) ∧
    (∀ argv, compiler_main argv sample_files (fun _ => true) = .returned 0 →
      ∃ a s p, compiler_scan argv.tail {} = some a ∧ sample_files a.input_file = some s ∧
        parse (lex s.data) = .ok p)) :=
  ⟨rfl, by decide,
    parse_failure_uncaught sample_files (fun _ => true) [] 1000 "a.bf" "]" rfl (by decide)⟩

/-- C24. Parse failures do not surface as exit status 1. The file `a.bf` can be
read and holds `]`, a source with an unmatched `]`. `parse` throws and no handler is
in `main`, so the call of `main` ends with the exception `Unmatched ']' found`, not
with `return 1`, in the interpreter (run here on the empty input with 1000 steps
allowed), in the transpiler and in the compiler. The failure path next to it, a
file that cannot be opened, gives `return 1`. -/
theorem unbalanced_source_no_return :
    sample_files "a.bf" = some "]" ∧
    bracketScan 0 (lex "]".data) = .unmatchedClose ∧
    interpreter_main ["bf-interpreter", "a.bf"] sample_files [] 1000 =
      .uncaught "Unmatched ']' found" ∧
    interpreter_main ["bf-interpreter", "a.bf"] sample_files [] 1000 ≠ .returned 1 ∧
    transpiler_main ["bf-transpiler", "a.bf"] sample_files (fun _ => true) =
      .uncaught "Unmatched ']' found" ∧
    transpiler_main ["bf-transpiler", "a.bf"] sample_files (fun _ => true) ≠ .returned 1 ∧
    compiler_main ["bf-compiler", "a.bf"] sample_files (fun _ => true) =
      .uncaught "Unmatched ']' found" ∧
    compiler_main ["bf-compiler", "a.bf"] sample_files (fun _ => true) ≠ .returned 1 ∧
    interpreter_main ["bf-interpreter", "b.bf"] sample_files [] 1000 = .returned 1 :=
  ⟨rfl, by rfl, by rfl, by decide, by rfl, by decide, by rfl, by decide, by rfl⟩



/-! ## The parser skips what the lexer removes -/

theorem parseLoop_filter (ts : List Char) : ∀ (program : List IRInst) (st : List Nat),
    parseLoop (ts.filter isSignificant) program st = parseLoop ts program st := by
  induction ts with
  | nil => intro program st; rfl
  | cons c cs ih =>
    intro program st
    by_cases hs : isSignificant c = true
    · rw [List.filter_cons_of_pos hs]
      simp only [parseLoop, ih]
    · rw [List.filter_cons_of_neg hs, ih]
      have hn : ¬ c ∈ ['>', '<', '+', '-', '.', ',', '[', ']'] := fun h =>
        hs ((isSignificant_iff c).2 h)
      simp only [List.mem_cons, List.mem_singleton, List.not_mem_nil, or_false, not_or] at hn
      obtain ⟨h1, h2, h3, h4, h5, h6, h7, h8⟩ := hn
      simp only [parseLoop, h1, h2, h3, h4, h5, h6, h7, h8, if_false]

/-- C34. The lexer is transparent to the parser. For every character sequence `s`,
`parse s` and `parse (lex s)` are the same result: the same program, or the same
error. -/
theorem parse_lex_transparent (s : List Char) :
    parse (lex s) = parse s ∧
    (∀ p, parse s = .ok p ↔ parse (lex s) = .ok p) ∧
    (∀ e, parse s = .error e ↔ parse (lex s) = .error e) ∧
    (parse s = .error UnmatchedClose ↔ parse (lex s) = .error UnmatchedClose) ∧
    (parse s = .error UnmatchedOpen ↔ parse (lex s) = .error UnmatchedOpen) := by
  have h : parse (lex s) = parse s := by
    unfold parse
    rw [lex_eq_filter, parseLoop_filter]
  exact ⟨h, fun p => by rw [h], fun e => by rw [h], by rw [h], by rw [h]⟩



/-! ## Encoded deltas -/

namespace pe

/-- The bytes appended for a `MovePtr`. -/
theorem gen_step_movePtr (text_rva iat_rva data_rva i : Nat) (x : IRInst) (s s1 : GenState)
    (h : gen_step text_rva iat_rva data_rva i x s = some s1) (ht : x.type = .MovePtr) :
    s1.c.data = s.c.data ++
      (if x.operand = 1 then [0x48, 0xFF, 0xC3]
        else if x.operand = -1 then [0x48, 0xFF, 0xCB]
        else if x.operand > 0 then [0x48, 0x81, 0xC3] ++ le32 (wrap32 x.operand)
        else [0x48, 0x81, 0xEB] ++ le32 (wrap32 (-x.operand))) := by
  unfold gen_step at h
  simp only [ht] at h
  split_ifs at h with h1 h2 h3 <;> simp only [Option.some.injEq] at h <;> subst h
  · rw [if_pos h1]; simp only [u8_data, List.append_assoc]; rfl
  · rw [if_neg h1, if_pos h2]; simp only [u8_data, List.append_assoc]; rfl
  · rw [if_neg h1, if_neg h2, if_pos h3]; simp only [u8_data, u32_data, List.append_assoc]; rfl
  · rw [if_neg h1, if_neg h2, if_neg h3]; simp only [u8_data, u32_data, List.append_assoc]; rfl

/-- The bytes appended for an `AddVal`. -/
theorem gen_step_addVal (text_rva iat_rva data_rva i : Nat) (x : IRInst) (s s1 : GenState)
    (h : gen_step text_rva iat_rva data_rva i x s = some s1) (ht : x.type = .AddVal) :
    s1.c.data = s.c.data ++
      (if x.operand = 1 then [0xFE, 0x03]
        else if x.operand = -1 then [0xFE, 0x0B]
        else if x.operand > 0 then [0x80, 0x03, wrap8 x.operand % 256]
        else [0x80, 0x2B, wrap8 (-x.operand) % 256]) := by
  unfold gen_step at h
  simp only [ht] at h
  split_ifs at h with h1 h2 h3 <;> simp only [Option.some.injEq] at h <;> subst h
  · rw [if_pos h1]; simp only [u8_data, List.append_assoc]; rfl
  · rw [if_neg h1, if_pos h2]; simp only [u8_data, List.append_assoc]; rfl
  · rw [if_neg h1, if_neg h2, if_pos h3]; simp only [u8_data, List.append_assoc]; rfl
  · rw [if_neg h1, if_neg h2, if_neg h3]; simp only [u8_data, List.append_assoc]; rfl

/-- In the code that `gen_code` returns, the bytes of an instruction other than a
`LoopBegin` are the bytes appended by its iteration of the emission loop. -/
theorem gen_code_inst_bytes (prog : List IRInst) (text_rva iat_rva data_rva : Nat)
    (code : CodeBuf) (hc : gen_code prog text_rva iat_rva data_rva = some code) (k : Nat)
    (x : IRInst) (hx : prog[k]? = some x) (hnb : x.type ≠ .LoopBegin) (bs : List Nat)
    (hbs : ∀ sk sk1, gen_step text_rva iat_rva data_rva k x sk = some sk1 →
      sk1.c.data = sk.c.data ++ bs) :
    bs.length = instLen x ∧
    (code.data.drop (44 + codeLen (prog.take k))).take (instLen x) = bs ∧
    ∀ j, j < instLen x → code.data[44 + codeLen (prog.take k) + j]? = bs[j]? := by
  obtain ⟨s, hs⟩ := gen_emit_of_gen_code _ _ _ _ _ hc
  obtain ⟨sk, sk1, _, g2, g3, g4, g5, g6, _, _⟩ := gen_code_at _ _ _ _ _ _ hs hc k x hx hnb
  have hd := hbs sk sk1 g2
  rw [size_eq] at g3 g4
  have hl : bs.length = instLen x := by
    have := congrArg List.length hd
    rw [List.length_append] at this
    omega
  have hj : ∀ j, j < instLen x → code.data[44 + codeLen (prog.take k) + j]? = bs[j]? := by
    intro j hj
    rw [g6 _ (by omega) (by omega), hd, ← g3, getElem?_append_add]
  refine ⟨hl, ?_, hj⟩
  apply List.ext_getElem?
  intro j
  by_cases hj2 : j < instLen x
  · rw [List.getElem?_take_of_lt hj2, List.getElem?_drop, hj j hj2]
  · rw [List.getElem?_eq_none (by rw [List.length_take]; omega),
      List.getElem?_eq_none (by omega)]

end pe

theorem addByte_add (v : Byte) (n : Int) : addByte v n = v + Fin.ofNat (wrap8 n) := by
  apply Fin.ext
  have h0 : 0 ≤ n % 256 := Int.emod_nonneg _ (by decide)
  have h1 : n % 256 < 256 := Int.emod_lt_of_pos _ (by decide)
  simp only [addByte, wrap8, Fin.add_def, Fin.ofNat]
  omega

theorem addByte_sub (v : Byte) (n : Int) : addByte v n = v - Fin.ofNat (wrap8 (-n)) := by
  apply Fin.ext
  have h0 : 0 ≤ n % 256 := Int.emod_nonneg _ (by decide)
  have h1 : n % 256 < 256 := Int.emod_lt_of_pos _ (by decide)
  have h2 : 0 ≤ (-n) % 256 := Int.emod_nonneg _ (by decide)
  have h3 : (-n) % 256 < 256 := Int.emod_lt_of_pos _ (by decide)
  have := v.isLt
  simp only [addByte, wrap8, Fin.sub_def, Fin.ofNat]
  omega

namespace pe

theorem read32_of_getElem? (l : List Nat) (o v : Nat) (h0 : l[o]? = some (v % 256))
    (h1 : l[o + 1]? = some (v / 256 % 256)) (h2 : l[o + 2]? = some (v / 65536 % 256))
    (h3 : l[o + 3]? = some (v / 16777216 % 256)) (hv : v < 4294967296) : read32 l o = v := by
  simp only [read32, List.getD_eq_getElem?_getD, h0, h1, h2, h3, Option.getD_some]
  omega

end pe

/-- C31. Encoded deltas equal the operand. Let `gen_code` return `code` and let `x`
be instruction `k`, whose bytes start at `off = 44 + codeLen (prog.take k)`.
For `x = MovePtr(n)`: the bytes are `48 FF C3` (`inc rbx`) when `n = 1` and
`48 FF CB` (`dec rbx`) when `n = -1`; for any other `0 < n < 2^31` they are
`48 81 C3` (`add rbx, imm32`) followed by a 32-bit immediate below 2^31 of value
`n`; for any other `-2^31 < n <= 0` they are `48 81 EB` (`sub rbx, imm32`) followed
by an immediate below 2^31 of value `-n`. The interpreter step adds `n` to `ptr`.
For `x = AddVal(n)`: the bytes are `FE 03` (`inc byte [rbx]`) when `n = 1` and
`FE 0B` (`dec byte [rbx]`) when `n = -1`; for any other `n > 0` they are `80 03 imm`
with `imm = n mod 256`, and for any other `n <= 0` they are `80 2B imm` with
`imm = (-n) mod 256`. The change of the cell in the interpreter, `addByte v n`, is
`v + 1`, `v - 1`, `v + imm` and `v - imm` in these four cases, in arithmetic
modulo 256. -/
theorem encoded_deltas (prog : List IRInst) (text_rva iat_rva data_rva : Nat)
    (code : pe.CodeBuf) (h : pe.gen_code prog text_rva iat_rva data_rva = some code)
    (k : Nat) (x : IRInst) (hx : prog[k]? = some x) :
    (x.type = .MovePtr →
      (x.operand = 1 →
        (code.data.drop (44 + pe.codeLen (prog.take k))).take 3 = [0x48, 0xFF, 0xC3] ∧
        pe.instLen x = 3) ∧
      (x.operand = -1 →
        (code.data.drop (44 + pe.codeLen (prog.take k))).take 3 = [0x48, 0xFF, 0xCB] ∧
        pe.instLen x = 3) ∧
      (x.operand ≠ 1 → 0 < x.operand → x.operand < 2147483648 →
        (code.data.drop (44 + pe.codeLen (prog.take k))).take 3 = [0x48, 0x81, 0xC3] ∧
        pe.instLen x = 7 ∧
        pe.read32 code.data (44 + pe.codeLen (prog.take k) + 3) < 2147483648 ∧
        (pe.read32 code.data (44 + pe.codeLen (prog.take k) + 3) : Int) = x.operand) ∧
      (x.operand ≠ -1 → x.operand ≤ 0 → -2147483648 < x.operand →
        (code.data.drop (44 + pe.codeLen (prog.take k))).take 3 = [0x48, 0x81, 0xEB] ∧
        pe.instLen x = 7 ∧
        pe.read32 code.data (44 + pe.codeLen (prog.take k) + 3) < 2147483648 ∧
        (pe.read32 code.data (44 + pe.codeLen (prog.take k) + 3) : Int) = -x.operand) ∧
      ∀ (m : Machine) (ip : Int),
        execInst x m ip = .running { m with ptr := m.ptr + x.operand } (ip + 1)) ∧
    (x.type = .AddVal →
      (x.operand = 1 →
        (code.data.drop (44 + pe.codeLen (prog.take k))).take (pe.instLen x) = [0xFE, 0x03] ∧
        ∀ v : Byte, addByte v x.operand = v + 1) ∧
      (x.operand = -1 →
        (code.data.drop (44 + pe.codeLen (prog.take k))).take (pe.instLen x) = [0xFE, 0x0B] ∧
        ∀ v : Byte, addByte v x.operand = v - 1) ∧
      (x.operand ≠ 1 → 0 < x.operand → ∃ imm : Nat, imm < 256 ∧
        (code.data.drop (44 + pe.codeLen (prog.take k))).take (pe.instLen x) =
          [0x80, 0x03, imm] ∧
        (imm : Int) = x.operand % 256 ∧
        ∀ v : Byte, addByte v x.operand = v + Fin.ofNat imm) ∧
      (x.operand ≠ -1 → x.operand ≤ 0 → ∃ imm : Nat, imm < 256 ∧
        (code.data.drop (44 + pe.codeLen (prog.take k))).take (pe.instLen x) =
          [0x80, 0x2B, imm] ∧
        (imm : Int) = (-x.operand) % 256 ∧
        ∀ v : Byte, addByte v x.operand = v - Fin.ofNat imm) ∧
      ∀ (m : Machine) (ip : Int), inTape m.ptr →
        execInst x m ip = .running (m.write (addByte (m.tape m.ptr) x.operand)) (ip + 1)) := by
  constructor
  · intro ht
    have hnb : x.type ≠ .LoopBegin := by rw [ht]; decide
    obtain ⟨hl, hd, hj⟩ := pe.gen_code_inst_bytes prog text_rva iat_rva data_rva code h k x hx hnb
      _ (fun sk sk1 hg => pe.gen_step_movePtr _ _ _ _ _ _ _ hg ht)
    refine ⟨?_, ?_, ?_, ?_, ?_⟩
    · intro h1
      have hi : pe.instLen x = 3 := by simp [pe.instLen, ht, h1]
      rw [hi, if_pos h1] at hd
      exact ⟨hd, hi⟩
    · intro h2
      have h1 : x.operand ≠ 1 := by rw [h2]; decide
      have hi : pe.instLen x = 3 := by simp [pe.instLen, ht, h2]
      rw [hi, if_neg h1, if_pos h2] at hd
      exact ⟨hd, hi⟩
    · intro h1 h3 hb
      have h2 : x.operand ≠ -1 := by omega
      have hi : pe.instLen x = 7 := by simp [pe.instLen, ht, h1, h2]
      rw [if_neg h1, if_neg h2, if_pos h3] at hd hj
      rw [hi] at hd hj
      have hw : wrap32 x.operand = x.operand.toNat := by unfold wrap32; omega
      have hr : pe.read32 code.data (44 + pe.codeLen (prog.take k) + 3) = x.operand.toNat := by
        apply pe.read32_of_getElem?
        · rw [hj 3 (by omega), hw]; rfl
        · rw [Nat.add_assoc, hj 4 (by omega), hw]; rfl
        · rw [Nat.add_assoc, hj 5 (by omega), hw]; rfl
        · rw [Nat.add_assoc, hj 6 (by omega), hw]; rfl
        · omega
      refine ⟨?_, hi, by rw [hr]; omega, by rw [hr]; omega⟩
      have := congrArg (List.take 3) hd
      rw [List.take_take] at this
      simpa using this
    · intro h2 h3 hb
      have h1 : x.operand ≠ 1 := by omega
      have h3' : ¬ x.operand > 0 := by omega
      have hi : pe.instLen x = 7 := by simp [pe.instLen, ht, h1, h2]
      rw [if_neg h1, if_neg h2, if_neg h3'] at hd hj
      rw [hi] at hd hj
      have hw : wrap32 (-x.operand) = (-x.operand).toNat := by unfold wrap32; omega
      have hr : pe.read32 code.data (44 + pe.codeLen (prog.take k) + 3) =
          (-x.operand).toNat := by
        apply pe.read32_of_getElem?
        · rw [hj 3 (by omega), hw]; rfl
        · rw [Nat.add_assoc, hj 4 (by omega), hw]; rfl
        · rw [Nat.add_assoc, hj 5 (by omega), hw]; rfl
        · rw [Nat.add_assoc, hj 6 (by omega), hw]; rfl
        · omega
      refine ⟨?_, hi, by rw [hr]; omega, by rw [hr]; omega⟩
      have := congrArg (List.take 3) hd
      rw [List.take_take] at this
      simpa using this
    · intro m ip
      simp only [execInst, ht]
  · intro ht
    have hnb : x.type ≠ .LoopBegin := by rw [ht]; decide
    obtain ⟨hl, hd, hj⟩ := pe.gen_code_inst_bytes prog text_rva iat_rva data_rva code h k x hx hnb
      _ (fun sk sk1 hg => pe.gen_step_addVal _ _ _ _ _ _ _ hg ht)
    have hw8 : ∀ n : Int, wrap8 n < 256 ∧ (wrap8 n : Int) = n % 256 := by
      intro n
      unfold wrap8
      omega
    refine ⟨?_, ?_, ?_, ?_, ?_⟩
    · intro h1
      rw [if_pos h1] at hd
      refine ⟨hd, fun v => ?_⟩
      rw [h1, addByte_add]
      rfl
    · intro h2
      have h1 : x.operand ≠ 1 := by rw [h2]; decide
      rw [if_neg h1, if_pos h2] at hd
      refine ⟨hd, fun v => ?_⟩
      rw [h2, addByte_sub]
      rfl
    · intro h1 h3
      have h2 : x.operand ≠ -1 := by omega
      rw [if_neg h1, if_neg h2, if_pos h3, Nat.mod_eq_of_lt (hw8 _).1] at hd
      exact ⟨_, (hw8 _).1, hd, (hw8 _).2, fun v => addByte_add v _⟩
    · intro h2 h3
      have h1 : x.operand ≠ 1 := by omega
      have h3' : ¬ x.operand > 0 := by omega
      rw [if_neg h1, if_neg h2, if_neg h3', Nat.mod_eq_of_lt (hw8 _).1] at hd
      exact ⟨_, (hw8 _).1, hd, (hw8 _).2, fun v => addByte_sub v _⟩
    · intro m ip hm
      simp only [execInst, ht, hm, if_true]

theorem encoded_deltas_witness :
    ∃ code, pe.gen_code sample_moves 0x1000 0x2050 0x3000 = some code ∧
    sample_moves[0]? = some ⟨.MovePtr, 300, -1⟩ ∧
    (((⟨.MovePtr, 300, -1⟩ : IRInst).type = .MovePtr →
      ((⟨.MovePtr, 300, -1⟩ : IRInst).operand = 1 →
        (code.data.drop (44 + pe.codeLen (sample_moves.take 0))).take 3 = [0x48, 0xFF, 0xC3] ∧
        pe.instLen ⟨.MovePtr, 300, -1⟩ = 3) ∧
      ((⟨.MovePtr, 300, -1⟩ : IRInst).operand = -1 →
        (code.data.drop (44 + pe.codeLen (sample_moves.take 0))).take 3 = [0x48, 0xFF, 0xCB] ∧
        pe.instLen ⟨.MovePtr, 300, -1⟩ = 3) ∧
      ((⟨.MovePtr, 300, -1⟩ : IRInst).operand ≠ 1 → 0 < (⟨.MovePtr, 300, -1⟩ : IRInst).operand → (⟨.MovePtr, 300, -1⟩ : IRInst).operand < 2147483648 →
        (code.data.drop (44 + pe.codeLen (sample_moves.take 0))).take 3 = [0x48, 0x81, 0xC3] ∧
        pe.instLen ⟨.MovePtr, 300, -1⟩ = 7 ∧
        pe.read32 code.data (44 + pe.codeLen (sample_moves.take 0) + 3) < 2147483648 ∧
        (pe.read32 code.data (44 + pe.codeLen (sample_moves.take 0) + 3) : Int) = (⟨.MovePtr, 300, -1⟩ : IRInst).operand) ∧
      ((⟨.MovePtr, 300, -1⟩ : IRInst).operand ≠ -1 → (⟨.MovePtr, 300, -1⟩ : IRInst).operand ≤ 0 → -2147483648 < (⟨.MovePtr, 300, -1⟩ : IRInst).operand →
        (code.data.drop (44 + pe.codeLen (sample_moves.take 0))).take 3 = [0x48, 0x81, 0xEB] ∧
        pe.instLen ⟨.MovePtr, 300, -1⟩ = 7 ∧
        pe.read32 code.data (44 + pe.codeLen (sample_moves.take 0) + 3) < 2147483648 ∧
        (pe.read32 code.data (44 + pe.codeLen (sample_moves.take 0) + 3) : Int) = -(⟨.MovePtr, 300, -1⟩ : IRInst).operand) ∧
      ∀ (m : Machine) (ip : Int),
        execInst ⟨.MovePtr, 300, -1⟩ m ip = .running { m with ptr := m.ptr + (⟨.MovePtr, 300, -1⟩ : IRInst).operand } (ip + 1)) ∧
    ((⟨.MovePtr, 300, -1⟩ : IRInst).type = .AddVal →
      ((⟨.MovePtr, 300, -1⟩ : IRInst).operand = 1 →
        (code.data.drop (44 + pe.codeLen (sample_moves.take 0))).take (pe.instLen ⟨.MovePtr, 300, -1⟩) = [0xFE, 0x03] ∧
        ∀ v : Byte, addByte v (⟨.MovePtr, 300, -1⟩ : IRInst).operand = v + 1) ∧
      ((⟨.MovePtr, 300, -1⟩ : IRInst).operand = -1 →
        (code.data.drop (44 + pe.codeLen (sample_moves.take 0))).take (pe.instLen ⟨.MovePtr, 300, -1⟩) = [0xFE, 0x0B] ∧
        ∀ v : Byte, addByte v (⟨.MovePtr, 300, -1⟩ : IRInst).operand = v - 1) ∧
      ((⟨.MovePtr, 300, -1⟩ : IRInst).operand ≠ 1 → 0 < (⟨.MovePtr, 300, -1⟩ : IRInst).operand → ∃ imm : Nat, imm < 256 ∧
        (code.data.drop (44 + pe.codeLen (sample_moves.take 0))).take (pe.instLen ⟨.MovePtr, 300, -1⟩) =
          [0x80, 0x03, imm] ∧
        (imm : Int) = (⟨.MovePtr, 300, -1⟩ : IRInst).operand % 256 ∧
        ∀ v : Byte, addByte v (⟨.MovePtr, 300, -1⟩ : IRInst).operand = v + Fin.ofNat imm) ∧
      ((⟨.MovePtr, 300, -1⟩ : IRInst).operand ≠ -1 → (⟨.MovePtr, 300, -1⟩ : IRInst).operand ≤ 0 → ∃ imm : Nat, imm < 256 ∧
        (code.data.drop (44 + pe.codeLen (sample_moves.take 0))).take (pe.instLen ⟨.MovePtr, 300, -1⟩) =
          [0x80, 0x2B, imm] ∧
        (imm : Int) = (-(⟨.MovePtr, 300, -1⟩ : IRInst).operand) % 256 ∧
        ∀ v : Byte, addByte v (⟨.MovePtr, 300, -1⟩ : IRInst).operand = v - Fin.ofNat imm) ∧
      ∀ (m : Machine) (ip : Int), inTape m.ptr →
        execInst ⟨.MovePtr, 300, -1⟩ m ip = .running (m.write (addByte (m.tape m.ptr) (⟨.MovePtr, 300, -1⟩ : IRInst).operand)) (ip + 1))) :=
  (Option.ne_none_iff_exists'.1 (pe.gen_code_ne_none_of_targets sample_moves
    (by decide) 0x1000 0x2050 0x3000)).elim fun code hc =>
      ⟨code, hc, rfl, encoded_deltas sample_moves 0x1000 0x2050 0x3000 code hc 0 _ rfl⟩



/-! ## References to the data section -/

namespace pe

/-- The `lea` instructions of the code that `gen_code` returns: the one of the
prologue refers to `data_rva`, the one of an `Output` to `data_rva + 30000` and the
one of an `Input` to `data_rva + 30008`, modulo 2^32. -/
theorem gen_code_data_refs (prog : List IRInst) (text_rva iat_rva data_rva : Nat)
    (code : CodeBuf) (h : gen_code prog text_rva iat_rva data_rva = some code) :
    RipField code.data text_rva 12 data_rva ∧
    ∀ (k : Nat) (x : IRInst), prog[k]? = some x →
      (x.type = .Output →
        RipField code.data text_rva (44 + codeLen (prog.take k) + 15) (data_rva + 30000)) ∧
      (x.type = .Input →
        RipField code.data text_rva (44 + codeLen (prog.take k) + 15) (data_rva + 30008)) := by
  obtain ⟨s, hs⟩ := gen_emit_of_gen_code _ _ _ _ _ h
  obtain ⟨k1, k2, k3, _⟩ := gen_code_keeps _ _ _ _ _ _ hs h
  obtain ⟨s0, tail, p1, p2, p3, te, p4⟩ := gen_emit_parts _ _ _ _ _ hs
  have hsize := gen_code_size _ _ _ _ _ h
  have hlen := hsize
  rw [size_eq] at hlen
  have hpl := gen_prologue_size text_rva iat_rva data_rva
  rw [size_eq] at hpl
  have hpro : ∀ j, j < 44 →
      code.data[j]? = (gen_prologue text_rva iat_rva data_rva ⟨[]⟩).data[j]? := by
    intro j hj
    rw [k2 j hj, p4, List.getElem?_append_left (by omega)]
  obtain ⟨_, _, _, l4⟩ := gen_prologue_lea text_rva iat_rva data_rva
  refine ⟨ripField_congr _ _ _ _ _ (fun j a b => hpro j (by omega)) (by omega) l4, ?_⟩
  intro k x hx
  have key : x.type = .Output ∨ x.type = .Input →
      (x.type = .Output →
        RipField code.data text_rva (44 + codeLen (prog.take k) + 15) (data_rva + 30000)) ∧
      (x.type = .Input →
        RipField code.data text_rva (44 + codeLen (prog.take k) + 15) (data_rva + 30008)) := by
    intro ht
    have hne : x.type ≠ .LoopBegin := by
      rcases ht with e | e <;> rw [e] <;> decide
    have h34 : instLen x = 34 := by
      rcases ht with e | e <;> simp [instLen, e]
    obtain ⟨sk, sk1, _, g2, g3, g4, g5, g6, _, _⟩ := gen_code_at _ _ _ _ _ _ hs h k x hx hne
    rw [h34] at g5 g6
    obtain ⟨_, _, _, r1, r2⟩ := gen_step_lea _ _ _ _ _ _ _ g2 ht
    rw [g3] at r1 r2
    exact ⟨fun e => ripField_congr _ _ _ _ _ (fun j a b => g6 j (by omega) (by omega))
        (by omega) (r1 e),
      fun e => ripField_congr _ _ _ _ _ (fun j a b => g6 j (by omega) (by omega))
        (by omega) (r2 e)⟩
  exact ⟨fun e => (key (Or.inl e)).1 e, fun e => (key (Or.inr e)).2 e⟩

end pe

/-- C33, for code of at most 2^32 - 0xA000 bytes. When `write_pe` returns for such
a program, the third section header is `.data` with `VirtualSize` 30016, and its
`VirtualAddress` is the `data_rva` passed to the final `gen_code` call, whose result
is the code written. The range of the section ends at or below 2^32. In that code,
with the text at RVA 0x1000, the `lea` of the prologue refers to the RVA
`VirtualAddress + 0` (the tape, 30000 bytes), the `lea` of every `Output` to
`VirtualAddress + 30000` (`written`, 8 bytes) and the `lea` of every `Input` to
`VirtualAddress + 30008` (`readcnt`, 8 bytes), the RVA a field at offset `o` refers
to being `0x1000 + o + 4 +` its value, modulo 2^32. The three ranges follow each
other without overlap and end at `VirtualAddress + VirtualSize`. -/
theorem data_refs_inside (prog : List IRInst) (w : pe.PEFile)
    (h : pe.write_pe prog = some w) (hc : w.code.size ≤ 4294926336) :
    ∃ text idata data : pe.SECTION_HEADER, w.sects = [text, idata, data] ∧
      data.Name = pe.cstr ".data" ++ [0, 0, 0] ∧ data.VirtualSize = 30016 ∧
      text.VirtualAddress = 0x1000 ∧
      pe.gen_code prog 0x1000 w.iat_rva_real data.VirtualAddress = some w.code ∧
      data.VirtualAddress + data.VirtualSize ≤ 4294967296 ∧
      (0x1000 + (12 + 4) + pe.read32 w.code.data 12) % 4294967296 = data.VirtualAddress + 0 ∧
      (∀ (k : Nat) (x : IRInst), prog[k]? = some x → x.type = .Output →
        (0x1000 + (44 + pe.codeLen (prog.take k) + 15 + 4) +
          pe.read32 w.code.data (44 + pe.codeLen (prog.take k) + 15)) % 4294967296 =
          data.VirtualAddress + 30000) ∧
      (∀ (k : Nat) (x : IRInst), prog[k]? = some x → x.type = .Input →
        (0x1000 + (44 + pe.codeLen (prog.take k) + 15 + 4) +
          pe.read32 w.code.data (44 + pe.codeLen (prog.take k) + 15)) % 4294967296 =
          data.VirtualAddress + 30008) ∧
      data.VirtualAddress ≤ data.VirtualAddress + 0 ∧
      data.VirtualAddress + 0 + 30000 ≤ data.VirtualAddress + 30000 ∧
      data.VirtualAddress + 30000 + 8 ≤ data.VirtualAddress + 30008 ∧
      data.VirtualAddress + 30008 + 8 ≤ data.VirtualAddress + data.VirtualSize := by
  obtain ⟨_, _, hcode, _, _, _, _, _, _, _, _, _, _, _, _, _, hsects, _⟩ := pe.write_pe_inv prog w h
  obtain ⟨_, hcs, _, hir, _, _, _, hdr⟩ := pe.write_pe_layout prog w h
  have e1 : w.code_size = w.code.size := by rw [hcs]; omega
  have e2 : w.idata_rva = 4096 + (w.code.size + 4095) / 4096 * 4096 := by
    rw [hir, e1]; omega
  have e3 : w.data_rva = w.idata_rva + 4096 := by rw [hdr]; omega
  have hb : w.data_rva + 30016 ≤ 4294967296 := by omega
  obtain ⟨r0, r1⟩ := pe.gen_code_data_refs prog 0x1000 w.iat_rva_real w.data_rva w.code hcode
  refine ⟨_, _, _, hsects, rfl, rfl, rfl, hcode, hb, ?_, ?_, ?_, Nat.le_refl _, Nat.le_refl _,
    Nat.le_of_eq (Nat.add_assoc w.data_rva 30000 8),
    Nat.le_of_eq (Nat.add_assoc w.data_rva 30008 8)⟩
  · have := r0.2
    rw [Nat.mod_eq_of_lt (show w.data_rva < 4294967296 by omega)] at this
    exact this
  · intro k x hx ht
    have := ((r1 k x hx).1 ht).2
    rw [Nat.mod_eq_of_lt (show w.data_rva + 30000 < 4294967296 by omega)] at this
    exact this
  · intro k x hx ht
    have := ((r1 k x hx).2 ht).2
    rw [Nat.mod_eq_of_lt (show w.data_rva + 30008 < 4294967296 by omega)] at this
    exact this

theorem data_refs_inside_witness :
    ∃ w, pe.write_pe sample_loop = some w ∧ w.code.size ≤ 4294926336 ∧
    (∃ text idata data : pe.SECTION_HEADER, w.sects = [text, idata, data] ∧
      data.Name = pe.cstr ".data" ++ [0, 0, 0] ∧ data.VirtualSize = 30016 ∧
      text.VirtualAddress = 0x1000 ∧
      pe.gen_code sample_loop 0x1000 w.iat_rva_real data.VirtualAddress = some w.code ∧
      data.VirtualAddress + data.VirtualSize ≤ 4294967296 ∧
      (0x1000 + (12 + 4) + pe.read32 w.code.data 12) % 4294967296 = data.VirtualAddress + 0 ∧
      (∀ (k : Nat) (x : IRInst), sample_loop[k]? = some x → x.type = .Output →
        (0x1000 + (44 + pe.codeLen (sample_loop.take k) + 15 + 4) +
          pe.read32 w.code.data (44 + pe.codeLen (sample_loop.take k) + 15)) % 4294967296 =
          data.VirtualAddress + 30000) ∧
      (∀ (k : Nat) (x : IRInst), sample_loop[k]? = some x → x.type = .Input →
        (0x1000 + (44 + pe.codeLen (sample_loop.take k) + 15 + 4) +
          pe.read32 w.code.data (44 + pe.codeLen (sample_loop.take k) + 15)) % 4294967296 =
          data.VirtualAddress + 30008) ∧
      data.VirtualAddress ≤ data.VirtualAddress + 0 ∧
      data.VirtualAddress + 0 + 30000 ≤ data.VirtualAddress + 30000 ∧
      data.VirtualAddress + 30000 + 8 ≤ data.VirtualAddress + 30008 ∧
      data.VirtualAddress + 30008 + 8 ≤ data.VirtualAddress + data.VirtualSize) :=
  (pe.write_pe_defined sample_loop pe.jumpInvariant_sample).elim fun w hw =>
    have hc : w.code.size ≤ 4294926336 := by
      rw [(pe.write_pe_layout _ w hw).1]; decide
    ⟨w, hw, hc, data_refs_inside sample_loop w hw hc⟩

/-- C33 fails without a bound on the code size. The program of 126321362 `Output`
instructions has 4294926360 bytes of code; `write_pe` returns for it with the
`.data` section at RVA 4294938624 = 2^32 - 28672 and `VirtualSize` 30016, so the
section reaches beyond 2^32. The target `data_rva + 30000` of the `lea` of `written`
wraps: the `lea` of the first `Output`, whose field is at offset 44 + 15 of the code,
refers to RVA 1328, which is below the `.data` section. -/
theorem data_refs_wrap :
    ∃ w, pe.write_pe (List.replicate 126321362 ⟨.Output, 0, -1⟩) = some w ∧
      w.code.size = 4294926360 ∧
      ∃ text idata data : pe.SECTION_HEADER, w.sects = [text, idata, data] ∧
        data.VirtualAddress = 4294938624 ∧ data.VirtualSize = 30016 ∧
        pe.gen_code (List.replicate 126321362 ⟨.Output, 0, -1⟩) 0x1000 w.iat_rva_real
          data.VirtualAddress = some w.code ∧
        (List.replicate 126321362 (⟨.Output, 0, -1⟩ : IRInst))[0]? = some ⟨.Output, 0, -1⟩ ∧
        (0x1000 + (44 + 15 + 4) + pe.read32 w.code.data (44 + 15)) % 4294967296 = 1328 ∧
        ¬ (data.VirtualAddress ≤ 1328) ∧
        ¬ (data.VirtualAddress + data.VirtualSize ≤ 4294967296) := by
  obtain ⟨w, hw⟩ := pe.write_pe_defined_of_targets (List.replicate 126321362 ⟨.Output, 0, -1⟩)
    (fun x hx tx => by
      rw [List.eq_of_mem_replicate hx] at tx
      cases tx)
  obtain ⟨_, _, hcode, _, _, _, _, _, _, _, _, _, _, _, _, _, hsects, _⟩ := pe.write_pe_inv _ w hw
  obtain ⟨hsize, hcs, _, hir, _, _, _, hdr⟩ := pe.write_pe_layout _ w hw
  rw [pe.codeLen_replicate_output] at hsize
  have e1 : w.code_size = 4294926360 := by rw [hcs, hsize]
  have e2 : w.idata_rva = 4294934528 := by rw [hir, e1]
  have e3 : w.data_rva = 4294938624 := by rw [hdr, e2]
  have h0 : (List.replicate 126321362 (⟨.Output, 0, -1⟩ : IRInst))[0]? =
      some ⟨.Output, 0, -1⟩ := by
    rw [List.getElem?_replicate]; rfl
  have hr := ((pe.gen_code_data_refs _ 0x1000 w.iat_rva_real w.data_rva w.code hcode).2 0 _ h0).1
    rfl
  have hr2 := hr.2
  rw [List.take_zero, e3] at hr2
  refine ⟨w, hw, hsize, _, _, _, hsects, e3, rfl, hcode, h0, hr2, ?_, ?_⟩
  · show ¬ (w.data_rva ≤ 1328)
    rw [e3]; decide
  · show ¬ (w.data_rva + 30016 ≤ 4294967296)
    rw [e3]; decide



/-! ## Label pairing in the NASM and AT&T generators -/

theorem unlines_nil : unlines [] = "" := rfl

theorem unlines_cons (a : String) (l : List String) : unlines (a :: l) = a ++ "\n" ++ unlines l := by
  apply String.ext
  simp [unlines, String.data_join]

theorem unlines_append (a b : List String) : unlines (a ++ b) = unlines a ++ unlines b := by
  induction a with
  | nil => apply String.ext; simp [unlines]
  | cons x xs ih =>
    rw [List.cons_append, unlines_cons, unlines_cons, ih]
    simp only [String.append_assoc]

set_option maxRecDepth 100000 in
theorem nasm_header_lines : NasmCodeGen.header = unlines
    ["; BF Compiler output - NASM x86-64 for Windows", "default rel", "bits 64", "",
      "extern GetStdHandle", "extern WriteFile", "extern ReadFile", "extern ExitProcess", "",
      "section .bss", "tape:    resb 30000", "written: resq 1", "readcnt: resq 1", "",
      "section .text", "global main", "main:", "    push rbx", "    sub rsp, 48",
      "    lea rbx, [tape]", "", "    mov ecx, -11", "    call GetStdHandle", "    mov r12, rax",
      "    mov ecx, -10", "    call GetStdHandle", "    mov r13, rax", ""] := by rfl

theorem nasm_footer_lines : NasmCodeGen.footer =
    unlines ["", "    xor ecx, ecx", "    call ExitProcess"] := by rfl

set_option maxRecDepth 100000 in
theorem att_header_lines : AttCodeGen.header = unlines
    ["# BF Compiler output - AT&T syntax x86-64 for Windows", ".global main", "",
      ".extern GetStdHandle", ".extern WriteFile", ".extern ReadFile", ".extern ExitProcess", "",
      ".bss", "tape:    .space 30000", "written: .space 8", "readcnt: .space 8", "",
      ".text", "main:", "    pushq %rbx", "    subq $48, %rsp",
      "    leaq tape(%rip), %rbx", "", "    movl $-11, %ecx", "    call GetStdHandle",
      "    movq %rax, %r12", "    movl $-10, %ecx", "    call GetStdHandle",
      "    movq %rax, %r13", ""] := by rfl

theorem att_footer_lines : AttCodeGen.footer =
    unlines ["", "    xorl %ecx, %ecx", "    call ExitProcess"] := by rfl


theorem nasm_step (s : AsmState) (x : IRInst) :
    NasmCodeGen.step s x =
      if x.type = .LoopBegin then
        some ⟨s.o ++ unlines (asmChunk "    cmp byte [rbx], 0" NasmCodeGen.plain x s.label_id),
          s.label_id + 1, s.label_id :: s.label_stack⟩
      else if x.type = .LoopEnd then
        match s.label_stack with
        | [] => none
        | id :: rest =>
          some ⟨s.o ++ unlines (asmChunk "    cmp byte [rbx], 0" NasmCodeGen.plain x id),
            s.label_id, rest⟩
      else
        some ⟨s.o ++ unlines (asmChunk "    cmp byte [rbx], 0" NasmCodeGen.plain x 0),
          s.label_id, s.label_stack⟩ := by
  cases ht : x.type <;>
    simp only [NasmCodeGen.step, ht, asmChunk, NasmCodeGen.plain, reduceCtorEq, if_true,
      if_false, Option.some.injEq, AsmState.mk.injEq, and_true]
  · split_ifs <;> apply String.ext <;>
      simp only [unlines, String.data_append, String.data_join, List.map_cons, List.map_nil,
        List.flatten_cons, List.flatten_nil, List.append_assoc, List.append_nil] <;> rfl
  · split_ifs <;> apply String.ext <;>
      simp only [unlines, String.data_append, String.data_join, List.map_cons, List.map_nil,
        List.flatten_cons, List.flatten_nil, List.append_assoc, List.append_nil] <;> rfl
  · apply String.ext <;>
      simp only [unlines, String.data_append, String.data_join, List.map_cons, List.map_nil,
        List.flatten_cons, List.flatten_nil, List.append_assoc, List.append_nil] <;> rfl
  · apply String.ext <;>
      simp only [unlines, String.data_append, String.data_join, List.map_cons, List.map_nil,
        List.flatten_cons, List.flatten_nil, List.append_assoc, List.append_nil] <;> rfl
  · apply String.ext <;>
      simp only [unlines, String.data_append, String.data_join, List.map_cons, List.map_nil,
        List.flatten_cons, List.flatten_nil, List.append_assoc, List.append_nil] <;> rfl
  · cases s.label_stack with
    | nil => rfl
    | cons id rest =>
      simp only [Option.some.injEq, AsmState.mk.injEq, and_true]
      apply String.ext <;>
      simp only [unlines, String.data_append, String.data_join, List.map_cons, List.map_nil,
        List.flatten_cons, List.flatten_nil, List.append_assoc, List.append_nil] <;> rfl
  · apply String.ext <;>
      simp only [unlines, String.data_append, String.data_join, List.map_cons, List.map_nil,
        List.flatten_cons, List.flatten_nil, List.append_assoc, List.append_nil] <;> rfl

theorem att_step (s : AsmState) (x : IRInst) :
    AttCodeGen.step s x =
      if x.type = .LoopBegin then
        some ⟨s.o ++ unlines (asmChunk "    cmpb $0, (%rbx)" AttCodeGen.plain x s.label_id),
          s.label_id + 1, s.label_id :: s.label_stack⟩
      else if x.type = .LoopEnd then
        match s.label_stack with
        | [] => none
        | id :: rest =>
          some ⟨s.o ++ unlines (asmChunk "    cmpb $0, (%rbx)" AttCodeGen.plain x id),
            s.label_id, rest⟩
      else
        some ⟨s.o ++ unlines (asmChunk "    cmpb $0, (%rbx)" AttCodeGen.plain x 0),
          s.label_id, s.label_stack⟩ := by
  cases ht : x.type <;>
    simp only [AttCodeGen.step, ht, asmChunk, AttCodeGen.plain, reduceCtorEq, if_true,
      if_false, Option.some.injEq, AsmState.mk.injEq, and_true]
  · split_ifs <;> apply String.ext <;>
      simp only [unlines, String.data_append, String.data_join, List.map_cons, List.map_nil,
        List.flatten_cons, List.flatten_nil, List.append_assoc, List.append_nil] <;> rfl
  · split_ifs <;> apply String.ext <;>
      simp only [unlines, String.data_append, String.data_join, List.map_cons, List.map_nil,
        List.flatten_cons, List.flatten_nil, List.append_assoc, List.append_nil] <;> rfl
  · apply String.ext <;>
      simp only [unlines, String.data_append, String.data_join, List.map_cons, List.map_nil,
        List.flatten_cons, List.flatten_nil, List.append_assoc, List.append_nil] <;> rfl
  · apply String.ext <;>
      simp only [unlines, String.data_append, String.data_join, List.map_cons, List.map_nil,
        List.flatten_cons, List.flatten_nil, List.append_assoc, List.append_nil] <;> rfl
  · apply String.ext <;>
      simp only [unlines, String.data_append, String.data_join, List.map_cons, List.map_nil,
        List.flatten_cons, List.flatten_nil, List.append_assoc, List.append_nil] <;> rfl
  · cases s.label_stack with
    | nil => rfl
    | cons id rest =>
      simp only [Option.some.injEq, AsmState.mk.injEq, and_true]
      apply String.ext <;>
      simp only [unlines, String.data_append, String.data_join, List.map_cons, List.map_nil,
        List.flatten_cons, List.flatten_nil, List.append_assoc, List.append_nil] <;> rfl
  · apply String.ext <;>
      simp only [unlines, String.data_append, String.data_join, List.map_cons, List.map_nil,
        List.flatten_cons, List.flatten_nil, List.append_assoc, List.append_nil] <;> rfl

/-- The loop of a generator in terms of the lines of the instructions. -/
theorem asm_loop_chunks (step : AsmState → IRInst → Option AsmState)
    (loopf : List IRInst → AsmState → Option AsmState) (cmp : String)
    (plain : IRInst → List String)
    (hnil : ∀ s, loopf [] s = some s)
    (hcons : ∀ x xs s, loopf (x :: xs) s =
      match step s x with
      | none => none
      | some s1 => loopf xs s1)
    (hstep : ∀ s x, step s x =
      if x.type = .LoopBegin then
        some ⟨s.o ++ unlines (asmChunk cmp plain x s.label_id), s.label_id + 1,
          s.label_id :: s.label_stack⟩
      else if x.type = .LoopEnd then
        match s.label_stack with
        | [] => none
        | id :: rest => some ⟨s.o ++ unlines (asmChunk cmp plain x id), s.label_id, rest⟩
      else some ⟨s.o ++ unlines (asmChunk cmp plain x 0), s.label_id, s.label_stack⟩)
    (l : List IRInst) : ∀ s : AsmState,
    (loopf l s).map (fun s1 => s1.o) =
      (asmChunks cmp plain l s.label_id s.label_stack).map
        (fun cs => s.o ++ unlines cs.flatten) := by
  induction l with
  | nil =>
    intro s
    rw [hnil]
    simp only [asmChunks, Option.map_some', List.flatten_nil, unlines_nil, String.append_empty]
  | cons x xs ih =>
    intro s
    rw [hcons, hstep]
    by_cases h1 : x.type = .LoopBegin
    · simp only [h1, if_true, asmChunks, ih, Option.map_map]
      congr 1
      funext cs
      simp only [Function.comp, List.flatten_cons, unlines_append, String.append_assoc]
    · by_cases h2 : x.type = .LoopEnd
      · simp only [h2, reduceCtorEq, if_true, if_false, asmChunks]
        cases s.label_stack with
        | nil => rfl
        | cons id rest =>
          dsimp only
          rw [ih]
          simp only [Option.map_map]
          congr 1
          funext cs
          simp only [Function.comp, List.flatten_cons, unlines_append, String.append_assoc]
      · simp only [h1, h2, if_false, asmChunks, ih, Option.map_map]
        congr 1
        funext cs
        simp only [Function.comp, List.flatten_cons, unlines_append, String.append_assoc]

/-- One step back in `asmChunks`. -/
theorem asmChunks_cons (cmp : String) (plain : IRInst → List String) (x : IRInst)
    (xs : List IRInst) (n : Nat) (st : List Nat) (cs : List (List String))
    (h : asmChunks cmp plain (x :: xs) n st = some cs) :
    ∃ cs1 n1 st1 id, asmChunks cmp plain xs n1 st1 = some cs1 ∧
      cs = asmChunk cmp plain x id :: cs1 ∧
      ((x.type = .LoopBegin ∧ id = n ∧ n1 = n + 1 ∧ st1 = n :: st) ∨
        (x.type = .LoopEnd ∧ st = id :: st1 ∧ n1 = n) ∨
        (x.type ≠ .LoopBegin ∧ x.type ≠ .LoopEnd ∧ n1 = n ∧ st1 = st)) := by
  simp only [asmChunks] at h
  by_cases h1 : x.type = .LoopBegin
  · simp only [h1, if_true, Option.map_eq_some'] at h
    obtain ⟨cs1, e1, e2⟩ := h
    exact ⟨cs1, n + 1, n :: st, n, e1, by rw [← e2], Or.inl ⟨h1, rfl, rfl, rfl⟩⟩
  · by_cases h2 : x.type = .LoopEnd
    · simp only [h2, reduceCtorEq, if_true, if_false] at h
      cases st with
      | nil => cases h
      | cons id rest =>
        simp only [Option.map_eq_some'] at h
        obtain ⟨cs1, e1, e2⟩ := h
        exact ⟨cs1, n, rest, id, e1, by rw [← e2], Or.inr (Or.inl ⟨h2, rfl, rfl⟩)⟩
    · simp only [h1, h2, if_false, Option.map_eq_some'] at h
      obtain ⟨cs1, e1, e2⟩ := h
      exact ⟨cs1, n, st, 0, e1, by rw [← e2], Or.inr (Or.inr ⟨h1, h2, rfl, rfl⟩)⟩

theorem balancedFrom_cons (d : Nat) (x : IRInst) (xs : List IRInst)
    (h : balancedFrom d (x :: xs) = true) :
    (x.type = .LoopBegin ∧ balancedFrom (d + 1) xs = true) ∨
    (x.type = .LoopEnd ∧ ∃ e, d = e + 1 ∧ balancedFrom e xs = true) ∨
    (x.type ≠ .LoopBegin ∧ x.type ≠ .LoopEnd ∧ balancedFrom d xs = true) := by
  simp only [balancedFrom] at h
  by_cases h1 : x.type = .LoopBegin
  · simp only [h1, if_true] at h
    exact Or.inl ⟨h1, h⟩
  · by_cases h2 : x.type = .LoopEnd
    · simp only [h2, reduceCtorEq, if_true, if_false] at h
      cases d with
      | zero => simp at h
      | succ e => exact Or.inr (Or.inl ⟨h2, e, rfl, h⟩)
    · simp only [h1, h2, if_false] at h
      exact Or.inr (Or.inr ⟨h1, h2, h⟩)

theorem balancedFrom_open (d : Nat) (x : IRInst) (xs : List IRInst) (h : x.type = .LoopBegin) :
    balancedFrom d (x :: xs) = balancedFrom (d + 1) xs := by
  simp only [balancedFrom, h, if_true]

theorem balancedFrom_close (d : Nat) (x : IRInst) (xs : List IRInst) (h : x.type = .LoopEnd) :
    balancedFrom (d + 1) (x :: xs) = balancedFrom d xs := by
  simp only [balancedFrom, h, reduceCtorEq, if_true, if_false]

theorem balancedFrom_plain (d : Nat) (x : IRInst) (xs : List IRInst)
    (h1 : x.type ≠ .LoopBegin) (h2 : x.type ≠ .LoopEnd) :
    balancedFrom d (x :: xs) = balancedFrom d xs := by
  simp only [balancedFrom, h1, h2, if_false]

section chunks

variable (cmp : String) (plain : IRInst → List String)

theorem asmChunks_defined (l : List IRInst) : ∀ (n : Nat) (st : List Nat),
    balancedFrom st.length l = true → ∃ cs, asmChunks cmp plain l n st = some cs := by
  induction l with
  | nil => intro n st _; exact ⟨[], rfl⟩
  | cons x xs ih =>
    intro n st h
    rcases balancedFrom_cons _ _ _ h with ⟨h1, hb⟩ | ⟨h2, e, he, hb⟩ | ⟨h1, h2, hb⟩
    · obtain ⟨cs, hcs⟩ := ih (n + 1) (n :: st) hb
      exact ⟨asmChunk cmp plain x n :: cs,
        by simp only [asmChunks, h1, if_true, hcs, Option.map_some']⟩
    · cases st with
      | nil => cases he
      | cons id rest =>
        simp only [List.length_cons, Nat.add_right_cancel_iff] at he
        obtain ⟨cs, hcs⟩ := ih n rest (by rw [he]; exact hb)
        exact ⟨asmChunk cmp plain x id :: cs,
          by simp only [asmChunks, h2, reduceCtorEq, if_true, if_false, hcs, Option.map_some']⟩
    · obtain ⟨cs, hcs⟩ := ih n st hb
      exact ⟨asmChunk cmp plain x 0 :: cs,
        by simp only [asmChunks, h1, h2, if_false, hcs, Option.map_some']⟩

theorem asmChunks_length (l : List IRInst) : ∀ (n : Nat) (st : List Nat) (cs : List (List String)),
    asmChunks cmp plain l n st = some cs → cs.length = l.length := by
  induction l with
  | nil => intro n st cs h; simp only [asmChunks, Option.some.injEq] at h; rw [← h]; rfl
  | cons x xs ih =>
    intro n st cs h
    obtain ⟨cs1, n1, st1, id, h1, h2, _⟩ := asmChunks_cons cmp plain x xs n st cs h
    rw [h2, List.length_cons, List.length_cons, ih n1 st1 cs1 h1]

/-- The chunk of a `LoopBegin` carries the number of `LoopBegin` before it. -/
theorem asmChunks_open (l : List IRInst) : ∀ (n : Nat) (st : List Nat) (cs : List (List String))
    (i : Nat) (x : IRInst), asmChunks cmp plain l n st = some cs → l[i]? = some x →
    x.type = .LoopBegin →
    cs[i]? = some (asmChunk cmp plain x
      (n + (l.take i).countP (fun y => y.type = .LoopBegin))) := by
  induction l with
  | nil => intro n st cs i x _ hx; simp at hx
  | cons z zs ih =>
    intro n st cs i x h hx tx
    obtain ⟨cs1, n1, st1, id, h1, h2, h3⟩ := asmChunks_cons cmp plain z zs n st cs h
    cases i with
    | zero =>
      simp only [List.getElem?_cons_zero, Option.some.injEq] at hx
      subst hx
      rcases h3 with ⟨_, e, _, _⟩ | ⟨t, _⟩ | ⟨t, _⟩
      · rw [h2, e]; simp
      · rw [tx] at t; cases t
      · exact absurd tx t
    | succ i =>
      simp only [List.getElem?_cons_succ] at hx
      have := ih n1 st1 cs1 i x h1 hx tx
      rw [h2, List.getElem?_cons_succ, this]
      rcases h3 with ⟨t, _, e, _⟩ | ⟨t, _, e⟩ | ⟨t, _, e, _⟩
      · rw [e]
        simp only [List.take_succ_cons, List.countP_cons, t, decide_True, if_true]
        congr 2
        omega
      · rw [e]
        simp only [List.take_succ_cons, List.countP_cons, t, reduceCtorEq, decide_False,
          Bool.false_eq_true, if_false, Nat.add_zero]
      · rw [e]
        simp only [List.take_succ_cons, List.countP_cons, t, decide_False,
          Bool.false_eq_true, if_false, Nat.add_zero]

/-- The chunk of an instruction that is not a bracket. -/
theorem asmChunks_plain (l : List IRInst) : ∀ (n : Nat) (st : List Nat) (cs : List (List String))
    (i : Nat) (x : IRInst), asmChunks cmp plain l n st = some cs → l[i]? = some x →
    x.type ≠ .LoopBegin → x.type ≠ .LoopEnd → cs[i]? = some (plain x) := by
  induction l with
  | nil => intro n st cs i x _ hx; simp at hx
  | cons z zs ih =>
    intro n st cs i x h hx t1 t2
    obtain ⟨cs1, n1, st1, id, h1, h2, _⟩ := asmChunks_cons cmp plain z zs n st cs h
    cases i with
    | zero =>
      simp only [List.getElem?_cons_zero, Option.some.injEq] at hx
      subst hx
      rw [h2]
      simp [asmChunk, t1, t2]
    | succ i =>
      simp only [List.getElem?_cons_succ] at hx
      rw [h2, List.getElem?_cons_succ]
      exact ih n1 st1 cs1 i x h1 hx t1 t2

/-- The `LoopEnd` that closes entry `e` of the stack carries the number held there. -/
theorem asmChunks_top (l : List IRInst) : ∀ (e n : Nat) (st : List Nat) (id : Nat)
    (cs : List (List String)), asmChunks cmp plain l n st = some cs → st[e]? = some id →
    balancedFrom st.length l = true →
    ∃ j y, l[j]? = some y ∧ y.type = .LoopEnd ∧ balancedFrom e (l.take j) = true ∧
      cs[j]? = some (asmChunk cmp plain y id) := by
  induction l with
  | nil =>
    intro e n st id cs _ hid hb
    simp only [balancedFrom, beq_iff_eq] at hb
    rw [List.length_eq_zero.1 hb] at hid
    simp at hid
  | cons z zs ih =>
    intro e n st id cs h hid hb
    obtain ⟨cs1, n1, st1, id1, h1, h2, h3⟩ := asmChunks_cons cmp plain z zs n st cs h
    rcases h3 with ⟨t, _, _, est⟩ | ⟨t, est, _⟩ | ⟨t1, t2, _, est⟩
    · rw [balancedFrom_open _ _ _ t] at hb
      obtain ⟨j, y, a1, a2, a3, a4⟩ := ih (e + 1) n1 st1 id cs1 h1
        (by rw [est, List.getElem?_cons_succ]; exact hid) (by rw [est]; exact hb)
      exact ⟨j + 1, y, by simpa using a1, a2,
        by rw [List.take_succ_cons, balancedFrom_open _ _ _ t]; exact a3,
        by rw [h2, List.getElem?_cons_succ]; exact a4⟩
    · rw [est, List.length_cons, balancedFrom_close _ _ _ t] at hb
      cases e with
      | zero =>
        rw [est, List.getElem?_cons_zero, Option.some.injEq] at hid
        subst hid
        exact ⟨0, z, by simp, t, rfl, by rw [h2]; simp⟩
      | succ e =>
        rw [est, List.getElem?_cons_succ] at hid
        obtain ⟨j, y, a1, a2, a3, a4⟩ := ih e n1 st1 id cs1 h1 hid hb
        exact ⟨j + 1, y, by simpa using a1, a2,
          by rw [List.take_succ_cons, balancedFrom_close _ _ _ t]; exact a3,
          by rw [h2, List.getElem?_cons_succ]; exact a4⟩
    · rw [balancedFrom_plain _ _ _ t1 t2] at hb
      obtain ⟨j, y, a1, a2, a3, a4⟩ := ih e n1 st1 id cs1 h1 (by rw [est]; exact hid)
        (by rw [est]; exact hb)
      exact ⟨j + 1, y, by simpa using a1, a2,
        by rw [List.take_succ_cons, balancedFrom_plain _ _ _ t1 t2]; exact a3,
        by rw [h2, List.getElem?_cons_succ]; exact a4⟩

/-- Every `LoopBegin` has its `LoopEnd`, and the two carry the same number. -/
theorem asmChunks_match_open (l : List IRInst) : ∀ (n : Nat) (st : List Nat)
    (cs : List (List String)) (i : Nat) (x : IRInst), asmChunks cmp plain l n st = some cs →
    balancedFrom st.length l = true → l[i]? = some x → x.type = .LoopBegin →
    ∃ j y, i < j ∧ l[j]? = some y ∧ y.type = .LoopEnd ∧
      Balanced ((l.take j).drop (i + 1)) ∧
      cs[j]? = some (asmChunk cmp plain y
        (n + (l.take i).countP (fun y => y.type = .LoopBegin))) := by
  induction l with
  | nil => intro n st cs i x _ _ hx; simp at hx
  | cons z zs ih =>
    intro n st cs i x h hb hx tx
    obtain ⟨cs1, n1, st1, id1, h1, h2, h3⟩ := asmChunks_cons cmp plain z zs n st cs h
    cases i with
    | zero =>
      simp only [List.getElem?_cons_zero, Option.some.injEq] at hx
      subst hx
      rcases h3 with ⟨_, _, _, est⟩ | ⟨t, _⟩ | ⟨t, _⟩
      · rw [balancedFrom_open _ _ _ tx] at hb
        obtain ⟨j, y, a1, a2, a3, a4⟩ := asmChunks_top cmp plain zs 0 n1 st1 n cs1 h1
          (by rw [est]; simp) (by rw [est]; exact hb)
        exact ⟨j + 1, y, by omega, by simpa using a1, a2,
          by simpa [Balanced] using a3,
          by rw [h2, List.getElem?_cons_succ, a4]; simp⟩
      · rw [tx] at t; cases t
      · exact absurd tx t
    | succ i =>
      simp only [List.getElem?_cons_succ] at hx
      have hb1 : balancedFrom st1.length zs = true := by
        rcases h3 with ⟨t, _, _, e⟩ | ⟨t, e, _⟩ | ⟨t1, t2, _, e⟩
        · rw [balancedFrom_open _ _ _ t] at hb; rw [e]; exact hb
        · rw [e, List.length_cons, balancedFrom_close _ _ _ t] at hb; exact hb
        · rw [balancedFrom_plain _ _ _ t1 t2] at hb; rw [e]; exact hb
      obtain ⟨j, y, a1, a2, a3, a4, a5⟩ := ih n1 st1 cs1 i x h1 hb1 hx tx
      refine ⟨j + 1, y, by omega, by simpa using a2, a3, by simpa using a4, ?_⟩
      rw [h2, List.getElem?_cons_succ, a5]
      rcases h3 with ⟨t, _, e, _⟩ | ⟨t, _, e⟩ | ⟨t, _, e, _⟩
      · rw [e]
        simp only [List.take_succ_cons, List.countP_cons, t, decide_True, if_true]
        congr 2
        omega
      · rw [e]
        simp only [List.take_succ_cons, List.countP_cons, t, reduceCtorEq, decide_False,
          Bool.false_eq_true, if_false, Nat.add_zero]
      · rw [e]
        simp only [List.take_succ_cons, List.countP_cons, t, decide_False,
          Bool.false_eq_true, if_false, Nat.add_zero]

/-- Every `LoopEnd` carries the number of its `LoopBegin`, or a number that was on
the stack at the start. -/
theorem asmChunks_match_close (l : List IRInst) : ∀ (n : Nat) (st : List Nat)
    (cs : List (List String)) (j : Nat) (y : IRInst), asmChunks cmp plain l n st = some cs →
    l[j]? = some y → y.type = .LoopEnd →
    (∃ i x, i < j ∧ l[i]? = some x ∧ x.type = .LoopBegin ∧
      Balanced ((l.take j).drop (i + 1)) ∧
      cs[j]? = some (asmChunk cmp plain y
        (n + (l.take i).countP (fun y => y.type = .LoopBegin)))) ∨
    (∃ d id, st[d]? = some id ∧ balancedFrom d (l.take j) = true ∧
      cs[j]? = some (asmChunk cmp plain y id)) := by
  induction l with
  | nil => intro n st cs j y _ hy; simp at hy
  | cons z zs ih =>
    intro n st cs j y h hy ty
    obtain ⟨cs1, n1, st1, id1, h1, h2, h3⟩ := asmChunks_cons cmp plain z zs n st cs h
    cases j with
    | zero =>
      simp only [List.getElem?_cons_zero, Option.some.injEq] at hy
      subst hy
      rcases h3 with ⟨t, _⟩ | ⟨_, est, _⟩ | ⟨_, t, _⟩
      · rw [ty] at t; cases t
      · exact Or.inr ⟨0, id1, by rw [est]; simp, rfl, by rw [h2]; simp⟩
      · exact absurd ty t
    | succ j =>
      simp only [List.getElem?_cons_succ] at hy
      rcases ih n1 st1 cs1 j y h1 hy ty with ⟨i, x, a1, a2, a3, a4, a5⟩ | ⟨d, id, b1, b2, b3⟩
      · refine Or.inl ⟨i + 1, x, by omega, by simpa using a2, a3, by simpa using a4, ?_⟩
        rw [h2, List.getElem?_cons_succ, a5]
        rcases h3 with ⟨t, _, e, _⟩ | ⟨t, _, e⟩ | ⟨t, _, e, _⟩
        · rw [e]
          simp only [List.take_succ_cons, List.countP_cons, t, decide_True, if_true]
          congr 2
          omega
        · rw [e]
          simp only [List.take_succ_cons, List.countP_cons, t, reduceCtorEq, decide_False,
            Bool.false_eq_true, if_false, Nat.add_zero]
        · rw [e]
          simp only [List.take_succ_cons, List.countP_cons, t, decide_False,
            Bool.false_eq_true, if_false, Nat.add_zero]
      · rcases h3 with ⟨t, eid, _, est⟩ | ⟨t, est, _⟩ | ⟨t1, t2, _, est⟩
        · cases d with
          | zero =>
            rw [est, List.getElem?_cons_zero, Option.some.injEq] at b1
            subst b1
            refine Or.inl ⟨0, z, by omega, by simp, t, by simpa [Balanced] using b2, ?_⟩
            rw [h2, List.getElem?_cons_succ, b3]
            simp
          | succ d =>
            rw [est, List.getElem?_cons_succ] at b1
            exact Or.inr ⟨d, id, b1,
              by rw [List.take_succ_cons, balancedFrom_open _ _ _ t]; exact b2,
              by rw [h2, List.getElem?_cons_succ]; exact b3⟩
        · exact Or.inr ⟨d + 1, id, by rw [est, List.getElem?_cons_succ]; exact b1,
            by rw [List.take_succ_cons, balancedFrom_close _ _ _ t]; exact b2,
            by rw [h2, List.getElem?_cons_succ]; exact b3⟩
        · exact Or.inr ⟨d, id, by rw [← est]; exact b1,
            by rw [List.take_succ_cons, balancedFrom_plain _ _ _ t1 t2]; exact b2,
            by rw [h2, List.getElem?_cons_succ]; exact b3⟩

end chunks

/-! ### Decimal numbers and label lines -/

theorem digitChar_value (m : Nat) (h : m < 10) : (Nat.digitChar m).toNat - 48 = m := by
  interval_cases m <;> rfl

theorem toDigitsCore_value : ∀ (fuel n : Nat) (ds : List Char), n < fuel →
    (Nat.toDigitsCore 10 fuel n ds).foldl (fun a c => 10 * a + (c.toNat - 48)) 0 =
      ds.foldl (fun a c => 10 * a + (c.toNat - 48)) n := by
  intro fuel
  induction fuel with
  | zero => intro n ds h; omega
  | succ f ih =>
    intro n ds h
    simp only [Nat.toDigitsCore]
    split_ifs with h0
    · rw [List.foldl_cons, digitChar_value _ (Nat.mod_lt _ (by decide))]
      congr 1
      omega
    · rw [ih (n / 10) _ (by omega), List.foldl_cons,
        digitChar_value _ (Nat.mod_lt _ (by decide))]
      congr 1
      omega

theorem decimalValue_toString (n : Nat) : decimalValue (toString n).data = n := by
  show (Nat.toDigitsCore 10 (n + 1) n []).foldl (fun a c => 10 * a + (c.toNat - 48)) 0 = n
  rw [toDigitsCore_value _ _ _ (Nat.lt_succ_self n)]
  rfl

theorem toString_nat_inj (a b : Nat) (h : toString a = toString b) : a = b := by
  have := congrArg (fun s : String => decimalValue s.data) h
  simpa only [decimalValue_toString] using this

theorem label_inj (p : String) (a b : Nat) (h : p ++ toString a ++ ":" = p ++ toString b ++ ":") :
    a = b := by
  have h1 := congrArg String.data h
  simp only [String.data_append] at h1
  exact toString_nat_inj a b (String.ext (List.append_cancel_left (List.append_cancel_right h1)))

theorem start_take (s : String) :
    (".loop_start_" ++ s ++ ":").data.take 7 = ['.', 'l', 'o', 'o', 'p', '_', 's'] := rfl

theorem end_take (s : String) :
    (".loop_end_" ++ s ++ ":").data.take 7 = ['.', 'l', 'o', 'o', 'p', '_', 'e'] := rfl

theorem blank_take (l : String) (h : l.data.head? = some ' ') (t : List Char) :
    l.data.take 7 ≠ '.' :: t := by
  cases hd : l.data with
  | nil => rw [hd] at h; cases h
  | cons c cs =>
    rw [hd] at h
    simp only [List.head?_cons, Option.some.injEq] at h
    subst h
    simp


/-! ### The lines of a text -/

theorem unlines_data (L : List String) :
    (unlines L).data = ['\n'].intercalate (L.map String.data ++ [[]]) := by
  induction L with
  | nil => rfl
  | cons a l ih =>
    rw [unlines_cons, String.data_append, String.data_append, ih]
    cases l with
    | nil => simp [List.intercalate]
    | cons b l2 =>
      simp only [List.intercalate, List.map_cons, List.cons_append, List.intersperse_cons₂,
        List.flatten_cons, List.append_assoc]

/-- The lines of a text made of newline-free lines are these lines, followed by the
empty piece after the last newline. -/
theorem textLines_unlines (L : List String) (h : ∀ l ∈ L, '\n' ∉ l.data) :
    textLines (unlines L) = L ++ [""] := by
  unfold textLines
  rw [unlines_data, List.splitOn_intercalate _ '\n' _ (by simp)]
  · simp only [List.map_append, List.map_map, List.map_cons, List.map_nil]
    congr 1
    conv => rhs; rw [← List.map_id L]
    rfl
  · intro l hl
    rcases List.mem_append.1 hl with h1 | h1
    · obtain ⟨a, ha, e⟩ := List.mem_map.1 h1
      rw [← e]
      exact h a ha
    · simp only [List.mem_singleton] at h1
      rw [h1]
      simp

theorem count_of_noLabel (L : List String) (h : ∀ l ∈ L, NoLoopLabel l) (k : Nat) :
    L.count (".loop_start_" ++ toString k ++ ":") = 0 ∧
    L.count (".loop_end_" ++ toString k ++ ":") = 0 := by
  constructor
  · rw [List.count_eq_zero]
    intro hm
    exact (h _ hm).1 (start_take _)
  · rw [List.count_eq_zero]
    intro hm
    exact (h _ hm).2 (end_take _)

theorem noLabel_of_blank (l : String) (h : l.data.head? = some ' ') : NoLoopLabel l :=
  ⟨blank_take l h _, blank_take l h _⟩

theorem asmChunk_count (cmp : String) (plain : IRInst → List String)
    (hcmp : cmp.data.head? = some ' ') (hplain : ∀ x, ∀ l ∈ plain x, l.data.head? = some ' ')
    (x : IRInst) (id k : Nat) :
    (asmChunk cmp plain x id).count (".loop_start_" ++ toString k ++ ":") =
      (if x.type = .LoopBegin ∧ id = k then 1 else 0) ∧
    (asmChunk cmp plain x id).count (".loop_end_" ++ toString k ++ ":") =
      (if x.type = .LoopEnd ∧ id = k then 1 else 0) := by
  have hc := noLabel_of_blank cmp hcmp
  have c1 : ".loop_start_" ++ toString k ++ ":" ≠ cmp := fun e => hc.1 (e ▸ start_take _)
  have c2 : ".loop_end_" ++ toString k ++ ":" ≠ cmp := fun e => hc.2 (e ▸ end_take _)
  have j1 : ∀ s : String, ".loop_start_" ++ toString k ++ ":" ≠ "    je .loop_end_" ++ s :=
    fun s e => absurd (congrArg (fun z : String => z.data.head?) e) (by
      show ¬ (some '.' = some ' ')
      decide)
  have j2 : ∀ s : String, ".loop_end_" ++ toString k ++ ":" ≠ "    je .loop_end_" ++ s :=
    fun s e => absurd (congrArg (fun z : String => z.data.head?) e) (by
      show ¬ (some '.' = some ' ')
      decide)
  have j3 : ∀ s : String, ".loop_start_" ++ toString k ++ ":" ≠ "    jne .loop_start_" ++ s :=
    fun s e => absurd (congrArg (fun z : String => z.data.head?) e) (by
      show ¬ (some '.' = some ' ')
      decide)
  have j4 : ∀ s : String, ".loop_end_" ++ toString k ++ ":" ≠ "    jne .loop_start_" ++ s :=
    fun s e => absurd (congrArg (fun z : String => z.data.head?) e) (by
      show ¬ (some '.' = some ' ')
      decide)
  have se : ∀ s : String, ".loop_start_" ++ toString k ++ ":" ≠ ".loop_end_" ++ s ++ ":" :=
    fun s e => absurd ((start_take _).symm.trans ((congrArg (fun z : String => z.data.take 7) e).trans
      (end_take _))) (by decide)
  have es : ∀ s : String, ".loop_end_" ++ toString k ++ ":" ≠ ".loop_start_" ++ s ++ ":" :=
    fun s e => absurd ((end_take _).symm.trans ((congrArg (fun z : String => z.data.take 7) e).trans
      (start_take _))) (by decide)
  by_cases h1 : x.type = .LoopBegin
  · simp only [asmChunk, h1, if_true, true_and, reduceCtorEq, false_and, if_false]
    constructor
    · by_cases hk : id = k
      · subst hk
        rw [List.count_cons_self, List.count_cons_of_ne c1, List.count_cons_of_ne (j1 _)]
        simp
      · have : ".loop_start_" ++ toString k ++ ":" ≠ ".loop_start_" ++ toString id ++ ":" :=
          fun e => hk (label_inj _ _ _ e).symm
        rw [List.count_cons_of_ne this, List.count_cons_of_ne c1, List.count_cons_of_ne (j1 _)]
        simp [hk]
    · rw [List.count_cons_of_ne (es _), List.count_cons_of_ne c2, List.count_cons_of_ne (j2 _)]
      rfl
  · by_cases h2 : x.type = .LoopEnd
    · simp only [asmChunk, h2, if_true, true_and, reduceCtorEq, false_and, if_false]
      constructor
      · rw [List.count_cons_of_ne c1, List.count_cons_of_ne (j3 _), List.count_cons_of_ne (se _)]
        rfl
      · by_cases hk : id = k
        · subst hk
          rw [List.count_cons_of_ne c2, List.count_cons_of_ne (j4 _), List.count_cons_self]
          simp
        · have : ".loop_end_" ++ toString k ++ ":" ≠ ".loop_end_" ++ toString id ++ ":" :=
            fun e => hk (label_inj _ _ _ e).symm
          rw [List.count_cons_of_ne c2, List.count_cons_of_ne (j4 _), List.count_cons_of_ne this]
          simp [hk]
    · simp only [asmChunk, h1, h2, if_false, false_and]
      exact count_of_noLabel _ (fun l hl => noLabel_of_blank l (hplain x l hl)) k

/-- Each `.loop_start_` label below the final `label_id` and not below the initial
one is defined once, and no other is defined. -/
theorem asmChunks_count_start (cmp : String) (plain : IRInst → List String)
    (hcmp : cmp.data.head? = some ' ') (hplain : ∀ x, ∀ l ∈ plain x, l.data.head? = some ' ')
    (l : List IRInst) (k : Nat) : ∀ (n : Nat) (st : List Nat)
    (cs : List (List String)), asmChunks cmp plain l n st = some cs →
    cs.flatten.count (".loop_start_" ++ toString k ++ ":") =
      if n ≤ k ∧ k < n + l.countP (fun y => y.type = .LoopBegin) then 1 else 0 := by
  induction l with
  | nil =>
    intro n st cs h
    simp only [asmChunks, Option.some.injEq] at h
    subst h
    simp only [List.flatten_nil, List.count_nil, List.countP_nil, Nat.add_zero]
    rw [if_neg (by omega)]
  | cons z zs ih =>
    intro n st cs h
    obtain ⟨cs1, n1, st1, id, h1, h2, h3⟩ := asmChunks_cons cmp plain z zs n st cs h
    rw [h2, List.flatten_cons, List.count_append, ih n1 st1 cs1 h1,
      (asmChunk_count cmp plain hcmp hplain z id k).1]
    rcases h3 with ⟨t, e1, e2, _⟩ | ⟨t, _, e2⟩ | ⟨t1, t2, e2, _⟩
    · subst e1 e2
      simp only [t, true_and, List.countP_cons, decide_True, if_true]
      split_ifs <;> omega
    · subst e2
      simp only [t, reduceCtorEq, false_and, if_false, List.countP_cons, decide_False,
        Bool.false_eq_true, Nat.add_zero, Nat.zero_add]
    · subst e2
      simp only [t1, false_and, if_false, List.countP_cons, decide_False,
        Bool.false_eq_true, Nat.add_zero, Nat.zero_add]

/-- Each `.loop_end_` label is defined once for a number taken during the loop, and
once for every entry of the initial stack that holds it. -/
theorem asmChunks_count_end (cmp : String) (plain : IRInst → List String)
    (hcmp : cmp.data.head? = some ' ') (hplain : ∀ x, ∀ l ∈ plain x, l.data.head? = some ' ')
    (l : List IRInst) (k : Nat) : ∀ (n : Nat) (st : List Nat)
    (cs : List (List String)), asmChunks cmp plain l n st = some cs →
    balancedFrom st.length l = true →
    cs.flatten.count (".loop_end_" ++ toString k ++ ":") =
      (if n ≤ k ∧ k < n + l.countP (fun y => y.type = .LoopBegin) then 1 else 0) +
        st.count k := by
  induction l with
  | nil =>
    intro n st cs h hb
    simp only [asmChunks, Option.some.injEq] at h
    subst h
    simp only [balancedFrom, beq_iff_eq] at hb
    rw [List.length_eq_zero.1 hb]
    simp only [List.flatten_nil, List.count_nil, List.countP_nil, Nat.add_zero]
    rw [if_neg (by omega)]
  | cons z zs ih =>
    intro n st cs h hb
    obtain ⟨cs1, n1, st1, id, h1, h2, h3⟩ := asmChunks_cons cmp plain z zs n st cs h
    have hb1 : balancedFrom st1.length zs = true := by
      rcases h3 with ⟨t, _, _, e⟩ | ⟨t, e, _⟩ | ⟨t1, t2, _, e⟩
      · rw [balancedFrom_open _ _ _ t] at hb; rw [e]; exact hb
      · rw [e, List.length_cons, balancedFrom_close _ _ _ t] at hb; exact hb
      · rw [balancedFrom_plain _ _ _ t1 t2] at hb; rw [e]; exact hb
    rw [h2, List.flatten_cons, List.count_append, ih n1 st1 cs1 h1 hb1,
      (asmChunk_count cmp plain hcmp hplain z id k).2]
    rcases h3 with ⟨t, e1, e2, e3⟩ | ⟨t, e3, e2⟩ | ⟨t1, t2, e2, e3⟩
    · subst e1 e2 e3
      simp only [t, reduceCtorEq, false_and, if_false, List.countP_cons, decide_True, if_true,
        List.count_cons, beq_iff_eq, Nat.zero_add]
      split_ifs <;> omega
    · subst e2 e3
      simp only [t, true_and, reduceCtorEq, List.countP_cons, decide_False,
        Bool.false_eq_true, if_false, Nat.add_zero, List.count_cons, beq_iff_eq]
      split_ifs <;> omega
    · subst e2 e3
      simp only [t2, false_and, if_false, List.countP_cons, t1, decide_False,
        Bool.false_eq_true, Nat.add_zero, Nat.zero_add]

/-! ### The lines of the two dialects -/

theorem asmChunks_mem (cmp : String) (plain : IRInst → List String) (l : List IRInst) :
    ∀ (n : Nat) (st : List Nat) (cs : List (List String)),
    asmChunks cmp plain l n st = some cs → ∀ c ∈ cs, ∃ x id, c = asmChunk cmp plain x id := by
  induction l with
  | nil =>
    intro n st cs h c hc
    simp only [asmChunks, Option.some.injEq] at h
    subst h
    cases hc
  | cons z zs ih =>
    intro n st cs h c hc
    obtain ⟨cs1, n1, st1, id, h1, h2, _⟩ := asmChunks_cons cmp plain z zs n st cs h
    rw [h2] at hc
    rcases List.mem_cons.1 hc with e | e
    · exact ⟨z, id, e⟩
    · exact ih n1 st1 cs1 h1 c e

theorem asmChunk_no_newline (cmp : String) (plain : IRInst → List String)
    (hcmp : '\n' ∉ cmp.data) (hplain : ∀ x, ∀ l ∈ plain x, '\n' ∉ l.data) (x : IRInst)
    (id : Nat) : ∀ l ∈ asmChunk cmp plain x id, '\n' ∉ l.data := by
  have n1 : ∀ (a : String) (b : String), '\n' ∉ a.data → '\n' ∉ b.data →
      '\n' ∉ (a ++ toString id ++ b).data := by
    intro a b ha hb
    simp only [String.data_append, List.mem_append, not_or]
    exact ⟨⟨ha, nat_no_newline id⟩, hb⟩
  have n2 : ∀ (a : String), '\n' ∉ a.data → '\n' ∉ (a ++ toString id).data := by
    intro a ha
    simp only [String.data_append, List.mem_append, not_or]
    exact ⟨ha, nat_no_newline id⟩
  intro l hl
  unfold asmChunk at hl
  split_ifs at hl
  · simp only [List.mem_cons, List.mem_singleton, List.not_mem_nil, or_false] at hl
    rcases hl with e | e | e
    · rw [e]; exact n1 _ _ (by decide) (by decide)
    · rw [e]; exact hcmp
    · rw [e]; exact n2 _ (by decide)
  · simp only [List.mem_cons, List.mem_singleton, List.not_mem_nil, or_false] at hl
    rcases hl with e | e | e
    · rw [e]; exact hcmp
    · rw [e]; exact n2 _ (by decide)
    · rw [e]; exact n1 _ _ (by decide) (by decide)
  · exact hplain x l hl

theorem nasm_plain_lines (x : IRInst) :
    ∀ l ∈ NasmCodeGen.plain x, l.data.head? = some ' ' ∧ '\n' ∉ l.data := by
  have key : ∀ (a : String) (i : Int), a.data.head? = some ' ' → '\n' ∉ a.data →
      (a ++ toString i).data.head? = some ' ' ∧ '\n' ∉ (a ++ toString i).data := by
    intro a i h1 h2
    constructor
    · rw [String.data_append]
      cases ha : a.data with
      | nil => rw [ha] at h1; cases h1
      | cons c cs => rw [ha] at h1; exact h1
    · simp only [String.data_append, List.mem_append, not_or]
      exact ⟨h2, int_no_newline i⟩
  have c1 : ∀ l ∈ ["    ; Output", "    mov rcx, r12", "    mov rdx, rbx", "    mov r8, 1",
      "    lea r9, [written]", "    push 0", "    sub rsp, 32", "    call WriteFile",
      "    add rsp, 40", "    ; Input", "    mov rcx, r13", "    lea r9, [readcnt]",
      "    call ReadFile", "    mov byte [rbx], 0"],
      l.data.head? = some ' ' ∧ '\n' ∉ l.data := by decide
  intro l hl
  unfold NasmCodeGen.plain at hl
  cases ht : x.type <;> simp only [ht] at hl
  · simp only [List.mem_singleton] at hl
    rw [hl]
    split_ifs
    · exact key _ _ rfl (by decide)
    · exact key _ _ rfl (by decide)
  · simp only [List.mem_singleton] at hl
    rw [hl]
    split_ifs
    · exact key _ _ rfl (by decide)
    · exact key _ _ rfl (by decide)
  · exact c1 l (by
      simp only [List.mem_cons, List.mem_singleton, List.not_mem_nil, or_false] at hl ⊢
      tauto)
  · exact c1 l (by
      simp only [List.mem_cons, List.mem_singleton, List.not_mem_nil, or_false] at hl ⊢
      tauto)
  · cases hl
  · cases hl
  · exact c1 l (by
      simp only [List.mem_cons, List.mem_singleton, List.not_mem_nil, or_false] at hl ⊢
      tauto)

theorem att_plain_lines (x : IRInst) :
    ∀ l ∈ AttCodeGen.plain x, l.data.head? = some ' ' ∧ '\n' ∉ l.data := by
  have key : ∀ (a b : String) (i : Int), a.data.head? = some ' ' → '\n' ∉ a.data →
      '\n' ∉ b.data →
      (a ++ toString i ++ b).data.head? = some ' ' ∧ '\n' ∉ (a ++ toString i ++ b).data := by
    intro a b i h1 h2 h3
    constructor
    · rw [String.data_append, String.data_append]
      cases ha : a.data with
      | nil => rw [ha] at h1; cases h1
      | cons c cs => rw [ha] at h1; exact h1
    · simp only [String.data_append, List.mem_append, not_or]
      exact ⟨⟨h2, int_no_newline i⟩, h3⟩
  have c1 : ∀ l ∈ ["    # Output", "    movq %r12, %rcx", "    movq %rbx, %rdx",
      "    movq $1, %r8", "    leaq written(%rip), %r9", "    pushq $0", "    subq $32, %rsp",
      "    call WriteFile", "    addq $40, %rsp", "    # Input", "    movq %r13, %rcx",
      "    leaq readcnt(%rip), %r9", "    call ReadFile", "    movb $0, (%rbx)"],
      l.data.head? = some ' ' ∧ '\n' ∉ l.data := by decide
  intro l hl
  unfold AttCodeGen.plain at hl
  cases ht : x.type <;> simp only [ht] at hl
  · simp only [List.mem_singleton] at hl
    rw [hl]
    split_ifs
    · exact key _ _ _ rfl (by decide) (by decide)
    · exact key _ _ _ rfl (by decide) (by decide)
  · simp only [List.mem_singleton] at hl
    rw [hl]
    split_ifs
    · exact key _ _ _ rfl (by decide) (by decide)
    · exact key _ _ _ rfl (by decide) (by decide)
  · exact c1 l (by
      simp only [List.mem_cons, List.mem_singleton, List.not_mem_nil, or_false] at hl ⊢
      tauto)
  · exact c1 l (by
      simp only [List.mem_cons, List.mem_singleton, List.not_mem_nil, or_false] at hl ⊢
      tauto)
  · cases hl
  · cases hl
  · exact c1 l (by
      simp only [List.mem_cons, List.mem_singleton, List.not_mem_nil, or_false] at hl ⊢
      tauto)

/-- The label lines of a whole text: header lines, the lines of the instructions
and footer lines. -/
theorem asm_text_counts (HL FL : List String) (cmp : String) (plain : IRInst → List String)
    (hcmp : cmp.data.head? = some ' ' ∧ '\n' ∉ cmp.data)
    (hplain : ∀ x, ∀ l ∈ plain x, l.data.head? = some ' ' ∧ '\n' ∉ l.data)
    (hH : ∀ l ∈ HL, NoLoopLabel l ∧ '\n' ∉ l.data)
    (hF : ∀ l ∈ FL, NoLoopLabel l ∧ '\n' ∉ l.data)
    (prog : List IRInst) (cs : List (List String))
    (hcs : asmChunks cmp plain prog 0 [] = some cs) (hb : Balanced prog) (k : Nat) :
    (textLines (unlines HL ++ unlines cs.flatten ++ unlines FL)).count
        (".loop_start_" ++ toString k ++ ":") =
      (if k < prog.countP (fun y => y.type = .LoopBegin) then 1 else 0) ∧
    (textLines (unlines HL ++ unlines cs.flatten ++ unlines FL)).count
        (".loop_end_" ++ toString k ++ ":") =
      (if k < prog.countP (fun y => y.type = .LoopBegin) then 1 else 0) := by
  have hnl : ∀ l ∈ HL ++ cs.flatten ++ FL, '\n' ∉ l.data := by
    intro l hl
    rcases List.mem_append.1 hl with h1 | h1
    · rcases List.mem_append.1 h1 with h2 | h2
      · exact (hH l h2).2
      · obtain ⟨c, hc, hlc⟩ := List.mem_flatten.1 h2
        obtain ⟨x, id, e⟩ := asmChunks_mem cmp plain prog 0 [] cs hcs c hc
        rw [e] at hlc
        exact asmChunk_no_newline cmp plain hcmp.2 (fun x l hl => (hplain x l hl).2) x id l hlc
    · exact (hF l h1).2
  have he : NoLoopLabel "" := by
    unfold NoLoopLabel
    decide
  rw [← unlines_append, ← unlines_append, textLines_unlines _ hnl]
  simp only [List.count_append]
  rw [(count_of_noLabel HL (fun l hl => (hH l hl).1) k).1,
    (count_of_noLabel HL (fun l hl => (hH l hl).1) k).2,
    (count_of_noLabel FL (fun l hl => (hF l hl).1) k).1,
    (count_of_noLabel FL (fun l hl => (hF l hl).1) k).2,
    (count_of_noLabel [""] (fun l hl => by
      rw [List.mem_singleton.1 hl]; exact he) k).1,
    (count_of_noLabel [""] (fun l hl => by
      rw [List.mem_singleton.1 hl]; exact he) k).2,
    asmChunks_count_start cmp plain hcmp.1 (fun x l hl => (hplain x l hl).1) prog k 0 [] cs hcs,
    asmChunks_count_end cmp plain hcmp.1 (fun x l hl => (hplain x l hl).1) prog k 0 [] cs hcs hb]
  simp

/-- A line of the text that starts like a loop label is the label line of a loop. -/
theorem asm_text_labels (HL FL : List String) (cmp : String) (plain : IRInst → List String)
    (hcmp : cmp.data.head? = some ' ' ∧ '\n' ∉ cmp.data)
    (hplain : ∀ x, ∀ l ∈ plain x, l.data.head? = some ' ' ∧ '\n' ∉ l.data)
    (hH : ∀ l ∈ HL, NoLoopLabel l ∧ '\n' ∉ l.data)
    (hF : ∀ l ∈ FL, NoLoopLabel l ∧ '\n' ∉ l.data)
    (prog : List IRInst) (cs : List (List String))
    (hcs : asmChunks cmp plain prog 0 [] = some cs) (hb : Balanced prog) (l : String)
    (hl : l ∈ textLines (unlines HL ++ unlines cs.flatten ++ unlines FL))
    (hp : ¬ NoLoopLabel l) :
    ∃ k, k < prog.countP (fun y => y.type = .LoopBegin) ∧
      (l = ".loop_start_" ++ toString k ++ ":" ∨ l = ".loop_end_" ++ toString k ++ ":") := by
  have hcount := asm_text_counts HL FL cmp plain hcmp hplain hH hF prog cs hcs hb
  have bound : ∀ k, (l = ".loop_start_" ++ toString k ++ ":" ∨
      l = ".loop_end_" ++ toString k ++ ":") →
      k < prog.countP (fun y => y.type = .LoopBegin) := by
    intro k hk
    by_contra hn
    have c := hcount k
    rw [if_neg hn] at c
    rcases hk with e | e
    · rw [← e] at c
      exact (List.count_eq_zero.1 c.1) hl
    · rw [← e] at c
      exact (List.count_eq_zero.1 c.2) hl
  have hnl : ∀ l ∈ HL ++ cs.flatten ++ FL, '\n' ∉ l.data := by
    intro l hl
    rcases List.mem_append.1 hl with h1 | h1
    · rcases List.mem_append.1 h1 with h2 | h2
      · exact (hH l h2).2
      · obtain ⟨c, hc, hlc⟩ := List.mem_flatten.1 h2
        obtain ⟨x, id, e⟩ := asmChunks_mem cmp plain prog 0 [] cs hcs c hc
        rw [e] at hlc
        exact asmChunk_no_newline cmp plain hcmp.2 (fun x l hl => (hplain x l hl).2) x id l hlc
    · exact (hF l h1).2
  have hl1 := hl
  rw [← unlines_append, ← unlines_append, textLines_unlines _ hnl] at hl1
  rcases List.mem_append.1 hl1 with h1 | h1
  · rcases List.mem_append.1 h1 with h2 | h2
    · rcases List.mem_append.1 h2 with h3 | h3
      · exact absurd (hH l h3).1 hp
      · obtain ⟨c, hc, hlc⟩ := List.mem_flatten.1 h3
        obtain ⟨x, id, e⟩ := asmChunks_mem cmp plain prog 0 [] cs hcs c hc
        rw [e] at hlc
        by_cases t1 : x.type = .LoopBegin
        · simp only [asmChunk, t1, if_true, List.mem_cons, List.mem_singleton,
            List.not_mem_nil, or_false] at hlc
          rcases hlc with e1 | e1 | e1
          · exact ⟨id, bound id (Or.inl e1), Or.inl e1⟩
          · exact absurd (noLabel_of_blank l (by rw [e1]; exact hcmp.1)) hp
          · exact absurd (noLabel_of_blank l (by rw [e1]; rfl)) hp
        · by_cases t2 : x.type = .LoopEnd
          · simp only [asmChunk, t2, reduceCtorEq, if_true, if_false, List.mem_cons,
              List.mem_singleton, List.not_mem_nil, or_false] at hlc
            rcases hlc with e1 | e1 | e1
            · exact absurd (noLabel_of_blank l (by rw [e1]; exact hcmp.1)) hp
            · exact absurd (noLabel_of_blank l (by rw [e1]; rfl)) hp
            · exact ⟨id, bound id (Or.inr e1), Or.inr e1⟩
          · simp only [asmChunk, t1, t2, if_false] at hlc
            exact absurd (noLabel_of_blank l (hplain x l hlc).1) hp
    · exact absurd (hF l h2).1 hp
  · rw [List.mem_singleton.1 h1] at hp
    exact absurd (by unfold NoLoopLabel; decide) hp

/-- Two dialects give the same number to the same instruction. -/
theorem asmChunks_same_ids (cmp1 cmp2 : String) (plain1 plain2 : IRInst → List String)
    (l : List IRInst) : ∀ (n : Nat) (st : List Nat) (c1 c2 : List (List String)),
    asmChunks cmp1 plain1 l n st = some c1 → asmChunks cmp2 plain2 l n st = some c2 →
    ∀ (j : Nat) (y : IRInst), l[j]? = some y →
      ∃ id, c1[j]? = some (asmChunk cmp1 plain1 y id) ∧
        c2[j]? = some (asmChunk cmp2 plain2 y id) := by
  induction l with
  | nil => intro n st c1 c2 _ _ j y hy; simp at hy
  | cons z zs ih =>
    intro n st c1 c2 h1 h2 j y hy
    obtain ⟨d1, n1, s1, i1, a1, a2, a3⟩ := asmChunks_cons cmp1 plain1 z zs n st c1 h1
    obtain ⟨d2, n2, s2, i2, b1, b2, b3⟩ := asmChunks_cons cmp2 plain2 z zs n st c2 h2
    have key : n1 = n2 ∧ s1 = s2 ∧ asmChunk cmp2 plain2 z i2 = asmChunk cmp2 plain2 z i1 := by
      rcases a3 with ⟨t, e1, e2, e3⟩ | ⟨t, e1, e2⟩ | ⟨t1, t2, e2, e3⟩
      · rcases b3 with ⟨_, f1, f2, f3⟩ | ⟨u, _⟩ | ⟨u, _⟩
        · exact ⟨by rw [e2, f2], by rw [e3, f3], by rw [e1, f1]⟩
        · rw [t] at u; cases u
        · exact absurd t u
      · rcases b3 with ⟨u, _⟩ | ⟨_, f1, f2⟩ | ⟨_, u, _⟩
        · rw [t] at u; cases u
        · rw [e1] at f1
          simp only [List.cons.injEq] at f1
          exact ⟨by rw [e2, f2], f1.2, by rw [f1.1]⟩
        · exact absurd t u
      · rcases b3 with ⟨u, _⟩ | ⟨u, _⟩ | ⟨_, _, f2, f3⟩
        · exact absurd u t1
        · exact absurd u t2
        · exact ⟨by rw [e2, f2], by rw [e3, f3], by simp [asmChunk, t1, t2]⟩
    cases j with
    | zero =>
      simp only [List.getElem?_cons_zero, Option.some.injEq] at hy
      subst hy
      exact ⟨i1, by rw [a2]; simp, by rw [b2, key.2.2]; simp⟩
    | succ j =>
      simp only [List.getElem?_cons_succ] at hy
      rw [← key.1, ← key.2.1] at b1
      obtain ⟨id, r1, r2⟩ := ih n1 s1 d1 d2 a1 b1 j y hy
      exact ⟨id, by rw [a2, List.getElem?_cons_succ]; exact r1,
        by rw [b2, List.getElem?_cons_succ]; exact r2⟩

theorem asmChunk_bracket_inj (cmp : String) (plain : IRInst → List String) (y : IRInst)
    (hy : y.type = .LoopBegin ∨ y.type = .LoopEnd) (a b : Nat)
    (h : asmChunk cmp plain y a = asmChunk cmp plain y b) : a = b := by
  rcases hy with t | t
  · simp only [asmChunk, t, if_true, List.cons.injEq, and_true, true_and] at h
    exact label_inj _ _ _ h.1
  · simp only [asmChunk, t, reduceCtorEq, if_true, if_false, List.cons.injEq, and_true,
      true_and] at h
    exact label_inj _ _ _ h.2

/-- The text returned by a generator, given the lines of the instructions. -/
theorem asm_generate (step : AsmState → IRInst → Option AsmState)
    (loopf : List IRInst → AsmState → Option AsmState) (cmp : String)
    (plain : IRInst → List String) (header : String)
    (hnil : ∀ s, loopf [] s = some s)
    (hcons : ∀ x xs s, loopf (x :: xs) s =
      match step s x with
      | none => none
      | some s1 => loopf xs s1)
    (hstep : ∀ s x, step s x =
      if x.type = .LoopBegin then
        some ⟨s.o ++ unlines (asmChunk cmp plain x s.label_id), s.label_id + 1,
          s.label_id :: s.label_stack⟩
      else if x.type = .LoopEnd then
        match s.label_stack with
        | [] => none
        | id :: rest => some ⟨s.o ++ unlines (asmChunk cmp plain x id), s.label_id, rest⟩
      else some ⟨s.o ++ unlines (asmChunk cmp plain x 0), s.label_id, s.label_stack⟩)
    (prog : List IRInst) (cs : List (List String))
    (hcs : asmChunks cmp plain prog 0 [] = some cs) :
    ∃ s, loopf prog ⟨header, 0, []⟩ = some s ∧ s.o = header ++ unlines cs.flatten := by
  have h := asm_loop_chunks step loopf cmp plain hnil hcons hstep prog ⟨header, 0, []⟩
  rw [hcs] at h
  cases hl : loopf prog ⟨header, 0, []⟩ with
  | none => rw [hl] at h; cases h
  | some s =>
    rw [hl] at h
    simp only [Option.map_some', Option.some.injEq] at h
    exact ⟨s, rfl, h⟩

set_option maxRecDepth 100000 in
theorem nasm_fixed_lines :
    (∀ l ∈ ["; BF Compiler output - NASM x86-64 for Windows", "default rel", "bits 64", "",
      "extern GetStdHandle", "extern WriteFile", "extern ReadFile", "extern ExitProcess", "",
      "section .bss", "tape:    resb 30000", "written: resq 1", "readcnt: resq 1", "",
      "section .text", "global main", "main:", "    push rbx", "    sub rsp, 48",
      "    lea rbx, [tape]", "", "    mov ecx, -11", "    call GetStdHandle", "    mov r12, rax",
      "    mov ecx, -10", "    call GetStdHandle", "    mov r13, rax", ""],
      NoLoopLabel l ∧ '\n' ∉ l.data) ∧
    (∀ l ∈ ["", "    xor ecx, ecx", "    call ExitProcess"], NoLoopLabel l ∧ '\n' ∉ l.data) := by
  unfold NoLoopLabel
  decide

set_option maxRecDepth 100000 in
theorem att_fixed_lines :
    (∀ l ∈ ["# BF Compiler output - AT&T syntax x86-64 for Windows", ".global main", "",
      ".extern GetStdHandle", ".extern WriteFile", ".extern ReadFile", ".extern ExitProcess", "",
      ".bss", "tape:    .space 30000", "written: .space 8", "readcnt: .space 8", "",
      ".text", "main:", "    pushq %rbx", "    subq $48, %rsp",
      "    leaq tape(%rip), %rbx", "", "    movl $-11, %ecx", "    call GetStdHandle",
      "    movq %rax, %r12", "    movl $-10, %ecx", "    call GetStdHandle",
      "    movq %rax, %r13", ""],
      NoLoopLabel l ∧ '\n' ∉ l.data) ∧
    (∀ l ∈ ["", "    xorl %ecx, %ecx", "    call ExitProcess"],
      NoLoopLabel l ∧ '\n' ∉ l.data) := by
  unfold NoLoopLabel
  decide

/-- C32. NASM and AT&T label pairing. For a bracket-balanced program both
generators return a text (the label stack is never popped while empty): the
header, the lines of the instructions, each line followed by a newline, and the
footer. A `LoopBegin` at index `i`, with `k` the number of `LoopBegin` before it,
writes the lines `.loop_start_k:`, the compare and `je .loop_end_k`; there is a
`LoopEnd` at some `j > i` with a balanced sequence between the two, and it writes
the compare, `jne .loop_start_k` and `.loop_end_k:`. Every `LoopEnd` is the partner
of a `LoopBegin` in this way. The two dialects use the same `k` for the same
instruction and differ in the compare line only. The lines of the other
instructions start with a blank, so they define no label. In each of the two texts
the line `.loop_start_k:` occurs once and the line `.loop_end_k:` occurs once when
`k` is below the number of loops, and neither occurs for any other `k`; a line of
either text that starts with `.loop_s` or `.loop_e` is one of these label lines. -/
theorem nasm_att_label_pairing (prog : List IRInst) (hb : Balanced prog) :
    ∃ (tn ta : String) (cn ca : List (List String)),
      NasmCodeGen.generate prog = some tn ∧ AttCodeGen.generate prog = some ta ∧
      tn = NasmCodeGen.header ++ unlines cn.flatten ++ NasmCodeGen.footer ∧
      ta = AttCodeGen.header ++ unlines ca.flatten ++ AttCodeGen.footer ∧
      cn.length = prog.length ∧ ca.length = prog.length ∧
      (∀ (i : Nat) (x : IRInst), prog[i]? = some x → x.type = .LoopBegin →
        ∃ k, k = (prog.take i).countP (fun y => y.type = .LoopBegin) ∧
          cn[i]? = some [".loop_start_" ++ toString k ++ ":", "    cmp byte [rbx], 0",
            "    je .loop_end_" ++ toString k] ∧
          ca[i]? = some [".loop_start_" ++ toString k ++ ":", "    cmpb $0, (%rbx)",
            "    je .loop_end_" ++ toString k] ∧
          ∃ (j : Nat) (y : IRInst), i < j ∧ prog[j]? = some y ∧ y.type = .LoopEnd ∧
            Balanced ((prog.take j).drop (i + 1)) ∧
            cn[j]? = some ["    cmp byte [rbx], 0", "    jne .loop_start_" ++ toString k,
              ".loop_end_" ++ toString k ++ ":"] ∧
            ca[j]? = some ["    cmpb $0, (%rbx)", "    jne .loop_start_" ++ toString k,
              ".loop_end_" ++ toString k ++ ":"]) ∧
      (∀ (j : Nat) (y : IRInst), prog[j]? = some y → y.type = .LoopEnd →
        ∃ (i : Nat) (x : IRInst) (k : Nat), i < j ∧ prog[i]? = some x ∧
          x.type = .LoopBegin ∧ Balanced ((prog.take j).drop (i + 1)) ∧
          k = (prog.take i).countP (fun y => y.type = .LoopBegin) ∧
          cn[j]? = some ["    cmp byte [rbx], 0", "    jne .loop_start_" ++ toString k,
              ".loop_end_" ++ toString k ++ ":"] ∧
          ca[j]? = some ["    cmpb $0, (%rbx)", "    jne .loop_start_" ++ toString k,
              ".loop_end_" ++ toString k ++ ":"]) ∧
      (∀ (i : Nat) (x : IRInst), prog[i]? = some x → x.type ≠ .LoopBegin →
        x.type ≠ .LoopEnd →
        cn[i]? = some (NasmCodeGen.plain x) ∧ ca[i]? = some (AttCodeGen.plain x) ∧
        ∀ l ∈ NasmCodeGen.plain x ++ AttCodeGen.plain x, l.data.head? = some ' ') ∧
      (∀ k : Nat,
        (textLines tn).count (".loop_start_" ++ toString k ++ ":") =
          (if k < prog.countP (fun y => y.type = .LoopBegin) then 1 else 0) ∧
        (textLines tn).count (".loop_end_" ++ toString k ++ ":") =
          (if k < prog.countP (fun y => y.type = .LoopBegin) then 1 else 0) ∧
        (textLines ta).count (".loop_start_" ++ toString k ++ ":") =
          (if k < prog.countP (fun y => y.type = .LoopBegin) then 1 else 0) ∧
        (textLines ta).count (".loop_end_" ++ toString k ++ ":") =
          (if k < prog.countP (fun y => y.type = .LoopBegin) then 1 else 0)) ∧
      (∀ l : String, l ∈ textLines tn ∨ l ∈ textLines ta →
        l.data.take 7 = ".loop_s".data ∨ l.data.take 7 = ".loop_e".data →
        ∃ k, k < prog.countP (fun y => y.type = .LoopBegin) ∧
          (l = ".loop_start_" ++ toString k ++ ":" ∨
            l = ".loop_end_" ++ toString k ++ ":")) := by
  have hb0 : balancedFrom ([] : List Nat).length prog = true := hb
  obtain ⟨cn, hcn⟩ := asmChunks_defined "    cmp byte [rbx], 0" NasmCodeGen.plain prog 0 [] hb0
  obtain ⟨ca, hca⟩ := asmChunks_defined "    cmpb $0, (%rbx)" AttCodeGen.plain prog 0 [] hb0
  obtain ⟨sn, hsn, hon⟩ := asm_generate NasmCodeGen.step NasmCodeGen.loop _ _ NasmCodeGen.header
    (fun _ => rfl) (fun _ _ _ => rfl) nasm_step prog cn hcn
  obtain ⟨sa, hsa, hoa⟩ := asm_generate AttCodeGen.step AttCodeGen.loop _ _ AttCodeGen.header
    (fun _ => rfl) (fun _ _ _ => rfl) att_step prog ca hca
  have same := asmChunks_same_ids "    cmp byte [rbx], 0" "    cmpb $0, (%rbx)" NasmCodeGen.plain
    AttCodeGen.plain prog 0 [] cn ca hcn hca
  have transfer : ∀ (j : Nat) (y : IRInst) (k : Nat), prog[j]? = some y →
      y.type = .LoopBegin ∨ y.type = .LoopEnd →
      cn[j]? = some (asmChunk "    cmp byte [rbx], 0" NasmCodeGen.plain y k) →
      ca[j]? = some (asmChunk "    cmpb $0, (%rbx)" AttCodeGen.plain y k) := by
    intro j y k hy ty hc
    obtain ⟨id, r1, r2⟩ := same j y hy
    rw [r1, Option.some.injEq] at hc
    rw [r2, asmChunk_bracket_inj _ _ y ty id k hc]
  refine ⟨sn.o ++ NasmCodeGen.footer, sa.o ++ AttCodeGen.footer, cn, ca,
    by simp only [NasmCodeGen.generate, hsn], by simp only [AttCodeGen.generate, hsa],
    by rw [hon], by rw [hoa], asmChunks_length _ _ prog 0 [] cn hcn,
    asmChunks_length _ _ prog 0 [] ca hca, ?_, ?_, ?_, ?_, ?_⟩
  · intro i x hx tx
    have o1 := asmChunks_open _ _ prog 0 [] cn i x hcn hx tx
    obtain ⟨j, y, m1, m2, m3, m4, m5⟩ := asmChunks_match_open _ _ prog 0 [] cn i x hcn hb0 hx tx
    have o2 := transfer i x _ hx (Or.inl tx) o1
    have m6 := transfer j y _ m2 (Or.inr m3) m5
    rw [Nat.zero_add] at o1 o2 m5 m6
    refine ⟨_, rfl, ?_, ?_, j, y, m1, m2, m3, m4, ?_, ?_⟩
    · rw [o1]; simp only [asmChunk, tx, if_true]
    · rw [o2]; simp only [asmChunk, tx, if_true]
    · rw [m5]; simp only [asmChunk, m3, reduceCtorEq, if_true, if_false]
    · rw [m6]; simp only [asmChunk, m3, reduceCtorEq, if_true, if_false]
  · intro j y hy ty
    rcases asmChunks_match_close _ _ prog 0 [] cn j y hcn hy ty with
      ⟨i, x, a1, a2, a3, a4, a5⟩ | ⟨d, id, b1, _⟩
    · have a6 := transfer j y _ hy (Or.inr ty) a5
      rw [Nat.zero_add] at a5 a6
      refine ⟨i, x, _, a1, a2, a3, a4, rfl, ?_, ?_⟩
      · rw [a5]; simp only [asmChunk, ty, reduceCtorEq, if_true, if_false]
      · rw [a6]; simp only [asmChunk, ty, reduceCtorEq, if_true, if_false]
    · simp at b1
  · intro i x hx t1 t2
    refine ⟨asmChunks_plain _ _ prog 0 [] cn i x hcn hx t1 t2,
      asmChunks_plain _ _ prog 0 [] ca i x hca hx t1 t2, ?_⟩
    intro l hl
    rcases List.mem_append.1 hl with h1 | h1
    · exact (nasm_plain_lines x l h1).1
    · exact (att_plain_lines x l h1).1
  · intro k
    have c1 := asm_text_counts _ _ "    cmp byte [rbx], 0" NasmCodeGen.plain
      ⟨rfl, by decide⟩ nasm_plain_lines nasm_fixed_lines.1 nasm_fixed_lines.2 prog cn hcn hb k
    have c2 := asm_text_counts _ _ "    cmpb $0, (%rbx)" AttCodeGen.plain
      ⟨rfl, by decide⟩ att_plain_lines att_fixed_lines.1 att_fixed_lines.2 prog ca hca hb k
    rw [← nasm_header_lines, ← nasm_footer_lines] at c1
    rw [← att_header_lines, ← att_footer_lines] at c2
    rw [hon, hoa]
    exact ⟨c1.1, c1.2, c2.1, c2.2⟩
  · intro l hl hp
    have hnot : ¬ NoLoopLabel l := fun h => hp.elim (fun e => h.1 e) (fun e => h.2 e)
    rw [hon, hoa, nasm_header_lines, nasm_footer_lines, att_header_lines,
      att_footer_lines] at hl
    rcases hl with hl | hl
    · exact asm_text_labels _ _ "    cmp byte [rbx], 0" NasmCodeGen.plain
        ⟨rfl, by decide⟩ nasm_plain_lines nasm_fixed_lines.1 nasm_fixed_lines.2 prog cn hcn hb
        l hl hnot
    · exact asm_text_labels _ _ "    cmpb $0, (%rbx)" AttCodeGen.plain
        ⟨rfl, by decide⟩ att_plain_lines att_fixed_lines.1 att_fixed_lines.2 prog ca hca hb
        l hl hnot

/-- C32, on the two loops of `+[.-]+[.-]`: both generators return a text, the
lines of each text that start with `.loop_` are `.loop_start_0:`, `.loop_end_0:`,
`.loop_start_1:`, `.loop_end_1:`, and each label line of a number below two occurs
once and no other occurs. -/
theorem nasm_att_label_pairing_witness :
    Balanced sample_siblings ∧
    ∃ tn ta, NasmCodeGen.generate sample_siblings = some tn ∧
      AttCodeGen.generate sample_siblings = some ta ∧
      (textLines tn).filter (fun l => ".loop_".data.isPrefixOf l.data) =
        [".loop_start_0:", ".loop_end_0:", ".loop_start_1:", ".loop_end_1:"] ∧
      (textLines ta).filter (fun l => ".loop_".data.isPrefixOf l.data) =
        [".loop_start_0:", ".loop_end_0:", ".loop_start_1:", ".loop_end_1:"] ∧
      (textLines tn).filter (fun l => "    j".data.isPrefixOf l.data) =
        ["    je .loop_end_0", "    jne .loop_start_0", "    je .loop_end_1",
          "    jne .loop_start_1"] ∧
      (textLines ta).filter (fun l => "    j".data.isPrefixOf l.data) =
        ["    je .loop_end_0", "    jne .loop_start_0", "    je .loop_end_1",
          "    jne .loop_start_1"] ∧
      ∀ k : Nat,
        (textLines tn).count (".loop_start_" ++ toString k ++ ":") = (if k < 2 then 1 else 0) ∧
        (textLines tn).count (".loop_end_" ++ toString k ++ ":") = (if k < 2 then 1 else 0) ∧
        (textLines ta).count (".loop_start_" ++ toString k ++ ":") = (if k < 2 then 1 else 0) ∧
        (textLines ta).count (".loop_end_" ++ toString k ++ ":") = (if k < 2 then 1 else 0) := by
  obtain ⟨tn, ta, _, _, h1, h2, _, _, _, _, _, _, _, hc, _⟩ :=
    nasm_att_label_pairing sample_siblings rfl
  have e1 : (NasmCodeGen.generate sample_siblings).map
      (fun t => ((textLines t).filter (fun l => ".loop_".data.isPrefixOf l.data),
        (textLines t).filter (fun l => "    j".data.isPrefixOf l.data))) =
      some ([".loop_start_0:", ".loop_end_0:", ".loop_start_1:", ".loop_end_1:"],
        ["    je .loop_end_0", "    jne .loop_start_0", "    je .loop_end_1",
          "    jne .loop_start_1"]) := by rfl
  have e2 : (AttCodeGen.generate sample_siblings).map
      (fun t => ((textLines t).filter (fun l => ".loop_".data.isPrefixOf l.data),
        (textLines t).filter (fun l => "    j".data.isPrefixOf l.data))) =
      some ([".loop_start_0:", ".loop_end_0:", ".loop_start_1:", ".loop_end_1:"],
        ["    je .loop_end_0", "    jne .loop_start_0", "    je .loop_end_1",
          "    jne .loop_start_1"]) := by rfl
  rw [h1] at e1
  rw [h2] at e2
  simp only [Option.map_some', Option.some.injEq, Prod.mk.injEq] at e1 e2
  exact ⟨rfl, tn, ta, h1, h2, e1.1, e2.1, e1.2, e2.2, hc⟩



/-! ## The jump displacements read as signed numbers -/

theorem int32_wrap32_high (d : Int) (h1 : 2147483648 ≤ d) (h2 : d < 4294967296) :
    int32 (wrap32 d) = d - 4294967296 := by
  unfold int32 wrap32
  split_ifs <;> omega

theorem int32_wrap32_low (d : Int) (h1 : -4294967296 ≤ d) (h2 : d < -2147483648) :
    int32 (wrap32 d) = d + 4294967296 := by
  unfold int32 wrap32
  split_ifs <;> omega

end bf
